import Mathlib

/-! TMatrixTSym: a shallow embedding of `matrix/src/TMatrixTSym.cxx`

The element type `Element` of the template is an arbitrary commutative ring `R`
(exact arithmetic), a field where the code divides.  `Int_t` values are
integers; the embedding does not model wrap-around of `Int_t`, which is
undefined behaviour in the source language.

Storage.  An object owns the fixed array `fDataStack` and may own blocks of the
free store.  A pointer is null or names a block and an offset into it; the
cells of all blocks reachable from one object form its `Store`.  Pointer
arithmetic moves the offset and never leaves the block.

Loops.  A counted `for` loop over an `Int_t` index runs through `forUp` or
`forDown`.  A loop whose condition compares pointers runs through `whileLoop`,
which takes fuel: with too little fuel it yields `none`.

Fatal assertions (`Assert`) end the run: the embedded function yields `none`.
-/

/-! ## Constants declared outside the file -/

/-- Constants of the class hierarchy that the file uses and does not declare:
the capacity `kSizeMax` of the in-object array `fDataStack`, and the value
`std::numeric_limits<Element>::epsilon()`. -/
structure Config (R : Type) where
  kSizeMax : Int
  epsilon : R

/-! ## Pointers and the store -/

/-- Blocks of element storage: the in-object array `fDataStack`, or a block of
the free store, numbered in order of allocation. -/
inductive Region where
  | stack : Region
  | heap (blk : Nat) : Region
  deriving DecidableEq

/-- A value of type `Element *`. -/
inductive Ptr where
  | null : Ptr
  | loc (r : Region) (off : Int) : Ptr
  deriving DecidableEq

namespace Ptr

/-- Pointer arithmetic `p + k`. -/
def add : Ptr → Int → Ptr
  | null, _ => null
  | loc r o, k => loc r (o + k)

instance : HAdd Ptr Int Ptr := ⟨Ptr.add⟩

/-- Position of a block in the address order used to compare pointers into
different blocks (the language leaves that order open). -/
def rank : Region → Nat
  | Region.stack => 0
  | Region.heap b => b + 1

/-- Pointer comparison `p < q`. -/
def lt : Ptr → Ptr → Bool
  | null, null => false
  | null, loc _ _ => true
  | loc _ _, null => false
  | loc r o, loc r' o' => if r = r' then decide (o < o') else decide (rank r < rank r')

/-- The two ranges of `n` elements starting at `p` and at `q` share a cell. -/
def overlap : Ptr → Ptr → Int → Bool
  | loc r o, loc r' o', n => decide (r = r' ∧ o < o' + n ∧ o' < o + n)
  | _, _, _ => false

end Ptr

/-- Element storage reachable from one matrix object, with the state of the
allocator: `nheap` blocks have been handed out so far, `freed` lists the
pointers given back with `delete []`.  A block is an array of cells without a
recorded length: every access has a value, also one past the end of an array,
which the language leaves undefined.  A statement about a run describes the
code as far as the run stays inside the arrays of the objects; where that is in
question the statement carries the bound. -/
structure Store (R : Type) where
  cells : Region → Int → R
  nheap : Nat
  freed : List Ptr

namespace Store

variable {R : Type} [CommRing R]

/-- Read `*p`. -/
def load (s : Store R) : Ptr → R
  | Ptr.null => 0
  | Ptr.loc r o => s.cells r o

/-- Write `*p = v`. -/
def store (s : Store R) (p : Ptr) (v : R) : Store R :=
  match p with
  | Ptr.null => s
  | Ptr.loc r o =>
    { s with cells := fun r' o' => if r' = r ∧ o' = o then v else s.cells r' o' }

/-- The call `memset(p,0,n*sizeof(Element))`. -/
def memset (s : Store R) (p : Ptr) (n : Int) : Store R :=
  match p with
  | Ptr.null => s
  | Ptr.loc r o =>
    { s with cells := fun r' o' => if r' = r ∧ o ≤ o' ∧ o' < o + n then 0 else s.cells r' o' }

/-- The call `memcpy(dst,src,n*sizeof(Element))`; it has no defined result when
the two ranges overlap. -/
def memcpy (s : Store R) (dst src : Ptr) (n : Int) : Option (Store R) :=
  if Ptr.overlap dst src n then none
  else
    match dst, src with
    | Ptr.loc r o, Ptr.loc r' o' =>
      some { s with cells := fun q p =>
        if q = r ∧ o ≤ p ∧ p < o + n then s.cells r' (o' + (p - o)) else s.cells q p }
    | _, _ => some s

/-- The expression `new Element[size]`: the next block of the free store. -/
def alloc (s : Store R) : Ptr × Store R :=
  (Ptr.loc (Region.heap s.nheap) 0, { s with nheap := s.nheap + 1 })

/-- The statement `delete [] p`. -/
def free (s : Store R) (p : Ptr) : Store R :=
  { s with freed := p :: s.freed }

end Store

/-! ## Loops -/

/-- The loop `for (i = a; i < a+k; i++) body`. -/
def forUp {σ : Type} (body : Int → σ → Option σ) : Int → Nat → σ → Option σ
  | _, 0, s => some s
  | i, k + 1, s => (body i s).bind (forUp body (i + 1) k)

/-- The loop `for (i = k-1; i >= 0; i--) body`. -/
def forDown {σ : Type} (body : Int → σ → Option σ) : Nat → σ → Option σ
  | 0, s => some s
  | k + 1, s => (body k s).bind (forDown body k)

/-- The loop `while (cond) body`, cut off after `fuel` tests of the condition. -/
def whileLoop {σ : Type} (cond : σ → Bool) (body : σ → Option σ) : Nat → σ → Option σ
  | 0, _ => none
  | fuel + 1, s => if cond s then (body s).bind (whileLoop cond body fuel) else some s

/-! ## Collaborating types -/

/-- The general matrix `TMatrixT<Element>` as far as this file reads it: shape,
validity, and the row-major array behind `GetMatrixArray()`. -/
structure TMatrixT (R : Type) where
  fNrows : Int
  fNcols : Int
  fRowLwb : Int
  fColLwb : Int
  fNelems : Int
  fValid : Bool
  fElements : Int → R

namespace TMatrixT

variable {R : Type}

def IsValid (a : TMatrixT R) : Bool := a.fValid

def GetNrows (a : TMatrixT R) : Int := a.fNrows

def GetNcols (a : TMatrixT R) : Int := a.fNcols

def GetColLwb (a : TMatrixT R) : Int := a.fColLwb

def GetNoElements (a : TMatrixT R) : Int := a.fNelems

/-- The element at storage position `(i,j)`, rows and columns counted from 0. -/
def elem (a : TMatrixT R) (i j : Int) : R := a.fElements (i * a.fNcols + j)

end TMatrixT

/-- The vector `TVectorT<Element>` as far as this file reads it. -/
structure TVectorT (R : Type) where
  fNrows : Int
  fRowLwb : Int
  fValid : Bool
  fElements : Int → R

namespace TVectorT

variable {R : Type}

def IsValid (v : TVectorT R) : Bool := v.fValid

def GetNrows (v : TVectorT R) : Int := v.fNrows

def GetNoElements (v : TVectorT R) : Int := v.fNrows

def GetLwb (v : TVectorT R) : Int := v.fRowLwb

end TVectorT

/-! ## The matrix object -/

/-- The data members of `TMatrixTSym<Element>` (those of `TMatrixTBase` and the
two of the class itself, `fDataStack` being the block `Region.stack` of `mem`).
`fValid` is the validity status that `Invalidate` and `MakeValid` switch. -/
structure TMatrixTSym (R : Type) where
  fNrows : Int
  fNcols : Int
  fRowLwb : Int
  fColLwb : Int
  fNelems : Int
  fTol : R
  fIsOwner : Bool
  fValid : Bool
  fElements : Ptr
  mem : Store R

namespace TMatrixTSym

variable {R : Type} [CommRing R]

def Invalidate (m : TMatrixTSym R) : TMatrixTSym R := { m with fValid := false }

def MakeValid (m : TMatrixTSym R) : TMatrixTSym R := { m with fValid := true }

def IsValid (m : TMatrixTSym R) : Bool := m.fValid

def GetMatrixArray (m : TMatrixTSym R) : Ptr := m.fElements

def GetNoElements (m : TMatrixTSym R) : Int := m.fNelems

/-- The element `GetMatrixArray()[k]`. -/
def get (m : TMatrixTSym R) (k : Int) : R := m.mem.load (m.fElements + k)

/-- The element at storage position `(i,j)`, rows and columns counted from 0. -/
def elem (m : TMatrixTSym R) (i j : Int) : R := m.get (i * m.fNcols + j)

/-- Source lines 213-223. -/
def Delete_m (cfg : Config R) (s : Store R) (size : Int) (m : Ptr) : Store R × Ptr :=
  if m ≠ Ptr.null then
    ((if size > cfg.kSizeMax then s.free m else s), Ptr.null)
  else (s, m)

/-- Source lines 226-241. -/
def New_m (cfg : Config R) (s : Store R) (size : Int) : Ptr × Store R :=
  if size = 0 then (Ptr.null, s)
  else if size ≤ cfg.kSizeMax then (Ptr.loc Region.stack 0, s)
  else s.alloc

/-- Source lines 244-268. -/
def Memcpy_m (cfg : Config R) (s : Store R) (newp oldp : Ptr)
    (copySize newSize oldSize : Int) : Option (Store R) :=
  if copySize = 0 ∨ oldp = newp then some s
  else if newSize ≤ cfg.kSizeMax ∧ oldSize ≤ cfg.kSizeMax then
    if Ptr.lt oldp newp then
      forDown (fun i t => some (t.store (newp + i) (t.load (oldp + i)))) copySize.toNat s
    else
      forUp (fun i t => some (t.store (newp + i) (t.load (oldp + i)))) 0 copySize.toNat s
  else s.memcpy newp oldp copySize

/-- Source lines 271-300, with the product `fNrows*fNcols` of line 290 taken
exactly: this is the function for shapes whose number of elements fits an
`Int_t`.  `AllocateInt_t` takes the product in `Int_t`. -/
def Allocate (cfg : Config R) (this : TMatrixTSym R)
    (no_rows no_cols row_lwb col_lwb init : Int) : TMatrixTSym R :=
  if no_rows < 0 ∨ no_cols < 0 then this.Invalidate
  else
    let t : TMatrixTSym R :=
      { this.MakeValid with
        fNrows := no_rows, fNcols := no_cols, fRowLwb := row_lwb, fColLwb := col_lwb,
        fNelems := no_rows * no_cols, fIsOwner := true, fTol := cfg.epsilon }
    if t.fNelems > 0 then
      let pm := New_m cfg t.mem t.fNelems
      let t1 : TMatrixTSym R := { t with fElements := pm.1, mem := pm.2 }
      if init ≠ 0 then { t1 with mem := t1.mem.memset t1.fElements t1.fNelems } else t1
    else { t with fElements := Ptr.null }

/-- Modelled from the spec: `Clear` is defined in the class header, which is not
among the sources; it hands an owned buffer back to the storage manager
(`release(size, buffer)`), drops the pointer of a view, and leaves the matrix
with no elements. -/
def Clear (cfg : Config R) (this : TMatrixTSym R) : TMatrixTSym R :=
  if this.fIsOwner then
    let sp := Delete_m cfg this.mem this.fNelems this.fElements
    { this with mem := sp.1, fElements := sp.2, fNelems := 0 }
  else { this with fElements := Ptr.null, fNelems := 0 }

/-- Source lines 705-771, `ResizeTo(Int_t nrows,Int_t ncols)`.  The call
`Allocate(nrows,ncols)` takes the defaults of the class header: lower bounds 0
and no zero fill. -/
def ResizeTo (cfg : Config R) (this : TMatrixTSym R) (nrows ncols : Int) :
    Option (TMatrixTSym R) :=
  if this.IsValid = false then none
  else if this.fIsOwner = false then some this.Invalidate
  else if nrows ≠ ncols then some this.Invalidate
  else if this.fNelems > 0 then
    if this.fNrows = nrows ∧ this.fNcols = ncols then some this
    else if nrows = 0 ∨ ncols = 0 then
      some (Clear cfg { this with fNrows := nrows, fNcols := ncols })
    else
      let elements_old := this.GetMatrixArray
      let nelems_old := this.fNelems
      let nrows_old := this.fNrows
      let ncols_old := this.fNcols
      let t := Allocate cfg this nrows ncols 0 0 0
      if t.IsValid = false then none
      else
        let elements_new := t.GetMatrixArray
        let mem1 : Store R :=
          if t.fNelems > cfg.kSizeMax ∨ nelems_old > cfg.kSizeMax then
            t.mem.memset elements_new t.fNelems
          else if t.fNelems > nelems_old then
            t.mem.memset (elements_new + nelems_old) (t.fNelems - nelems_old)
          else t.mem
        let ncols_copy := min t.fNcols ncols_old
        let nrows_copy := min t.fNrows nrows_old
        let nelems_new := t.fNelems
        let row : Int → Store R → Option (Store R) := fun i s =>
          Memcpy_m cfg s (elements_new + i * t.fNcols) (elements_old + i * ncols_old)
            ncols_copy nelems_new nelems_old
        (if ncols_old < t.fNcols then forDown row nrows_copy.toNat mem1
         else forUp row 0 nrows_copy.toNat mem1).bind fun mem2 =>
          some { t with mem := (Delete_m cfg mem2 nelems_old elements_old).1 }
  else some (Allocate cfg this nrows ncols 0 0 1)

/-- Loop state of the symmetric traversals: the pointer `trp` along a row of
the upper right part and the pointer `tcp` down a column of the lower left
part, as offsets from `GetMatrixArray()`, and the store. -/
structure TriState (R : Type) where
  trp : Int
  tcp : Int
  mem : Store R

/-- Body of the inner loop of `Rank1Update` (source lines 1014-1018) at column
`j` of row `i`, with `tmp = alpha*pv[i]`. -/
def Rank1Update.colStep (this : TMatrixTSym R) (pv : Int → R) (tmp : R) (i j : Int)
    (u : TriState R) : Option (TriState R) :=
  let base := this.GetMatrixArray
  let m1 := if j > i then u.mem.store (base + u.tcp) (u.mem.load (base + u.tcp) + tmp * pv j)
            else u.mem
  let m2 := m1.store (base + u.trp) (m1.load (base + u.trp) + tmp * pv j)
  some { trp := u.trp + 1, tcp := u.tcp + this.fNcols, mem := m2 }

/-- Body of the outer loop of `Rank1Update` (source lines 1010-1020) at row `i`. -/
def Rank1Update.rowStep (this : TMatrixTSym R) (pv : Int → R) (alpha : R) (i : Int)
    (s : TriState R) : Option (TriState R) :=
  let trp := s.trp + i
  let tcp := s.tcp + i * this.fNcols
  let tmp := alpha * pv i
  (forUp (Rank1Update.colStep this pv tmp i) i (this.fNcols - i).toNat
    { trp := trp, tcp := tcp, mem := s.mem }).bind fun u =>
  some { trp := u.trp, tcp := u.tcp - (this.fNelems - 1), mem := u.mem }

/-- Source lines 992-1023. -/
def Rank1Update (this : TMatrixTSym R) (v : TVectorT R) (alpha : R) :
    Option (TMatrixTSym R) :=
  if this.IsValid = false then none
  else if v.IsValid = false then none
  else if v.GetNoElements < this.fNrows then some this.Invalidate
  else
    (forUp (Rank1Update.rowStep this v.fElements alpha) 0 this.fNrows.toNat
      { trp := 0, tcp := 0, mem := this.mem }).map fun s => { this with mem := s.mem }

/-- Loop state of a dot product: two running read pointers and the sum. -/
structure DotState (R : Type) where
  ap : Int
  bp : Int
  cij : R

/-- Loop state of a row of results: a read pointer, the write pointer `cp`
(an offset from `GetMatrixArray()`), and the store. -/
structure RowState (R : Type) where
  bcp : Int
  cp : Int
  mem : Store R

/-- Loop state of the outer loop of `AtMultA`. -/
structure AtaState (R : Type) where
  acp0 : Int
  cp : Int
  mem : Store R

/-- One step of a dot product: `cij += *ap * *bp`, then `ap += da` and
`bp += db`. -/
def dotStep (xs ys : Int → R) (da db : Int) (u : DotState R) : Option (DotState R) :=
  some { ap := u.ap + da, bp := u.bp + db, cij := u.cij + xs u.ap * ys u.bp }

/-- Body of the loop over `bcp` in `AtMultA` (source lines 335-345). -/
def AtMultA.colStep (fuel : Nat) (a : TMatrixT R) (base : Ptr) (acp0 : Int) (t : RowState R) :
    Option (RowState R) :=
  let nb := a.GetNoElements
  let ncolsa := a.GetNcols
  let ncolsb := ncolsa
  (whileLoop (fun u : DotState R => decide (u.bp < 0 + nb))
    (dotStep a.fElements a.fElements ncolsa ncolsb) fuel
    { ap := acp0, bp := t.bcp, cij := 0 }).bind fun u =>
  some { bcp := u.bp - (nb - 1), cp := t.cp + 1, mem := t.mem.store (base + t.cp) u.cij }

/-- Body of the loop over `acp0` in `AtMultA` (source lines 334-347). -/
def AtMultA.rowStep (fuel : Nat) (a : TMatrixT R) (base : Ptr) (s : AtaState R) :
    Option (AtaState R) :=
  let ncolsb := a.GetNcols
  (whileLoop (fun t : RowState R => decide (t.bcp < 0 + ncolsb))
    (AtMultA.colStep fuel a base s.acp0) fuel
    { bcp := 0, cp := s.cp, mem := s.mem }).bind fun t =>
  some { acp0 := s.acp0 + 1, cp := t.cp, mem := t.mem }

/-- The loops and the closing assertion of `AtMultA` (source lines 326-349),
the branch without CBLAS.  Pointers into the array of `a` are offsets from its
start. -/
def AtMultA.kernel (fuel : Nat) (this : TMatrixTSym R) (a : TMatrixT R) :
    Option (TMatrixTSym R) :=
  let ncolsa := a.GetNcols
  (whileLoop (fun s : AtaState R => decide (s.acp0 < 0 + a.GetNcols))
    (AtMultA.rowStep fuel a this.GetMatrixArray) fuel
    { acp0 := 0, cp := 0, mem := this.mem }).bind fun s =>
  if s.cp = 0 + this.fNelems ∧ s.acp0 = 0 + ncolsa then some { this with mem := s.mem }
  else none

/-- Source lines 303-351, `AtMultA(const TMatrixT &a,Int_t constr)`. -/
def AtMultA (cfg : Config R) (fuel : Nat) (this : TMatrixTSym R) (a : TMatrixT R)
    (constr : Int) : Option (TMatrixTSym R) :=
  if a.IsValid = false then none
  else
    AtMultA.kernel fuel
      (if constr ≠ 0 then Allocate cfg this a.GetNcols a.GetNcols a.GetColLwb a.GetColLwb 1
       else this) a

end TMatrixTSym

namespace TMatrixT

variable {R : Type} [CommRing R]

/-- Modelled from the spec: the constructor `TMatrixT(b,kMult,a)` of the general
matrix type, which is not among the sources; it forms "the asymmetric product
B·A", the ordinary matrix product, as a `rows(b)` by `cols(a)` row-major array. -/
def kMult (b : TMatrixT R) (a : TMatrixTSym R) : TMatrixT R :=
  { fNrows := b.fNrows, fNcols := a.fNcols, fRowLwb := b.fRowLwb, fColLwb := a.fColLwb,
    fNelems := b.fNrows * a.fNcols, fValid := true,
    fElements := fun q =>
      ∑ l in Finset.range b.fNcols.toNat,
        b.fElements (q / a.fNcols * b.fNcols + l) * a.get (l * a.fNcols + q % a.fNcols) }

/-- Modelled from the spec: the constructor `TMatrixT(b,kTransposeMult,a)` of the
general matrix type, which is not among the sources; it forms the intermediate
"(Bᵀ·A)", a `cols(b)` by `cols(a)` row-major array. -/
def kTransposeMult (b : TMatrixT R) (a : TMatrixTSym R) : TMatrixT R :=
  { fNrows := b.fNcols, fNcols := a.fNcols, fRowLwb := b.fColLwb, fColLwb := a.fColLwb,
    fNelems := b.fNcols * a.fNcols, fValid := true,
    fElements := fun q =>
      ∑ l in Finset.range b.fNrows.toNat,
        b.fElements (l * b.fNcols + q / a.fNcols) * a.get (l * a.fNcols + q % a.fNcols) }

end TMatrixT

namespace TMatrixTSym

variable {R : Type} [CommRing R]

/-- Loop state of the outer loop of the similarity transforms: the row pointer
into the intermediate product, the start pointer into `b`, the write pointer,
`ishift`, and the store. -/
structure SimState (R : Type) where
  barp0 : Int
  bi1p : Int
  cp : Int
  ishift : Int
  mem : Store R

/-- Body of the inner loop that copies the upper right triangle to the lower
left one. -/
def mirror.colStep (this : TMatrixTSym R) (irow icol : Int) (w : Store R) : Option (Store R) :=
  let cp := this.GetMatrixArray
  let rowOff1 := irow * this.fNrows
  let rowOff2 := icol * this.fNrows
  some (w.store (cp + (rowOff1 + icol)) (w.load (cp + (rowOff2 + irow))))

/-- The loop that copies the upper right triangle to the lower left one
(source lines 1083-1090 and 1254-1261); `cp` is `GetMatrixArray()` again. -/
def mirror (this : TMatrixTSym R) : Option (TMatrixTSym R) :=
  (forUp (fun irow (s : Store R) => forUp (mirror.colStep this irow) 0 irow.toNat s)
    0 this.fNrows.toNat this.mem).map fun s => { this with mem := s }

/-- Body of the loop over `brp0` in `Similarity` (source lines 1067-1075). -/
def Similarity.colStep (fuel : Nat) (ba b : TMatrixT R) (cp0 : Ptr) (barp0 : Int)
    (t : RowState R) : Option (RowState R) :=
  let ncolsb := b.GetNcols
  (whileLoop (fun u : DotState R => decide (u.bp < t.bcp + ncolsb))
    (dotStep ba.fElements b.fElements 1 1) fuel
    { ap := barp0, bp := t.bcp, cij := 0 }).bind fun u =>
  some { bcp := t.bcp + ncolsb, cp := t.cp + 1, mem := t.mem.store (cp0 + t.cp) u.cij }

/-- Body of the loop over `barp0` in `Similarity` (source lines 1065-1079). -/
def Similarity.rowStep (fuel : Nat) (ba b : TMatrixT R) (cp0 : Ptr) (s : SimState R) :
    Option (SimState R) :=
  let nb := b.GetNoElements
  let ncolsba := ba.GetNcols
  let ncolsb := b.GetNcols
  (whileLoop (fun t : RowState R => decide (t.bcp < 0 + nb))
    (Similarity.colStep fuel ba b cp0 s.barp0) fuel
    { bcp := s.bi1p, cp := s.cp, mem := s.mem }).bind fun t =>
  some { barp0 := s.barp0 + ncolsba, bi1p := s.bi1p + ncolsb,
         cp := t.cp + (s.ishift + 1), ishift := s.ishift + 1, mem := t.mem }

/-- The loops, the closing assertion and the copy to the lower left triangle
of `Similarity(const TMatrixT &b)` (source lines 1053-1090), the branch without
CBLAS; `ba` is the intermediate product. -/
def Similarity.kernel (fuel : Nat) (this : TMatrixTSym R) (ba b : TMatrixT R) :
    Option (TMatrixTSym R) :=
  let nba := ba.GetNoElements
  (whileLoop (fun s : SimState R => decide (s.barp0 < 0 + nba))
    (Similarity.rowStep fuel ba b this.GetMatrixArray) fuel
    { barp0 := 0, bi1p := 0, cp := 0, ishift := 0, mem := this.mem }).bind fun s =>
  if s.cp = 0 + this.fNelems + s.ishift ∧ s.barp0 = 0 + nba then
    mirror { this with mem := s.mem }
  else none

/-- Source lines 1026-1094, `Similarity(const TMatrixT &b)`. -/
def Similarity (cfg : Config R) (fuel : Nat) (this : TMatrixTSym R) (b : TMatrixT R) :
    Option (TMatrixTSym R) :=
  let ba := TMatrixT.kMult b this
  let nrowsb := b.GetNrows
  (if nrowsb ≠ this.fNrows then ResizeTo cfg this nrowsb nrowsb else some this).bind fun this1 =>
    Similarity.kernel fuel this1 ba b

/-- Body of the loop over `vp` in `Similarity(const TVectorT &)` (source lines
1186-1191); `ap` is the pointer `mp`, `bp` the pointer `vp`, `cij` is `sum1`. -/
def SimilarityV.rowStep (fuel : Nat) (this : TMatrixTSym R) (v : TVectorT R) (s : DotState R) :
    Option (DotState R) :=
  let vp_first : Int := 0
  let vp_last : Int := 0 + v.GetNrows
  (whileLoop (fun u : DotState R => decide (u.bp < vp_last))
    (dotStep this.get v.fElements 1 1) fuel
    { ap := s.ap, bp := vp_first, cij := 0 }).bind fun u =>
  some { ap := u.ap, bp := s.bp + 1, cij := s.cij + u.cij * v.fElements s.bp }

/-- Source lines 1166-1196, `Similarity(const TVectorT &v)`: the returned scalar
and the object afterwards. -/
def SimilarityV (fuel : Nat) (this : TMatrixTSym R) (v : TVectorT R) :
    Option (R × TMatrixTSym R) :=
  if this.IsValid = false then none
  else if v.IsValid = false then none
  else if this.fNcols ≠ v.GetNrows ∨ this.fColLwb ≠ v.GetLwb then some (-1, this.Invalidate)
  else
    let vp_last : Int := 0 + v.GetNrows
    (whileLoop (fun s : DotState R => decide (s.bp < vp_last))
      (SimilarityV.rowStep fuel this v) fuel { ap := 0, bp := 0, cij := 0 }).bind fun s =>
    if s.ap = 0 + this.GetNoElements then some (s.cij, this) else none

/-- Body of the loop over `bcp` in `SimilarityT` (source lines 1237-1246). -/
def SimilarityT.colStep (fuel : Nat) (bta b : TMatrixT R) (cp0 : Ptr) (btarp0 : Int)
    (t : RowState R) : Option (RowState R) :=
  let nb := b.GetNoElements
  let ncolsb := b.GetNcols
  (whileLoop (fun u : DotState R => decide (u.bp < 0 + nb))
    (dotStep bta.fElements b.fElements 1 ncolsb) fuel
    { ap := btarp0, bp := t.bcp, cij := 0 }).bind fun u =>
  some { bcp := u.bp - (nb - 1), cp := t.cp + 1, mem := t.mem.store (cp0 + t.cp) u.cij }

/-- Body of the loop over `btarp0` in `SimilarityT` (source lines 1236-1250);
in the state `bi1p` holds the pointer `bcp0`. -/
def SimilarityT.rowStep (fuel : Nat) (bta b : TMatrixT R) (cp0 : Ptr) (s : SimState R) :
    Option (SimState R) :=
  let ncolsb := b.GetNcols
  let ncolsbta := bta.GetNcols
  (whileLoop (fun t : RowState R => decide (t.bcp < 0 + ncolsb))
    (SimilarityT.colStep fuel bta b cp0 s.barp0) fuel
    { bcp := s.bi1p, cp := s.cp, mem := s.mem }).bind fun t =>
  some { barp0 := s.barp0 + ncolsbta, bi1p := s.bi1p + 1,
         cp := t.cp + (s.ishift + 1), ishift := s.ishift + 1, mem := t.mem }

/-- The loops, the closing assertion and the copy to the lower left triangle
of `SimilarityT` (source lines 1225-1261), the branch without CBLAS; `bta` is
the intermediate product. -/
def SimilarityT.kernel (fuel : Nat) (this : TMatrixTSym R) (bta b : TMatrixT R) :
    Option (TMatrixTSym R) :=
  let nbta := bta.GetNoElements
  (whileLoop (fun s : SimState R => decide (s.barp0 < 0 + nbta))
    (SimilarityT.rowStep fuel bta b this.GetMatrixArray) fuel
    { barp0 := 0, bi1p := 0, cp := 0, ishift := 0, mem := this.mem }).bind fun s =>
  if s.cp = 0 + this.fNelems + s.ishift ∧ s.barp0 = 0 + nbta then
    mirror { this with mem := s.mem }
  else none

/-- Source lines 1199-1265, `SimilarityT(const TMatrixT &b)`. -/
def SimilarityT (cfg : Config R) (fuel : Nat) (this : TMatrixTSym R) (b : TMatrixT R) :
    Option (TMatrixTSym R) :=
  let bta := TMatrixT.kTransposeMult b this
  let ncolsb := b.GetNcols
  (if ncolsb ≠ this.fNcols then ResizeTo cfg this ncolsb ncolsb else some this).bind fun this1 =>
    SimilarityT.kernel fuel this1 bta b

end TMatrixTSym

/-! ## Persistence -/

/-- The members of `TMatrixTBase` that the I/O layer stores for an object: the
shape, the tolerance and the validity status. -/
structure Shape (R : Type) where
  fNrows : Int
  fNcols : Int
  fRowLwb : Int
  fColLwb : Int
  fNelems : Int
  fTol : R
  fValid : Bool

/-- Modelled from the spec: the I/O buffer `TBuffer` of the persistence
framework, which is not among the sources.  It holds, in order, the "shape
metadata" records and the stream of elements written as "runs" of "a
fixed-width array of the element numeric type". -/
structure TBuffer (R : Type) where
  reading : Bool
  shapes : List (Shape R)
  elems : List R

namespace TBuffer

variable {R : Type} [CommRing R]

def IsReading (b : TBuffer R) : Bool := b.reading

/-- The `n` elements stored from `p` on. -/
def arrayAt (s : Store R) (p : Ptr) : Nat → List R
  | 0 => []
  | k + 1 => s.load p :: arrayAt s (p + (1 : Int)) k

/-- Modelled from the spec: `WriteFastArray(p,n)` appends the run of `n`
elements found at `p`. -/
def WriteFastArray (b : TBuffer R) (s : Store R) (p : Ptr) (n : Int) : TBuffer R :=
  { b with elems := b.elems ++ arrayAt s p n.toNat }

/-- Take `k` elements off the front of a stream and store them from `p` on;
`none` when the stream ends early. -/
def readArray (s : Store R) (p : Ptr) : Nat → List R → Option (List R × Store R)
  | 0, xs => some (xs, s)
  | _ + 1, [] => none
  | k + 1, x :: xs => readArray (s.store p x) (p + (1 : Int)) k xs

/-- Modelled from the spec: `ReadFastArray(p,n)` takes the next run of `n`
elements off the stream and stores it at `p`. -/
def ReadFastArray (b : TBuffer R) (s : Store R) (p : Ptr) (n : Int) :
    Option (TBuffer R × Store R) :=
  (readArray s p n.toNat b.elems).map fun r => ({ b with elems := r.1 }, r.2)

end TBuffer

namespace TMatrixTSym

variable {R : Type} [CommRing R]

/-- The stored members of the object. -/
def shape (this : TMatrixTSym R) : Shape R :=
  { fNrows := this.fNrows, fNcols := this.fNcols, fRowLwb := this.fRowLwb,
    fColLwb := this.fColLwb, fNelems := this.fNelems, fTol := this.fTol,
    fValid := this.fValid }

/-- Modelled from the spec: `TMatrixTBase::Class()->WriteBuffer(R__b,this)`
writes the "shape metadata" of the object. -/
def WriteBuffer (b : TBuffer R) (this : TMatrixTSym R) : TBuffer R :=
  { b with shapes := b.shapes ++ [this.shape] }

/-- Modelled from the spec: `TMatrixTBase::Class()->ReadBuffer(R__b,this,...)`
restores the "shape metadata" of the object from the next record. -/
def ReadBuffer (b : TBuffer R) (this : TMatrixTSym R) : Option (TBuffer R × TMatrixTSym R) :=
  match b.shapes with
  | [] => none
  | h :: rest =>
    some ({ b with shapes := rest },
          { this with fNrows := h.fNrows, fNcols := h.fNcols, fRowLwb := h.fRowLwb,
                      fColLwb := h.fColLwb, fNelems := h.fNelems, fTol := h.fTol,
                      fValid := h.fValid })

/-- Source lines 1886-1919: the object and the buffer after `Streamer(R__b)`. -/
def Streamer (cfg : Config R) (this : TMatrixTSym R) (b : TBuffer R) :
    Option (TMatrixTSym R × TBuffer R) :=
  if b.IsReading then
    (ReadBuffer b (Clear cfg this)).bind fun bt =>
      let t1 := bt.2
      let pm := t1.mem.alloc
      let fElements := pm.1
      (forUp (fun i (st : TBuffer R × Store R) =>
          TBuffer.ReadFastArray st.1 st.2 (fElements + (i * t1.fNcols + i)) (t1.fNcols - i))
        0 t1.fNrows.toNat (bt.1, pm.2)).bind fun st =>
      (forUp (fun i (s : Store R) =>
          forUp (fun j (w : Store R) =>
            some (w.store (fElements + (i * t1.fNcols + j))
                    (w.load (fElements + (j * t1.fNrows + i))))) 0 i.toNat s)
        0 t1.fNrows.toNat st.2).bind fun mem3 =>
      if t1.fNelems ≤ cfg.kSizeMax then
        (mem3.memcpy (Ptr.loc Region.stack 0) fElements t1.fNelems).bind fun mem4 =>
          some ({ t1 with mem := mem4.free fElements, fElements := Ptr.loc Region.stack 0 }, st.1)
      else some ({ t1 with mem := mem3, fElements := fElements }, st.1)
  else
    (forUp (fun i (w : TBuffer R) =>
        some (TBuffer.WriteFastArray w this.mem (this.fElements + (i * this.fNcols + i))
                (this.fNcols - i)))
      0 this.fNrows.toNat (WriteBuffer b this)).map fun w => (this, w)

end TMatrixTSym

/-! ## Shape operations with index bounds -/

namespace TMatrixTSym

variable {R : Type} [CommRing R]

def GetNrows (m : TMatrixTSym R) : Int := m.fNrows

def GetNcols (m : TMatrixTSym R) : Int := m.fNcols

def GetRowLwb (m : TMatrixTSym R) : Int := m.fRowLwb

def GetColLwb (m : TMatrixTSym R) : Int := m.fColLwb

/-- Modelled from the spec: `operator()(rown,coln)` is defined in the class
header, which is not among the sources; it is the "raw element access by
logical (row, column) index translated to a linear offset
`((row - rowLowerBound) * cols) + (col - colLowerBound)`". -/
def entry (m : TMatrixTSym R) (rown coln : Int) : R :=
  m.get ((rown - m.fRowLwb) * m.fNcols + (coln - m.fColLwb))

/-- Source lines 406-426, `Use(Int_t row_lwb,Int_t row_upb,Element *data)`. -/
def Use (cfg : Config R) (this : TMatrixTSym R) (row_lwb row_upb : Int) (data : Ptr) :
    TMatrixTSym R :=
  if row_upb < row_lwb then this.Invalidate
  else
    let t := Clear cfg this
    { t with
      fNrows := row_upb - row_lwb + 1, fNcols := row_upb - row_lwb + 1,
      fRowLwb := row_lwb, fColLwb := row_lwb,
      fNelems := (row_upb - row_lwb + 1) * (row_upb - row_lwb + 1),
      fElements := data, fIsOwner := false }

/-- Body of the two row loops of `ResizeTo(row_lwb,row_upb,col_lwb,col_upb)`
(source lines 851-853 and 857-859): the call of `Memcpy_m` for row `i` of the
overlap; `t` is the object after `Allocate`. -/
def ResizeToBounds.row (cfg : Config R) (t : TMatrixTSym R) (elements_old : Ptr)
    (nelems_old ncols_old rowLwb_old colLwb_old rowLwb_copy colLwb_copy ncols_copy : Int)
    (i : Int) (s : Store R) : Option (Store R) :=
  let colOldOff := colLwb_copy - colLwb_old
  let colNewOff := colLwb_copy - t.fColLwb
  let iRowOld := rowLwb_copy + i - rowLwb_old
  let iRowNew := rowLwb_copy + i - t.fRowLwb
  Memcpy_m cfg s (t.GetMatrixArray + (iRowNew * t.fNcols + colNewOff))
    (elements_old + (iRowOld * ncols_old + colOldOff)) ncols_copy t.fNelems nelems_old

/-- The zero fill of `ResizeTo(row_lwb,row_upb,col_lwb,col_upb)` (source lines
832-837); `t` is the object after `Allocate`. -/
def ResizeToBounds.cleared (cfg : Config R) (t : TMatrixTSym R) (nelems_old : Int) : Store R :=
  let elements_new := t.GetMatrixArray
  if t.fNelems > cfg.kSizeMax ∨ nelems_old > cfg.kSizeMax then
    t.mem.memset elements_new t.fNelems
  else if t.fNelems > nelems_old then
    t.mem.memset (elements_new + nelems_old) (t.fNelems - nelems_old)
  else t.mem

/-- The statements under `// Copy overlap` of `ResizeTo(row_lwb,row_upb,
col_lwb,col_upb)` (source lines 839-862), run on the store `mem1`. -/
def ResizeToBounds.copy (cfg : Config R) (t : TMatrixTSym R) (elements_old : Ptr)
    (nelems_old nrows_old ncols_old rowLwb_old colLwb_old : Int) (mem1 : Store R) :
    Option (Store R) :=
  let rowLwb_copy := max t.fRowLwb rowLwb_old
  let colLwb_copy := max t.fColLwb colLwb_old
  let rowUpb_copy := min (t.fRowLwb + t.fNrows - 1) (rowLwb_old + nrows_old - 1)
  let colUpb_copy := min (t.fColLwb + t.fNcols - 1) (colLwb_old + ncols_old - 1)
  let nrows_copy := rowUpb_copy - rowLwb_copy + 1
  let ncols_copy := colUpb_copy - colLwb_copy + 1
  let row := ResizeToBounds.row cfg t elements_old nelems_old ncols_old rowLwb_old
    colLwb_old rowLwb_copy colLwb_copy ncols_copy
  if nrows_copy > 0 ∧ ncols_copy > 0 then
    if ncols_old < t.fNcols then forDown row nrows_copy.toNat mem1
    else forUp row 0 nrows_copy.toNat mem1
  else some mem1

/-- Source lines 774-868, `ResizeTo(Int_t row_lwb,Int_t row_upb,Int_t col_lwb,
Int_t col_upb)`.  The call `Allocate(new_nrows,new_ncols,row_lwb,col_lwb)`
takes the default of the class header: no zero fill. -/
def ResizeToBounds (cfg : Config R) (this : TMatrixTSym R)
    (row_lwb row_upb col_lwb col_upb : Int) : Option (TMatrixTSym R) :=
  if this.IsValid = false then none
  else if this.fIsOwner = false then some this.Invalidate
  else if row_lwb ≠ col_lwb then some this.Invalidate
  else if row_upb ≠ col_upb then some this.Invalidate
  else
    let new_nrows := row_upb - row_lwb + 1
    let new_ncols := col_upb - col_lwb + 1
    if this.fNelems > 0 then
      if this.fNrows = new_nrows ∧ this.fNcols = new_ncols ∧
          this.fRowLwb = row_lwb ∧ this.fColLwb = col_lwb then some this
      else if new_nrows = 0 ∨ new_ncols = 0 then
        some (Clear cfg { this with fNrows := new_nrows, fNcols := new_ncols,
                                    fRowLwb := row_lwb, fColLwb := col_lwb })
      else
        let elements_old := this.GetMatrixArray
        let nelems_old := this.fNelems
        let nrows_old := this.fNrows
        let ncols_old := this.fNcols
        let rowLwb_old := this.fRowLwb
        let colLwb_old := this.fColLwb
        let t := Allocate cfg this new_nrows new_ncols row_lwb col_lwb 0
        if t.IsValid = false then none
        else
          (ResizeToBounds.copy cfg t elements_old nelems_old nrows_old ncols_old rowLwb_old
              colLwb_old (ResizeToBounds.cleared cfg t nelems_old)).bind fun mem2 =>
            some { t with mem := (Delete_m cfg mem2 nelems_old elements_old).1 }
    else some (Allocate cfg this new_nrows new_ncols row_lwb col_lwb 1)

end TMatrixTSym

/-! ## Assignment, sums and the constructors that use them -/

namespace Store

variable {R : Type} [CommRing R]

/-- The call `memcpy(dst,sp,n*sizeof(Element))` where `sp` points into the
storage `src` of another object; a null pointer has no defined result unless
nothing is copied. -/
def memcpyFrom (s : Store R) (dst : Ptr) (src : Store R) (sp : Ptr) (n : Int) :
    Option (Store R) :=
  match dst, sp with
  | Ptr.loc r o, Ptr.loc r' o' =>
    some { s with cells := fun q p =>
      if q = r ∧ o ≤ p ∧ p < o + n then src.cells r' (o' + (p - o)) else s.cells q p }
  | _, _ => if n ≤ 0 then some s else none

end Store

/-- The values of `EMatrixCreatorsOp2`, an enumeration of the class header,
as far as the constructor tells them apart. -/
inductive EMatrixCreatorsOp2 where
  | kPlus : EMatrixCreatorsOp2
  | kMinus : EMatrixCreatorsOp2
  | other : EMatrixCreatorsOp2
  deriving DecidableEq

namespace TMatrixTSym

variable {R : Type} [CommRing R]

/-- Modelled from the spec: `AreCompatible` belongs to the base class and is
not among the sources.  Operands are "compatible" when they have the "same
`rows`, `cols`, `rowLowerBound`, `colLowerBound`". -/
def AreCompatible (m1 m2 : TMatrixTSym R) : Bool :=
  decide (m1.fNrows = m2.fNrows ∧ m1.fNcols = m2.fNcols ∧
    m1.fRowLwb = m2.fRowLwb ∧ m1.fColLwb = m2.fColLwb)

/-- Source lines 1268-1282, `operator=(const TMatrixTSym &source)`, for a
source that is another object (`this != &source`).  `TObject::operator=`
copies members of the object base that the model does not hold. -/
def operatorAssign (this source : TMatrixTSym R) : Option (TMatrixTSym R) :=
  if AreCompatible this source = false then some this.Invalidate
  else
    (this.mem.memcpyFrom this.GetMatrixArray source.mem source.fElements this.fNelems).map
      fun s => { this with mem := s }

/-- Loop state of the compound sums: the pointers `sp` and `tp`, as offsets
from the two arrays, and the store of the target. -/
structure SumState (R : Type) where
  sp : Int
  tp : Int
  mem : Store R

/-- Source lines 1367-1385, `operator+=(const TMatrixTSym &source)`. -/
def operatorPlusAssign (fuel : Nat) (this source : TMatrixTSym R) : Option (TMatrixTSym R) :=
  if AreCompatible this source = false then some this.Invalidate
  else
    let tp0 := this.GetMatrixArray
    (whileLoop (fun s : SumState R => decide (s.tp < 0 + this.fNelems))
      (fun s => some { sp := s.sp + 1, tp := s.tp + 1,
                       mem := s.mem.store (tp0 + s.tp) (s.mem.load (tp0 + s.tp) + source.get s.sp) })
      fuel { sp := 0, tp := 0, mem := this.mem }).map fun s => { this with mem := s.mem }

/-- Source lines 1388-1406, `operator-=(const TMatrixTSym &source)`. -/
def operatorMinusAssign (fuel : Nat) (this source : TMatrixTSym R) : Option (TMatrixTSym R) :=
  if AreCompatible this source = false then some this.Invalidate
  else
    let tp0 := this.GetMatrixArray
    (whileLoop (fun s : SumState R => decide (s.tp < 0 + this.fNelems))
      (fun s => some { sp := s.sp + 1, tp := s.tp + 1,
                       mem := s.mem.store (tp0 + s.tp) (s.mem.load (tp0 + s.tp) - source.get s.sp) })
      fuel { sp := 0, tp := 0, mem := this.mem }).map fun s => { this with mem := s.mem }

/-- Source lines 85-91, the copy constructor, run on the raw object `this`.
The members that the base class copies first are all set again by `Allocate`,
whose call takes the default of the class header: no zero fill. -/
def ctorCopy (cfg : Config R) (this another : TMatrixTSym R) : Option (TMatrixTSym R) :=
  if another.IsValid = false then none
  else
    operatorAssign
      (Allocate cfg this another.GetNrows another.GetNcols another.GetRowLwb another.GetColLwb 0)
      another

/-- Source lines 168-196, the constructor `TMatrixTSym(a,op,b)`, run on the raw
object `this`.  The two calls of `Allocate` pass three arguments, which the
declaration of the class header takes as `no_rows`, `no_cols` and `row_lwb`,
the rest being the defaults `col_lwb = 0` and no zero fill. -/
def ctorOp2 (cfg : Config R) (fuel : Nat) (this a : TMatrixTSym R) (op : EMatrixCreatorsOp2)
    (b : TMatrixTSym R) : Option (TMatrixTSym R) :=
  let t0 := this.Invalidate
  if a.IsValid = false then none
  else if b.IsValid = false then none
  else
    match op with
    | EMatrixCreatorsOp2.kPlus =>
      (operatorAssign (Allocate cfg t0 a.GetNrows a.GetRowLwb 1 0 0) a).bind fun t =>
        operatorPlusAssign fuel t b
    | EMatrixCreatorsOp2.kMinus =>
      (operatorAssign (Allocate cfg t0 a.GetNrows a.GetRowLwb 1 0 0) a).bind fun t =>
        operatorMinusAssign fuel t b
    | EMatrixCreatorsOp2.other => some t0

/-- Source lines 1559-1565, `operator+(source1,source2)`; `raw` is the storage
of the local object `target`.  The function returns `target` by value (line
1564).  The language allows the compiler to elide the copy (`elide = true`):
`target` is then the object returned.  Otherwise (`elide = false`) the object
returned is built in the storage `ret` by the copy constructor (source lines
85-91) from `target`. -/
def operatorPlus (cfg : Config R) (fuel : Nat) (elide : Bool)
    (raw ret source1 source2 : TMatrixTSym R) : Option (TMatrixTSym R) :=
  (ctorCopy cfg raw source1).bind fun target =>
    (operatorPlusAssign fuel target source2).bind fun target1 =>
      if elide then some target1 else ctorCopy cfg ret target1

end TMatrixTSym

/-! ## Traversal with an action -/

namespace TMatrixTSym

variable {R : Type} [CommRing R]

/-- Loop state of `Apply`: the local `val`, the pointers `trp` and `tcp` as
offsets from `GetMatrixArray()`, and the store. -/
structure ApplyState (R : Type) where
  val : R
  trp : Int
  tcp : Int
  mem : Store R

/-- Body of the inner loop of `Apply` (source lines 1421-1426 and 1450-1456) at
column `j` of row `i`; `op` is `action.Operation`, which updates the element it
is given by reference. -/
def Apply.colStep (this : TMatrixTSym R) (op : R → R) (i j : Int) (u : ApplyState R) :
    Option (ApplyState R) :=
  let base := this.GetMatrixArray
  let val := op u.val
  let m1 := if j > i then u.mem.store (base + u.tcp) val else u.mem
  let m2 := m1.store (base + u.trp) val
  some { val := val, trp := u.trp + 1, tcp := u.tcp + this.fNcols, mem := m2 }

/-- Body of the outer loop of `Apply` (source lines 1418-1428 and 1446-1458) at
row `i`; `op j` is the action with `fJ` set for column `j`. -/
def Apply.rowStep (this : TMatrixTSym R) (op : Int → R → R) (i : Int) (s : ApplyState R) :
    Option (ApplyState R) :=
  let trp := s.trp + i
  let tcp := s.tcp + i * this.fNcols
  (forUp (fun j => Apply.colStep this (op j) i j) i (this.fNcols - i).toNat
    { val := s.val, trp := trp, tcp := tcp, mem := s.mem }).bind fun u =>
  some { val := u.val, trp := u.trp, tcp := u.tcp - (this.fNelems - 1), mem := u.mem }

/-- Source lines 1409-1430, `Apply(const TElementActionT &action)`; `action` is
the effect of `action.Operation` on the element passed to it. -/
def Apply (this : TMatrixTSym R) (action : R → R) : Option (TMatrixTSym R) :=
  if this.IsValid = false then none
  else
    (forUp (Apply.rowStep this (fun _ => action)) 0 this.fNrows.toNat
      { val := 0, trp := 0, tcp := 0, mem := this.mem }).map fun s => { this with mem := s.mem }

/-- Source lines 1433-1459, `Apply(const TElementPosActionT &action)`;
`action fI fJ` is the effect of `action.Operation` on the element passed to it
when the members `fI` and `fJ` of the action have these values. -/
def ApplyPos (this : TMatrixTSym R) (action : Int → Int → R → R) : Option (TMatrixTSym R) :=
  if this.IsValid = false then none
  else
    (forUp (fun i => Apply.rowStep this (fun j => action (i + this.fRowLwb) (j + this.fColLwb)) i)
      0 this.fNrows.toNat
      { val := 0, trp := 0, tcp := 0, mem := this.mem }).map fun s => { this with mem := s.mem }

end TMatrixTSym

/-! ## Inversion -/

/-- The conversion of an `Int_t` to `Char_t`, a signed type of 8 bits. -/
def Char_t (n : Int) : Int := (n + 128) % 2 ^ 8 - 128

/-- The collaborators of `Determinant`, `Invert` and `InvertFast`, none of them
among the sources: `luDet m tol` is the pair `(d1,d2)` that `TDecompLU lu(m,tol);
lu.Det(d1,d2)` delivers, `power` is `TMath::Power`, `bkInvert m tol` is `m` after
`TDecompBK bk(m,tol); bk.Invert(m)`, and `cramer k m det` is the matrix and the
determinant output after `TMatrixTSymCramerInv::Inv`k`x`k`(m,det)`. -/
structure Solvers (R : Type) where
  luDet : TMatrixTSym R → R → R × R
  power : R → R → R
  bkInvert : TMatrixTSym R → R → TMatrixTSym R
  cramer : Nat → TMatrixTSym R → Option R → TMatrixTSym R × Option R

namespace TMatrixTSym

variable {R : Type} [Field R] [DecidableEq R]

/-- Source lines 871-879, `Determinant()`. -/
def Determinant (sv : Solvers R) (this : TMatrixTSym R) : R :=
  let d := sv.luDet this this.fTol
  d.1 * sv.power 2 d.2

/-- Source lines 891-906, `Invert(Double_t *det)`.  The output `det` is `none`
for a null pointer and holds the value of `*det` otherwise; `raw` is the storage
of the local object `tmp`. -/
def Invert (sv : Solvers R) (cfg : Config R) (raw this : TMatrixTSym R) (det : Option R) :
    Option (TMatrixTSym R × Option R) :=
  let det1 := if det.isSome then some (Determinant sv this) else det
  (ctorCopy cfg raw this).bind fun tmp =>
    (operatorAssign this (sv.bkInvert tmp this.fTol)).map fun t => (t, det1)

/-- Source lines 909-969, `InvertFast(Double_t *det)`.  The branch for one row
writes `*det` without a test of the pointer, so that a null pointer has no
defined result there; the `default` branch repeats the statements of `Invert`. -/
def InvertFast (sv : Solvers R) (cfg : Config R) (raw this : TMatrixTSym R) (det : Option R) :
    Option (TMatrixTSym R × Option R) :=
  if this.IsValid = false then none
  else
    let nRows := Char_t this.GetNrows
    if nRows = 1 then
      let pM := this.GetMatrixArray
      if this.mem.load pM = 0 then
        if det.isSome then some (this.Invalidate, some 0) else none
      else
        if det.isSome then
          some ({ this with mem := this.mem.store pM (1 / this.mem.load pM) },
                some (this.mem.load pM))
        else none
    else if nRows = 2 then some (sv.cramer 2 this det)
    else if nRows = 3 then some (sv.cramer 3 this det)
    else if nRows = 4 then some (sv.cramer 4 this det)
    else if nRows = 5 then some (sv.cramer 5 this det)
    else if nRows = 6 then some (sv.cramer 6 this det)
    else Invert sv cfg raw this det

end TMatrixTSym

/-! ## Sub-matrices -/

/-- The test `opt.ToUpper(); opt.Contains("S")` of `GetSub` on its option, a
character string.  `TString` is a class outside the sources: `ToUpper` converts
the string to upper case, and `Contains("S")` tells whether the character `S`
occurs in it. -/
def optionShift (option : List Char) : Bool := (option.map Char.toUpper).contains 'S'

def TMatrixT.Invalidate {R : Type} (a : TMatrixT R) : TMatrixT R := { a with fValid := false }

namespace TMatrixTSym

variable {R : Type} [CommRing R]

/-- Loop state of the copy loops of `GetSub`: the pointer `ap` (in the inner
loop `ap_sub`) as an offset from the array of the source, the pointer `bp` as an
offset from the array of the target, and the store of the target. -/
structure SubState (R : Type) where
  ap : Int
  bp : Int
  mem : Store R

/-- Body of the inner copy loop of `GetSub` (source line 486). -/
def GetSub.colStep (this t : TMatrixTSym R) (_icol : Int) (u : SubState R) :
    Option (SubState R) :=
  some { ap := u.ap + 1, bp := u.bp + 1,
         mem := u.mem.store (t.GetMatrixArray + u.bp) (this.get u.ap) }

/-- Body of the outer copy loop of `GetSub` (source lines 483-489). -/
def GetSub.rowStep (this t : TMatrixTSym R) (nrows_sub : Int) (_irow : Int) (s : SubState R) :
    Option (SubState R) :=
  (forUp (GetSub.colStep this t) 0 nrows_sub.toNat s).bind fun u =>
    some { ap := s.ap + this.fNrows, bp := u.bp, mem := u.mem }

/-- Source lines 429-494, `GetSub(row_lwb,row_upb,target,option)`, for a target
that is another object than the source.  The result is the target; the source
is `const`.  `GetRowIndexArray()` and `GetColIndexArray()` of the class header
give null pointers for this class, so the second copy loop runs. -/
def GetSub (cfg : Config R) (this : TMatrixTSym R) (row_lwb row_upb : Int)
    (target : TMatrixTSym R) (option : List Char) : Option (TMatrixTSym R) :=
  if this.IsValid = false then none
  else if row_lwb < this.fRowLwb ∨ row_lwb > this.fRowLwb + this.fNrows - 1 then
    some target.Invalidate
  else if row_upb < this.fRowLwb ∨ row_upb > this.fRowLwb + this.fNrows - 1 then
    some target.Invalidate
  else if row_upb < row_lwb then some target.Invalidate
  else
    let shift := optionShift option
    let row_lwb_sub := if shift then 0 else row_lwb
    let row_upb_sub := if shift then row_upb - row_lwb else row_upb
    (ResizeToBounds cfg target row_lwb_sub row_upb_sub row_lwb_sub row_upb_sub).bind fun t =>
      let nrows_sub := row_upb_sub - row_lwb_sub + 1
      let ap := (row_lwb - this.fRowLwb) * this.fNrows + (row_lwb - this.fRowLwb)
      (forUp (GetSub.rowStep this t nrows_sub) 0 nrows_sub.toNat
        { ap := ap, bp := 0, mem := t.mem }).map fun s => { t with mem := s.mem }

/-- Loop state of the copy loops of the second `GetSub`, whose target is a
general matrix. -/
structure SubStateT (R : Type) where
  ap : Int
  bp : Int
  arr : Int → R

/-- Body of the inner copy loop of the second `GetSub` (source line 563). -/
def GetSubGeneral.colStep (this : TMatrixTSym R) (_icol : Int) (u : SubStateT R) :
    Option (SubStateT R) :=
  some { ap := u.ap + 1, bp := u.bp + 1,
         arr := fun k => if k = u.bp then this.get u.ap else u.arr k }

/-- Body of the outer copy loop of the second `GetSub` (source lines 560-566). -/
def GetSubGeneral.rowStep (this : TMatrixTSym R) (ncols_sub : Int) (_irow : Int)
    (s : SubStateT R) : Option (SubStateT R) :=
  (forUp (GetSubGeneral.colStep this) 0 ncols_sub.toNat s).bind fun u =>
    some { ap := s.ap + this.fNcols, bp := u.bp, arr := u.arr }

/-- Source lines 497-568, `GetSub(row_lwb,row_upb,col_lwb,col_upb,target,
option)`, for a target that is a general matrix.  `resize` is the `ResizeTo` of
the target, a virtual function that is not among the sources; the index arrays
of a general matrix are null pointers, so the second copy loop runs. -/
def GetSubGeneral (resize : TMatrixT R → Int → Int → Int → Int → TMatrixT R)
    (this : TMatrixTSym R) (row_lwb row_upb col_lwb col_upb : Int)
    (target : TMatrixT R) (option : List Char) : Option (TMatrixT R) :=
  if this.IsValid = false then none
  else if row_lwb < this.fRowLwb ∨ row_lwb > this.fRowLwb + this.fNrows - 1 then
    some target.Invalidate
  else if col_lwb < this.fColLwb ∨ col_lwb > this.fColLwb + this.fNcols - 1 then
    some target.Invalidate
  else if row_upb < this.fRowLwb ∨ row_upb > this.fRowLwb + this.fNrows - 1 then
    some target.Invalidate
  else if col_upb < this.fColLwb ∨ col_upb > this.fColLwb + this.fNcols - 1 then
    some target.Invalidate
  else if row_upb < row_lwb ∨ col_upb < col_lwb then some target.Invalidate
  else
    let shift := optionShift option
    let row_lwb_sub := if shift then 0 else row_lwb
    let row_upb_sub := if shift then row_upb - row_lwb else row_upb
    let col_lwb_sub := if shift then 0 else col_lwb
    let col_upb_sub := if shift then col_upb - col_lwb else col_upb
    let t := resize target row_lwb_sub row_upb_sub col_lwb_sub col_upb_sub
    let nrows_sub := row_upb_sub - row_lwb_sub + 1
    let ncols_sub := col_upb_sub - col_lwb_sub + 1
    let ap := (row_lwb - this.fRowLwb) * this.fNcols + (col_lwb - this.fColLwb)
    (forUp (GetSubGeneral.rowStep this ncols_sub) 0 nrows_sub.toNat
      { ap := ap, bp := 0, arr := t.fElements }).map fun s => { t with fElements := s.arr }

end TMatrixTSym

/-! ## Insertion of a sub-matrix -/

namespace TMatrixT

variable {R : Type}

def GetRowLwb (a : TMatrixT R) : Int := a.fRowLwb

/-- Modelled from the spec: `operator()(rown,coln)` of the general matrix is
not among the sources; it is the "raw element access by logical (row, column)
index translated to a linear offset
`((row - rowLowerBound) * cols) + (col - colLowerBound)`". -/
def entry (a : TMatrixT R) (rown coln : Int) : R :=
  a.fElements ((rown - a.fRowLwb) * a.fNcols + (coln - a.fColLwb))

/-- Modelled from the spec: `IsSymmetric` belongs to the base class and is not
among the sources.  A symmetric matrix is "a square matrix equal to its own
transpose": as many rows as columns, the same lower bound for both, and equal
elements at `[i,j]` and `[j,i]`. -/
def IsSymmetric [DecidableEq R] (a : TMatrixT R) : Bool :=
  decide (a.fNrows = a.fNcols ∧ a.fRowLwb = a.fColLwb) &&
    (List.range a.fNrows.toNat).all fun i =>
      (List.range a.fNrows.toNat).all fun j => decide (a.elem i j = a.elem j i)

end TMatrixT

namespace TMatrixTSym

variable {R : Type} [CommRing R]

/-- Modelled from the spec: the place of the element that `operator()(rown,
coln)` of the class header refers to, at the "linear offset
`((row - rowLowerBound) * cols) + (col - colLowerBound)`" of the array. -/
def cellOf (m : TMatrixTSym R) (rown coln : Int) : Ptr :=
  m.fElements + ((rown - m.fRowLwb) * m.fNcols + (coln - m.fColLwb))

/-- Body of the inner copy loop of `SetSub(row_lwb,source)` (source line 609);
`ap` is the pointer `ap_sub` as an offset from the array of the object, `bp`
an offset from the array of the source. -/
def SetSub.colStep (this : TMatrixTSym R) (source : TMatrixT R) (_icol : Int)
    (u : SubState R) : Option (SubState R) :=
  some { ap := u.ap + 1, bp := u.bp + 1,
         mem := u.mem.store (this.GetMatrixArray + u.ap) (source.fElements u.bp) }

/-- Body of the outer copy loop of `SetSub(row_lwb,source)` (source lines
606-612). -/
def SetSub.rowStep (this : TMatrixTSym R) (source : TMatrixT R) (nRows_source : Int)
    (_irow : Int) (s : SubState R) : Option (SubState R) :=
  (forUp (SetSub.colStep this source) 0 nRows_source.toNat s).bind fun u =>
    some { ap := s.ap + this.fNrows, bp := u.bp, mem := u.mem }

/-- Source lines 570-617, `SetSub(Int_t row_lwb,const TMatrixTBase &source)`,
for a source that is a matrix with a full array: `GetRowIndexArray()` and
`GetColIndexArray()` give null pointers for it, so the second copy loop runs. -/
def SetSub [DecidableEq R] (this : TMatrixTSym R) (row_lwb : Int) (source : TMatrixT R) :
    Option (TMatrixTSym R) :=
  if this.IsValid = false then none
  else if source.IsValid = false then none
  else if source.IsSymmetric = false then some this.Invalidate
  else if row_lwb < this.fRowLwb ∨ row_lwb > this.fRowLwb + this.fNrows - 1 then
    some this.Invalidate
  else
    let nRows_source := source.GetNrows
    if row_lwb + nRows_source > this.fRowLwb + this.fNrows then some this.Invalidate
    else
      let ap := (row_lwb - this.fRowLwb) * this.fNrows + (row_lwb - this.fRowLwb)
      (forUp (SetSub.rowStep this source nRows_source) 0 nRows_source.toNat
        { ap := ap, bp := 0, mem := this.mem }).map fun s => { this with mem := s.mem }

/-- Loop state of the inner loops of `SetSub(row_lwb,col_lwb,source)`: the
index `icol` and the store. -/
structure ColState (R : Type) where
  icol : Int
  mem : Store R

/-- Body of the inner loop under `// lower triangle` (source line 655). -/
def SetSubRowCol.lowerStep (this : TMatrixTSym R) (source : TMatrixT R)
    (row_lwb col_lwb irow : Int) (u : ColState R) : Option (ColState R) :=
  some { icol := u.icol + 1,
         mem := u.mem.store (this.cellOf (row_lwb + irow) (col_lwb + u.icol))
                  (source.entry (irow + source.GetRowLwb) (u.icol + source.GetColLwb)) }

/-- Body of the outer loop under `// lower triangle` (source lines 653-656). -/
def SetSubRowCol.lowerRow (fuel : Nat) (this : TMatrixTSym R) (source : TMatrixT R)
    (row_lwb col_lwb irow : Int) (s : Store R) : Option (Store R) :=
  (whileLoop
    (fun u : ColState R =>
      decide (col_lwb + u.icol ≤ row_lwb + irow ∧ u.icol < source.GetNcols))
    (SetSubRowCol.lowerStep this source row_lwb col_lwb irow) fuel
    { icol := 0, mem := s }).map fun u => u.mem

/-- Body of the inner loop under `// upper triangle` (source line 663). -/
def SetSubRowCol.upperStep (this : TMatrixTSym R) (source : TMatrixT R)
    (row_lwb col_lwb irow : Int) (u : ColState R) : Option (ColState R) :=
  some { icol := u.icol - 1,
         mem := u.mem.store (this.cellOf (col_lwb + irow) (row_lwb + u.icol))
                  (source.entry (u.icol + source.GetRowLwb) (irow + source.GetColLwb)) }

/-- Body of the outer loop under `// upper triangle` (source lines 661-664). -/
def SetSubRowCol.upperRow (fuel : Nat) (this : TMatrixTSym R) (source : TMatrixT R)
    (row_lwb col_lwb irow : Int) (s : Store R) : Option (Store R) :=
  (whileLoop
    (fun u : ColState R => decide (row_lwb + u.icol > irow + col_lwb ∧ u.icol ≥ 0))
    (SetSubRowCol.upperStep this source row_lwb col_lwb irow) fuel
    { icol := source.GetNrows - 1, mem := s }).map fun u => u.mem

/-- Source lines 620-677, `SetSub(Int_t row_lwb,Int_t col_lwb,
const TMatrixTBase &source)`, for a source that is a general matrix.  The
branch for `row_lwb < col_lwb` is empty. -/
def SetSubRowCol (fuel : Nat) (this : TMatrixTSym R) (row_lwb col_lwb : Int)
    (source : TMatrixT R) : Option (TMatrixTSym R) :=
  if this.IsValid = false then none
  else if source.IsValid = false then none
  else if row_lwb < this.fRowLwb ∨ row_lwb > this.fRowLwb + this.fNrows - 1 then
    some this.Invalidate
  else if col_lwb < this.fColLwb ∨ col_lwb > this.fColLwb + this.fNcols - 1 then
    some this.Invalidate
  else
    let nRows_source := source.GetNrows
    let nCols_source := source.GetNcols
    if row_lwb + nRows_source > this.fRowLwb + this.fNrows ∨
        col_lwb + nCols_source > this.fRowLwb + this.fNrows then some this.Invalidate
    else if col_lwb + nCols_source > this.fRowLwb + this.fNrows ∨
        row_lwb + nRows_source > this.fRowLwb + this.fNrows then some this.Invalidate
    else if row_lwb ≥ col_lwb then
      (forUp (SetSubRowCol.lowerRow fuel this source row_lwb col_lwb) 0 nRows_source.toNat
        this.mem).bind fun m1 =>
      (forUp (SetSubRowCol.upperRow fuel this source row_lwb col_lwb) 0 nCols_source.toNat
        m1).map fun m2 => { this with mem := m2 }
    else some this

end TMatrixTSym

/-! ## Operations with a scalar -/

namespace TMatrixTSym

variable {R : Type} [CommRing R]

/-- Loop state of the operations with a scalar: the pointer `ep` as an offset
from `fElements`, and the store. -/
structure EpState (R : Type) where
  ep : Int
  mem : Store R

/-- Source lines 1303-1316, `operator=(Element val)`. -/
def operatorAssignVal (fuel : Nat) (this : TMatrixTSym R) (val : R) : Option (TMatrixTSym R) :=
  if this.IsValid = false then none
  else
    (whileLoop (fun s : EpState R => decide (s.ep < 0 + this.fNelems))
      (fun s => some { ep := s.ep + 1, mem := s.mem.store (this.fElements + s.ep) val })
      fuel { ep := 0, mem := this.mem }).map fun s => { this with mem := s.mem }

/-- Source lines 1319-1332, `operator+=(Element val)`. -/
def operatorPlusAssignVal (fuel : Nat) (this : TMatrixTSym R) (val : R) :
    Option (TMatrixTSym R) :=
  if this.IsValid = false then none
  else
    (whileLoop (fun s : EpState R => decide (s.ep < 0 + this.fNelems))
      (fun s => some { ep := s.ep + 1,
                       mem := s.mem.store (this.fElements + s.ep)
                                (s.mem.load (this.fElements + s.ep) + val) })
      fuel { ep := 0, mem := this.mem }).map fun s => { this with mem := s.mem }

/-- Source lines 1335-1348, `operator-=(Element val)`. -/
def operatorMinusAssignVal (fuel : Nat) (this : TMatrixTSym R) (val : R) :
    Option (TMatrixTSym R) :=
  if this.IsValid = false then none
  else
    (whileLoop (fun s : EpState R => decide (s.ep < 0 + this.fNelems))
      (fun s => some { ep := s.ep + 1,
                       mem := s.mem.store (this.fElements + s.ep)
                                (s.mem.load (this.fElements + s.ep) - val) })
      fuel { ep := 0, mem := this.mem }).map fun s => { this with mem := s.mem }

/-- Source lines 1351-1364, `operator*=(Element val)`. -/
def operatorTimesAssignVal (fuel : Nat) (this : TMatrixTSym R) (val : R) :
    Option (TMatrixTSym R) :=
  if this.IsValid = false then none
  else
    (whileLoop (fun s : EpState R => decide (s.ep < 0 + this.fNelems))
      (fun s => some { ep := s.ep + 1,
                       mem := s.mem.store (this.fElements + s.ep)
                                (s.mem.load (this.fElements + s.ep) * val) })
      fuel { ep := 0, mem := this.mem }).map fun s => { this with mem := s.mem }

end TMatrixTSym

/-! ## Logical operations -/

namespace TMatrixTSym

variable {R : Type} [CommRing R] [DecidableEq R]

/-- The upper bounds `GetRowUpb()` and `GetColUpb()` of the class header. -/
def GetRowUpb (m : TMatrixTSym R) : Int := m.fNrows + m.fRowLwb - 1

def GetColUpb (m : TMatrixTSym R) : Int := m.fNcols + m.fColLwb - 1

/-- Loop state of the logical operations: the pointers `sp1`, `sp2` and `tp`
as offsets from the three arrays, and the store of the target. -/
structure LogicState (R : Type) where
  sp1 : Int
  sp2 : Int
  tp : Int
  mem : Store R

/-- The statement `*tp++ = (*sp1++ != 0.0 && *sp2++ != 0.0)` (source line
1645): the right operand of `&&`, with its increment of `sp2`, is evaluated
only when the left operand holds. -/
def operatorAnd.step (source1 source2 : TMatrixTSym R) (tp0 : Ptr) (s : LogicState R) :
    Option (LogicState R) :=
  if source1.get s.sp1 ≠ 0 then
    some { sp1 := s.sp1 + 1, sp2 := s.sp2 + 1, tp := s.tp + 1,
           mem := s.mem.store (tp0 + s.tp) (if source2.get s.sp2 ≠ 0 then 1 else 0) }
  else
    some { sp1 := s.sp1 + 1, sp2 := s.sp2, tp := s.tp + 1, mem := s.mem.store (tp0 + s.tp) 0 }

/-- Source lines 1625-1648, `operator&&(source1,source2)`.  `target` is the
local object after the default constructor of the class header, and the
object returned; `target.ResizeTo(source1)`, of the class header, is the call
`ResizeTo(GetRowLwb(),GetRowUpb(),GetColLwb(),GetColUpb())` with the bounds of
`source1`. -/
def operatorAnd (cfg : Config R) (fuel : Nat) (target source1 source2 : TMatrixTSym R) :
    Option (TMatrixTSym R) :=
  if AreCompatible source1 source2 = false then some target.Invalidate
  else
    (ResizeToBounds cfg target source1.GetRowLwb source1.GetRowUpb source1.GetColLwb
        source1.GetColUpb).bind fun t =>
      (whileLoop (fun s : LogicState R => decide (s.tp < 0 + t.GetNoElements))
        (operatorAnd.step source1 source2 t.GetMatrixArray) fuel
        { sp1 := 0, sp2 := 0, tp := 0, mem := t.mem }).map fun s => { t with mem := s.mem }

/-- The statement `*tp++ = (*sp1++ != 0.0 || *sp2++ != 0.0)` (source line
1671): the right operand of `||`, with its increment of `sp2`, is evaluated
only when the left operand does not hold. -/
def operatorOr.step (source1 source2 : TMatrixTSym R) (tp0 : Ptr) (s : LogicState R) :
    Option (LogicState R) :=
  if source1.get s.sp1 ≠ 0 then
    some { sp1 := s.sp1 + 1, sp2 := s.sp2, tp := s.tp + 1, mem := s.mem.store (tp0 + s.tp) 1 }
  else
    some { sp1 := s.sp1 + 1, sp2 := s.sp2 + 1, tp := s.tp + 1,
           mem := s.mem.store (tp0 + s.tp) (if source2.get s.sp2 ≠ 0 then 1 else 0) }

/-- Source lines 1651-1674, `operator||(source1,source2)`; see `operatorAnd`
for `target`. -/
def operatorOr (cfg : Config R) (fuel : Nat) (target source1 source2 : TMatrixTSym R) :
    Option (TMatrixTSym R) :=
  if AreCompatible source1 source2 = false then some target.Invalidate
  else
    (ResizeToBounds cfg target source1.GetRowLwb source1.GetRowUpb source1.GetColLwb
        source1.GetColUpb).bind fun t =>
      (whileLoop (fun s : LogicState R => decide (s.tp < 0 + t.GetNoElements))
        (operatorOr.step source1 source2 t.GetMatrixArray) fuel
        { sp1 := 0, sp2 := 0, tp := 0, mem := t.mem }).map fun s => { t with mem := s.mem }

end TMatrixTSym

/-! ## The product with a symmetric argument -/

namespace TMatrixTSym

variable {R : Type} [CommRing R]

/-- The array behind `a.GetMatrixArray()` with the shape of `a`, as the loops
of `AtMultA` read it. -/
def asArray (a : TMatrixTSym R) : TMatrixT R :=
  { fNrows := a.fNrows, fNcols := a.fNcols, fRowLwb := a.fRowLwb, fColLwb := a.fColLwb,
    fNelems := a.fNelems, fValid := a.fValid, fElements := a.get }

/-- Source lines 354-403, `AtMultA(const TMatrixTSym &a,Int_t constr)`, for an
argument that is another object.  In the branch without CBLAS the loops and
the closing assertion (source lines 377-401) are those of the first `AtMultA`
(source lines 326-349), statement by statement. -/
def AtMultASym (cfg : Config R) (fuel : Nat) (this a : TMatrixTSym R) (constr : Int) :
    Option (TMatrixTSym R) :=
  if a.IsValid = false then none
  else
    AtMultA.kernel fuel
      (if constr ≠ 0 then Allocate cfg this a.GetNcols a.GetNcols a.GetColLwb a.GetColLwb 1
       else this) a.asArray

end TMatrixTSym

/-! ## Random fill -/

namespace TMatrixTSym

variable {R : Type} [Field R]

/-- Loop state of the fill loops of `RandomizePD`: the number of calls of
`Drand` made so far, which stands for the argument `seed`, and the store. -/
structure DrawState (R : Type) where
  calls : Nat
  mem : Store R

/-- Body of the inner fill loop of `RandomizePD` (source line 1512),
`ep[off+j] = scale*(Drand(seed)+shift)`.  `Drand` is declared outside the
file; `drand k` is the result of its call number `k`, counted from 0. -/
def RandomizePD.fillStep (this : TMatrixTSym R) (drand : Nat → R) (scale shift : R)
    (off : Int) (j : Int) (s : DrawState R) : Option (DrawState R) :=
  some { calls := s.calls + 1,
         mem := s.mem.store (this.GetMatrixArray + (off + j)) (scale * (drand s.calls + shift)) }

/-- Body of the outer fill loop of `RandomizePD` (source lines 1509-1513). -/
def RandomizePD.fillRow (this : TMatrixTSym R) (drand : Nat → R) (scale shift : R)
    (i : Int) (s : DrawState R) : Option (DrawState R) :=
  let off := i * this.fNcols
  forUp (RandomizePD.fillStep this drand scale shift off) 0 (i + 1).toNat s

/-- Body of the loop over `k` in `RandomizePD` (source lines 1520-1522),
`ep[off1+j] += ep[off1+k]*ep[off2+k]`. -/
def RandomizePD.accStep (this : TMatrixTSym R) (off1 off2 j : Int) (k : Int) (m : Store R) :
    Option (Store R) :=
  let ep := this.GetMatrixArray
  some (m.store (ep + (off1 + j))
    (m.load (ep + (off1 + j)) + m.load (ep + (off1 + k)) * m.load (ep + (off2 + k))))

/-- Body of the loop over `j` in `RandomizePD` (source lines 1517-1526). -/
def RandomizePD.colStep (this : TMatrixTSym R) (i off1 : Int) (j : Int) (m : Store R) :
    Option (Store R) :=
  let ep := this.GetMatrixArray
  let off2 := j * this.fNcols
  let m1 := m.store (ep + (off1 + j)) (m.load (ep + (off1 + j)) * m.load (ep + (off2 + j)))
  (forDown (RandomizePD.accStep this off1 off2 j) j.toNat m1).bind fun m2 =>
    some (if i ≠ j then m2.store (ep + (off2 + i)) (m2.load (ep + (off1 + j))) else m2)

/-- Body of the second loop over `i` in `RandomizePD` (source lines
1515-1527). -/
def RandomizePD.rowStep (this : TMatrixTSym R) (i : Int) (m : Store R) : Option (Store R) :=
  let off1 := i * this.fNcols
  forDown (RandomizePD.colStep this i off1) (i + 1).toNat m

/-- Source lines 1493-1531, `RandomizePD(Element alpha,Element beta,
Double_t &seed)`, in exact arithmetic.  The argument `seed` is read and
written by `Drand` only; `drand` lists the results of the successive calls. -/
def RandomizePD (this : TMatrixTSym R) (alpha beta : R) (drand : Nat → R) :
    Option (TMatrixTSym R) :=
  if this.IsValid = false then none
  else if this.fNrows ≠ this.fNcols ∨ this.fRowLwb ≠ this.fColLwb then some this.Invalidate
  else
    let scale := beta - alpha
    let shift := alpha / scale
    (forUp (RandomizePD.fillRow this drand scale shift) 0 this.fNrows.toNat
      { calls := 0, mem := this.mem }).bind fun s =>
    (forDown (RandomizePD.rowStep this) this.fNrows.toNat s.mem).map fun m =>
      { this with mem := m }

end TMatrixTSym

/-! ## Division element by element -/

namespace TMatrixTSym

variable {R : Type} [Field R] [DecidableEq R]

/-- Loop state of `ElementDiv`: the pointer `sp` as an offset from the array of
the source, the pointers `trp` and `tcp` as offsets from the array of the
target, and the store of the target. -/
structure DivState (R : Type) where
  sp : Int
  trp : Int
  tcp : Int
  mem : Store R

/-- Body of the inner loop of `ElementDiv` (source lines 1873-1878); the
assertion `*sp != 0.0` is fatal. -/
def ElementDiv.colStep (target source : TMatrixTSym R) (ncols : Int) (i j : Int)
    (u : DivState R) : Option (DivState R) :=
  let base := target.GetMatrixArray
  if source.get u.sp = 0 then none
  else
    let m1 :=
      if j > i then u.mem.store (base + u.tcp) (u.mem.load (base + u.tcp) / source.get u.sp)
      else u.mem
    let m2 := m1.store (base + u.trp) (m1.load (base + u.trp) / source.get u.sp)
    some { sp := u.sp + 1, trp := u.trp + 1, tcp := u.tcp + ncols, mem := m2 }

/-- Body of the outer loop of `ElementDiv` (source lines 1869-1880). -/
def ElementDiv.rowStep (target source : TMatrixTSym R) (ncols nelems : Int) (i : Int)
    (s : DivState R) : Option (DivState R) :=
  (forUp (ElementDiv.colStep target source ncols i) i (ncols - i).toNat
    { sp := s.sp + i, trp := s.trp + i, tcp := s.tcp + i * ncols, mem := s.mem }).bind fun u =>
  some { sp := u.sp, trp := u.trp, tcp := u.tcp - (nelems - 1), mem := u.mem }

/-- Source lines 1852-1883, `ElementDiv(TMatrixTSym &target,
const TMatrixTSym &source)`, for a source that is another object. -/
def ElementDiv (target source : TMatrixTSym R) : Option (TMatrixTSym R) :=
  if AreCompatible target source = false then some target.Invalidate
  else
    let nrows := target.GetNrows
    let ncols := target.GetNcols
    let nelems := target.GetNoElements
    (forUp (ElementDiv.rowStep target source ncols nelems) 0 nrows.toNat
      { sp := 0, trp := 0, tcp := 0, mem := target.mem }).map fun s =>
      { target with mem := s.mem }

end TMatrixTSym

/-! ## The number of elements in `Int_t` -/

/-- The value held by an `Int_t`, a signed integer of 32 bits, after the exact
result `n` of an arithmetic operation has been stored in it: the result is
reduced modulo `2^32` into the range from `-2^31` to `2^31-1`.  The language
leaves a signed overflow undefined; this is what the two's complement machines
do. -/
def Int_t (n : Int) : Int := (n + 2 ^ 31) % 2 ^ 32 - 2 ^ 31

namespace TMatrixTSym

variable {R : Type} [CommRing R]

/-- Source lines 271-300 with the product `fNrows*fNcols` of line 290 taken in
`Int_t`, as the members are declared.  For a shape whose number of elements is
below `2^31` this is `Allocate`. -/
def AllocateInt_t (cfg : Config R) (this : TMatrixTSym R)
    (no_rows no_cols row_lwb col_lwb init : Int) : TMatrixTSym R :=
  if no_rows < 0 ∨ no_cols < 0 then this.Invalidate
  else
    let t : TMatrixTSym R :=
      { this.MakeValid with
        fNrows := no_rows, fNcols := no_cols, fRowLwb := row_lwb, fColLwb := col_lwb,
        fNelems := Int_t (no_rows * no_cols), fIsOwner := true, fTol := cfg.epsilon }
    if t.fNelems > 0 then
      let pm := New_m cfg t.mem t.fNelems
      let t1 : TMatrixTSym R := { t with fElements := pm.1, mem := pm.2 }
      if init ≠ 0 then { t1 with mem := t1.mem.memset t1.fElements t1.fNelems } else t1
    else { t with fElements := Ptr.null }

end TMatrixTSym

/-! ## Vocabulary of the statements -/

/-- A valid general matrix with `m` rows and `n` columns. -/
structure TMatrixT.IsShape {R : Type} (a : TMatrixT R) (m n : Nat) : Prop where
  valid : a.fValid = true
  rows : a.fNrows = m
  cols : a.fNcols = n
  nelems : a.fNelems = (m : Int) * n

/-- A valid matrix with `n` rows and `n` columns and, unless it is empty, a
buffer. -/
structure TMatrixTSym.IsSquare {R : Type} (M : TMatrixTSym R) (n : Nat) : Prop where
  valid : M.fValid = true
  rows : M.fNrows = n
  cols : M.fNcols = n
  nelems : M.fNelems = (n : Int) * n
  buf : 0 < n → M.fElements ≠ Ptr.null

/-- A valid matrix with `n` rows and `n` columns whose `n*n` elements lie in
the block `r` from offset `o` on. -/
structure TMatrixTSym.SquareAt {R : Type} (M : TMatrixTSym R) (n : Nat) (r : Region) (o : Int) :
    Prop where
  valid : M.fValid = true
  rows : M.fNrows = n
  cols : M.fNcols = n
  nelems : M.fNelems = (n : Int) * n
  buf : M.fElements = Ptr.loc r o

/-- A valid matrix with `p` rows that owns its buffer, placed as `New_m` places
it: in `fDataStack` when `p*p <= kSizeMax`, in a block of the free store
otherwise. -/
structure TMatrixTSym.IsOwned {R : Type} (cfg : Config R) (M : TMatrixTSym R) (p : Nat) :
    Prop where
  square : M.IsSquare p
  owner : M.fIsOwner = true
  small : 0 < p → (p : Int) * p ≤ cfg.kSizeMax → M.fElements = Ptr.loc Region.stack 0
  large : cfg.kSizeMax < (p : Int) * p →
    ∃ b, b < M.mem.nheap ∧ M.fElements = Ptr.loc (Region.heap b) 0

namespace Store

variable {R : Type} [CommRing R]

/-- The store after `n` cells from `(ro,po)` have been copied to `(rn,pn)`,
every source cell read before the copy. -/
def moved (s : Store R) (rn : Region) (pn : Int) (ro : Region) (po : Int) (n : Int) : Store R :=
  { s with cells := fun r q =>
      if r = rn ∧ pn ≤ q ∧ q < pn + n then s.cells ro (po + (q - pn)) else s.cells r q }

end Store

namespace TMatrixTSym

variable {R : Type} [CommRing R]

/-- The store that `ResizeTo` prepares before it copies the rows (source
lines 745-748). -/
def resizeCleared (cfg : Config R) (s : Store R) (rn : Region) (p n : Nat) : Store R :=
  if (n : Int) * n > cfg.kSizeMax ∨ (p : Int) * p > cfg.kSizeMax then
    s.memset (Ptr.loc rn 0) ((n : Int) * n)
  else if (n : Int) * n > (p : Int) * p then
    s.memset (Ptr.loc rn 0 + (p : Int) * (p : Int)) ((n : Int) * n - (p : Int) * p)
  else s

/-- The runs that `Streamer` writes for the rows `i, ..., i+k-1` of an `n` by
`n` matrix. -/
def upperRows (M : TMatrixTSym R) (n : Nat) : Nat → Nat → List R
  | _, 0 => []
  | i, k + 1 =>
    TBuffer.arrayAt M.mem (M.fElements + ((i : Int) * (n : Int) + (i : Int))) (n - i)
      ++ upperRows M n (i + 1) k

end TMatrixTSym

/-! ## Concrete objects used in the examples -/

/-- The constants as the class header of the same release declares them. -/
def cfg25 : Config Int := { kSizeMax := 25, epsilon := 0 }

/-- An owning matrix with `n` rows whose buffer holds `xs` row by row; it lives
in `fDataStack` when `n*n <= kSizeMax` and in heap block 0 otherwise. -/
def ofList (cfg : Config Int) (n : Nat) (xs : List Int) : TMatrixTSym Int :=
  let r : Region := if (n * n : Int) ≤ cfg.kSizeMax then Region.stack else Region.heap 0
  { fNrows := n, fNcols := n, fRowLwb := 0, fColLwb := 0, fNelems := n * n,
    fTol := cfg.epsilon, fIsOwner := true, fValid := true,
    fElements := if n = 0 then Ptr.null else Ptr.loc r 0,
    mem := { cells := fun r' o => if r' = r then xs.getD o.toNat 0 else 0,
             nheap := 1, freed := [] } }

/-- The rows of the first `n` by `n` elements of a matrix. -/
def rowsOf (m : TMatrixTSym Int) (n : Nat) : List (List Int) :=
  (List.range n).map fun i => (List.range n).map fun j => m.elem i j


/-- A valid vector with lower bound 0 that holds `xs`. -/
def vecOf (xs : List Int) : TVectorT Int :=
  { fNrows := xs.length, fRowLwb := 0, fValid := true, fElements := fun k => xs.getD k.toNat 0 }


/-- A valid general `m` by `n` matrix that holds `xs` row by row. -/
def genOf (m n : Nat) (xs : List Int) : TMatrixT Int :=
  { fNrows := m, fNcols := n, fRowLwb := 0, fColLwb := 0, fNelems := m * n, fValid := true,
    fElements := fun k => xs.getD k.toNat 0 }

/-- An object before any allocation: invalid, empty, no buffer. -/
def blank : TMatrixTSym Int :=
  { fNrows := 0, fNcols := 0, fRowLwb := 0, fColLwb := 0, fNelems := 0, fTol := 0,
    fIsOwner := true, fValid := false, fElements := Ptr.null,
    mem := { cells := fun _ _ => 7, nheap := 0, freed := [] } }

/-- The matrix `ofList cfg n xs` with both lower bounds set to `lwb`. -/
def ofListAt (cfg : Config Int) (lwb : Int) (n : Nat) (xs : List Int) : TMatrixTSym Int :=
  { ofList cfg n xs with fRowLwb := lwb, fColLwb := lwb }

/-- The entries of a matrix at the logical indices `lwb, ..., lwb+n-1`. -/
def entriesOf (m : TMatrixTSym Int) (lwb : Int) (n : Nat) : List (List Int) :=
  (List.range n).map fun i => (List.range n).map fun j => m.entry (lwb + i) (lwb + j)

/-- The constants for rational elements, as `cfg25`. -/
def cfgQ : Config ℚ := { kSizeMax := 25, epsilon := 0 }

/-- An owning matrix of rationals with `n` rows, every element equal to `x`; it
lives in `fDataStack` when `n*n <= kSizeMax` and in heap block 0 otherwise. -/
def constQ (n : Nat) (x : ℚ) : TMatrixTSym ℚ :=
  { fNrows := n, fNcols := n, fRowLwb := 0, fColLwb := 0, fNelems := n * n,
    fTol := 0, fIsOwner := true, fValid := true,
    fElements := if n = 0 then Ptr.null
                 else Ptr.loc (if (n * n : Int) ≤ 25 then Region.stack else Region.heap 0) 0,
    mem := { cells := fun _ _ => x, nheap := 1, freed := [] } }

/-- Collaborators that leave their matrix as it is and report 0. -/
def idleSolvers : Solvers ℚ :=
  { luDet := fun _ _ => (0, 0), power := fun _ _ => 0, bkInvert := fun m _ => m,
    cramer := fun _ m d => (m, d) }

/-- The number of elements of the upper right part, diagonal included, in the
rows before row `i` of a matrix with `n` columns. -/
def upperBefore (n : Nat) : Nat → Nat
  | 0 => 0
  | i + 1 => upperBefore n i + (n - i)

/-- The matrix `genOf m n xs` with both lower bounds set to `lwb`. -/
def genOfAt (lwb : Int) (m n : Nat) (xs : List Int) : TMatrixT Int :=
  { genOf m n xs with fRowLwb := lwb, fColLwb := lwb }

/-- A pointer to the start of a block of the free store. -/
def Ptr.onHeap : Ptr → Bool
  | Ptr.loc (Region.heap _) 0 => true
  | _ => false

/-- The number of elements of the lower left part, diagonal included, in the
rows before row `i`. -/
def lowerBefore : Nat → Nat
  | 0 => 0
  | i + 1 => lowerBefore i + (i + 1)

/-! # Theorems -/

/-! ## Loop rules -/

section LoopRules

variable {σ : Type}

theorem forUp_rule (body : Int → σ → Option σ) :
    ∀ (n : Nat) (P : Nat → σ → Prop) (a : Int) (s0 : σ), P 0 s0 →
      (∀ k s, k < n → P k s → ∃ s', body (a + k) s = some s' ∧ P (k + 1) s') →
      ∃ s', forUp body a n s0 = some s' ∧ P n s' := by
  intro n
  induction n with
  | zero => intro P a s0 h0 _; exact ⟨s0, rfl, h0⟩
  | succ n ih =>
    intro P a s0 h0 hstep
    obtain ⟨s1, hb, h1⟩ := hstep 0 s0 (Nat.succ_pos n) h0
    have hb' : body a s0 = some s1 := by simpa using hb
    obtain ⟨s', hs', hP⟩ := ih (fun k s => P (k + 1) s) (a + 1) s1 h1 (by
      intro k s hk hPk
      obtain ⟨s2, hb2, h2⟩ := hstep (k + 1) s (Nat.succ_lt_succ hk) hPk
      refine ⟨s2, ?_, h2⟩
      have : a + 1 + (k : Int) = a + ((k + 1 : Nat) : Int) := by push_cast; ring
      rw [this]; exact hb2)
    exact ⟨s', by simp [forUp, hb', hs'], hP⟩

theorem forDown_rule (body : Int → σ → Option σ) (P : Nat → σ → Prop) :
    ∀ (n : Nat) (s0 : σ), P n s0 →
      (∀ k s, k < n → P (k + 1) s → ∃ s', body k s = some s' ∧ P k s') →
      ∃ s', forDown body n s0 = some s' ∧ P 0 s' := by
  intro n
  induction n with
  | zero => intro s0 h0 _; exact ⟨s0, rfl, h0⟩
  | succ n ih =>
    intro s0 h0 hstep
    obtain ⟨s1, hb, h1⟩ := hstep n s0 (Nat.lt_succ_self n) h0
    obtain ⟨s', hs', hP⟩ := ih s1 h1 (fun k s hk => hstep k s (Nat.lt_succ_of_lt hk))
    exact ⟨s', by simp [forDown, hb, hs'], hP⟩

theorem whileLoop_rule (cond : σ → Bool) (body : σ → Option σ) (P : Nat → σ → Prop) (n : Nat)
    (hcond : ∀ k s, k ≤ n → P k s → (cond s = true ↔ k < n))
    (hstep : ∀ k s, k < n → P k s → ∃ s', body s = some s' ∧ P (k + 1) s') :
    ∀ (j fuel : Nat) (s0 : σ), j ≤ n → n - j < fuel → P j s0 →
      ∃ s', whileLoop cond body fuel s0 = some s' ∧ P n s' := by
  intro j fuel
  induction fuel generalizing j with
  | zero => intro s0 _ hf _; exact absurd hf (Nat.not_lt_zero _)
  | succ fuel ih =>
    intro s0 hj hf h0
    by_cases hlt : j < n
    · have hc : cond s0 = true := (hcond j s0 hj h0).2 hlt
      obtain ⟨s1, hb, h1⟩ := hstep j s0 hlt h0
      obtain ⟨s', hs', hP⟩ := ih (j + 1) s1 hlt (by omega) h1
      exact ⟨s', by simp [whileLoop, hc, hb, hs'], hP⟩
    · have hjn : j = n := by omega
      subst hjn
      have hc : ¬ cond s0 = true := fun h => hlt ((hcond j s0 hj h0).1 h)
      exact ⟨s0, by simp [whileLoop, hc], h0⟩

end LoopRules

/-! ## Pointers, cells and indices -/

theorem idx_inj (n a b a' b' : Nat) (hb : b < n) (hb' : b' < n) :
    (a : Int) * n + b = (a' : Int) * n + b' ↔ a = a' ∧ b = b' := by
  constructor
  · intro h
    have h' : a * n + b = a' * n + b' := by exact_mod_cast h
    have ha : a = a' := by
      rcases Nat.lt_trichotomy a a' with hlt | heq | hgt
      · exfalso
        have : (a + 1) * n ≤ a' * n := Nat.mul_le_mul_right n hlt
        nlinarith
      · exact heq
      · exfalso
        have : (a' + 1) * n ≤ a * n := Nat.mul_le_mul_right n hgt
        nlinarith
    subst ha
    exact ⟨rfl, by omega⟩
  · rintro ⟨rfl, rfl⟩; rfl

namespace Ptr

@[simp] theorem loc_add (r : Region) (o k : Int) : (Ptr.loc r o : Ptr) + k = Ptr.loc r (o + k) := rfl

@[simp] theorem null_add (k : Int) : (Ptr.null : Ptr) + k = Ptr.null := rfl

end Ptr

namespace Store

@[simp] theorem load_loc {R : Type} [CommRing R] (s : Store R) (r : Region) (o : Int) :
    s.load (Ptr.loc r o) = s.cells r o := rfl

variable {R : Type}

@[simp] theorem store_loc_cells (s : Store R) (r : Region) (o : Int) (v : R) (r' : Region)
    (o' : Int) :
    (s.store (Ptr.loc r o) v).cells r' o' = if r' = r ∧ o' = o then v else s.cells r' o' := rfl

/-- Writing the cell of position `(a',b')` of an `n`-column array changes the
cell of position `(a,b)` only when the positions agree. -/
theorem store_cell_idx (s : Store R) (r : Region) (o : Int) (n a b a' b' : Nat) (hb : b < n)
    (hb' : b' < n) (v : R) :
    (s.store (Ptr.loc r (o + ((a' : Int) * n + b'))) v).cells r (o + ((a : Int) * n + b))
      = if a = a' ∧ b = b' then v else s.cells r (o + ((a : Int) * n + b)) := by
  rw [store_loc_cells]
  have h : (o + ((a : Int) * n + b) = o + ((a' : Int) * n + b')) ↔ (a = a' ∧ b = b') := by
    rw [← idx_inj n a b a' b' hb hb']
    constructor <;> intro h <;> linarith
  by_cases hab : a = a' ∧ b = b'
  · rw [if_pos hab, if_pos ⟨rfl, h.2 hab⟩]
  · rw [if_neg hab, if_neg (fun hh => hab (h.1 hh.2))]

end Store

namespace TMatrixTSym

variable {R : Type} [CommRing R]

theorem IsSquare.squareAt {M : TMatrixTSym R} {n : Nat} (h : M.IsSquare n) (hn : 0 < n) :
    ∃ r o, M.SquareAt n r o := by
  cases hp : M.fElements with
  | null => exact absurd hp (h.buf hn)
  | loc r o => exact ⟨r, o, h.valid, h.rows, h.cols, h.nelems, hp⟩

theorem elem_eq_cells {M : TMatrixTSym R} {n : Nat} {r : Region} {o : Int}
    (h : M.SquareAt n r o) (i j : Int) :
    M.elem i j = M.mem.cells r (o + (i * n + j)) := by
  simp [elem, get, h.buf, h.cols]

theorem Rank1Update_row (M : TMatrixTSym R) (pv : Int → R) (alpha : R) (n : Nat)
    (r : Region) (o : Int) (hcols : M.fNcols = n) (hbuf : M.fElements = Ptr.loc r o)
    (i : Nat) (hi : i < n) (s : Store R) (F : Nat → Nat → R)
    (hs : ∀ a b : Nat, a < n → b < n → s.cells r (o + ((a : Int) * n + b)) = F a b) :
    ∃ u : TriState R,
      forUp (Rank1Update.colStep M pv (alpha * pv i) i) i (M.fNcols - i).toNat
        { trp := (i : Int) * n + i, tcp := (i : Int) * n + i, mem := s }
        = some u ∧ u.trp = ((i : Int) + 1) * n ∧ u.tcp = (n : Int) * n + i ∧
      ∀ a b : Nat, a < n → b < n → u.mem.cells r (o + ((a : Int) * n + b))
        = F a b + (if min a b = i then alpha * pv a * pv b else 0) := by
  have hcount : (M.fNcols - i).toNat = n - i := by rw [hcols]; omega
  rw [hcount]
  obtain ⟨u, hu, hP⟩ := forUp_rule (Rank1Update.colStep M pv (alpha * pv i) i) (n - i)
    (fun k (u : TriState R) => u.trp = (i : Int) * n + i + k ∧ u.tcp = ((i : Int) + k) * n + i ∧
      ∀ a b : Nat, a < n → b < n → u.mem.cells r (o + ((a : Int) * n + b))
        = F a b + (if min a b = i ∧ max a b < i + k then alpha * pv a * pv b else 0))
    (i : Int) { trp := (i : Int) * n + i, tcp := (i : Int) * n + i, mem := s }
    (by
      refine ⟨by simp, by simp, ?_⟩
      intro a b ha hb
      have c0 : ¬ (min a b = i ∧ max a b < i + 0) := by omega
      rw [if_neg c0, add_zero]
      exact hs a b ha hb)
    (by
      intro k u hk ⟨htrp, htcp, hmem⟩
      refine ⟨_, rfl, ?_, ?_, ?_⟩
      · simp only [htrp]; push_cast; ring
      · simp only [htcp, hcols]; push_cast; ring
      · intro a b ha hb
        have e1 : u.tcp = ((i + k : Nat) : Int) * n + (i : Nat) := by rw [htcp]; push_cast; ring
        have e2 : u.trp = ((i : Nat) : Int) * n + ((i + k : Nat) : Int) := by
          rw [htrp]; push_cast; ring
        have hik : i + k < n := by omega
        simp only [GetMatrixArray, hbuf]
        by_cases hk0 : k = 0
        · subst hk0
          have hgt : ¬ ((i : Int) + ((0 : Nat) : Int) > (i : Int)) := by simp
          simp only [hgt, if_false, Ptr.loc_add, Store.load_loc]
          rw [e2, Store.store_cell_idx _ r o n a b i (i + 0) hb hik, hmem i (i + 0) hi hik,
            hmem a b ha hb]
          by_cases hab : a = i ∧ b = i + 0
          · obtain ⟨rfl, rfl⟩ := hab
            simp
          · rw [if_neg hab]
            have c1 : ¬ (min a b = i ∧ max a b < i + 0) := by omega
            have c2 : ¬ (min a b = i ∧ max a b < i + (0 + 1)) := by omega
            rw [if_neg c1, if_neg c2]
        · have hgt : ((i : Int) + (k : Int) > (i : Int)) := by omega
          simp only [hgt, if_true, Ptr.loc_add, Store.load_loc]
          rw [e1, e2, Store.store_cell_idx _ r o n a b i (i + k) hb hik,
            Store.store_cell_idx _ r o n i (i + k) (i + k) i hik hi,
            Store.store_cell_idx _ r o n a b (i + k) i hb hi,
            hmem i (i + k) hi hik, hmem (i + k) i hik hi, hmem a b ha hb]
          have n1 : ¬ (i = i + k ∧ i + k = i) := by omega
          rw [if_neg n1]
          by_cases hab : a = i ∧ b = i + k
          · obtain ⟨rfl, rfl⟩ := hab
            have c1 : ¬ (min a (a + k) = a ∧ max a (a + k) < a + k) := by omega
            have c2 : (min a (a + k) = a ∧ max a (a + k) < a + (k + 1)) := by omega
            rw [if_pos ⟨rfl, rfl⟩, if_neg c1, if_pos c2]
            push_cast; ring
          · rw [if_neg hab]
            by_cases hba : a = i + k ∧ b = i
            · obtain ⟨rfl, rfl⟩ := hba
              have c1 : ¬ (min (b + k) b = b ∧ max (b + k) b < b + k) := by omega
              have c2 : (min (b + k) b = b ∧ max (b + k) b < b + (k + 1)) := by omega
              rw [if_pos ⟨rfl, rfl⟩, if_neg c1, if_pos c2]
              push_cast; ring
            · rw [if_neg hba]
              by_cases c1 : min a b = i ∧ max a b < i + k
              · have c2 : (min a b = i ∧ max a b < i + (k + 1)) := by omega
                rw [if_pos c1, if_pos c2]
              · have c2 : ¬ (min a b = i ∧ max a b < i + (k + 1)) := by omega
                rw [if_neg c1, if_neg c2])
  obtain ⟨h1, h2, h3⟩ := hP
  refine ⟨u, hu, ?_, ?_, ?_⟩
  · rw [h1]; push_cast [Nat.cast_sub hi.le]; ring
  · rw [h2]; push_cast [Nat.cast_sub hi.le]; ring
  · intro a b ha hb
    rw [h3 a b ha hb]
    by_cases c : min a b = i
    · have c2 : (min a b = i ∧ max a b < i + (n - i)) := by omega
      rw [if_pos c, if_pos c2]
    · have c2 : ¬ (min a b = i ∧ max a b < i + (n - i)) := by omega
      rw [if_neg c, if_neg c2]

theorem Rank1Update_loop (M : TMatrixTSym R) (pv : Int → R) (alpha : R) (n : Nat)
    (r : Region) (o : Int) (h : M.SquareAt n r o) :
    ∃ s : TriState R,
      forUp (Rank1Update.rowStep M pv alpha) 0 n { trp := 0, tcp := 0, mem := M.mem }
        = some s ∧
      ∀ a b : Nat, a < n → b < n → s.mem.cells r (o + ((a : Int) * n + b))
        = M.mem.cells r (o + ((a : Int) * n + b)) + alpha * pv a * pv b := by
  obtain ⟨s, hs, hP⟩ := forUp_rule (Rank1Update.rowStep M pv alpha) n
    (fun i (s : TriState R) => s.trp = (i : Int) * n ∧ s.tcp = i ∧
      ∀ a b : Nat, a < n → b < n → s.mem.cells r (o + ((a : Int) * n + b))
        = M.mem.cells r (o + ((a : Int) * n + b))
          + (if min a b < i then alpha * pv a * pv b else 0))
    0 { trp := 0, tcp := 0, mem := M.mem }
    (by
      refine ⟨by simp, by simp, ?_⟩
      intro a b _ _
      rw [if_neg (Nat.not_lt_zero _), add_zero])
    (by
      intro i s hi ⟨htrp, htcp, hmem⟩
      obtain ⟨u, hu, hu1, hu2, hu3⟩ := Rank1Update_row M pv alpha n r o h.cols h.buf i hi s.mem
        _ hmem
      have hstart : ({ trp := s.trp + (0 + (i : Int)),
                       tcp := s.tcp + (0 + (i : Int)) * M.fNcols,
                       mem := s.mem } : TriState R)
          = { trp := (i : Int) * n + i, tcp := (i : Int) * n + i, mem := s.mem } := by
        rw [htrp, htcp, h.cols]
        congr 1 <;> ring
      refine ⟨{ trp := u.trp, tcp := u.tcp - (M.fNelems - 1), mem := u.mem }, ?_, ?_, ?_, ?_⟩
      · simp only [Rank1Update.rowStep, hstart]
        rw [zero_add, hu]; rfl
      · simp only [hu1]; push_cast; ring
      · simp only [hu2, h.nelems]; push_cast; ring
      · intro a b ha hb
        rw [hu3 a b ha hb, add_assoc]
        congr 1
        by_cases c1 : min a b < i
        · have c2 : ¬ min a b = i := by omega
          have c3 : min a b < i + 1 := by omega
          rw [if_pos c1, if_neg c2, if_pos c3, add_zero]
        · by_cases c2 : min a b = i
          · have c3 : min a b < i + 1 := by omega
            rw [if_neg c1, if_pos c2, if_pos c3, zero_add]
          · have c3 : ¬ min a b < i + 1 := by omega
            rw [if_neg c1, if_neg c2, if_neg c3, add_zero])
  refine ⟨s, hs, ?_⟩
  intro a b ha hb
  rw [hP.2.2 a b ha hb, if_pos (by omega)]

end TMatrixTSym

/-! ## Dot products -/

namespace TMatrixTSym

variable {R : Type} [CommRing R]

theorem dot_loop (xs ys : Int → R) (da db lim a0 b0 : Int) (K fuel : Nat)
    (hK : ∀ k : Nat, k ≤ K → (b0 + k * db < lim ↔ k < K)) (hf : K < fuel) :
    whileLoop (fun u : DotState R => decide (u.bp < lim)) (dotStep xs ys da db) fuel
        { ap := a0, bp := b0, cij := 0 }
      = some { ap := a0 + K * da, bp := b0 + K * db,
               cij := ∑ k in Finset.range K, xs (a0 + k * da) * ys (b0 + k * db) } := by
  obtain ⟨s, hs, hP⟩ := whileLoop_rule (fun u : DotState R => decide (u.bp < lim))
    (dotStep xs ys da db)
    (fun k u => u = { ap := a0 + k * da, bp := b0 + k * db,
                      cij := ∑ l in Finset.range k, xs (a0 + l * da) * ys (b0 + l * db) }) K
    (by
      intro k u hk hu
      subst hu
      simpa using hK k hk)
    (by
      intro k u _ hu
      subst hu
      refine ⟨_, rfl, ?_⟩
      simp only [Finset.sum_range_succ]
      congr 1 <;> push_cast <;> ring)
    0 fuel { ap := a0, bp := b0, cij := 0 } (Nat.zero_le K) (by omega) (by simp)
  rw [hs, hP]

end TMatrixTSym

/-! ## Allocation -/

namespace TMatrixTSym

variable {R : Type} [CommRing R]

theorem Allocate_zero (cfg : Config R) (M : TMatrixTSym R) (l init : Int) :
    (Allocate cfg M 0 0 l l init).IsSquare 0 ∧ (Allocate cfg M 0 0 l l init).fRowLwb = l ∧
      (Allocate cfg M 0 0 l l init).fColLwb = l := by
  refine ⟨⟨?_, ?_, ?_, ?_, ?_⟩, ?_, ?_⟩ <;> simp [Allocate, MakeValid]

theorem Allocate_pos (cfg : Config R) (M : TMatrixTSym R) (n : Nat) (hn : 0 < n) (l init : Int) :
    ∃ r, (Allocate cfg M n n l l init).SquareAt n r 0 ∧
      (Allocate cfg M n n l l init).fRowLwb = l ∧ (Allocate cfg M n n l l init).fColLwb = l ∧
      (Allocate cfg M n n l l init).fIsOwner = true := by
  have h1 : ¬ ((n : Int) < 0) := by omega
  have h2 : (n : Int) * n > 0 := by positivity
  have h3 : ¬ ((n : Int) * n = 0) := by omega
  by_cases hk : (n : Int) * n ≤ cfg.kSizeMax
  · refine ⟨Region.stack, ⟨?_, ?_, ?_, ?_, ?_⟩, ?_, ?_, ?_⟩ <;>
      by_cases hi : init = 0 <;> simp [Allocate, MakeValid, New_m, h1, h2, h3, hk, hi]
  · refine ⟨Region.heap M.mem.nheap, ⟨?_, ?_, ?_, ?_, ?_⟩, ?_, ?_, ?_⟩ <;>
      by_cases hi : init = 0 <;>
      simp [Allocate, MakeValid, New_m, Store.alloc, h1, h2, h3, hk, hi]

end TMatrixTSym

namespace TMatrixTSym

variable {R : Type} [CommRing R]

theorem AtMultA_col (fuel : Nat) (a : TMatrixT R) (m n : Nat) (ha : a.IsShape m n)
    (hf : m < fuel) (r : Region) (o : Int) (i j : Nat) (hj : j < n) (c : Int) (s : Store R) :
    AtMultA.colStep fuel a (Ptr.loc r o) i { bcp := j, cp := c, mem := s }
      = some { bcp := ((j + 1 : Nat) : Int), cp := c + 1,
               mem := s.store (Ptr.loc r (o + c))
                 (∑ k in Finset.range m, a.elem k i * a.elem k j) } := by
  have hK : ∀ k : Nat, k ≤ m → ((j : Int) + k * a.GetNcols < 0 + a.GetNoElements ↔ k < m) := by
    intro k hk
    simp only [TMatrixT.GetNcols, TMatrixT.GetNoElements, ha.cols, ha.nelems, zero_add]
    constructor
    · intro h
      by_contra hc
      have : k = m := by omega
      subst this
      omega
    · intro h
      have h1 : ((k : Int) + 1) * n ≤ (m : Int) * n := by
        have : k + 1 ≤ m := h
        exact_mod_cast Nat.mul_le_mul_right n this
      have h2 : (j : Int) < n := by exact_mod_cast hj
      nlinarith
  simp only [AtMultA.colStep]
  rw [dot_loop a.fElements a.fElements a.GetNcols a.GetNcols (0 + a.GetNoElements) i j m fuel hK hf]
  simp only [Option.some_bind, TMatrixT.GetNcols, TMatrixT.GetNoElements, ha.cols, ha.nelems,
    Ptr.loc_add]
  congr 2
  · push_cast; ring
  · congr 1
    apply Finset.sum_congr rfl
    intro k _
    simp only [TMatrixT.elem, ha.cols]
    congr 2 <;> ring

theorem AtMultA_row (fuel : Nat) (a : TMatrixT R) (m n : Nat) (ha : a.IsShape m n)
    (hf : max m n < fuel) (r : Region) (o : Int) (i : Nat) (s : Store R) :
    ∃ t : RowState R,
      whileLoop (fun t : RowState R => decide (t.bcp < 0 + a.GetNcols))
        (AtMultA.colStep fuel a (Ptr.loc r o) i) fuel
        { bcp := 0, cp := (i : Int) * n, mem := s } = some t ∧
      t.cp = ((i : Int) + 1) * n ∧
      ∀ x y : Nat, y < n → t.mem.cells r (o + ((x : Int) * n + y))
        = if x = i then ∑ k in Finset.range m, a.elem k i * a.elem k y
          else s.cells r (o + ((x : Int) * n + y)) := by
  obtain ⟨t, ht, hP⟩ := whileLoop_rule (fun t : RowState R => decide (t.bcp < 0 + a.GetNcols))
    (AtMultA.colStep fuel a (Ptr.loc r o) i)
    (fun j t => t.bcp = j ∧ t.cp = (i : Int) * n + j ∧
      ∀ x y : Nat, y < n → t.mem.cells r (o + ((x : Int) * n + y))
        = if x = i ∧ y < j then ∑ k in Finset.range m, a.elem k i * a.elem k y
          else s.cells r (o + ((x : Int) * n + y))) n
    (by
      intro j t _ ⟨hb, _, _⟩
      simp only [hb, TMatrixT.GetNcols, ha.cols, zero_add, decide_eq_true_eq]
      omega)
    (by
      intro j t hj ⟨hb, hc, hmem⟩
      have ht : t = { bcp := (j : Int), cp := t.cp, mem := t.mem } := by rw [← hb]
      refine ⟨_, by rw [ht]; exact AtMultA_col fuel a m n ha (by omega) r o i j hj t.cp t.mem,
        rfl, ?_, ?_⟩
      · simp only [hc]; push_cast; ring
      · intro x y hy
        have e : o + t.cp = o + ((i : Int) * n + j) := by rw [hc]
        simp only
        rw [e, Store.store_cell_idx _ r o n x y i j hy hj, hmem x y hy]
        by_cases c1 : x = i ∧ y = j
        · obtain ⟨rfl, rfl⟩ := c1
          rw [if_pos ⟨rfl, rfl⟩, if_pos ⟨rfl, Nat.lt_succ_self _⟩]
        · rw [if_neg c1]
          by_cases c2 : x = i ∧ y < j
          · rw [if_pos c2, if_pos ⟨c2.1, by omega⟩]
          · rw [if_neg c2, if_neg (by omega)])
    0 fuel { bcp := 0, cp := (i : Int) * n, mem := s } (Nat.zero_le n) (by omega)
    ⟨rfl, by simp, by
      intro x y _
      rw [if_neg (by omega)]⟩
  refine ⟨t, ht, ?_, ?_⟩
  · rw [hP.2.1]; ring
  · intro x y hy
    rw [hP.2.2 x y hy]
    by_cases c : x = i
    · rw [if_pos ⟨c, hy⟩, if_pos c]
    · rw [if_neg (fun h => c h.1), if_neg c]

theorem AtMultA_loop (fuel : Nat) (a : TMatrixT R) (m n : Nat) (ha : a.IsShape m n)
    (hf : max m n < fuel) (r : Region) (o : Int) (s0 : Store R) :
    ∃ s : AtaState R,
      whileLoop (fun s : AtaState R => decide (s.acp0 < 0 + a.GetNcols))
        (AtMultA.rowStep fuel a (Ptr.loc r o)) fuel { acp0 := 0, cp := 0, mem := s0 } = some s ∧
      s.acp0 = n ∧ s.cp = (n : Int) * n ∧
      ∀ x y : Nat, x < n → y < n → s.mem.cells r (o + ((x : Int) * n + y))
        = ∑ k in Finset.range m, a.elem k x * a.elem k y := by
  obtain ⟨s, hs, hP⟩ := whileLoop_rule (fun s : AtaState R => decide (s.acp0 < 0 + a.GetNcols))
    (AtMultA.rowStep fuel a (Ptr.loc r o))
    (fun i s => s.acp0 = i ∧ s.cp = (i : Int) * n ∧
      ∀ x y : Nat, x < i → y < n → s.mem.cells r (o + ((x : Int) * n + y))
        = ∑ k in Finset.range m, a.elem k x * a.elem k y) n
    (by
      intro i s _ ⟨hb, _, _⟩
      simp only [hb, TMatrixT.GetNcols, ha.cols, zero_add, decide_eq_true_eq]
      omega)
    (by
      intro i s hi ⟨hb, hc, hmem⟩
      obtain ⟨t, ht, ht1, ht2⟩ := AtMultA_row fuel a m n ha hf r o i s.mem
      refine ⟨{ acp0 := s.acp0 + 1, cp := t.cp, mem := t.mem }, ?_, ?_, ?_, ?_⟩
      · simp only [AtMultA.rowStep, hb, hc, ht, Option.some_bind]
      · simp only [hb]; push_cast; ring
      · simp only [ht1]; push_cast; ring
      · intro x y hx hy
        simp only
        rw [ht2 x y hy]
        by_cases c : x = i
        · subst c; rw [if_pos rfl]
        · rw [if_neg c]; exact hmem x y (by omega) hy)
    0 fuel { acp0 := 0, cp := 0, mem := s0 } (Nat.zero_le n) (by omega)
    ⟨rfl, by simp, by intro x y hx; omega⟩
  exact ⟨s, hs, hP.1, hP.2.1, fun x y hx hy => hP.2.2 x y hx hy⟩

end TMatrixTSym

/-! ## Copying -/

namespace Store

variable {R : Type} [CommRing R]

theorem ext_cells {s t : Store R} (h1 : s.cells = t.cells) (h2 : s.nheap = t.nheap)
    (h3 : s.freed = t.freed) : s = t := by
  cases s; cases t; simp_all

theorem copy_down (s : Store R) (rn ro : Region) (pn po : Int) (c : Nat)
    (h : rn = ro → po ≤ pn) :
    forDown (fun i t => some (t.store (Ptr.loc rn pn + i) (t.load (Ptr.loc ro po + i)))) c s
      = some (s.moved rn pn ro po c) := by
  obtain ⟨t, ht, hP⟩ := forDown_rule
    (fun i (t : Store R) => some (t.store (Ptr.loc rn pn + i) (t.load (Ptr.loc ro po + i))))
    (fun k t => t = { s with cells := fun r q =>
      if r = rn ∧ pn + k ≤ q ∧ q < pn + c then s.cells ro (po + (q - pn)) else s.cells r q })
    c s
    (by
      beta_reduce
      refine ext_cells ?_ rfl rfl
      funext r q
      simp only
      rw [if_neg (by omega)])
    (by
      intro k t hk ht
      subst ht
      refine ⟨_, rfl, ?_⟩
      beta_reduce
      refine ext_cells ?_ rfl rfl
      funext r q
      simp only [Ptr.loc_add, load_loc, store_loc_cells]
      push_cast
      by_cases e1 : r = rn
      · subst e1
        simp only [true_and]
        by_cases e2 : ro = r
        · subst e2
          have := h rfl
          simp only [true_and]
          split_ifs <;> first | rfl | (exfalso; omega) | (congr 1; omega)
        · simp only [e2, false_and, if_false]
          split_ifs <;> first | rfl | (exfalso; omega) | (congr 1; omega)
      · simp only [e1, false_and, if_false])
  rw [ht, hP]
  congr 1
  refine ext_cells ?_ rfl rfl
  funext r q
  simp only [moved, Nat.cast_zero, add_zero]

theorem copy_up (s : Store R) (rn ro : Region) (pn po : Int) (c : Nat)
    (h : rn = ro → pn ≤ po) :
    forUp (fun i t => some (t.store (Ptr.loc rn pn + i) (t.load (Ptr.loc ro po + i)))) 0 c s
      = some (s.moved rn pn ro po c) := by
  obtain ⟨t, ht, hP⟩ := forUp_rule
    (fun i (t : Store R) => some (t.store (Ptr.loc rn pn + i) (t.load (Ptr.loc ro po + i)))) c
    (fun k t => t = { s with cells := fun r q =>
      if r = rn ∧ pn ≤ q ∧ q < pn + k then s.cells ro (po + (q - pn)) else s.cells r q })
    0 s
    (by
      beta_reduce
      refine ext_cells ?_ rfl rfl
      funext r q
      simp only
      rw [if_neg (by omega)])
    (by
      intro k t hk ht
      subst ht
      refine ⟨_, rfl, ?_⟩
      beta_reduce
      refine ext_cells ?_ rfl rfl
      funext r q
      simp only [Ptr.loc_add, load_loc, store_loc_cells, zero_add]
      push_cast
      by_cases e1 : r = rn
      · subst e1
        simp only [true_and]
        by_cases e2 : ro = r
        · subst e2
          have := h rfl
          simp only [true_and]
          split_ifs <;> first | rfl | (exfalso; omega) | (congr 1; omega)
        · simp only [e2, false_and, if_false]
          split_ifs <;> first | rfl | (exfalso; omega) | (congr 1; omega)
      · simp only [e1, false_and, if_false])
  rw [ht, hP]
  rfl

end Store

namespace TMatrixTSym

variable {R : Type} [CommRing R]

/-- The copy of `Memcpy_m` moves `c` cells, each read before the copy, when
both sizes are within `kSizeMax` or the two ranges do not overlap. -/
theorem Memcpy_m_moved (cfg : Config R) (s : Store R) (rn ro : Region) (pn po : Int) (c : Nat)
    (newSize oldSize : Int)
    (hsafe : (newSize ≤ cfg.kSizeMax ∧ oldSize ≤ cfg.kSizeMax) ∨
      Ptr.overlap (Ptr.loc rn pn) (Ptr.loc ro po) c = false) :
    Memcpy_m cfg s (Ptr.loc rn pn) (Ptr.loc ro po) c newSize oldSize
      = some (s.moved rn pn ro po c) := by
  unfold Memcpy_m
  by_cases h0 : (c : Int) = 0 ∨ Ptr.loc ro po = Ptr.loc rn pn
  · rw [if_pos h0]
    congr 1
    refine Store.ext_cells ?_ rfl rfl
    funext r q
    simp only [Store.moved]
    rcases h0 with h0 | h0
    · rw [if_neg (by omega)]
    · injection h0 with e1 e2
      subst e1 e2
      by_cases c1 : r = ro ∧ po ≤ q ∧ q < po + c
      · rw [if_pos c1, c1.1]; congr 1; ring
      · rw [if_neg c1]
  · rw [if_neg h0]
    by_cases hin : newSize ≤ cfg.kSizeMax ∧ oldSize ≤ cfg.kSizeMax
    · rw [if_pos hin, Int.toNat_ofNat]
      by_cases hlt : Ptr.lt (Ptr.loc ro po) (Ptr.loc rn pn) = true
      · rw [if_pos hlt]
        apply Store.copy_down
        intro e
        subst e
        simp [Ptr.lt] at hlt
        omega
      · rw [if_neg hlt]
        apply Store.copy_up
        intro e
        subst e
        simp [Ptr.lt] at hlt
        omega
    · rw [if_neg hin]
      have hov : Ptr.overlap (Ptr.loc rn pn) (Ptr.loc ro po) c = false := by
        rcases hsafe with h | h
        · exact absurd h hin
        · exact h
      simp only [Store.memcpy, hov]
      rfl

end TMatrixTSym

namespace TMatrixTSym

variable {R : Type} [CommRing R]

theorem moved_cells (s : Store R) (rn : Region) (pn : Int) (ro : Region) (po n : Int)
    (r : Region) (q : Int) :
    (s.moved rn pn ro po n).cells r q
      = if r = rn ∧ pn ≤ q ∧ q < pn + n then s.cells ro (po + (q - pn)) else s.cells r q := rfl

/-- Rows copied from the last to the first when the matrix grows from `p` to
`n` columns (source lines 755-758). -/
theorem ResizeTo_rows_down (cfg : Config R) (s0 : Store R) (rn ro : Region) (p n : Nat)
    (hpn : p < n) (newSize oldSize : Int)
    (hsafe : (newSize ≤ cfg.kSizeMax ∧ oldSize ≤ cfg.kSizeMax) ∨ rn ≠ ro) :
    ∃ t : Store R,
      forDown (fun i s => Memcpy_m cfg s (Ptr.loc rn 0 + i * (n : Int)) (Ptr.loc ro 0 + i * (p : Int))
        (p : Int) newSize oldSize) p s0 = some t ∧
      (∀ i c : Nat, i < p → c < p →
        t.cells rn ((i : Int) * n + c) = s0.cells ro ((i : Int) * p + c)) ∧
      (∀ a b : Nat, b < n → (p ≤ a ∨ p ≤ b) →
        t.cells rn ((a : Int) * n + b) = s0.cells rn ((a : Int) * n + b)) ∧
      t.nheap = s0.nheap ∧ t.freed = s0.freed := by
  obtain ⟨t, ht, hP⟩ := forDown_rule
    (fun i s => Memcpy_m cfg s (Ptr.loc rn 0 + i * (n : Int)) (Ptr.loc ro 0 + i * (p : Int))
        (p : Int) newSize oldSize)
    (fun k t =>
      (∀ q : Int, (ro = rn → q < (k : Int) * n) → t.cells ro q = s0.cells ro q) ∧
      (∀ i c : Nat, k ≤ i → i < p → c < p →
        t.cells rn ((i : Int) * n + c) = s0.cells ro ((i : Int) * p + c)) ∧
      (∀ a b : Nat, b < n → (p ≤ a ∨ p ≤ b) →
        t.cells rn ((a : Int) * n + b) = s0.cells rn ((a : Int) * n + b)) ∧
      t.nheap = s0.nheap ∧ t.freed = s0.freed)
    p s0
    ⟨fun _ _ => rfl, fun i c h1 h2 _ => by omega, fun _ _ _ _ => rfl, rfl, rfl⟩
    (by
      intro k t hk ⟨hU, hD, hF, hn1, hn2⟩
      have hsafe' : (newSize ≤ cfg.kSizeMax ∧ oldSize ≤ cfg.kSizeMax) ∨
          Ptr.overlap (Ptr.loc rn (0 + (k : Int) * n)) (Ptr.loc ro (0 + (k : Int) * p)) p
            = false := by
        rcases hsafe with h | h
        · exact Or.inl h
        · right; simp [Ptr.overlap, h]
      refine ⟨_, Memcpy_m_moved cfg t rn ro _ _ p newSize oldSize hsafe', ?_, ?_, ?_, hn1, hn2⟩
      · intro q hq
        rw [moved_cells, if_neg, hU q]
        · intro e; have := hq e; push_cast; nlinarith
        · rintro ⟨e, h1, _⟩; have := hq e; omega
      · intro i c hki hi hc
        rw [moved_cells]
        by_cases hik : i = k
        · subst hik
          rw [if_pos ⟨rfl, by omega, by omega⟩, hU]
          · congr 1; ring
          · intro _
            have h1 : (i : Int) * p ≤ (i : Int) * n := by
              apply mul_le_mul_of_nonneg_left <;> omega
            push_cast
            have : (c : Int) < p := by omega
            have : (p : Int) < n := by omega
            linarith
        · have hlt : k + 1 ≤ i := by omega
          have h1 : ((k : Int) + 1) * n ≤ (i : Int) * n := by
            apply mul_le_mul_of_nonneg_right <;> omega
          rw [if_neg, hD i c (by omega) hi hc]
          rintro ⟨_, _, h3⟩
          have : (p : Int) < n := by omega
          linarith
      · intro a b hb hab
        rw [moved_cells, if_neg, hF a b hb hab]
        rintro ⟨_, h2, h3⟩
        have hak : a = k := by
          by_contra hne
          rcases Nat.lt_or_gt_of_ne hne with h | h
          · have h1 : ((a : Int) + 1) * n ≤ (k : Int) * n := by
              apply mul_le_mul_of_nonneg_right <;> omega
            have : (b : Int) < n := by omega
            linarith
          · have h1 : ((k : Int) + 1) * n ≤ (a : Int) * n := by
              apply mul_le_mul_of_nonneg_right <;> omega
            have : (p : Int) < n := by omega
            linarith
        subst hak
        omega)
  exact ⟨t, ht, fun i c hi hc => hP.2.1 i c (Nat.zero_le i) hi hc, hP.2.2⟩

/-- Rows copied from the first to the last when the matrix shrinks from `p`
to `n` columns (source lines 760-762). -/
theorem ResizeTo_rows_up (cfg : Config R) (s0 : Store R) (rn ro : Region) (p n : Nat)
    (hnp : n < p) (newSize oldSize : Int)
    (hsafe : (newSize ≤ cfg.kSizeMax ∧ oldSize ≤ cfg.kSizeMax) ∨ rn ≠ ro) :
    ∃ t : Store R,
      forUp (fun i s => Memcpy_m cfg s (Ptr.loc rn 0 + i * (n : Int)) (Ptr.loc ro 0 + i * (p : Int))
        (n : Int) newSize oldSize) 0 n s0 = some t ∧
      (∀ i c : Nat, i < n → c < n →
        t.cells rn ((i : Int) * n + c) = s0.cells ro ((i : Int) * p + c)) ∧
      t.nheap = s0.nheap ∧ t.freed = s0.freed := by
  obtain ⟨t, ht, hP⟩ := forUp_rule
    (fun i s => Memcpy_m cfg s (Ptr.loc rn 0 + i * (n : Int)) (Ptr.loc ro 0 + i * (p : Int))
        (n : Int) newSize oldSize) n
    (fun k t =>
      (∀ q : Int, (ro = rn → (k : Int) * n ≤ q) → t.cells ro q = s0.cells ro q) ∧
      (∀ i c : Nat, i < k → c < n →
        t.cells rn ((i : Int) * n + c) = s0.cells ro ((i : Int) * p + c)) ∧
      t.nheap = s0.nheap ∧ t.freed = s0.freed)
    0 s0
    ⟨fun _ _ => rfl, fun i c h1 _ => by omega, rfl, rfl⟩
    (by
      intro k t hk ⟨hU, hD, hn1, hn2⟩
      have hsafe' : (newSize ≤ cfg.kSizeMax ∧ oldSize ≤ cfg.kSizeMax) ∨
          Ptr.overlap (Ptr.loc rn (0 + (0 + (k : Int)) * n)) (Ptr.loc ro (0 + (0 + (k : Int)) * p)) n
            = false := by
        rcases hsafe with h | h
        · exact Or.inl h
        · right; simp [Ptr.overlap, h]
      refine ⟨_, Memcpy_m_moved cfg t rn ro _ _ n newSize oldSize hsafe', ?_, ?_, hn1, hn2⟩
      · intro q hq
        rw [moved_cells, if_neg, hU q]
        · intro e; have := hq e; push_cast at this; nlinarith
        · rintro ⟨e, _, h1⟩; have := hq e; push_cast at this; linarith
      · intro i c hik hc
        rw [moved_cells]
        simp only [zero_add]
        by_cases hik' : i = k
        · subst hik'
          rw [if_pos ⟨trivial, by omega, by omega⟩, hU]
          · congr 1; ring
          · intro _
            have h1 : (i : Int) * n ≤ (i : Int) * p := by
              apply mul_le_mul_of_nonneg_left <;> omega
            have : (0 : Int) ≤ c := by omega
            linarith
        · have hlt : i + 1 ≤ k := by omega
          have h1 : ((i : Int) + 1) * n ≤ (k : Int) * n := by
            apply mul_le_mul_of_nonneg_right <;> omega
          rw [if_neg, hD i c (by omega) hc]
          rintro ⟨_, h2, _⟩
          have : (c : Int) < n := by omega
          linarith)
  exact ⟨t, ht, hP.2⟩

end TMatrixTSym

namespace TMatrixTSym

variable {R : Type} [CommRing R]

theorem Allocate_small (cfg : Config R) (M : TMatrixTSym R) (n : Nat) (hn : 0 < n)
    (hk : (n : Int) * n ≤ cfg.kSizeMax) (l : Int) :
    Allocate cfg M n n l l 0
      = { M with fValid := true, fNrows := n, fNcols := n, fRowLwb := l, fColLwb := l,
                 fNelems := (n : Int) * n, fIsOwner := true, fTol := cfg.epsilon,
                 fElements := Ptr.loc Region.stack 0 } := by
  have h1 : ¬ ((n : Int) < 0) := by omega
  have h2 : (n : Int) * n > 0 := by positivity
  have h3 : ¬ ((n : Int) * n = 0) := by omega
  simp [Allocate, MakeValid, New_m, h1, h2, h3, hk]

theorem Allocate_large (cfg : Config R) (M : TMatrixTSym R) (n : Nat)
    (hk : cfg.kSizeMax < (n : Int) * n) (hpos : 0 < (n : Int) * n) (l : Int) :
    Allocate cfg M n n l l 0
      = { M with fValid := true, fNrows := n, fNcols := n, fRowLwb := l, fColLwb := l,
                 fNelems := (n : Int) * n, fIsOwner := true, fTol := cfg.epsilon,
                 fElements := Ptr.loc (Region.heap M.mem.nheap) 0,
                 mem := { M.mem with nheap := M.mem.nheap + 1 } } := by
  have h1 : ¬ ((n : Int) < 0) := by omega
  have h3 : ¬ ((n : Int) * n = 0) := by omega
  have h4 : ¬ ((n : Int) * n ≤ cfg.kSizeMax) := by omega
  simp [Allocate, MakeValid, New_m, Store.alloc, h1, hpos, h3, h4]

/-- What `Allocate(n,n)` without zero fill does to an owned `p` by `p` matrix:
the new buffer is at offset 0 of a block `rn`, the old one at offset 0 of a
block `ro`, the cells are untouched, and the two blocks differ unless both
sizes are within `kSizeMax`. -/
theorem Allocate_regions (cfg : Config R) (M : TMatrixTSym R) (p n : Nat) (hp : 0 < p)
    (hn : 0 < n) (h : M.IsOwned cfg p) :
    ∃ rn ro, M.fElements = Ptr.loc ro 0 ∧
      (Allocate cfg M n n 0 0 0).SquareAt n rn 0 ∧
      (Allocate cfg M n n 0 0 0).fRowLwb = 0 ∧ (Allocate cfg M n n 0 0 0).fColLwb = 0 ∧
      (Allocate cfg M n n 0 0 0).IsOwned cfg n ∧
      (Allocate cfg M n n 0 0 0).mem.cells = M.mem.cells ∧
      (((n : Int) * n ≤ cfg.kSizeMax ∧ (p : Int) * p ≤ cfg.kSizeMax ∧ rn = Region.stack ∧
          ro = Region.stack) ∨
        ((cfg.kSizeMax < (n : Int) * n ∨ cfg.kSizeMax < (p : Int) * p) ∧ rn ≠ ro)) := by
  have hpos : 0 < (n : Int) * n := by positivity
  by_cases hk : (n : Int) * n ≤ cfg.kSizeMax
  · rw [Allocate_small cfg M n hn hk 0]
    by_cases hkp : (p : Int) * p ≤ cfg.kSizeMax
    · refine ⟨Region.stack, Region.stack, h.small hp hkp, ⟨rfl, rfl, rfl, rfl, rfl⟩, rfl, rfl,
        ⟨⟨rfl, rfl, rfl, rfl, fun _ => Ptr.noConfusion⟩, rfl, fun _ _ => rfl,
          fun hh => absurd hk (by omega)⟩, rfl, Or.inl ⟨hk, hkp, rfl, rfl⟩⟩
    · obtain ⟨b, _, hb⟩ := h.large (by omega)
      refine ⟨Region.stack, Region.heap b, hb, ⟨rfl, rfl, rfl, rfl, rfl⟩, rfl, rfl,
        ⟨⟨rfl, rfl, rfl, rfl, fun _ => Ptr.noConfusion⟩, rfl, fun _ _ => rfl,
          fun hh => absurd hk (by omega)⟩, rfl, Or.inr ⟨Or.inr (by omega), Region.noConfusion⟩⟩
  · have hk' : cfg.kSizeMax < (n : Int) * n := by omega
    rw [Allocate_large cfg M n hk' hpos 0]
    have hown : ({ M with
        fValid := true, fNrows := n, fNcols := n, fRowLwb := 0, fColLwb := 0,
        fNelems := (n : Int) * n, fIsOwner := true, fTol := cfg.epsilon,
        fElements := Ptr.loc (Region.heap M.mem.nheap) 0,
        mem := { M.mem with nheap := M.mem.nheap + 1 } } : TMatrixTSym R).IsOwned cfg n :=
      ⟨⟨rfl, rfl, rfl, rfl, fun _ => Ptr.noConfusion⟩, rfl, fun _ hh => absurd hh hk,
        fun _ => ⟨M.mem.nheap, Nat.lt_succ_self _, rfl⟩⟩
    by_cases hkp : (p : Int) * p ≤ cfg.kSizeMax
    · refine ⟨Region.heap M.mem.nheap, Region.stack, h.small hp hkp, ⟨rfl, rfl, rfl, rfl, rfl⟩,
        rfl, rfl, hown, rfl, Or.inr ⟨Or.inl hk', Region.noConfusion⟩⟩
    · obtain ⟨b, hlt, hb⟩ := h.large (by omega)
      refine ⟨Region.heap M.mem.nheap, Region.heap b, hb, ⟨rfl, rfl, rfl, rfl, rfl⟩,
        rfl, rfl, hown, rfl, Or.inr ⟨Or.inl hk', ?_⟩⟩
      intro e
      injection e with e
      omega

end TMatrixTSym

namespace TMatrixTSym

variable {R : Type} [CommRing R]

theorem Delete_m_cells (cfg : Config R) (s : Store R) (size : Int) (m : Ptr) :
    (Delete_m cfg s size m).1.cells = s.cells ∧ (Delete_m cfg s size m).1.nheap = s.nheap := by
  unfold Delete_m
  split_ifs <;> exact ⟨rfl, rfl⟩

theorem memset_cells (s : Store R) (r : Region) (o n : Int) (r' : Region) (q : Int) :
    (s.memset (Ptr.loc r o) n).cells r' q
      = if r' = r ∧ o ≤ q ∧ q < o + n then 0 else s.cells r' q := rfl

theorem idx_lt_sq (n a b : Nat) (ha : a < n) (hb : b < n) : (a : Int) * n + b < (n : Int) * n := by
  have h1 : ((a : Int) + 1) * n ≤ (n : Int) * n := by
    apply mul_le_mul_of_nonneg_right <;> omega
  have : (b : Int) < n := by omega
  linarith

/-- The branch of `ResizeTo(n,n)` that moves the elements (source lines
734-765), for an owned `p` by `p` matrix with `p` and `n` positive and
different. -/
theorem ResizeTo_run (cfg : Config R) (M : TMatrixTSym R) (p n : Nat) (hp : 0 < p) (hn : 0 < n)
    (hne : p ≠ n) (h : M.IsOwned cfg p) (rn ro : Region) (hro : M.fElements = Ptr.loc ro 0)
    (hsq : (Allocate cfg M n n 0 0 0).SquareAt n rn 0) :
    ResizeTo cfg M n n
      = ((if (p : Int) < n then
            forDown (fun i s => Memcpy_m cfg s (Ptr.loc rn 0 + i * (n : Int))
              (Ptr.loc ro 0 + i * (p : Int)) (min (n : Int) p) ((n : Int) * n) ((p : Int) * p))
              (min (n : Int) p).toNat
              (if (n : Int) * n > cfg.kSizeMax ∨ (p : Int) * p > cfg.kSizeMax then
                 (Allocate cfg M n n 0 0 0).mem.memset (Ptr.loc rn 0) ((n : Int) * n)
               else if (n : Int) * n > (p : Int) * p then
                 (Allocate cfg M n n 0 0 0).mem.memset (Ptr.loc rn 0 + (p : Int) * (p : Int))
                   ((n : Int) * n - (p : Int) * p)
               else (Allocate cfg M n n 0 0 0).mem)
          else
            forUp (fun i s => Memcpy_m cfg s (Ptr.loc rn 0 + i * (n : Int))
              (Ptr.loc ro 0 + i * (p : Int)) (min (n : Int) p) ((n : Int) * n) ((p : Int) * p))
              0 (min (n : Int) p).toNat
              (if (n : Int) * n > cfg.kSizeMax ∨ (p : Int) * p > cfg.kSizeMax then
                 (Allocate cfg M n n 0 0 0).mem.memset (Ptr.loc rn 0) ((n : Int) * n)
               else if (n : Int) * n > (p : Int) * p then
                 (Allocate cfg M n n 0 0 0).mem.memset (Ptr.loc rn 0 + (p : Int) * (p : Int))
                   ((n : Int) * n - (p : Int) * p)
               else (Allocate cfg M n n 0 0 0).mem)).bind fun mem2 =>
          some { Allocate cfg M n n 0 0 0 with
                 mem := (Delete_m cfg mem2 ((p : Int) * p) (Ptr.loc ro 0)).1 }) := by
  have h1 : M.IsValid = true := h.square.valid
  have h2 : M.fIsOwner = true := h.owner
  have h3 : M.fNelems > 0 := by rw [h.square.nelems]; positivity
  have h4 : ¬ (M.fNrows = n ∧ M.fNcols = n) := by
    rw [h.square.rows]; intro hh; have := hh.1; omega
  have h5 : ¬ ((n : Int) = 0 ∨ (n : Int) = 0) := by omega
  have h6 : (Allocate cfg M n n 0 0 0).IsValid = true := hsq.valid
  have h7 : (p : Int) * p > 0 := by positivity
  have h8 : ¬ ((p : Int) = n ∧ (p : Int) = n) := by omega
  unfold ResizeTo
  simp only [h1, h2, h3, h4, h5, h6, h7, h8, if_true, if_false, Bool.true_eq_false, ne_eq,
    not_true_eq_false, GetMatrixArray, hsq.buf, hro, hsq.cols, hsq.rows, hsq.nelems,
    h.square.nelems, h.square.cols, h.square.rows]

end TMatrixTSym

namespace TMatrixTSym

variable {R : Type} [CommRing R]

theorem resizeCleared_old (cfg : Config R) (s : Store R) (rn ro : Region) (p n : Nat)
    (hreg : ((n : Int) * n ≤ cfg.kSizeMax ∧ (p : Int) * p ≤ cfg.kSizeMax ∧ rn = Region.stack ∧
          ro = Region.stack) ∨
        ((cfg.kSizeMax < (n : Int) * n ∨ cfg.kSizeMax < (p : Int) * p) ∧ rn ≠ ro))
    (i c : Nat) (hi : i < p) (hc : c < p) :
    (resizeCleared cfg s rn p n).cells ro ((i : Int) * p + c) = s.cells ro ((i : Int) * p + c) := by
  have hlt := idx_lt_sq p i c hi hc
  unfold resizeCleared
  rcases hreg with ⟨h1, h2, rfl, rfl⟩ | ⟨h1, h2⟩
  · rw [if_neg (by omega)]
    split_ifs
    · rw [Ptr.loc_add, memset_cells, if_neg]
      rintro ⟨_, h3, _⟩
      omega
    · rfl
  · rw [if_pos (by omega), memset_cells, if_neg]
    rintro ⟨e, _, _⟩
    exact h2 e.symm

theorem resizeCleared_new (cfg : Config R) (s : Store R) (rn ro : Region) (p n : Nat)
    (hpn : p < n)
    (hreg : ((n : Int) * n ≤ cfg.kSizeMax ∧ (p : Int) * p ≤ cfg.kSizeMax ∧ rn = Region.stack ∧
          ro = Region.stack) ∨
        ((cfg.kSizeMax < (n : Int) * n ∨ cfg.kSizeMax < (p : Int) * p) ∧ rn ≠ ro))
    (a b : Nat) (ha : a < n) (hb : b < n) :
    (resizeCleared cfg s rn p n).cells rn ((a : Int) * n + b)
      = if (n : Int) * n ≤ cfg.kSizeMax ∧ (p : Int) * p ≤ cfg.kSizeMax ∧
            (a : Int) * n + b < (p : Int) * p
        then s.cells Region.stack ((a : Int) * n + b) else 0 := by
  have hlt := idx_lt_sq n a b ha hb
  have h0 : (0 : Int) ≤ (a : Int) * n + b := by positivity
  have hsq : (p : Int) * p < (n : Int) * n := by
    have h1 : (p : Int) * p ≤ (p : Int) * n := by apply mul_le_mul_of_nonneg_left <;> omega
    have h2 : (p : Int) * n < (n : Int) * n := by apply mul_lt_mul_of_pos_right <;> omega
    omega
  unfold resizeCleared
  rcases hreg with ⟨h1, h2, rfl, rfl⟩ | ⟨h1, h2⟩
  · rw [if_neg (by omega), if_pos (by omega), Ptr.loc_add, memset_cells]
    by_cases c1 : (a : Int) * n + b < (p : Int) * p
    · rw [if_neg (by omega), if_pos ⟨h1, h2, c1⟩]
    · rw [if_pos ⟨rfl, by omega, by omega⟩, if_neg (by tauto)]
  · rw [if_pos (by omega), memset_cells, if_pos ⟨rfl, h0, by omega⟩, if_neg]
    rintro ⟨h3, h4, _⟩
    omega

theorem resizeCleared_nheap (cfg : Config R) (s : Store R) (rn : Region) (p n : Nat) :
    (resizeCleared cfg s rn p n).nheap = s.nheap := by
  unfold resizeCleared
  split_ifs <;> rfl

/-- `ResizeTo(n,n)` on an owned `p` by `p` matrix, `p` and `n` positive and
different: it returns an owned valid `n` by `n` matrix with lower bounds 0;
the elements at positions `(i,j)` with `i,j < min(p,n)` are the old ones; an
element at a position outside the old shape is zero, except that it keeps the
old content of its cell when both sizes are within `kSizeMax` and the cell
lies among the first `p*p`. -/
theorem ResizeTo_resize (cfg : Config R) (M : TMatrixTSym R) (p n : Nat) (hp : 0 < p)
    (hn : 0 < n) (hne : p ≠ n) (h : M.IsOwned cfg p) :
    ∃ res rn ro, M.fElements = Ptr.loc ro 0 ∧ ResizeTo cfg M n n = some res ∧
      res.SquareAt n rn 0 ∧ res.IsOwned cfg n ∧ res.fRowLwb = 0 ∧ res.fColLwb = 0 ∧
      (∀ i c : Nat, i < min p n → c < min p n →
        res.mem.cells rn ((i : Int) * n + c) = M.mem.cells ro ((i : Int) * p + c)) ∧
      (∀ a b : Nat, a < n → b < n → (p ≤ a ∨ p ≤ b) →
        res.mem.cells rn ((a : Int) * n + b)
          = if (n : Int) * n ≤ cfg.kSizeMax ∧ (p : Int) * p ≤ cfg.kSizeMax ∧
                (a : Int) * n + b < (p : Int) * p
            then M.mem.cells Region.stack ((a : Int) * n + b) else 0) := by
  obtain ⟨rn, ro, hro, hsq, hl1, hl2, hown, hcells, hreg⟩ := Allocate_regions cfg M p n hp hn h
  have hsafe : (((n : Int) * n ≤ cfg.kSizeMax ∧ (p : Int) * p ≤ cfg.kSizeMax) ∨ rn ≠ ro) := by
    rcases hreg with ⟨h1, h2, _, _⟩ | ⟨_, h2⟩
    · exact Or.inl ⟨h1, h2⟩
    · exact Or.inr h2
  have hrun := ResizeTo_run cfg M p n hp hn hne h rn ro hro hsq
  change ResizeTo cfg M n n
      = ((if (p : Int) < n then
            forDown (fun i s => Memcpy_m cfg s (Ptr.loc rn 0 + i * (n : Int))
              (Ptr.loc ro 0 + i * (p : Int)) (min (n : Int) p) ((n : Int) * n) ((p : Int) * p))
              (min (n : Int) p).toNat (resizeCleared cfg (Allocate cfg M n n 0 0 0).mem rn p n)
          else
            forUp (fun i s => Memcpy_m cfg s (Ptr.loc rn 0 + i * (n : Int))
              (Ptr.loc ro 0 + i * (p : Int)) (min (n : Int) p) ((n : Int) * n) ((p : Int) * p))
              0 (min (n : Int) p).toNat
              (resizeCleared cfg (Allocate cfg M n n 0 0 0).mem rn p n)).bind fun mem2 =>
          some { Allocate cfg M n n 0 0 0 with
                 mem := (Delete_m cfg mem2 ((p : Int) * p) (Ptr.loc ro 0)).1 }) at hrun
  have hold : ∀ i c : Nat, i < p → c < p →
      (resizeCleared cfg (Allocate cfg M n n 0 0 0).mem rn p n).cells ro ((i : Int) * p + c)
        = M.mem.cells ro ((i : Int) * p + c) := by
    intro i c hi hc
    rw [resizeCleared_old cfg _ rn ro p n hreg i c hi hc, hcells]
  rcases Nat.lt_or_gt_of_ne hne with hpn | hnp
  · have hmin : min (n : Int) (p : Int) = p := by omega
    have hmin' : min p n = p := by omega
    obtain ⟨t, ht, ht1, ht2, ht3, _⟩ := ResizeTo_rows_down cfg
      (resizeCleared cfg (Allocate cfg M n n 0 0 0).mem rn p n) rn ro p n hpn
      ((n : Int) * n) ((p : Int) * p) hsafe
    rw [if_pos (by omega), hmin, Int.toNat_ofNat, ht] at hrun
    obtain ⟨hd1, hd2⟩ := Delete_m_cells cfg t ((p : Int) * p) (Ptr.loc ro 0)
    refine ⟨_, rn, ro, hro, hrun, ⟨hsq.valid, hsq.rows, hsq.cols, hsq.nelems, hsq.buf⟩,
      ⟨⟨hsq.valid, hsq.rows, hsq.cols, hsq.nelems, hown.square.buf⟩, hown.owner, hown.small, ?_⟩,
      hl1, hl2, ?_, ?_⟩
    · intro hk
      obtain ⟨b, hb, hbe⟩ := hown.large hk
      refine ⟨b, ?_, hbe⟩
      show b < (Delete_m cfg t ((p : Int) * p) (Ptr.loc ro 0)).1.nheap
      rw [hd2, ht3, resizeCleared_nheap]; exact hb
    · intro i c hi hc
      rw [hmin'] at hi hc
      show (Delete_m cfg t ((p : Int) * p) (Ptr.loc ro 0)).1.cells rn _ = _
      rw [hd1, ht1 i c hi hc, hold i c hi hc]
    · intro a b ha hb hab
      show (Delete_m cfg t ((p : Int) * p) (Ptr.loc ro 0)).1.cells rn _ = _
      rw [hd1, ht2 a b hb hab, resizeCleared_new cfg _ rn ro p n hpn hreg a b ha hb, hcells]
  · have hmin : min (n : Int) (p : Int) = n := by omega
    have hmin' : min p n = n := by omega
    obtain ⟨t, ht, ht1, ht3, _⟩ := ResizeTo_rows_up cfg
      (resizeCleared cfg (Allocate cfg M n n 0 0 0).mem rn p n) rn ro p n hnp
      ((n : Int) * n) ((p : Int) * p) hsafe
    rw [if_neg (by omega), hmin, Int.toNat_ofNat, ht] at hrun
    obtain ⟨hd1, hd2⟩ := Delete_m_cells cfg t ((p : Int) * p) (Ptr.loc ro 0)
    refine ⟨_, rn, ro, hro, hrun, ⟨hsq.valid, hsq.rows, hsq.cols, hsq.nelems, hsq.buf⟩,
      ⟨⟨hsq.valid, hsq.rows, hsq.cols, hsq.nelems, hown.square.buf⟩, hown.owner, hown.small, ?_⟩,
      hl1, hl2, ?_, ?_⟩
    · intro hk
      obtain ⟨b, hb, hbe⟩ := hown.large hk
      refine ⟨b, ?_, hbe⟩
      show b < (Delete_m cfg t ((p : Int) * p) (Ptr.loc ro 0)).1.nheap
      rw [hd2, ht3, resizeCleared_nheap]; exact hb
    · intro i c hi hc
      rw [hmin'] at hi hc
      show (Delete_m cfg t ((p : Int) * p) (Ptr.loc ro 0)).1.cells rn _ = _
      rw [hd1, ht1 i c hi hc, hold i c (by omega) (by omega)]
    · intro a b ha hb hab
      omega

end TMatrixTSym

namespace TMatrixTSym

variable {R : Type} [CommRing R]

theorem mirror_row (M : TMatrixTSym R) (m : Nat) (r : Region) (o : Int)
    (hM : M.SquareAt m r o) (x : Nat) (hx : x < m) (s : Store R) :
    ∃ t : Store R, forUp (mirror.colStep M x) 0 x s = some t ∧
      ∀ a b : Nat, a < m → b < m → t.cells r (o + ((a : Int) * m + b))
        = if a = x ∧ b < x then s.cells r (o + ((b : Int) * m + a))
          else s.cells r (o + ((a : Int) * m + b)) := by
  obtain ⟨t, ht, hP⟩ := forUp_rule (mirror.colStep M x) x
    (fun k t => ∀ a b : Nat, a < m → b < m → t.cells r (o + ((a : Int) * m + b))
        = if a = x ∧ b < k then s.cells r (o + ((b : Int) * m + a))
          else s.cells r (o + ((a : Int) * m + b)))
    0 s
    (by intro a b _ _; rw [if_neg (by omega)])
    (by
      intro k t hk hinv
      refine ⟨_, rfl, ?_⟩
      intro a b ha hb
      have hkm : k < m := by omega
      simp only [GetMatrixArray, hM.buf, hM.rows, Ptr.loc_add, Store.load_loc, zero_add]
      rw [Store.store_cell_idx _ r o m a b x k hb hkm, hinv k x hkm hx,
        if_neg (show ¬ (k = x ∧ x < k) by omega), hinv a b ha hb]
      by_cases c1 : a = x ∧ b = k
      · obtain ⟨rfl, rfl⟩ := c1
        rw [if_pos ⟨rfl, rfl⟩, if_pos ⟨rfl, by omega⟩]
      · rw [if_neg c1]
        by_cases c2 : a = x ∧ b < k
        · rw [if_pos c2, if_pos ⟨c2.1, by omega⟩]
        · rw [if_neg c2, if_neg (by omega)])
  exact ⟨t, ht, hP⟩

/-- The copy to the lower left triangle: afterwards the element `[a,b]` below
the diagonal is the one that stood at `[b,a]`, every other element is kept. -/
theorem mirror_spec (M : TMatrixTSym R) (m : Nat) (r : Region) (o : Int)
    (hM : M.SquareAt m r o) :
    ∃ t : Store R, mirror M = some { M with mem := t } ∧
      ∀ a b : Nat, a < m → b < m → t.cells r (o + ((a : Int) * m + b))
        = if b < a then M.mem.cells r (o + ((b : Int) * m + a))
          else M.mem.cells r (o + ((a : Int) * m + b)) := by
  obtain ⟨t, ht, hP⟩ := forUp_rule
    (fun irow (s : Store R) => forUp (mirror.colStep M irow) 0 irow.toNat s) m
    (fun k t => ∀ a b : Nat, a < m → b < m → t.cells r (o + ((a : Int) * m + b))
        = if b < a ∧ a < k then M.mem.cells r (o + ((b : Int) * m + a))
          else M.mem.cells r (o + ((a : Int) * m + b)))
    0 M.mem
    (by intro a b _ _; rw [if_neg (by omega)])
    (by
      intro k t hk hinv
      obtain ⟨u, hu, hu1⟩ := mirror_row M m r o hM k hk t
      refine ⟨u, by simpa using hu, ?_⟩
      intro a b ha hb
      rw [hu1 a b ha hb]
      by_cases c1 : a = k ∧ b < k
      · obtain ⟨rfl, hbk⟩ := c1
        rw [if_pos ⟨rfl, hbk⟩, hinv b a hb ha, if_neg (show ¬ (a < b ∧ b < a) by omega),
          if_pos ⟨hbk, by omega⟩]
      · rw [if_neg c1, hinv a b ha hb]
        by_cases c2 : b < a ∧ a < k
        · rw [if_pos c2, if_pos ⟨c2.1, by omega⟩]
        · rw [if_neg c2, if_neg (by omega)])
  refine ⟨t, ?_, ?_⟩
  · simp only [mirror, hM.rows, Int.toNat_ofNat, ht, Option.map_some']
  · intro a b ha hb
    rw [hP a b ha hb]
    by_cases c : b < a
    · rw [if_pos ⟨c, ha⟩, if_pos c]
    · rw [if_neg (fun h => c h.1), if_neg c]

theorem mirror_zero (M : TMatrixTSym R) (h : M.fNrows = 0) :
    mirror M = some { M with mem := M.mem } := by
  simp [mirror, h, forUp]

end TMatrixTSym

namespace TMatrixT

variable {R : Type} [CommRing R]

theorem idx_div (n i k : Nat) (hk : k < n) : ((i : Int) * n + k) / (n : Int) = i := by
  have hn : (n : Int) ≠ 0 := by omega
  rw [add_comm, Int.add_mul_ediv_right _ _ hn, Int.ediv_eq_zero_of_lt (by omega) (by omega)]
  simp

theorem idx_mod (n i k : Nat) (hk : k < n) : ((i : Int) * n + k) % (n : Int) = k := by
  rw [add_comm, Int.add_mul_emod_self, Int.emod_eq_of_lt (by omega) (by omega)]

theorem kMult_elem (b : TMatrixT R) (a : TMatrixTSym R) (m n c : Nat) (hb : b.IsShape m n)
    (hc : a.fNcols = c) (i k : Nat) (hk : k < c) :
    (kMult b a).fElements ((i : Int) * c + k)
      = ∑ l in Finset.range n, b.elem i l * a.elem l k := by
  simp only [kMult, hc, hb.cols, Int.toNat_ofNat, idx_div c i k hk, idx_mod c i k hk,
    TMatrixT.elem, TMatrixTSym.elem]

theorem kTransposeMult_elem (b : TMatrixT R) (a : TMatrixTSym R) (n m c : Nat)
    (hb : b.IsShape n m) (hc : a.fNcols = c) (i k : Nat) (hk : k < c) :
    (kTransposeMult b a).fElements ((i : Int) * c + k)
      = ∑ l in Finset.range n, b.elem l i * a.elem l k := by
  simp only [kTransposeMult, hc, hb.cols, hb.rows, Int.toNat_ofNat, idx_div c i k hk,
    idx_mod c i k hk, TMatrixT.elem, TMatrixTSym.elem]

end TMatrixT

namespace TMatrixTSym

variable {R : Type} [CommRing R]

theorem mul_lt_mul_iff_nat (n a b : Nat) (hn : 0 < n) : (a : Int) * n < (b : Int) * n ↔ a < b := by
  constructor
  · intro h
    by_contra hc
    have : (b : Int) * n ≤ (a : Int) * n := by
      apply mul_le_mul_of_nonneg_right <;> omega
    omega
  · intro h
    apply mul_lt_mul_of_pos_right <;> omega

theorem Similarity_col (fuel : Nat) (ba b : TMatrixT R) (m n : Nat) (hb : b.IsShape m n)
    (hf : n < fuel) (r : Region) (o : Int) (i j : Nat) (c : Int) (s : Store R) :
    Similarity.colStep fuel ba b (Ptr.loc r o) ((i : Int) * n)
        { bcp := (j : Int) * n, cp := c, mem := s }
      = some { bcp := ((j + 1 : Nat) : Int) * n, cp := c + 1,
               mem := s.store (Ptr.loc r (o + c))
                 (∑ k in Finset.range n,
                   ba.fElements ((i : Int) * n + k) * b.fElements ((j : Int) * n + k)) } := by
  have hK : ∀ k : Nat, k ≤ n → ((j : Int) * n + k * 1 < (j : Int) * n + b.GetNcols ↔ k < n) := by
    intro k _
    simp only [TMatrixT.GetNcols, hb.cols]
    omega
  simp only [Similarity.colStep]
  rw [dot_loop ba.fElements b.fElements 1 1 _ ((i : Int) * n) ((j : Int) * n) n fuel hK hf]
  simp only [Option.some_bind, TMatrixT.GetNcols, hb.cols, Ptr.loc_add, mul_one]
  congr 2
  push_cast; ring

theorem Similarity_row (fuel : Nat) (ba b : TMatrixT R) (m n : Nat) (hb : b.IsShape m n)
    (hn : 0 < n) (hf : max m n < fuel) (r : Region) (o : Int) (i : Nat) (hi : i < m)
    (s : Store R) :
    ∃ t : RowState R,
      whileLoop (fun t : RowState R => decide (t.bcp < 0 + b.GetNoElements))
        (Similarity.colStep fuel ba b (Ptr.loc r o) ((i : Int) * n)) fuel
        { bcp := (i : Int) * n, cp := (i : Int) * m + i, mem := s } = some t ∧
      t.cp = (i : Int) * m + m ∧
      ∀ x y : Nat, y < m → t.mem.cells r (o + ((x : Int) * m + y))
        = if x = i ∧ i ≤ y then
            ∑ k in Finset.range n,
              ba.fElements ((i : Int) * n + k) * b.fElements ((y : Int) * n + k)
          else s.cells r (o + ((x : Int) * m + y)) := by
  obtain ⟨t, ht, hP⟩ := whileLoop_rule
    (fun t : RowState R => decide (t.bcp < 0 + b.GetNoElements))
    (Similarity.colStep fuel ba b (Ptr.loc r o) ((i : Int) * n))
    (fun k t => t.bcp = ((i + k : Nat) : Int) * n ∧ t.cp = (i : Int) * m + ((i + k : Nat) : Int) ∧
      ∀ x y : Nat, y < m → t.mem.cells r (o + ((x : Int) * m + y))
        = if x = i ∧ i ≤ y ∧ y < i + k then
            ∑ l in Finset.range n,
              ba.fElements ((i : Int) * n + l) * b.fElements ((y : Int) * n + l)
          else s.cells r (o + ((x : Int) * m + y))) (m - i)
    (by
      intro k t _ ⟨hb1, _, _⟩
      simp only [hb1, TMatrixT.GetNoElements, hb.nelems, zero_add, decide_eq_true_eq]
      rw [mul_lt_mul_iff_nat n (i + k) m hn]
      omega)
    (by
      intro k t hk ⟨hb1, hc, hmem⟩
      have ht : t = { bcp := ((i + k : Nat) : Int) * n, cp := t.cp, mem := t.mem } := by
        rw [← hb1]
      have hjm : i + k < m := by omega
      have hstep := Similarity_col fuel ba b m n hb (by omega) r o i (i + k) t.cp t.mem
      rw [← ht] at hstep
      refine ⟨_, hstep, rfl, ?_, ?_⟩
      · simp only [hc]; push_cast; ring
      · intro x y hy
        have e : o + t.cp = o + ((i : Int) * m + ((i + k : Nat) : Int)) := by rw [hc]
        simp only
        rw [e, Store.store_cell_idx _ r o m x y i (i + k) hy hjm, hmem x y hy]
        by_cases c1 : x = i ∧ y = i + k
        · obtain ⟨rfl, rfl⟩ := c1
          rw [if_pos ⟨rfl, rfl⟩, if_pos ⟨rfl, by omega, by omega⟩]
        · rw [if_neg c1]
          by_cases c2 : x = i ∧ i ≤ y ∧ y < i + k
          · rw [if_pos c2, if_pos ⟨c2.1, c2.2.1, by omega⟩]
          · rw [if_neg c2, if_neg (by omega)])
    0 fuel { bcp := (i : Int) * n, cp := (i : Int) * m + i, mem := s } (Nat.zero_le _) (by omega)
    ⟨by simp, by simp, by
      intro x y _
      rw [if_neg (by omega)]⟩
  refine ⟨t, ht, ?_, ?_⟩
  · rw [hP.2.1]
    have e : i + (m - i) = m := by omega
    rw [e]
  · intro x y hy
    rw [hP.2.2 x y hy]
    by_cases c : x = i ∧ i ≤ y
    · rw [if_pos ⟨c.1, c.2, by omega⟩, if_pos c]
    · rw [if_neg (fun h => c ⟨h.1, h.2.1⟩), if_neg c]

theorem Similarity_loop (fuel : Nat) (ba b : TMatrixT R) (m n : Nat) (hb : b.IsShape m n)
    (hba : ba.GetNoElements = (m : Int) * n) (hbac : ba.GetNcols = n)
    (hn : 0 < n) (hf : max m n < fuel) (r : Region) (o : Int) (s0 : Store R) :
    ∃ s : SimState R,
      whileLoop (fun s : SimState R => decide (s.barp0 < 0 + ba.GetNoElements))
        (Similarity.rowStep fuel ba b (Ptr.loc r o)) fuel
        { barp0 := 0, bi1p := 0, cp := 0, ishift := 0, mem := s0 } = some s ∧
      s.barp0 = (m : Int) * n ∧ s.cp = (m : Int) * m + m ∧ s.ishift = m ∧
      ∀ x y : Nat, x < m → y < m → x ≤ y → s.mem.cells r (o + ((x : Int) * m + y))
        = ∑ k in Finset.range n,
            ba.fElements ((x : Int) * n + k) * b.fElements ((y : Int) * n + k) := by
  obtain ⟨s, hs, hP⟩ := whileLoop_rule
    (fun s : SimState R => decide (s.barp0 < 0 + ba.GetNoElements))
    (Similarity.rowStep fuel ba b (Ptr.loc r o))
    (fun i s => s.barp0 = (i : Int) * n ∧ s.bi1p = (i : Int) * n ∧ s.cp = (i : Int) * m + i ∧
      s.ishift = i ∧
      ∀ x y : Nat, x < i → y < m → x ≤ y → s.mem.cells r (o + ((x : Int) * m + y))
        = ∑ k in Finset.range n,
            ba.fElements ((x : Int) * n + k) * b.fElements ((y : Int) * n + k)) m
    (by
      intro i s _ ⟨hb1, _⟩
      simp only [hb1, hba, zero_add, decide_eq_true_eq]
      exact mul_lt_mul_iff_nat n i m hn)
    (by
      intro i s hi ⟨hb1, hb2, hc, hsh, hmem⟩
      obtain ⟨t, ht, ht1, ht2⟩ := Similarity_row fuel ba b m n hb hn hf r o i hi s.mem
      refine ⟨{ barp0 := s.barp0 + ba.GetNcols, bi1p := s.bi1p + b.GetNcols,
                cp := t.cp + (s.ishift + 1), ishift := s.ishift + 1, mem := t.mem }, ?_, ?_, ?_,
        ?_, ?_, ?_⟩
      · simp only [Similarity.rowStep, hb1, hb2, hc, ht, Option.some_bind]
      · simp only [hb1, hbac]; push_cast; ring
      · simp only [hb2, TMatrixT.GetNcols, hb.cols]; push_cast; ring
      · simp only [ht1, hsh]; push_cast; ring
      · simp only [hsh]; push_cast; ring
      · intro x y hx hy hxy
        simp only
        rw [ht2 x y hy]
        by_cases c : x = i
        · subst c; rw [if_pos ⟨rfl, hxy⟩]
        · rw [if_neg (fun h => c h.1)]; exact hmem x y (by omega) hy hxy)
    0 fuel { barp0 := 0, bi1p := 0, cp := 0, ishift := 0, mem := s0 } (Nat.zero_le m) (by omega)
    ⟨by simp, by simp, by simp, by simp, by intro x y hx; omega⟩
  exact ⟨s, hs, hP.1, hP.2.2.1, hP.2.2.2.1, fun x y hx hy hxy => hP.2.2.2.2 x y hx hy hxy⟩

/-- The kernel of `Similarity` on an `m` by `m` object, for `b` with `m` rows
and `n >= 1` columns and an intermediate array `ba` of `m*n` elements: it
returns, and the element `[x,y]` is the product of row `min(x,y)` of `ba` with
row `max(x,y)` of `b`. -/
theorem Similarity_kernel_pos (fuel : Nat) (M : TMatrixTSym R) (ba b : TMatrixT R) (m n : Nat)
    (hb : b.IsShape m n) (hba : ba.GetNoElements = (m : Int) * n) (hbac : ba.GetNcols = n)
    (hn : 0 < n) (hf : max m n < fuel) (r : Region) (o : Int) (hM : M.SquareAt m r o) :
    ∃ t : Store R, Similarity.kernel fuel M ba b = some { M with mem := t } ∧
      ∀ x y : Nat, x < m → y < m → t.cells r (o + ((x : Int) * m + y))
        = ∑ k in Finset.range n,
            ba.fElements (((min x y : Nat) : Int) * n + k)
              * b.fElements (((max x y : Nat) : Int) * n + k) := by
  obtain ⟨s, hs, hs1, hs2, hs3, hs4⟩ := Similarity_loop fuel ba b m n hb hba hbac hn hf r o M.mem
  have hsq : ({ M with mem := s.mem } : TMatrixTSym R).SquareAt m r o :=
    ⟨hM.valid, hM.rows, hM.cols, hM.nelems, hM.buf⟩
  obtain ⟨t, ht, ht1⟩ := mirror_spec _ m r o hsq
  refine ⟨t, ?_, ?_⟩
  · have hcond : s.cp = 0 + M.fNelems + s.ishift ∧ s.barp0 = 0 + ba.GetNoElements := by
      rw [hs1, hs2, hs3, hM.nelems, hba]; simp
    unfold Similarity.kernel
    rw [show M.GetMatrixArray = Ptr.loc r o from hM.buf]
    simp only [hs, Option.some_bind]
    rw [if_pos hcond, ht]
  · intro x y hx hy
    rw [ht1 x y hx hy]
    by_cases c : y < x
    · rw [if_pos c, hs4 y x hy hx (by omega)]
      have e1 : min x y = y := by omega
      have e2 : max x y = x := by omega
      rw [e1, e2]
    · rw [if_neg c, hs4 x y hx hy (by omega)]
      have e1 : min x y = x := by omega
      have e2 : max x y = y := by omega
      rw [e1, e2]

end TMatrixTSym

namespace TMatrixTSym

variable {R : Type} [CommRing R]

theorem Similarity_kernel_zero (fuel : Nat) (M : TMatrixTSym R) (ba b : TMatrixT R)
    (hf : 0 < fuel) (hrows : M.fNrows = 0) (hnel : M.fNelems = 0)
    (hba : ba.GetNoElements = 0) :
    Similarity.kernel fuel M ba b = some { M with mem := M.mem } := by
  obtain ⟨fuel, rfl⟩ : ∃ k, fuel = k + 1 := ⟨fuel - 1, by omega⟩
  simp [Similarity.kernel, whileLoop, hba, hnel, mirror, hrows, forUp]

/-- The value the kernel leaves at `[x,y]`, rewritten as the double sum of
`B*A*B^T` when `A` is symmetric. -/
theorem Similarity_sum (A : TMatrixTSym R) (b : TMatrixT R) (m n : Nat) (hb : b.IsShape m n)
    (hA : A.fNcols = n) (hsym : ∀ i j : Nat, i < n → j < n → A.elem i j = A.elem j i)
    (x y : Nat) :
    (∑ k in Finset.range n,
        (TMatrixT.kMult b A).fElements (((min x y : Nat) : Int) * n + k)
          * b.fElements (((max x y : Nat) : Int) * n + k))
      = ∑ l in Finset.range n, ∑ k in Finset.range n, b.elem x l * A.elem l k * b.elem y k := by
  have hker : ∀ u v : Nat,
      (∑ k in Finset.range n,
        (TMatrixT.kMult b A).fElements ((u : Int) * n + k) * b.fElements ((v : Int) * n + k))
      = ∑ l in Finset.range n, ∑ k in Finset.range n, b.elem u l * A.elem l k * b.elem v k := by
    intro u v
    rw [Finset.sum_comm]
    apply Finset.sum_congr rfl
    intro k hk
    rw [TMatrixT.kMult_elem b A m n n hb hA u k (Finset.mem_range.mp hk), Finset.sum_mul]
    apply Finset.sum_congr rfl
    intro l _
    simp only [TMatrixT.elem, hb.cols]
  rw [hker]
  rcases Nat.le_total x y with h | h
  · rw [min_eq_left h, max_eq_right h]
  · rw [min_eq_right h, max_eq_left h, Finset.sum_comm]
    apply Finset.sum_congr rfl
    intro l hl
    apply Finset.sum_congr rfl
    intro k hk
    rw [hsym k l (Finset.mem_range.mp hk) (Finset.mem_range.mp hl)]
    ring

/-- `Similarity(b)` on a valid symmetric `n` by `n` matrix when `b` is `n` by
`n` as well: no resize takes place and the result is `B*A*B^T`. -/
theorem Similarity_same_size (cfg : Config R) (fuel : Nat) (M : TMatrixTSym R) (b : TMatrixT R)
    (n : Nat) (hM : M.IsSquare n) (hb : b.IsShape n n)
    (hsym : ∀ i j : Nat, i < n → j < n → M.elem i j = M.elem j i) (hf : n < fuel) :
    ∃ res, Similarity cfg fuel M b = some res ∧ res.IsSquare n ∧
      ∀ i j : Nat, i < n → j < n →
        res.elem i j
          = ∑ l in Finset.range n, ∑ k in Finset.range n, b.elem i l * M.elem l k * b.elem j k := by
  have hrun : Similarity cfg fuel M b = Similarity.kernel fuel M (TMatrixT.kMult b M) b := by
    have h1 : ¬ (b.GetNrows ≠ M.fNrows) := by
      simp [TMatrixT.GetNrows, hb.rows, hM.rows]
    simp only [Similarity, h1, if_false, Option.some_bind]
  rw [hrun]
  rcases Nat.eq_zero_or_pos n with hn | hn
  · subst hn
    refine ⟨_, Similarity_kernel_zero fuel M _ b hf hM.rows (by simpa using hM.nelems)
      (by simp [TMatrixT.GetNoElements, TMatrixT.kMult, hb.rows]),
      ⟨hM.valid, hM.rows, hM.cols, hM.nelems, hM.buf⟩, ?_⟩
    intro i j hi; omega
  · obtain ⟨r, o, hsq⟩ := hM.squareAt hn
    obtain ⟨t, ht, hcells⟩ := Similarity_kernel_pos fuel M (TMatrixT.kMult b M) b n n hb
      (by simp [TMatrixT.GetNoElements, TMatrixT.kMult, hb.rows, hM.cols])
      (by simp [TMatrixT.GetNcols, TMatrixT.kMult, hM.cols]) hn (by simpa using hf) r o hsq
    have hres : ({ M with mem := t } : TMatrixTSym R).SquareAt n r o :=
      ⟨hsq.valid, hsq.rows, hsq.cols, hsq.nelems, hsq.buf⟩
    refine ⟨_, ht, ⟨hM.valid, hM.rows, hM.cols, hM.nelems, hM.buf⟩, ?_⟩
    intro i j hi hj
    rw [elem_eq_cells hres, hcells i j hi hj, Similarity_sum M b n n hb hM.cols hsym i j]

end TMatrixTSym

/-! ## Persistence -/

namespace TBuffer

variable {R : Type} [CommRing R]

/-- Reading back a run that was taken from the cells at `(r0,o0)` of a store
`s0` fills the cells at `(r,o)` with those values and leaves the rest of the
stream. -/
theorem readArray_arrayAt (s0 : Store R) (r0 : Region) (r : Region) (tail : List R) :
    ∀ (cnt : Nat) (s : Store R) (o o0 : Int),
      ∃ s' : Store R,
        readArray s (Ptr.loc r o) cnt (arrayAt s0 (Ptr.loc r0 o0) cnt ++ tail) = some (tail, s') ∧
        s'.nheap = s.nheap ∧ s'.freed = s.freed ∧
        ∀ (r' : Region) (q : Int), s'.cells r' q
          = if r' = r ∧ o ≤ q ∧ q < o + cnt then s0.cells r0 (o0 + (q - o)) else s.cells r' q := by
  intro cnt
  induction cnt with
  | zero =>
    intro s o o0
    refine ⟨s, rfl, rfl, rfl, ?_⟩
    intro r' q
    rw [if_neg]
    rintro ⟨_, h1, h2⟩
    simp at h2
    omega
  | succ cnt ih =>
    intro s o o0
    obtain ⟨s', h1, h2, h3, h4⟩ := ih (s.store (Ptr.loc r o) (s0.load (Ptr.loc r0 o0))) (o + 1)
      (o0 + 1)
    refine ⟨s', ?_, h2, h3, ?_⟩
    · simpa [arrayAt, readArray] using h1
    · intro r' q
      rw [h4 r' q, Store.store_loc_cells, Store.load_loc]
      push_cast
      by_cases e : r' = r
      · subst e
        simp only [true_and]
        split_ifs <;> first | rfl | (exfalso; omega) | (congr 1; omega)
      · simp only [e, false_and, if_false]

end TBuffer

namespace TMatrixTSym

variable {R : Type} [CommRing R]

theorem Streamer_write_loop (M : TMatrixTSym R) (n : Nat) (hc : M.fNcols = n) :
    ∀ (k i : Nat) (w : TBuffer R),
      forUp (fun i (w : TBuffer R) =>
        some (TBuffer.WriteFastArray w M.mem (M.fElements + (i * M.fNcols + i)) (M.fNcols - i)))
        i k w = some { w with elems := w.elems ++ upperRows M n i k } := by
  intro k
  induction k with
  | zero => intro i w; simp [forUp, upperRows]
  | succ k ih =>
    intro i w
    have e : ((n : Int) - (i : Int)).toNat = n - i := by omega
    simp only [forUp, Option.some_bind]
    rw [show ((i : Int) + 1) = ((i + 1 : Nat) : Int) by push_cast; rfl, ih (i + 1)]
    simp [TBuffer.WriteFastArray, upperRows, hc, e, List.append_assoc]

theorem Streamer_read_loop (M : TMatrixTSym R) (n : Nat) (rM : Region) (oM : Int)
    (hM : M.fElements = Ptr.loc rM oM) (rT : Region) (rest : List R) :
    ∀ (k i : Nat) (b : TBuffer R) (s : Store R), i + k ≤ n →
      b.elems = upperRows M n i k ++ rest →
      ∃ s' : Store R,
        forUp (fun i (st : TBuffer R × Store R) =>
          TBuffer.ReadFastArray st.1 st.2 (Ptr.loc rT 0 + (i * (n : Int) + i)) ((n : Int) - i))
          i k (b, s) = some ({ b with elems := rest }, s') ∧
        s'.nheap = s.nheap ∧ s'.freed = s.freed ∧
        (∀ x y : Nat, i ≤ x → x < i + k → x ≤ y → y < n →
          s'.cells rT ((x : Int) * n + y) = M.mem.cells rM (oM + ((x : Int) * n + y))) ∧
        (∀ x y : Nat, x < i → y < n → s'.cells rT ((x : Int) * n + y)
          = s.cells rT ((x : Int) * n + y)) ∧
        (∀ (r' : Region) (q : Int), r' ≠ rT → s'.cells r' q = s.cells r' q) := by
  intro k
  induction k with
  | zero =>
    intro i b s _ hb
    refine ⟨s, ?_, rfl, rfl, fun x y h1 h2 => by omega, fun _ _ _ _ => rfl, fun _ _ _ => rfl⟩
    simp only [upperRows, List.nil_append] at hb
    simp [forUp, ← hb]
  | succ k ih =>
    intro i b s hik hb
    have e : ((n : Int) - (i : Int)).toNat = n - i := by omega
    simp only [upperRows, hM, Ptr.loc_add, List.append_assoc] at hb
    obtain ⟨s1, h1, h2, h3, h4⟩ := TBuffer.readArray_arrayAt M.mem rM rT
      (upperRows M n (i + 1) k ++ rest) (n - i) s (0 + ((i : Int) * n + i))
      (oM + ((i : Int) * n + i))
    obtain ⟨s', g1, g2, g3, g4, g5, g6⟩ := ih (i + 1)
      { b with elems := upperRows M n (i + 1) k ++ rest } s1 (by omega) rfl
    refine ⟨s', ?_, by rw [g2, h2], by rw [g3, h3], ?_, ?_, ?_⟩
    · simp only [forUp, TBuffer.ReadFastArray, Ptr.loc_add, e, hb, h1, Option.map_some',
        Option.some_bind]
      rw [show ((i : Int) + 1) = ((i + 1 : Nat) : Int) by push_cast; rfl]
      exact g1
    · intro x y hx1 hx2 hxy hy
      by_cases hxi : x = i
      · subst hxi
        rw [g5 x y (by omega) hy, h4, if_pos ⟨rfl, by omega, by
          have : ((n - x : Nat) : Int) = (n : Int) - x := by omega
          rw [this]; omega⟩]
        congr 1; ring
      · exact g4 x y (by omega) (by omega) hxy hy
    · intro x y hx hy
      rw [g5 x y (by omega) hy, h4, if_neg]
      rintro ⟨_, h5, _⟩
      have h6 : ((x : Int) + 1) * n ≤ (i : Int) * n := by
        apply mul_le_mul_of_nonneg_right <;> omega
      have : (y : Int) < n := by omega
      have : (0 : Int) ≤ i := by omega
      linarith
    · intro r' q hr
      rw [g6 r' q hr, h4, if_neg (fun h => hr h.1)]

end TMatrixTSym

namespace TMatrixTSym

variable {R : Type} [CommRing R]

theorem SimilarityT_col (fuel : Nat) (bta b : TMatrixT R) (n m : Nat) (hb : b.IsShape n m)
    (hf : n < fuel) (r : Region) (o : Int) (i j : Nat) (hj : j < m) (c : Int) (s : Store R) :
    SimilarityT.colStep fuel bta b (Ptr.loc r o) ((i : Int) * n)
        { bcp := (j : Int), cp := c, mem := s }
      = some { bcp := ((j + 1 : Nat) : Int), cp := c + 1,
               mem := s.store (Ptr.loc r (o + c))
                 (∑ k in Finset.range n,
                   bta.fElements ((i : Int) * n + k) * b.fElements ((k : Int) * m + j)) } := by
  have hK : ∀ k : Nat, k ≤ n →
      ((j : Int) + k * b.GetNcols < 0 + b.GetNoElements ↔ k < n) := by
    intro k hk
    simp only [TMatrixT.GetNcols, TMatrixT.GetNoElements, hb.cols, hb.nelems, zero_add]
    constructor
    · intro h
      by_contra hc
      have : k = n := by omega
      subst this
      omega
    · intro h
      have h1 : ((k : Int) + 1) * m ≤ (n : Int) * m := by
        apply mul_le_mul_of_nonneg_right <;> omega
      have h2 : (j : Int) < m := by exact_mod_cast hj
      nlinarith
  simp only [SimilarityT.colStep]
  rw [dot_loop bta.fElements b.fElements 1 b.GetNcols (0 + b.GetNoElements) ((i : Int) * n) j n
    fuel hK hf]
  simp only [Option.some_bind, TMatrixT.GetNcols, TMatrixT.GetNoElements, hb.cols, hb.nelems,
    Ptr.loc_add, mul_one]
  congr 2
  · push_cast; ring
  · congr 1
    apply Finset.sum_congr rfl
    intro k _
    congr 2
    ring

theorem SimilarityT_row (fuel : Nat) (bta b : TMatrixT R) (n m : Nat) (hb : b.IsShape n m)
    (hf : max m n < fuel) (r : Region) (o : Int) (i : Nat) (hi : i < m) (s : Store R) :
    ∃ t : RowState R,
      whileLoop (fun t : RowState R => decide (t.bcp < 0 + b.GetNcols))
        (SimilarityT.colStep fuel bta b (Ptr.loc r o) ((i : Int) * n)) fuel
        { bcp := (i : Int), cp := (i : Int) * m + i, mem := s } = some t ∧
      t.cp = (i : Int) * m + m ∧
      ∀ x y : Nat, y < m → t.mem.cells r (o + ((x : Int) * m + y))
        = if x = i ∧ i ≤ y then
            ∑ k in Finset.range n,
              bta.fElements ((i : Int) * n + k) * b.fElements ((k : Int) * m + y)
          else s.cells r (o + ((x : Int) * m + y)) := by
  obtain ⟨t, ht, hP⟩ := whileLoop_rule
    (fun t : RowState R => decide (t.bcp < 0 + b.GetNcols))
    (SimilarityT.colStep fuel bta b (Ptr.loc r o) ((i : Int) * n))
    (fun k t => t.bcp = ((i + k : Nat) : Int) ∧ t.cp = (i : Int) * m + ((i + k : Nat) : Int) ∧
      ∀ x y : Nat, y < m → t.mem.cells r (o + ((x : Int) * m + y))
        = if x = i ∧ i ≤ y ∧ y < i + k then
            ∑ l in Finset.range n,
              bta.fElements ((i : Int) * n + l) * b.fElements ((l : Int) * m + y)
          else s.cells r (o + ((x : Int) * m + y))) (m - i)
    (by
      intro k t _ ⟨hb1, _, _⟩
      simp only [hb1, TMatrixT.GetNcols, hb.cols, zero_add, decide_eq_true_eq]
      omega)
    (by
      intro k t hk ⟨hb1, hc, hmem⟩
      have ht : t = { bcp := ((i + k : Nat) : Int), cp := t.cp, mem := t.mem } := by
        rw [← hb1]
      have hjm : i + k < m := by omega
      have hstep := SimilarityT_col fuel bta b n m hb (by omega) r o i (i + k) hjm t.cp t.mem
      rw [← ht] at hstep
      refine ⟨_, hstep, rfl, ?_, ?_⟩
      · simp only [hc]; push_cast; ring
      · intro x y hy
        have e : o + t.cp = o + ((i : Int) * m + ((i + k : Nat) : Int)) := by rw [hc]
        simp only
        rw [e, Store.store_cell_idx _ r o m x y i (i + k) hy hjm, hmem x y hy]
        by_cases c1 : x = i ∧ y = i + k
        · obtain ⟨rfl, rfl⟩ := c1
          rw [if_pos ⟨rfl, rfl⟩, if_pos ⟨rfl, by omega, by omega⟩]
        · rw [if_neg c1]
          by_cases c2 : x = i ∧ i ≤ y ∧ y < i + k
          · rw [if_pos c2, if_pos ⟨c2.1, c2.2.1, by omega⟩]
          · rw [if_neg c2, if_neg (by omega)])
    0 fuel { bcp := (i : Int), cp := (i : Int) * m + i, mem := s } (Nat.zero_le _) (by omega)
    ⟨by simp, by simp, by
      intro x y _
      rw [if_neg (by omega)]⟩
  refine ⟨t, ht, ?_, ?_⟩
  · rw [hP.2.1]
    have e : i + (m - i) = m := by omega
    rw [e]
  · intro x y hy
    rw [hP.2.2 x y hy]
    by_cases c : x = i ∧ i ≤ y
    · rw [if_pos ⟨c.1, c.2, by omega⟩, if_pos c]
    · rw [if_neg (fun h => c ⟨h.1, h.2.1⟩), if_neg c]

theorem SimilarityT_loop (fuel : Nat) (bta b : TMatrixT R) (n m : Nat) (hb : b.IsShape n m)
    (hba : bta.GetNoElements = (m : Int) * n) (hbac : bta.GetNcols = n)
    (hn : 0 < n) (hf : max m n < fuel) (r : Region) (o : Int) (s0 : Store R) :
    ∃ s : SimState R,
      whileLoop (fun s : SimState R => decide (s.barp0 < 0 + bta.GetNoElements))
        (SimilarityT.rowStep fuel bta b (Ptr.loc r o)) fuel
        { barp0 := 0, bi1p := 0, cp := 0, ishift := 0, mem := s0 } = some s ∧
      s.barp0 = (m : Int) * n ∧ s.cp = (m : Int) * m + m ∧ s.ishift = m ∧
      ∀ x y : Nat, x < m → y < m → x ≤ y → s.mem.cells r (o + ((x : Int) * m + y))
        = ∑ k in Finset.range n,
            bta.fElements ((x : Int) * n + k) * b.fElements ((k : Int) * m + y) := by
  obtain ⟨s, hs, hP⟩ := whileLoop_rule
    (fun s : SimState R => decide (s.barp0 < 0 + bta.GetNoElements))
    (SimilarityT.rowStep fuel bta b (Ptr.loc r o))
    (fun i s => s.barp0 = (i : Int) * n ∧ s.bi1p = (i : Int) ∧ s.cp = (i : Int) * m + i ∧
      s.ishift = i ∧
      ∀ x y : Nat, x < i → y < m → x ≤ y → s.mem.cells r (o + ((x : Int) * m + y))
        = ∑ k in Finset.range n,
            bta.fElements ((x : Int) * n + k) * b.fElements ((k : Int) * m + y)) m
    (by
      intro i s _ ⟨hb1, _⟩
      simp only [hb1, hba, zero_add, decide_eq_true_eq]
      exact mul_lt_mul_iff_nat n i m hn)
    (by
      intro i s hi ⟨hb1, hb2, hc, hsh, hmem⟩
      obtain ⟨t, ht, ht1, ht2⟩ := SimilarityT_row fuel bta b n m hb hf r o i hi s.mem
      refine ⟨{ barp0 := s.barp0 + bta.GetNcols, bi1p := s.bi1p + 1,
                cp := t.cp + (s.ishift + 1), ishift := s.ishift + 1, mem := t.mem }, ?_, ?_, ?_,
        ?_, ?_, ?_⟩
      · simp only [SimilarityT.rowStep, hb1, hb2, hc, ht, Option.some_bind]
      · simp only [hb1, hbac]; push_cast; ring
      · simp only [hb2]; push_cast; ring
      · simp only [ht1, hsh]; push_cast; ring
      · simp only [hsh]; push_cast; ring
      · intro x y hx hy hxy
        simp only
        rw [ht2 x y hy]
        by_cases c : x = i
        · subst c; rw [if_pos ⟨rfl, hxy⟩]
        · rw [if_neg (fun h => c h.1)]; exact hmem x y (by omega) hy hxy)
    0 fuel { barp0 := 0, bi1p := 0, cp := 0, ishift := 0, mem := s0 } (Nat.zero_le m) (by omega)
    ⟨by simp, by simp, by simp, by simp, by intro x y hx; omega⟩
  exact ⟨s, hs, hP.1, hP.2.2.1, hP.2.2.2.1, fun x y hx hy hxy => hP.2.2.2.2 x y hx hy hxy⟩

/-- The kernel of `SimilarityT` on an `m` by `m` object, for `b` with `n >= 1`
rows and `m` columns and an intermediate array `bta` of `m*n` elements: it
returns, and the element `[x,y]` is the product of row `min(x,y)` of `bta`
with column `max(x,y)` of `b`. -/
theorem SimilarityT_kernel_pos (fuel : Nat) (M : TMatrixTSym R) (bta b : TMatrixT R)
    (n m : Nat) (hb : b.IsShape n m) (hba : bta.GetNoElements = (m : Int) * n)
    (hbac : bta.GetNcols = n) (hn : 0 < n) (hf : max m n < fuel) (r : Region) (o : Int)
    (hM : M.SquareAt m r o) :
    ∃ t : Store R, SimilarityT.kernel fuel M bta b = some { M with mem := t } ∧
      ∀ x y : Nat, x < m → y < m → t.cells r (o + ((x : Int) * m + y))
        = ∑ k in Finset.range n,
            bta.fElements (((min x y : Nat) : Int) * n + k)
              * b.fElements ((k : Int) * m + ((max x y : Nat) : Int)) := by
  obtain ⟨s, hs, hs1, hs2, hs3, hs4⟩ :=
    SimilarityT_loop fuel bta b n m hb hba hbac hn hf r o M.mem
  have hsq : ({ M with mem := s.mem } : TMatrixTSym R).SquareAt m r o :=
    ⟨hM.valid, hM.rows, hM.cols, hM.nelems, hM.buf⟩
  obtain ⟨t, ht, ht1⟩ := mirror_spec _ m r o hsq
  refine ⟨t, ?_, ?_⟩
  · have hcond : s.cp = 0 + M.fNelems + s.ishift ∧ s.barp0 = 0 + bta.GetNoElements := by
      rw [hs1, hs2, hs3, hM.nelems, hba]; simp
    unfold SimilarityT.kernel
    rw [show M.GetMatrixArray = Ptr.loc r o from hM.buf]
    simp only [hs, Option.some_bind]
    rw [if_pos hcond, ht]
  · intro x y hx hy
    rw [ht1 x y hx hy]
    by_cases c : y < x
    · rw [if_pos c, hs4 y x hy hx (by omega)]
      have e1 : min x y = y := by omega
      have e2 : max x y = x := by omega
      rw [e1, e2]
    · rw [if_neg c, hs4 x y hx hy (by omega)]
      have e1 : min x y = x := by omega
      have e2 : max x y = y := by omega
      rw [e1, e2]

theorem SimilarityT_kernel_zero (fuel : Nat) (M : TMatrixTSym R) (bta b : TMatrixT R)
    (hf : 0 < fuel) (hrows : M.fNrows = 0) (hnel : M.fNelems = 0)
    (hba : bta.GetNoElements = 0) :
    SimilarityT.kernel fuel M bta b = some { M with mem := M.mem } := by
  obtain ⟨fuel, rfl⟩ : ∃ k, fuel = k + 1 := ⟨fuel - 1, by omega⟩
  simp [SimilarityT.kernel, whileLoop, hba, hnel, mirror, hrows, forUp]

/-- The value the kernel leaves at `[x,y]`, rewritten as the double sum of
`B^T*A*B` when `A` is symmetric. -/
theorem SimilarityT_sum (A : TMatrixTSym R) (b : TMatrixT R) (n m : Nat) (hb : b.IsShape n m)
    (hA : A.fNcols = n) (hsym : ∀ i j : Nat, i < n → j < n → A.elem i j = A.elem j i)
    (x y : Nat) :
    (∑ k in Finset.range n,
        (TMatrixT.kTransposeMult b A).fElements (((min x y : Nat) : Int) * n + k)
          * b.fElements ((k : Int) * m + ((max x y : Nat) : Int)))
      = ∑ l in Finset.range n, ∑ k in Finset.range n, b.elem l x * A.elem l k * b.elem k y := by
  have hker : ∀ u v : Nat,
      (∑ k in Finset.range n,
        (TMatrixT.kTransposeMult b A).fElements ((u : Int) * n + k)
          * b.fElements ((k : Int) * m + (v : Int)))
      = ∑ l in Finset.range n, ∑ k in Finset.range n, b.elem l u * A.elem l k * b.elem k v := by
    intro u v
    rw [Finset.sum_comm]
    apply Finset.sum_congr rfl
    intro k hk
    rw [TMatrixT.kTransposeMult_elem b A n m n hb hA u k (Finset.mem_range.mp hk), Finset.sum_mul]
    apply Finset.sum_congr rfl
    intro l _
    simp only [TMatrixT.elem, hb.cols]
  rw [hker]
  rcases Nat.le_total x y with h | h
  · rw [min_eq_left h, max_eq_right h]
  · rw [min_eq_right h, max_eq_left h, Finset.sum_comm]
    apply Finset.sum_congr rfl
    intro l hl
    apply Finset.sum_congr rfl
    intro k hk
    rw [hsym k l (Finset.mem_range.mp hk) (Finset.mem_range.mp hl)]
    ring

end TMatrixTSym

namespace TMatrixTSym

variable {R : Type} [CommRing R]

/-- C2. `Rank1Update(v,alpha)` on a valid `n` by `n` matrix and a vector of at
least `n` elements returns, leaves the matrix valid and of the same shape, and
adds `alpha*v[i]*v[j]` to every element `[i,j]`; so on a matrix of zeros the
result is `alpha` times the outer product of `v` with itself. -/
theorem Rank1Update_adds_outer_product (M : TMatrixTSym R) (v : TVectorT R) (alpha : R)
    (n : Nat) (h : M.IsSquare n) (hv : v.IsValid = true)
    (hlen : (n : Int) ≤ v.GetNoElements) :
    ∃ res, Rank1Update M v alpha = some res ∧ res.IsSquare n ∧
      (∀ i j : Nat, i < n → j < n →
        res.elem i j = M.elem i j + alpha * v.fElements i * v.fElements j) ∧
      ((∀ i j : Nat, i < n → j < n → M.elem i j = 0) →
        ∀ i j : Nat, i < n → j < n → res.elem i j = alpha * v.fElements i * v.fElements j) := by
  have hvalid : M.IsValid = true := h.valid
  have hshort : ¬ v.GetNoElements < M.fNrows := by rw [h.rows]; omega
  have hrun : Rank1Update M v alpha
      = (forUp (Rank1Update.rowStep M v.fElements alpha) 0 n
          { trp := 0, tcp := 0, mem := M.mem }).map fun s => { M with mem := s.mem } := by
    have hn : M.fNrows.toNat = n := by rw [h.rows]; exact Int.toNat_ofNat n
    simp only [Rank1Update, hvalid, hv, hshort, hn]
    simp
  have key : ∃ res, Rank1Update M v alpha = some res ∧ res.IsSquare n ∧
      (∀ i j : Nat, i < n → j < n →
        res.elem i j = M.elem i j + alpha * v.fElements i * v.fElements j) := by
    rcases Nat.eq_zero_or_pos n with hn | hn
    · subst hn
      refine ⟨{ M with mem := M.mem }, ?_, ⟨h.valid, h.rows, h.cols, h.nelems, h.buf⟩, ?_⟩
      · rw [hrun]; rfl
      · intro i j hi; omega
    · obtain ⟨r, o, hsq⟩ := h.squareAt hn
      obtain ⟨s, hs, hcells⟩ := Rank1Update_loop M v.fElements alpha n r o hsq
      have hres : ({ M with mem := s.mem } : TMatrixTSym R).SquareAt n r o :=
        ⟨hsq.valid, hsq.rows, hsq.cols, hsq.nelems, hsq.buf⟩
      refine ⟨{ M with mem := s.mem }, ?_, ⟨h.valid, h.rows, h.cols, h.nelems, h.buf⟩, ?_⟩
      · rw [hrun, hs]; rfl
      · intro i j hi hj
        rw [elem_eq_cells hres, elem_eq_cells hsq]
        exact hcells i j hi hj
  obtain ⟨res, h1, h2, h3⟩ := key
  refine ⟨res, h1, h2, h3, ?_⟩
  intro hz i j hi hj
  rw [h3 i j hi hj, hz i j hi hj, zero_add]

end TMatrixTSym

/-- C2 at the matrix `[[2,1],[1,2]]` with `v = [1,1]` and `alpha = 1`; the
update yields `[[3,2],[2,3]]`. -/
theorem Rank1Update_adds_outer_product_witness :
    (∃ res, TMatrixTSym.Rank1Update (ofList cfg25 2 [2, 1, 1, 2]) (vecOf [1, 1]) 1 = some res ∧
      res.IsSquare 2 ∧
      (∀ i j : Nat, i < 2 → j < 2 →
        res.elem i j = (ofList cfg25 2 [2, 1, 1, 2]).elem i j
          + 1 * (vecOf [1, 1]).fElements i * (vecOf [1, 1]).fElements j) ∧
      ((∀ i j : Nat, i < 2 → j < 2 → (ofList cfg25 2 [2, 1, 1, 2]).elem i j = 0) →
        ∀ i j : Nat, i < 2 → j < 2 →
          res.elem i j = 1 * (vecOf [1, 1]).fElements i * (vecOf [1, 1]).fElements j)) ∧
    (TMatrixTSym.Rank1Update (ofList cfg25 2 [2, 1, 1, 2]) (vecOf [1, 1]) 1).map
      (fun res => rowsOf res 2) = some [[3, 2], [2, 3]] :=
  ⟨TMatrixTSym.Rank1Update_adds_outer_product (ofList cfg25 2 [2, 1, 1, 2]) (vecOf [1, 1]) 1 2
      ⟨rfl, rfl, rfl, rfl, fun _ => by decide⟩ rfl (by decide),
    by decide⟩

namespace TMatrixTSym

variable {R : Type} [CommRing R]

theorem AtMultA_kernel_zero (fuel : Nat) (M : TMatrixTSym R) (a : TMatrixT R) (m : Nat)
    (ha : a.IsShape m 0) (hf : 0 < fuel) (hM : M.fNelems = 0) :
    AtMultA.kernel fuel M a = some { M with mem := M.mem } := by
  obtain ⟨fuel, rfl⟩ : ∃ k, fuel = k + 1 := ⟨fuel - 1, by omega⟩
  have hc : a.GetNcols = 0 := by simp [TMatrixT.GetNcols, ha.cols]
  simp [AtMultA.kernel, whileLoop, hc, hM]

theorem AtMultA_kernel_pos (fuel : Nat) (M : TMatrixTSym R) (a : TMatrixT R) (m n : Nat)
    (ha : a.IsShape m n) (hf : max m n < fuel) (r : Region) (o : Int) (hM : M.SquareAt n r o) :
    ∃ s : Store R, AtMultA.kernel fuel M a = some { M with mem := s } ∧
      ∀ x y : Nat, x < n → y < n → s.cells r (o + ((x : Int) * n + y))
        = ∑ k in Finset.range m, a.elem k x * a.elem k y := by
  obtain ⟨s, hs, hs1, hs2, hs3⟩ := AtMultA_loop fuel a m n ha hf r o M.mem
  refine ⟨s.mem, ?_, hs3⟩
  have hc : a.GetNcols = n := ha.cols
  have hcond : s.cp = 0 + M.fNelems ∧ s.acp0 = 0 + a.GetNcols := by
    rw [hs1, hs2, hM.nelems, hc]; simp
  simp only [AtMultA.kernel, GetMatrixArray, hM.buf, hs, Option.some_bind]
  rw [if_pos hcond]

end TMatrixTSym

namespace TMatrixTSym

variable {R : Type} [CommRing R]

theorem SimilarityV_row (fuel : Nat) (M : TMatrixTSym R) (v : TVectorT R) (n : Nat)
    (hn : v.GetNrows = n) (hf : n < fuel) (mp vp : Int) (c : R) :
    SimilarityV.rowStep fuel M v { ap := mp, bp := vp, cij := c }
      = some { ap := mp + n, bp := vp + 1,
               cij := c + (∑ k in Finset.range n, M.get (mp + k) * v.fElements k)
                 * v.fElements vp } := by
  have hK : ∀ k : Nat, k ≤ n → ((0 : Int) + k * 1 < 0 + v.GetNrows ↔ k < n) := by
    intro k _; rw [hn]; omega
  simp only [SimilarityV.rowStep]
  rw [dot_loop M.get v.fElements 1 1 (0 + v.GetNrows) mp 0 n fuel hK hf]
  simp

theorem SimilarityV_loop (fuel : Nat) (M : TMatrixTSym R) (v : TVectorT R) (n : Nat)
    (hn : v.GetNrows = n) (hf : n < fuel) :
    whileLoop (fun s : DotState R => decide (s.bp < 0 + v.GetNrows))
        (SimilarityV.rowStep fuel M v) fuel { ap := 0, bp := 0, cij := 0 }
      = some { ap := (n : Int) * n, bp := n,
               cij := ∑ i in Finset.range n,
                 (∑ k in Finset.range n, M.get ((i : Int) * n + k) * v.fElements k)
                   * v.fElements i } := by
  obtain ⟨s, hs, hP⟩ := whileLoop_rule (fun s : DotState R => decide (s.bp < 0 + v.GetNrows))
    (SimilarityV.rowStep fuel M v)
    (fun i s => s = { ap := (i : Int) * n, bp := i,
                      cij := ∑ l in Finset.range i,
                        (∑ k in Finset.range n, M.get ((l : Int) * n + k) * v.fElements k)
                          * v.fElements l }) n
    (by
      intro i s _ hs
      subst hs
      simp only [hn, zero_add, decide_eq_true_eq]
      omega)
    (by
      intro i s _ hs
      subst hs
      refine ⟨_, SimilarityV_row fuel M v n hn hf _ _ _, ?_⟩
      show _ = ({ ap := ((i + 1 : Nat) : Int) * n, bp := ((i + 1 : Nat) : Int),
                  cij := ∑ l in Finset.range (i + 1),
                    (∑ k in Finset.range n, M.get ((l : Int) * n + k) * v.fElements k)
                      * v.fElements l } : DotState R)
      rw [Finset.sum_range_succ]
      congr 1 <;> (push_cast; ring))
    0 fuel { ap := 0, bp := 0, cij := 0 } (Nat.zero_le n) (by omega) (by simp)
  rw [hs, hP]

/-- C7. On a valid `n` by `n` matrix, `Similarity(v)` with a vector of exactly
`n` elements whose lower bound is the column lower bound of the matrix returns
the sum over `i,j` of `v[i]*A[i,j]*v[j]` and leaves the object as it was; with
any other length or lower bound it returns `-1` and the object is invalid
afterwards. -/
theorem Similarity_vector_value (M : TMatrixTSym R) (v : TVectorT R) (n fuel : Nat)
    (h : M.IsSquare n) (hv : v.IsValid = true) (hf : n < fuel) :
    ((v.GetNrows = n ∧ v.GetLwb = M.fColLwb) →
      SimilarityV fuel M v
        = some (∑ i in Finset.range n, ∑ j in Finset.range n,
                  v.fElements i * M.elem i j * v.fElements j, M)) ∧
    (¬ (v.GetNrows = n ∧ v.GetLwb = M.fColLwb) →
      ∃ res, SimilarityV fuel M v = some (-1, res) ∧ res.IsValid = false) := by
  have hvalid : M.IsValid = true := h.valid
  constructor
  · rintro ⟨h1, h2⟩
    have hcomp : ¬ (M.fNcols ≠ v.GetNrows ∨ M.fColLwb ≠ v.GetLwb) := by
      rw [h.cols, h1, h2]; simp
    simp only [SimilarityV, hvalid, hv, hcomp, if_false, Bool.true_eq_false]
    rw [SimilarityV_loop fuel M v n h1 hf]
    simp only [Option.some_bind, GetNoElements, h.nelems, zero_add, if_true]
    congr 2
    apply Finset.sum_congr rfl
    intro i _
    rw [Finset.sum_mul]
    apply Finset.sum_congr rfl
    intro j _
    simp only [elem, h.cols]
    ring
  · intro hne
    have hcomp : (M.fNcols ≠ v.GetNrows ∨ M.fColLwb ≠ v.GetLwb) := by
      rw [h.cols]
      by_contra hc
      push_neg at hc
      exact hne ⟨hc.1.symm, hc.2.symm⟩
    refine ⟨M.Invalidate, ?_, rfl⟩
    simp only [SimilarityV, hvalid, hv, hcomp, if_true, if_false, Bool.true_eq_false]

end TMatrixTSym

/-- C7 at the matrix `[[2,1],[1,2]]` with `v = [1,3]`. -/
theorem Similarity_vector_value_witness :
    (((vecOf [1, 3]).GetNrows = (2 : Nat) ∧ (vecOf [1, 3]).GetLwb
        = (ofList cfg25 2 [2, 1, 1, 2]).fColLwb) →
      TMatrixTSym.SimilarityV 3 (ofList cfg25 2 [2, 1, 1, 2]) (vecOf [1, 3])
        = some (∑ i in Finset.range 2, ∑ j in Finset.range 2,
                  (vecOf [1, 3]).fElements i * (ofList cfg25 2 [2, 1, 1, 2]).elem i j
                    * (vecOf [1, 3]).fElements j, ofList cfg25 2 [2, 1, 1, 2])) ∧
    (¬ ((vecOf [1, 3]).GetNrows = (2 : Nat) ∧ (vecOf [1, 3]).GetLwb
        = (ofList cfg25 2 [2, 1, 1, 2]).fColLwb) →
      ∃ res, TMatrixTSym.SimilarityV 3 (ofList cfg25 2 [2, 1, 1, 2]) (vecOf [1, 3])
        = some (-1, res) ∧ res.IsValid = false) :=
  TMatrixTSym.Similarity_vector_value (ofList cfg25 2 [2, 1, 1, 2]) (vecOf [1, 3]) 2 3
    ⟨rfl, rfl, rfl, rfl, fun _ => by decide⟩ rfl (by decide)

namespace TMatrixTSym

variable {R : Type} [CommRing R]

theorem mirror_loop (m : Nat) (r : Region) (o : Int) (s : Store R) :
    ∃ t : Store R,
      forUp (fun irow (s : Store R) =>
        forUp (fun icol (w : Store R) =>
          some (w.store (Ptr.loc r o + (irow * (m : Int) + icol))
                  (w.load (Ptr.loc r o + (icol * (m : Int) + irow))))) 0 irow.toNat s) 0 m s
        = some t ∧
      ∀ a b : Nat, a < m → b < m → t.cells r (o + ((a : Int) * m + b))
        = if b < a then s.cells r (o + ((b : Int) * m + a))
          else s.cells r (o + ((a : Int) * m + b)) := by
  obtain ⟨t, ht, hc⟩ := mirror_spec
    ({ fNrows := m, fNcols := m, fRowLwb := 0, fColLwb := 0, fNelems := (m : Int) * m, fTol := 0,
       fIsOwner := true, fValid := true, fElements := Ptr.loc r o, mem := s } : TMatrixTSym R)
    m r o ⟨rfl, rfl, rfl, rfl, rfl⟩
  refine ⟨t, ?_, hc⟩
  have heq : forUp (fun irow (s : Store R) =>
        forUp (fun icol (w : Store R) =>
          some (w.store (Ptr.loc r o + (irow * (m : Int) + icol))
                  (w.load (Ptr.loc r o + (icol * (m : Int) + irow))))) 0 irow.toNat s) 0 m s
      = forUp (fun irow (s : Store R) =>
          forUp (mirror.colStep
            ({ fNrows := m, fNcols := m, fRowLwb := 0, fColLwb := 0, fNelems := (m : Int) * m,
               fTol := 0, fIsOwner := true, fValid := true, fElements := Ptr.loc r o,
               mem := s } : TMatrixTSym R) irow) 0 irow.toNat s) 0 m s := rfl
  simp only [mirror, Int.toNat_ofNat] at ht
  obtain ⟨u, hu, hfu⟩ := Option.map_eq_some'.mp ht
  exact heq.trans (hu.trans (congrArg some (congrArg TMatrixTSym.mem hfu)))

/-- The buffer after `Streamer` in write mode, for a matrix with `n` rows and
`n` columns. -/
theorem Streamer_write (cfg : Config R) (M : TMatrixTSym R) (n : Nat) (hr : M.fNrows = n)
    (hc : M.fNcols = n) (b : TBuffer R) (hb : b.reading = false) :
    Streamer cfg M b
      = some (M, { reading := false, shapes := b.shapes ++ [M.shape],
                   elems := b.elems ++ upperRows M n 0 n }) := by
  have hw := Streamer_write_loop M n hc n 0 (WriteBuffer b M)
  simp only [Streamer, TBuffer.IsReading, hb, hr, Int.toNat_ofNat, Bool.false_eq_true, if_false]
  rw [show ((0 : Nat) : Int) = 0 from rfl] at hw
  rw [hw]
  simp [WriteBuffer, hb]

end TMatrixTSym

namespace TMatrixTSym

variable {R : Type} [CommRing R]

/-- `Streamer` in read mode on any object `T`, from a buffer that holds the
shape record and the runs written for a valid symmetric `n` by `n` matrix
`M`. -/
theorem Streamer_read (cfg : Config R) (T M : TMatrixTSym R) (n : Nat) (hM : M.IsSquare n)
    (hsym : ∀ i j : Nat, i < n → j < n → M.elem i j = M.elem j i)
    (b : TBuffer R) (hb : b.reading = true) (hs : b.shapes = [M.shape])
    (he : b.elems = upperRows M n 0 n) :
    ∃ res rest, Streamer cfg T b = some (res, rest) ∧ rest.elems = [] ∧ res.IsSquare n ∧
      res.shape = M.shape ∧ ∀ i j : Nat, i < n → j < n → res.elem i j = M.elem i j := by
  have hrun : Streamer cfg T b
      = ((forUp (fun i (st : TBuffer R × Store R) =>
            TBuffer.ReadFastArray st.1 st.2
              (Ptr.loc (Region.heap (Clear cfg T).mem.nheap) 0 + (i * (n : Int) + i))
              ((n : Int) - i))
          0 n ({ b with shapes := [] }, (Clear cfg T).mem.alloc.2)).bind fun st =>
        (forUp (fun irow (s : Store R) =>
            forUp (fun icol (w : Store R) =>
              some (w.store (Ptr.loc (Region.heap (Clear cfg T).mem.nheap) 0
                      + (irow * (n : Int) + icol))
                    (w.load (Ptr.loc (Region.heap (Clear cfg T).mem.nheap) 0
                      + (icol * (n : Int) + irow))))) 0 irow.toNat s) 0 n st.2).bind fun mem3 =>
        if (n : Int) * n ≤ cfg.kSizeMax then
          (mem3.memcpy (Ptr.loc Region.stack 0)
              (Ptr.loc (Region.heap (Clear cfg T).mem.nheap) 0) ((n : Int) * n)).bind fun mem4 =>
            some ({ Clear cfg T with
                    fNrows := n, fNcols := n, fRowLwb := M.fRowLwb, fColLwb := M.fColLwb,
                    fNelems := (n : Int) * n, fTol := M.fTol, fValid := M.fValid,
                    mem := mem4.free (Ptr.loc (Region.heap (Clear cfg T).mem.nheap) 0),
                    fElements := Ptr.loc Region.stack 0 }, st.1)
        else
          some ({ Clear cfg T with
                  fNrows := n, fNcols := n, fRowLwb := M.fRowLwb, fColLwb := M.fColLwb,
                  fNelems := (n : Int) * n, fTol := M.fTol, fValid := M.fValid,
                  mem := mem3,
                  fElements := Ptr.loc (Region.heap (Clear cfg T).mem.nheap) 0 }, st.1)) := by
    simp only [Streamer, TBuffer.IsReading, hb, if_true, ReadBuffer, hs, Option.some_bind, shape,
      hM.rows, hM.cols, hM.nelems, Int.toNat_ofNat, Store.alloc]
  rw [hrun]
  -- the runs are read into the new block
  have hread : ∃ s' : Store R,
      forUp (fun i (st : TBuffer R × Store R) =>
            TBuffer.ReadFastArray st.1 st.2
              (Ptr.loc (Region.heap (Clear cfg T).mem.nheap) 0 + (i * (n : Int) + i))
              ((n : Int) - i))
          0 n ({ b with shapes := [] }, (Clear cfg T).mem.alloc.2)
        = some ({ reading := b.reading, shapes := [], elems := [] }, s') ∧
      ∀ x y : Nat, x < n → x ≤ y → y < n →
        s'.cells (Region.heap (Clear cfg T).mem.nheap) ((x : Int) * n + y) = M.elem x y := by
    rcases Nat.eq_zero_or_pos n with hn | hn
    · subst hn
      refine ⟨(Clear cfg T).mem.alloc.2, ?_, fun x y hx => by omega⟩
      simp only [upperRows] at he
      simp [forUp, he]
    · obtain ⟨rM, oM, hsq⟩ := hM.squareAt hn
      obtain ⟨s', h1, _, _, h4, _, _⟩ := Streamer_read_loop M n rM oM hsq.buf
        (Region.heap (Clear cfg T).mem.nheap) [] n 0 { b with shapes := [] }
        (Clear cfg T).mem.alloc.2 (by omega) (by simpa using he)
      refine ⟨s', by simpa using h1, ?_⟩
      intro x y hx hxy hy
      rw [h4 x y (Nat.zero_le x) (by omega) hxy hy, elem_eq_cells hsq]
  obtain ⟨s1, hs1, hup⟩ := hread
  obtain ⟨s2, hs2, hmir⟩ := mirror_loop n (Region.heap (Clear cfg T).mem.nheap) 0 s1
  have hall : ∀ i j : Nat, i < n → j < n →
      s2.cells (Region.heap (Clear cfg T).mem.nheap) ((i : Int) * n + j) = M.elem i j := by
    intro i j hi hj
    have := hmir i j hi hj
    simp only [zero_add] at this
    rw [this]
    by_cases c : j < i
    · rw [if_pos c, hup j i hj (by omega) hi, hsym i j hi hj]
    · rw [if_neg c, hup i j hi (by omega) hj]
  rw [hs1]
  simp only [Option.some_bind]
  rw [hs2]
  simp only [Option.some_bind]
  by_cases hk : (n : Int) * n ≤ cfg.kSizeMax
  · rw [if_pos hk]
    have hov : Ptr.overlap (Ptr.loc Region.stack 0)
        (Ptr.loc (Region.heap (Clear cfg T).mem.nheap) 0) ((n : Int) * n) = false := by
      simp [Ptr.overlap]
    have hcp : s2.memcpy (Ptr.loc Region.stack 0)
        (Ptr.loc (Region.heap (Clear cfg T).mem.nheap) 0) ((n : Int) * n)
        = some (s2.moved Region.stack 0 (Region.heap (Clear cfg T).mem.nheap) 0
            ((n : Int) * n)) := by
      simp only [Store.memcpy, hov, Bool.false_eq_true, if_false]
      rfl
    rw [hcp]
    simp only [Option.some_bind]
    refine ⟨_, _, rfl, rfl, ⟨hM.valid, rfl, rfl, rfl, fun _ => Ptr.noConfusion⟩, ?_, ?_⟩
    · simp [shape, hM.rows, hM.cols, hM.nelems]
    · intro i j hi hj
      have hlt := idx_lt_sq n i j hi hj
      have h0 : (0 : Int) ≤ (i : Int) * n + j := by positivity
      change (s2.moved Region.stack 0 (Region.heap (Clear cfg T).mem.nheap) 0
        ((n : Int) * n)).cells Region.stack (0 + ((i : Int) * n + j)) = M.elem i j
      rw [moved_cells, if_pos ⟨rfl, by omega, by omega⟩, ← hall i j hi hj]
      congr 1; ring
  · rw [if_neg hk]
    refine ⟨_, _, rfl, rfl, ⟨hM.valid, rfl, rfl, rfl, fun _ => Ptr.noConfusion⟩, ?_, ?_⟩
    · simp [shape, hM.rows, hM.cols, hM.nelems]
    · intro i j hi hj
      change s2.cells (Region.heap (Clear cfg T).mem.nheap) (0 + ((i : Int) * n + j))
        = M.elem i j
      rw [zero_add]
      exact hall i j hi hj

/-- C8. For a valid symmetric `n` by `n` matrix `M`: `Streamer` in write mode
on an empty buffer returns, and `Streamer` in read mode on any object, from
the buffer so written, returns a valid `n` by `n` matrix with the shape
record of `M` whose every element `[i,j]` equals `M[i,j]`; the stream is used
up. -/
theorem Streamer_round_trip (cfg : Config R) (T M : TMatrixTSym R) (n : Nat)
    (hM : M.IsSquare n) (hsym : ∀ i j : Nat, i < n → j < n → M.elem i j = M.elem j i) :
    ∃ w res rest,
      Streamer cfg M { reading := false, shapes := [], elems := [] } = some (M, w) ∧
      Streamer cfg T { w with reading := true } = some (res, rest) ∧
      rest.elems = [] ∧ res.IsSquare n ∧ res.shape = M.shape ∧
      ∀ i j : Nat, i < n → j < n → res.elem i j = M.elem i j := by
  have hw := Streamer_write cfg M n hM.rows hM.cols { reading := false, shapes := [], elems := [] }
    rfl
  obtain ⟨res, rest, h1, h2, h3, h4, h5⟩ := Streamer_read cfg T M n hM hsym
    { reading := true, shapes := [M.shape], elems := upperRows M n 0 n } rfl rfl rfl
  exact ⟨_, res, rest, hw, by simpa using h1, h2, h3, h4, h5⟩

end TMatrixTSym

namespace TMatrixTSym

variable {R : Type} [CommRing R]

end TMatrixTSym

/-- C10, the failing input: the matrix `[[1,2],[2,3]]`, held in `fDataStack`
(`kSizeMax = 25`), after `ResizeTo(3,3)`.  The new element at position `(0,2)`
is 2, the old content of cell 2 of `fDataStack`, and not zero. -/
theorem ResizeTo_inline_growth_leaves_stale_element :
    (TMatrixTSym.ResizeTo cfg25 (ofList cfg25 2 [1, 2, 2, 3]) 3 3).map (fun res => rowsOf res 3)
      = some [[1, 2, 2], [2, 3, 0], [0, 0, 0]] := by
  decide

/-- C1, the failing input: the symmetric matrix `[[1,2],[2,3]]`, held in
`fDataStack` (`kSizeMax = 25`), is valid after `ResizeTo(3,3)` and has
`M[0,2] = 2` and `M[2,0] = 0`. -/
theorem ResizeTo_inline_growth_breaks_symmetry :
    (∀ i j : Nat, i < 2 → j < 2 →
      (ofList cfg25 2 [1, 2, 2, 3]).elem i j = (ofList cfg25 2 [1, 2, 2, 3]).elem j i) ∧
    (TMatrixTSym.ResizeTo cfg25 (ofList cfg25 2 [1, 2, 2, 3]) 3 3).map
      (fun res => (res.IsValid, res.fNrows, res.fNcols, res.elem 0 2, res.elem 2 0))
      = some (true, 3, 3, 2, 0) := by
  constructor
  · intro i j hi hj
    interval_cases i <;> interval_cases j <;> rfl
  · decide

namespace TMatrixTSym

variable {R : Type} [CommRing R]

/-- C6. `Similarity(b)` on a valid symmetric `n` by `n` matrix, with `b` the
`n` by `n` identity, returns and leaves every element as it was. -/
theorem Similarity_identity_keeps_elements (cfg : Config R) (fuel : Nat) (M : TMatrixTSym R)
    (b : TMatrixT R) (n : Nat) (hM : M.IsSquare n) (hb : b.IsShape n n)
    (hid : ∀ i j : Nat, i < n → j < n → b.elem i j = if i = j then 1 else 0)
    (hsym : ∀ i j : Nat, i < n → j < n → M.elem i j = M.elem j i) (hf : n < fuel) :
    ∃ res, Similarity cfg fuel M b = some res ∧ res.IsSquare n ∧
      ∀ i j : Nat, i < n → j < n → res.elem i j = M.elem i j := by
  obtain ⟨res, h1, h2, h3⟩ := Similarity_same_size cfg fuel M b n hM hb hsym hf
  refine ⟨res, h1, h2, ?_⟩
  intro i j hi hj
  rw [h3 i j hi hj]
  have hinner : ∀ l : Nat, l < n →
      (∑ k in Finset.range n, b.elem i l * M.elem l k * b.elem j k)
        = b.elem i l * M.elem l j := by
    intro l _
    rw [Finset.sum_eq_single j]
    · rw [hid j j hj hj, if_pos rfl, mul_one]
    · intro k hk hkj
      rw [hid j k hj (Finset.mem_range.mp hk), if_neg (fun e => hkj e.symm), mul_zero]
    · intro hj'
      exact absurd (Finset.mem_range.mpr hj) hj'
  rw [Finset.sum_congr rfl (fun l hl => hinner l (Finset.mem_range.mp hl)),
    Finset.sum_eq_single i]
  · rw [hid i i hi hi, if_pos rfl, one_mul]
  · intro l hl hli
    rw [hid i l hi (Finset.mem_range.mp hl), if_neg (fun e => hli e.symm), zero_mul]
  · intro hi'
    exact absurd (Finset.mem_range.mpr hi) hi'

end TMatrixTSym

/-- C6 at the matrix `[[2,1],[1,2]]`. -/
theorem Similarity_identity_keeps_elements_witness :
    ∃ res, TMatrixTSym.Similarity cfg25 3 (ofList cfg25 2 [2, 1, 1, 2]) (genOf 2 2 [1, 0, 0, 1])
        = some res ∧ res.IsSquare 2 ∧
      ∀ i j : Nat, i < 2 → j < 2 → res.elem i j = (ofList cfg25 2 [2, 1, 1, 2]).elem i j :=
  TMatrixTSym.Similarity_identity_keeps_elements cfg25 3 (ofList cfg25 2 [2, 1, 1, 2])
    (genOf 2 2 [1, 0, 0, 1]) 2 ⟨rfl, rfl, rfl, rfl, fun _ => by decide⟩ ⟨rfl, rfl, rfl, rfl⟩
    (fun i j hi hj => by interval_cases i <;> interval_cases j <;> rfl)
    (fun i j hi hj => by interval_cases i <;> interval_cases j <;> rfl)
    (by decide)

/-- C8 at the matrix `[[1,2,3],[2,4,5],[3,5,6]]`, read back into an object
that was invalid and empty. -/
theorem Streamer_round_trip_witness :
    ∃ w res rest,
      TMatrixTSym.Streamer cfg25 (ofList cfg25 3 [1, 2, 3, 2, 4, 5, 3, 5, 6])
        { reading := false, shapes := [], elems := [] }
        = some (ofList cfg25 3 [1, 2, 3, 2, 4, 5, 3, 5, 6], w) ∧
      TMatrixTSym.Streamer cfg25 blank { w with reading := true } = some (res, rest) ∧
      rest.elems = [] ∧ res.IsSquare 3 ∧
      res.shape = (ofList cfg25 3 [1, 2, 3, 2, 4, 5, 3, 5, 6]).shape ∧
      ∀ i j : Nat, i < 3 → j < 3 →
        res.elem i j = (ofList cfg25 3 [1, 2, 3, 2, 4, 5, 3, 5, 6]).elem i j :=
  TMatrixTSym.Streamer_round_trip cfg25 blank (ofList cfg25 3 [1, 2, 3, 2, 4, 5, 3, 5, 6]) 3
    ⟨rfl, rfl, rfl, rfl, fun _ => by decide⟩
    (fun i j hi hj => by interval_cases i <;> interval_cases j <;> rfl)

/-- C4, the failing input: an empty (0 by 0) matrix and a matrix `b` with one
row and no column, both valid.  The resize to 1 by 1 succeeds and gives a
valid zero matrix; then the loops do not run, the assertion
`cp == cp0+fNelems+ishift` compares `cp0` with `cp0+1`, and the call does not
return, whatever the fuel. -/
theorem Similarity_asserts_on_empty_matrix :
    (ofList cfg25 0 []).IsValid = true ∧ (genOf 1 0 []).IsValid = true ∧
    (TMatrixTSym.ResizeTo cfg25 (ofList cfg25 0 []) 1 1).map
      (fun res => (res.IsValid, res.fNrows, res.fNcols, res.fNelems, res.elem 0 0))
      = some (true, 1, 1, 1, 0) ∧
    ∀ fuel : Nat,
      TMatrixTSym.Similarity cfg25 fuel (ofList cfg25 0 []) (genOf 1 0 []) = none := by
  refine ⟨by decide, by decide, by decide, ?_⟩
  intro fuel
  cases fuel with
  | zero => rfl
  | succ k =>
    simp [TMatrixTSym.Similarity, TMatrixTSym.Similarity.kernel, whileLoop, TMatrixT.kMult,
      TMatrixT.GetNrows, TMatrixT.GetNoElements, genOf, ofList, TMatrixTSym.ResizeTo,
      TMatrixTSym.IsValid, TMatrixTSym.Allocate, TMatrixTSym.MakeValid, TMatrixTSym.New_m, cfg25]

/-- C5, the failing input: an empty (0 by 0) matrix and a matrix `b` with no
row and one column, both valid.  The resize to 1 by 1 succeeds and gives a
valid zero matrix; then the loops do not run, the assertion
`cp == cp0+fNelems+ishift` compares `cp0` with `cp0+1`, and the call does not
return, whatever the fuel. -/
theorem SimilarityT_asserts_on_empty_matrix :
    (ofList cfg25 0 []).IsValid = true ∧ (genOf 0 1 []).IsValid = true ∧
    (TMatrixTSym.ResizeTo cfg25 (ofList cfg25 0 []) 1 1).map
      (fun res => (res.IsValid, res.fNrows, res.fNcols, res.fNelems, res.elem 0 0))
      = some (true, 1, 1, 1, 0) ∧
    ∀ fuel : Nat,
      TMatrixTSym.SimilarityT cfg25 fuel (ofList cfg25 0 []) (genOf 0 1 []) = none := by
  refine ⟨by decide, by decide, by decide, ?_⟩
  intro fuel
  cases fuel with
  | zero => rfl
  | succ k =>
    simp [TMatrixTSym.SimilarityT, TMatrixTSym.SimilarityT.kernel, whileLoop,
      TMatrixT.kTransposeMult, TMatrixT.GetNcols, TMatrixT.GetNoElements, genOf, ofList,
      TMatrixTSym.ResizeTo, TMatrixTSym.IsValid, TMatrixTSym.Allocate, TMatrixTSym.MakeValid,
      TMatrixTSym.New_m, cfg25]

namespace TMatrixTSym

variable {R : Type} [CommRing R]

theorem ResizeTo_to_zero (cfg : Config R) (M : TMatrixTSym R) (p : Nat) (hp : 0 < p)
    (h : M.IsOwned cfg p) :
    ∃ res, ResizeTo cfg M 0 0 = some res ∧ res.IsSquare 0 ∧ res.fNelems = 0 := by
  have h1 : M.IsValid = true := h.square.valid
  have h2 : M.fIsOwner = true := h.owner
  have h3 : M.fNelems > 0 := by rw [h.square.nelems]; positivity
  have h4 : ¬ (M.fNrows = 0 ∧ M.fNcols = 0) := by
    rw [h.square.rows]; intro hh; have := hh.1; omega
  refine ⟨Clear cfg { M with fNrows := 0, fNcols := 0 }, ?_, ?_, ?_⟩
  · unfold ResizeTo
    simp only [h1, h2, h3, h4, if_true, if_false, Bool.true_eq_false, ne_eq, not_true_eq_false,
      or_self]
  · refine ⟨?_, ?_, ?_, ?_, fun hh => absurd hh (by omega)⟩ <;>
      simp [Clear, h2, h.square.valid]
  · simp [Clear, h2]

/-- `Similarity(b)` on a valid owning symmetric `n` by `n` matrix, `n >= 1`,
with a valid `m` by `n` matrix `b`: the call returns a valid `m` by `m` matrix
whose element `[i,j]` is the sum over `l,k` of `b[i,l]*A[l,k]*b[j,k]`. -/
theorem Similarity_is_congruence (cfg : Config R) (fuel : Nat) (M : TMatrixTSym R)
    (b : TMatrixT R) (m n : Nat) (hM : M.IsOwned cfg n) (hn : 0 < n) (hb : b.IsShape m n)
    (hsym : ∀ i j : Nat, i < n → j < n → M.elem i j = M.elem j i) (hf : max m n < fuel) :
    ∃ res, Similarity cfg fuel M b = some res ∧ res.IsSquare m ∧
      ∀ i j : Nat, i < m → j < m →
        res.elem i j
          = ∑ l in Finset.range n, ∑ k in Finset.range n, b.elem i l * M.elem l k * b.elem j k := by
  by_cases hmn : m = n
  · subst hmn
    exact Similarity_same_size cfg fuel M b m hM.square hb hsym (by simpa using hf)
  · have hrun : Similarity cfg fuel M b
        = (ResizeTo cfg M m m).bind fun this1 =>
            Similarity.kernel fuel this1 (TMatrixT.kMult b M) b := by
      have h1 : ¬ ((m : Int) = M.fNrows) := by
        rw [hM.square.rows]
        omega
      simp only [Similarity, TMatrixT.GetNrows, hb.rows, ne_eq, h1, not_false_eq_true, if_true]
    rw [hrun]
    have hnel : (TMatrixT.kMult b M).GetNoElements = (m : Int) * n := by
      simp [TMatrixT.GetNoElements, TMatrixT.kMult, hb.rows, hM.square.cols]
    have hcol : (TMatrixT.kMult b M).GetNcols = n := by
      simp [TMatrixT.GetNcols, TMatrixT.kMult, hM.square.cols]
    rcases Nat.eq_zero_or_pos m with hm | hm
    · subst hm
      obtain ⟨r1, hr1, hsq1, hne1⟩ := ResizeTo_to_zero cfg M n hn hM
      rw [show ((0 : Nat) : Int) = 0 from rfl] at hrun ⊢
      rw [hr1]
      refine ⟨_, Similarity_kernel_zero fuel r1 _ b (by omega) hsq1.rows hne1
        (by simpa using hnel), ⟨hsq1.valid, hsq1.rows, hsq1.cols, hsq1.nelems, hsq1.buf⟩, ?_⟩
      intro i j hi; omega
    · obtain ⟨r1, rn, ro, _, hr1, hsq1, hown1, _, _, _, _⟩ :=
        ResizeTo_resize cfg M n m hn hm (fun e => hmn e.symm) hM
      rw [hr1]
      obtain ⟨t, ht, hcells⟩ := Similarity_kernel_pos fuel r1 (TMatrixT.kMult b M) b m n hb
        hnel hcol hn hf rn 0 hsq1
      have hres : ({ r1 with mem := t } : TMatrixTSym R).SquareAt m rn 0 :=
        ⟨hsq1.valid, hsq1.rows, hsq1.cols, hsq1.nelems, hsq1.buf⟩
      refine ⟨_, ht, ⟨hres.valid, hres.rows, hres.cols, hres.nelems, ?_⟩, ?_⟩
      · intro _; rw [hres.buf]; exact Ptr.noConfusion
      · intro i j hi hj
        rw [elem_eq_cells hres, hcells i j hi hj,
          Similarity_sum M b m n hb hM.square.cols hsym i j]

/-- `SimilarityT(b)` on a valid owning symmetric `n` by `n` matrix, `n >= 1`,
with a valid `n` by `m` matrix `b`: the call returns a valid `m` by `m` matrix
whose element `[i,j]` is the sum over `l,k` of `b[l,i]*A[l,k]*b[k,j]`. -/
theorem SimilarityT_is_congruence (cfg : Config R) (fuel : Nat) (M : TMatrixTSym R)
    (b : TMatrixT R) (n m : Nat) (hM : M.IsOwned cfg n) (hn : 0 < n) (hb : b.IsShape n m)
    (hsym : ∀ i j : Nat, i < n → j < n → M.elem i j = M.elem j i) (hf : max m n < fuel) :
    ∃ res, SimilarityT cfg fuel M b = some res ∧ res.IsSquare m ∧
      ∀ i j : Nat, i < m → j < m →
        res.elem i j
          = ∑ l in Finset.range n, ∑ k in Finset.range n, b.elem l i * M.elem l k * b.elem k j := by
  have hnel : (TMatrixT.kTransposeMult b M).GetNoElements = (m : Int) * n := by
    simp [TMatrixT.GetNoElements, TMatrixT.kTransposeMult, hb.cols, hM.square.cols]
  have hcol : (TMatrixT.kTransposeMult b M).GetNcols = n := by
    simp [TMatrixT.GetNcols, TMatrixT.kTransposeMult, hM.square.cols]
  by_cases hmn : m = n
  · subst hmn
    have hrun : SimilarityT cfg fuel M b
        = SimilarityT.kernel fuel M (TMatrixT.kTransposeMult b M) b := by
      have h1 : ¬ (b.GetNcols ≠ M.fNcols) := by
        simp [TMatrixT.GetNcols, hb.cols, hM.square.cols]
      simp only [SimilarityT, h1, if_false, Option.some_bind]
    rw [hrun]
    obtain ⟨r, o, hsq⟩ := hM.square.squareAt hn
    obtain ⟨t, ht, hcells⟩ := SimilarityT_kernel_pos fuel M (TMatrixT.kTransposeMult b M) b m m
      hb hnel hcol hn hf r o hsq
    have hres : ({ M with mem := t } : TMatrixTSym R).SquareAt m r o :=
      ⟨hsq.valid, hsq.rows, hsq.cols, hsq.nelems, hsq.buf⟩
    refine ⟨_, ht, ⟨hres.valid, hres.rows, hres.cols, hres.nelems, ?_⟩, ?_⟩
    · intro _; rw [hres.buf]; exact Ptr.noConfusion
    · intro i j hi hj
      rw [elem_eq_cells hres, hcells i j hi hj,
        SimilarityT_sum M b m m hb hM.square.cols hsym i j]
  · have hrun : SimilarityT cfg fuel M b
        = (ResizeTo cfg M m m).bind fun this1 =>
            SimilarityT.kernel fuel this1 (TMatrixT.kTransposeMult b M) b := by
      have h1 : ¬ ((m : Int) = M.fNcols) := by
        rw [hM.square.cols]
        omega
      simp only [SimilarityT, TMatrixT.GetNcols, hb.cols, ne_eq, h1, not_false_eq_true, if_true]
    rw [hrun]
    rcases Nat.eq_zero_or_pos m with hm | hm
    · subst hm
      obtain ⟨r1, hr1, hsq1, hne1⟩ := ResizeTo_to_zero cfg M n hn hM
      rw [show ((0 : Nat) : Int) = 0 from rfl] at hrun ⊢
      rw [hr1]
      refine ⟨_, SimilarityT_kernel_zero fuel r1 _ b (by omega) hsq1.rows hne1
        (by simpa using hnel), ⟨hsq1.valid, hsq1.rows, hsq1.cols, hsq1.nelems, hsq1.buf⟩, ?_⟩
      intro i j hi; omega
    · obtain ⟨r1, rn, ro, _, hr1, hsq1, hown1, _, _, _, _⟩ :=
        ResizeTo_resize cfg M n m hn hm (fun e => hmn e.symm) hM
      rw [hr1]
      obtain ⟨t, ht, hcells⟩ := SimilarityT_kernel_pos fuel r1 (TMatrixT.kTransposeMult b M) b
        n m hb hnel hcol hn hf rn 0 hsq1
      have hres : ({ r1 with mem := t } : TMatrixTSym R).SquareAt m rn 0 :=
        ⟨hsq1.valid, hsq1.rows, hsq1.cols, hsq1.nelems, hsq1.buf⟩
      refine ⟨_, ht, ⟨hres.valid, hres.rows, hres.cols, hres.nelems, ?_⟩, ?_⟩
      · intro _; rw [hres.buf]; exact Ptr.noConfusion
      · intro i j hi hj
        rw [elem_eq_cells hres, hcells i j hi hj,
          SimilarityT_sum M b n m hb hM.square.cols hsym i j]

end TMatrixTSym

/-- `Similarity_is_congruence` at the matrix `[[2,1],[1,2]]` and a 3 by 2
matrix `b`. -/
theorem Similarity_is_congruence_witness :
    ∃ res, TMatrixTSym.Similarity cfg25 4 (ofList cfg25 2 [2, 1, 1, 2])
        (genOf 3 2 [1, 0, 0, 1, 1, 1]) = some res ∧ res.IsSquare 3 ∧
      ∀ i j : Nat, i < 3 → j < 3 →
        res.elem i j
          = ∑ l in Finset.range 2, ∑ k in Finset.range 2,
              (genOf 3 2 [1, 0, 0, 1, 1, 1]).elem i l * (ofList cfg25 2 [2, 1, 1, 2]).elem l k
                * (genOf 3 2 [1, 0, 0, 1, 1, 1]).elem j k :=
  TMatrixTSym.Similarity_is_congruence cfg25 4 (ofList cfg25 2 [2, 1, 1, 2])
    (genOf 3 2 [1, 0, 0, 1, 1, 1]) 3 2
    ⟨⟨rfl, rfl, rfl, rfl, fun _ => by decide⟩, rfl, fun _ _ => rfl,
      fun hk => absurd hk (by decide)⟩
    (by decide) ⟨rfl, rfl, rfl, rfl⟩
    (fun i j hi hj => by interval_cases i <;> interval_cases j <;> rfl)
    (by decide)

/-- `SimilarityT_is_congruence` at the matrix `[[2,1],[1,2]]` and a 2 by 3
matrix `b`. -/
theorem SimilarityT_is_congruence_witness :
    ∃ res, TMatrixTSym.SimilarityT cfg25 4 (ofList cfg25 2 [2, 1, 1, 2])
        (genOf 2 3 [1, 0, 1, 0, 1, 1]) = some res ∧ res.IsSquare 3 ∧
      ∀ i j : Nat, i < 3 → j < 3 →
        res.elem i j
          = ∑ l in Finset.range 2, ∑ k in Finset.range 2,
              (genOf 2 3 [1, 0, 1, 0, 1, 1]).elem l i * (ofList cfg25 2 [2, 1, 1, 2]).elem l k
                * (genOf 2 3 [1, 0, 1, 0, 1, 1]).elem k j :=
  TMatrixTSym.SimilarityT_is_congruence cfg25 4 (ofList cfg25 2 [2, 1, 1, 2])
    (genOf 2 3 [1, 0, 1, 0, 1, 1]) 2 3
    ⟨⟨rfl, rfl, rfl, rfl, fun _ => by decide⟩, rfl, fun _ _ => rfl,
      fun hk => absurd hk (by decide)⟩
    (by decide) ⟨rfl, rfl, rfl, rfl⟩
    (fun i j hi hj => by interval_cases i <;> interval_cases j <;> rfl)
    (by decide)

/-! ## Resizing with index bounds -/

/-- C11, the failing inputs: the matrix `[[1,2,3],[2,4,5],[3,5,6]]` with index
range `[0..2]`, held in `fDataStack` (`kSizeMax = 25`), has the element 4 at
`(1,1)`.  After `ResizeTo(1,4,1,4)` (the lower bound moves up, the new buffer
is `fDataStack` again) the matrix is valid and its element at `(1,1)` is 5;
after `ResizeTo(-1,1,-1,1)` (the lower bound moves down) it is 1. -/
theorem ResizeToBounds_inline_shift_loses_overlap :
    (ofListAt cfg25 0 3 [1, 2, 3, 2, 4, 5, 3, 5, 6]).entry 1 1 = 4 ∧
    (TMatrixTSym.ResizeToBounds cfg25 (ofListAt cfg25 0 3 [1, 2, 3, 2, 4, 5, 3, 5, 6]) 1 4 1 4).map
      (fun t => (t.IsValid, t.fRowLwb, t.fColLwb, t.fNrows, t.fNcols, t.entry 1 1))
      = some (true, 1, 1, 4, 4, 5) ∧
    (TMatrixTSym.ResizeToBounds cfg25 (ofListAt cfg25 0 3 [1, 2, 3, 2, 4, 5, 3, 5, 6])
        (-1) 1 (-1) 1).map
      (fun t => (t.IsValid, t.fRowLwb, t.fColLwb, t.fNrows, t.fNcols, t.entry 1 1))
      = some (true, -1, -1, 3, 3, 1) := by
  refine ⟨?_, ?_, ?_⟩ <;> decide

namespace TMatrixTSym

variable {R : Type} [CommRing R]

/-- C12. On a valid matrix `M`, `ResizeTo(nrows,ncols)` returns `M` with the
validity switched off and nothing else changed (shape, buffer pointer, every
cell) whenever `M` does not own its buffer or `nrows != ncols`, and so does
`ResizeTo(rl,ru,cl,cu)` whenever `M` does not own its buffer or `rl != cl` or
`ru != cu`.  After `Use(lwb,upb,data)` with `lwb <= upb` the matrix is valid
and does not own its buffer, so that both calls reject it. -/
theorem ResizeTo_rejection (cfg : Config R) (M : TMatrixTSym R) (nrows ncols rl ru cl cu : Int)
    (hv : M.IsValid = true) :
    ((M.fIsOwner = false ∨ nrows ≠ ncols) →
      ResizeTo cfg M nrows ncols = some { M with fValid := false }) ∧
    ((M.fIsOwner = false ∨ rl ≠ cl ∨ ru ≠ cu) →
      ResizeToBounds cfg M rl ru cl cu = some { M with fValid := false }) ∧
    (∀ (lwb upb : Int) (data : Ptr), lwb ≤ upb →
      (Use cfg M lwb upb data).IsValid = true ∧ (Use cfg M lwb upb data).fIsOwner = false ∧
      ResizeTo cfg (Use cfg M lwb upb data) nrows ncols
        = some { Use cfg M lwb upb data with fValid := false } ∧
      ResizeToBounds cfg (Use cfg M lwb upb data) rl ru cl cu
        = some { Use cfg M lwb upb data with fValid := false }) := by
  have key1 : ∀ N : TMatrixTSym R, N.IsValid = true → (N.fIsOwner = false ∨ nrows ≠ ncols) →
      ResizeTo cfg N nrows ncols = some { N with fValid := false } := by
    intro N hN h
    unfold ResizeTo
    rw [if_neg (by simp [hN])]
    by_cases ho : N.fIsOwner = false
    · rw [if_pos ho]; rfl
    · rw [if_neg ho, if_pos (h.resolve_left ho)]; rfl
  have key2 : ∀ N : TMatrixTSym R, N.IsValid = true →
      (N.fIsOwner = false ∨ rl ≠ cl ∨ ru ≠ cu) →
      ResizeToBounds cfg N rl ru cl cu = some { N with fValid := false } := by
    intro N hN h
    unfold ResizeToBounds
    rw [if_neg (by simp [hN])]
    by_cases ho : N.fIsOwner = false
    · rw [if_pos ho]; rfl
    · rw [if_neg ho]
      by_cases h1 : rl ≠ cl
      · rw [if_pos h1]; rfl
      · rw [if_neg h1, if_pos ((h.resolve_left ho).resolve_left h1)]; rfl
  refine ⟨key1 M hv, key2 M hv, ?_⟩
  intro lwb upb data hle
  have hU : Use cfg M lwb upb data
      = { Clear cfg M with
          fNrows := upb - lwb + 1, fNcols := upb - lwb + 1, fRowLwb := lwb, fColLwb := lwb,
          fNelems := (upb - lwb + 1) * (upb - lwb + 1), fElements := data, fIsOwner := false } := by
    unfold Use
    rw [if_neg (by omega)]
  have hCv : (Clear cfg M).fValid = true := by
    have : M.fValid = true := hv
    unfold Clear
    split <;> exact this
  have hUv : (Use cfg M lwb upb data).IsValid = true := by rw [hU]; exact hCv
  have hUo : (Use cfg M lwb upb data).fIsOwner = false := by rw [hU]
  exact ⟨hUv, hUo, key1 _ hUv (Or.inl hUo), key2 _ hUv (Or.inl hUo)⟩

end TMatrixTSym

/-- C12 at the matrix `[[1,2],[2,3]]` with the calls `ResizeTo(2,3)` and
`ResizeTo(0,1,0,2)`. -/
theorem ResizeTo_rejection_witness :
    (ofList cfg25 2 [1, 2, 2, 3]).IsValid = true ∧
    TMatrixTSym.ResizeTo cfg25 (ofList cfg25 2 [1, 2, 2, 3]) 2 3
      = some { ofList cfg25 2 [1, 2, 2, 3] with fValid := false } ∧
    TMatrixTSym.ResizeToBounds cfg25 (ofList cfg25 2 [1, 2, 2, 3]) 0 1 0 2
      = some { ofList cfg25 2 [1, 2, 2, 3] with fValid := false } :=
  ⟨rfl,
   (TMatrixTSym.ResizeTo_rejection cfg25 (ofList cfg25 2 [1, 2, 2, 3]) 2 3 0 1 0 2 rfl).1
     (Or.inr (by decide)),
   (TMatrixTSym.ResizeTo_rejection cfg25 (ofList cfg25 2 [1, 2, 2, 3]) 2 3 0 1 0 2 rfl).2.1
     (Or.inr (Or.inr (by decide)))⟩

/-! ## Sums of incompatible matrices -/

namespace TMatrixTSym

variable {R : Type} [CommRing R]

/-- The object after `Allocate(n,n,l1,l2,init)` with `n >= 0`. -/
theorem Allocate_shape (cfg : Config R) (M : TMatrixTSym R) (n : Nat) (l1 l2 init : Int) :
    (Allocate cfg M n n l1 l2 init).fValid = true ∧
    (Allocate cfg M n n l1 l2 init).fNrows = n ∧
    (Allocate cfg M n n l1 l2 init).fNcols = n ∧
    (Allocate cfg M n n l1 l2 init).fRowLwb = l1 ∧
    (Allocate cfg M n n l1 l2 init).fColLwb = l2 ∧
    (Allocate cfg M n n l1 l2 init).fNelems = (n : Int) * n ∧
    (Allocate cfg M n n l1 l2 init).fIsOwner = true ∧
    (0 < n → ∃ r, (Allocate cfg M n n l1 l2 init).fElements = Ptr.loc r 0) := by
  have h1 : ¬ ((n : Int) < 0) := by omega
  rcases Nat.eq_zero_or_pos n with h0 | hn
  · subst h0
    simp [Allocate, MakeValid]
  · have h2 : (n : Int) * n > 0 := by positivity
    have h3 : ¬ ((n : Int) * n = 0) := by omega
    by_cases hk : (n : Int) * n ≤ cfg.kSizeMax <;> by_cases hi : init = 0 <;>
      simp [Allocate, MakeValid, New_m, Store.alloc, h1, h2, h3, hk, hi]

theorem memcpyFrom_some (s src : Store R) (dst sp : Ptr) (n : Int)
    (h : n ≤ 0 ∨ (dst ≠ Ptr.null ∧ sp ≠ Ptr.null)) :
    ∃ s', s.memcpyFrom dst src sp n = some s' := by
  cases dst with
  | null =>
    rcases h with h | h
    · exact ⟨s, by simp [Store.memcpyFrom, h]⟩
    · exact absurd rfl h.1
  | loc r o =>
    cases sp with
    | null =>
      rcases h with h | h
      · exact ⟨s, by simp [Store.memcpyFrom, h]⟩
      · exact absurd rfl h.2
    | loc r' o' => exact ⟨_, rfl⟩

/-- The copy constructor on a valid square matrix gives a valid matrix of the
same shape. -/
theorem ctorCopy_shape (cfg : Config R) (raw a : TMatrixTSym R) (n : Nat) (ha : a.IsSquare n) :
    ∃ t, ctorCopy cfg raw a = some t ∧ t.fValid = true ∧ t.fNrows = a.fNrows ∧
      t.fNcols = a.fNcols ∧ t.fRowLwb = a.fRowLwb ∧ t.fColLwb = a.fColLwb := by
  obtain ⟨hv, hr, hc, hrl, hcl, hne, _, hbuf⟩ :=
    Allocate_shape cfg raw n a.fRowLwb a.fColLwb 0
  have hav : a.IsValid = true := ha.valid
  have hcompat : AreCompatible (Allocate cfg raw n n a.fRowLwb a.fColLwb 0) a = true := by
    simp [AreCompatible, hr, hc, hrl, hcl, ha.rows, ha.cols]
  have hcp : ∃ s', (Allocate cfg raw n n a.fRowLwb a.fColLwb 0).mem.memcpyFrom
      (Allocate cfg raw n n a.fRowLwb a.fColLwb 0).GetMatrixArray a.mem a.fElements
      (Allocate cfg raw n n a.fRowLwb a.fColLwb 0).fNelems = some s' := by
    apply memcpyFrom_some
    rcases Nat.eq_zero_or_pos n with h0 | hn
    · left; rw [hne, h0]; simp
    · right
      obtain ⟨r, hr'⟩ := hbuf hn
      refine ⟨?_, ha.buf hn⟩
      show (Allocate cfg raw n n a.fRowLwb a.fColLwb 0).fElements ≠ Ptr.null
      rw [hr']; exact Ptr.noConfusion
  obtain ⟨s', hs'⟩ := hcp
  refine ⟨{ Allocate cfg raw n n a.fRowLwb a.fColLwb 0 with mem := s' }, ?_, hv, ?_, ?_, hrl, hcl⟩
  · simp only [ctorCopy, hav, GetNrows, GetNcols, GetRowLwb, GetColLwb, ha.rows, ha.cols,
      operatorAssign, hcompat, hs', Option.map_some', Bool.true_eq_false, if_false]
  · rw [ha.rows]; exact hr
  · rw [ha.cols]; exact hc

/-- For valid symmetric matrices `a` (`n` by `n`) and `b` (`m` by `m`) of
different dimension or different lower bound: `a += b` returns `a` with the
validity switched off and nothing else changed (shape, buffer pointer, every
cell); `operator+(a,b)` returns an invalid matrix with the shape of `a` when
the copy of the returned object is elided, and stops in the copy constructor,
at `Assert(another.IsValid())`, when it is not.  The operands are `const` in
both functions apart from the target of `+=`. -/
theorem sum_of_incompatible_operands (cfg : Config R) (fuel : Nat) (raw ret a b : TMatrixTSym R)
    (n m : Nat) (ha : a.IsSquare n) (hb : b.IsSquare m)
    (hne : n ≠ m ∨ a.fRowLwb ≠ b.fRowLwb) :
    (∃ t, operatorPlus cfg fuel true raw ret a b = some t ∧ t.IsValid = false ∧
      t.fNrows = a.fNrows ∧ t.fNcols = a.fNcols) ∧
    operatorPlus cfg fuel false raw ret a b = none ∧
    operatorPlusAssign fuel a b = some { a with fValid := false } := by
  have hdiff : ¬ (a.fNrows = b.fNrows ∧ a.fNcols = b.fNcols ∧
      a.fRowLwb = b.fRowLwb ∧ a.fColLwb = b.fColLwb) := by
    rintro ⟨h1, _, h3, _⟩
    rcases hne with h | h
    · rw [ha.rows, hb.rows] at h1
      exact h (by exact_mod_cast h1)
    · exact h h3
  obtain ⟨t, ht, _, h1, h2, h3, h4⟩ := ctorCopy_shape cfg raw a n ha
  have hcompat : AreCompatible t b = false := by
    simp only [AreCompatible, h1, h2, h3, h4, decide_eq_false_iff_not]
    exact hdiff
  refine ⟨⟨t.Invalidate, ?_, rfl, h1, h2⟩, ?_, ?_⟩
  · simp only [operatorPlus, ht, Option.some_bind, operatorPlusAssign, hcompat, if_true]
  · have hinv : t.Invalidate.IsValid = false := rfl
    unfold operatorPlus
    rw [ht]
    simp only [Option.some_bind, operatorPlusAssign, hcompat, if_true, Bool.false_eq_true,
      if_false]
    simp only [ctorCopy, hinv, if_true]
  · have hcompat2 : AreCompatible a b = false := by
      simp only [AreCompatible, decide_eq_false_iff_not]
      exact hdiff
    simp only [operatorPlusAssign, hcompat2, if_true]
    rfl

end TMatrixTSym

/-- The sum of incompatible operands at the matrices `[[1,2],[2,3]]` and
`[[1]]`. -/
theorem sum_of_incompatible_operands_witness :
    (∃ t, TMatrixTSym.operatorPlus cfg25 5 true blank blank (ofList cfg25 2 [1, 2, 2, 3])
        (ofList cfg25 1 [1]) = some t ∧ t.IsValid = false ∧
      t.fNrows = (ofList cfg25 2 [1, 2, 2, 3]).fNrows ∧
      t.fNcols = (ofList cfg25 2 [1, 2, 2, 3]).fNcols) ∧
    TMatrixTSym.operatorPlus cfg25 5 false blank blank (ofList cfg25 2 [1, 2, 2, 3])
        (ofList cfg25 1 [1]) = none ∧
    TMatrixTSym.operatorPlusAssign 5 (ofList cfg25 2 [1, 2, 2, 3]) (ofList cfg25 1 [1])
      = some { ofList cfg25 2 [1, 2, 2, 3] with fValid := false } :=
  TMatrixTSym.sum_of_incompatible_operands cfg25 5 blank blank (ofList cfg25 2 [1, 2, 2, 3])
    (ofList cfg25 1 [1]) 2 1
    ⟨rfl, rfl, rfl, rfl, fun _ => by decide⟩ ⟨rfl, rfl, rfl, rfl, fun _ => by decide⟩
    (Or.inl (by decide))

/-- C13, the failing input.  The matrices `a = [[1,2],[2,3]]` and `b = [[1]]`
are valid and of different dimension.  `operator+(a,b)` copies `a` into the
local object `target`, `target += b` switches the validity of `target` off, and
`return target` returns it by value.  When the copy is not elided, the copy
constructor stops at `Assert(another.IsValid())` and the call does not return,
whatever the fuel; the claim says that it returns an invalid matrix.  When the
copy is elided, the invalid object with the shape of `a` is returned. -/
theorem operatorPlus_stops_in_copy_constructor :
    (ofList cfg25 2 [1, 2, 2, 3]).IsValid = true ∧ (ofList cfg25 1 [1]).IsValid = true ∧
    TMatrixTSym.AreCompatible (ofList cfg25 2 [1, 2, 2, 3]) (ofList cfg25 1 [1]) = false ∧
    (∀ fuel : Nat,
      TMatrixTSym.operatorPlus cfg25 fuel false blank blank (ofList cfg25 2 [1, 2, 2, 3])
        (ofList cfg25 1 [1]) = none) ∧
    (∀ fuel : Nat,
      (TMatrixTSym.operatorPlus cfg25 fuel true blank blank (ofList cfg25 2 [1, 2, 2, 3])
        (ofList cfg25 1 [1])).map (fun t => (t.IsValid, t.fNrows, t.fNcols))
        = some (false, 2, 2)) := by
  refine ⟨by decide, by decide, by decide, ?_, ?_⟩
  · intro fuel; rfl
  · intro fuel; rfl

/-- C14, the failing inputs.  For `a = [[1,2],[2,3]]` and `b = [[1,0],[0,1]]`,
compatible and with lower bound 0, the constructor `TMatrixTSym(a,kPlus,b)`
leaves an invalid object with 2 rows, 0 columns and the lower bounds 1 and 0,
whatever the fuel, and so does `TMatrixTSym(a,kMinus,b)`; with the lower bound 2
for both operands the object is invalid as well, with 2 rows and 2 columns. -/
theorem sum_constructor_leaves_invalid_object :
    TMatrixTSym.AreCompatible (ofList cfg25 2 [1, 2, 2, 3]) (ofList cfg25 2 [1, 0, 0, 1]) = true ∧
    (∀ fuel : Nat,
      (TMatrixTSym.ctorOp2 cfg25 fuel blank (ofList cfg25 2 [1, 2, 2, 3])
          EMatrixCreatorsOp2.kPlus (ofList cfg25 2 [1, 0, 0, 1])).map
        (fun t => (t.IsValid, t.fNrows, t.fNcols, t.fRowLwb, t.fColLwb))
        = some (false, 2, 0, 1, 0)) ∧
    (∀ fuel : Nat,
      (TMatrixTSym.ctorOp2 cfg25 fuel blank (ofList cfg25 2 [1, 2, 2, 3])
          EMatrixCreatorsOp2.kMinus (ofList cfg25 2 [1, 0, 0, 1])).map
        (fun t => (t.IsValid, t.fNrows, t.fNcols, t.fRowLwb, t.fColLwb))
        = some (false, 2, 0, 1, 0)) ∧
    (∀ fuel : Nat,
      (TMatrixTSym.ctorOp2 cfg25 fuel blank (ofListAt cfg25 2 2 [1, 2, 2, 3])
          EMatrixCreatorsOp2.kPlus (ofListAt cfg25 2 2 [1, 0, 0, 1])).map
        (fun t => (t.IsValid, t.fNrows, t.fNcols, t.fRowLwb, t.fColLwb))
        = some (false, 2, 2, 1, 0)) := by
  refine ⟨by decide, fun fuel => rfl, fun fuel => rfl, fun fuel => rfl⟩

/-- C15, the failing input: the matrix `[[1,2],[2,3]]` and the action that adds
10 to its element.  Both overloads of `Apply` leave the valid matrix
`[[10,20],[20,30]]`: the action works on the local `val`, which starts at 0
and is never loaded from the matrix.  The value of the action at the old
elements would be `[[11,12],[12,13]]`. -/
theorem Apply_never_reads_the_elements :
    (TMatrixTSym.Apply (ofList cfg25 2 [1, 2, 2, 3]) (fun x => x + 10)).map
        (fun t => (t.IsValid, rowsOf t 2)) = some (true, [[10, 20], [20, 30]]) ∧
    (TMatrixTSym.ApplyPos (ofList cfg25 2 [1, 2, 2, 3]) (fun _ _ x => x + 10)).map
        (fun t => (t.IsValid, rowsOf t 2)) = some (true, [[10, 20], [20, 30]]) := by
  refine ⟨?_, ?_⟩ <;> decide

/-- C16, the failing inputs: valid matrices with 257 and with 258 rows, every
element equal to 2.  Whatever the collaborators do, `InvertFast` on 257 rows
takes the branch for one row (the first element becomes 1/2, the determinant
output 2, no collaborator is called), and on 258 rows it calls the 2 by 2
Cramer kernel: `Char_t(257) = 1` and `Char_t(258) = 2`. -/
theorem InvertFast_dispatch_wraps_at_256 :
    (constQ 257 2).IsValid = true ∧ (constQ 257 2).GetNrows = 257 ∧
    (constQ 258 2).IsValid = true ∧ (constQ 258 2).GetNrows = 258 ∧
    ∀ (sv : Solvers ℚ) (raw : TMatrixTSym ℚ),
      TMatrixTSym.InvertFast sv cfgQ raw (constQ 257 2) (some 0)
        = some ({ constQ 257 2 with
                  mem := (constQ 257 2).mem.store (constQ 257 2).fElements (1 / 2) }, some 2) ∧
      TMatrixTSym.InvertFast sv cfgQ raw (constQ 258 2) (some 0)
        = some (sv.cramer 2 (constQ 258 2) (some 0)) := by
  refine ⟨rfl, rfl, rfl, rfl, fun sv raw => ⟨?_, ?_⟩⟩ <;>
    simp [TMatrixTSym.InvertFast, constQ, TMatrixTSym.IsValid, TMatrixTSym.GetNrows, Char_t,
      TMatrixTSym.GetMatrixArray]

/-! ## Inversion of a matrix with one row -/

namespace TMatrixTSym

/-- C17. `InvertFast` with a determinant output on a valid 1 by 1 matrix with
the element `x`: when `x != 0` the call returns a valid matrix with the element
`1/x` and the determinant output `x`; when `x = 0` it returns the matrix with
the validity switched off and nothing else changed, and the determinant output
0.  The collaborators are not consulted. -/
theorem InvertFast_one_by_one {R : Type} [Field R] [DecidableEq R] (sv : Solvers R)
    (cfg : Config R) (raw M : TMatrixTSym R) (d : R) (h : M.IsSquare 1) :
    (M.elem 0 0 ≠ 0 →
      ∃ res, InvertFast sv cfg raw M (some d) = some (res, some (M.elem 0 0)) ∧
        res.IsValid = true ∧ res.IsSquare 1 ∧ res.elem 0 0 = 1 / M.elem 0 0) ∧
    (M.elem 0 0 = 0 →
      InvertFast sv cfg raw M (some d) = some ({ M with fValid := false }, some 0)) := by
  have hv : M.IsValid = true := h.valid
  have hn : Char_t M.GetNrows = 1 := by
    show Char_t M.fNrows = 1
    rw [h.rows]; decide
  have hbuf : M.fElements ≠ Ptr.null := h.buf (by decide)
  obtain ⟨r, o, hro⟩ : ∃ r o, M.fElements = Ptr.loc r o := by
    cases hp : M.fElements with
    | null => exact absurd hp hbuf
    | loc r o => exact ⟨r, o, rfl⟩
  have hx : M.elem 0 0 = M.mem.cells r o := by
    simp [elem, get, hro]
  have hload : M.mem.load M.fElements = M.mem.cells r o := by
    simp [hro]
  constructor
  · intro hne
    refine ⟨{ M with mem := M.mem.store M.fElements (1 / M.elem 0 0) }, ?_, hv,
      ⟨h.valid, h.rows, h.cols, h.nelems, h.buf⟩, ?_⟩
    · have hne' : ¬ (M.mem.cells r o = 0) := by rw [← hx]; exact hne
      simp only [InvertFast, hv, hn, GetMatrixArray, hload, hne', hx, if_false, if_true,
        Option.isSome_some, Bool.true_eq_false]
    · simp [elem, get, hro]
  · intro h0
    have h0' : M.mem.cells r o = 0 := by rw [← hx]; exact h0
    simp only [InvertFast, hv, hn, GetMatrixArray, hload, h0', if_false, if_true,
      Option.isSome_some, Bool.true_eq_false]
    rfl

end TMatrixTSym

/-- C17 at the rational matrix `[[2]]`. -/
theorem InvertFast_one_by_one_witness :
    ((constQ 1 2).elem 0 0 ≠ 0 →
      ∃ res, TMatrixTSym.InvertFast idleSolvers cfgQ (constQ 0 0) (constQ 1 2) (some 7)
          = some (res, some ((constQ 1 2).elem 0 0)) ∧
        res.IsValid = true ∧ res.IsSquare 1 ∧ res.elem 0 0 = 1 / (constQ 1 2).elem 0 0) ∧
    ((constQ 1 2).elem 0 0 = 0 →
      TMatrixTSym.InvertFast idleSolvers cfgQ (constQ 0 0) (constQ 1 2) (some 7)
        = some ({ constQ 1 2 with fValid := false }, some 0)) :=
  TMatrixTSym.InvertFast_one_by_one idleSolvers cfgQ (constQ 0 0) (constQ 1 2) 7
    ⟨rfl, rfl, rfl, rfl, fun _ => by decide⟩

/-! ## Sub-matrices: rejected bounds -/

namespace TMatrixTSym

variable {R : Type} [CommRing R]

/-- C20. For a valid source with the index range `[l..u]`, `l = fRowLwb` and
`u = fRowLwb+fNrows-1`: when `row_lwb` or `row_upb` lies outside `[l..u]` or
`row_upb < row_lwb`, the first `GetSub` returns the target with the validity
switched off and nothing else changed (shape, buffer pointer, every cell); when
one of the four bounds lies outside its range or an upper bound is below its
lower bound, the second `GetSub` does the same with its target.  The source is
`const` in both. -/
theorem GetSub_rejects_bad_bounds (cfg : Config R)
    (resize : TMatrixT R → Int → Int → Int → Int → TMatrixT R) (M T : TMatrixTSym R)
    (G : TMatrixT R) (rl ru cl cu : Int) (opt : List Char) (hv : M.IsValid = true) :
    ((rl < M.fRowLwb ∨ M.fRowLwb + M.fNrows - 1 < rl ∨ ru < M.fRowLwb ∨
        M.fRowLwb + M.fNrows - 1 < ru ∨ ru < rl) →
      GetSub cfg M rl ru T opt = some { T with fValid := false }) ∧
    ((rl < M.fRowLwb ∨ M.fRowLwb + M.fNrows - 1 < rl ∨ ru < M.fRowLwb ∨
        M.fRowLwb + M.fNrows - 1 < ru ∨ ru < rl ∨
        cl < M.fColLwb ∨ M.fColLwb + M.fNcols - 1 < cl ∨ cu < M.fColLwb ∨
        M.fColLwb + M.fNcols - 1 < cu ∨ cu < cl) →
      GetSubGeneral resize M rl ru cl cu G opt = some { G with fValid := false }) := by
  constructor
  · intro h
    unfold GetSub
    rw [if_neg (by simp [hv])]
    by_cases h1 : rl < M.fRowLwb ∨ rl > M.fRowLwb + M.fNrows - 1
    · rw [if_pos h1]; rfl
    · rw [if_neg h1]
      by_cases h2 : ru < M.fRowLwb ∨ ru > M.fRowLwb + M.fNrows - 1
      · rw [if_pos h2]; rfl
      · rw [if_neg h2, if_pos (by omega)]; rfl
  · intro h
    unfold GetSubGeneral
    rw [if_neg (by simp [hv])]
    by_cases h1 : rl < M.fRowLwb ∨ rl > M.fRowLwb + M.fNrows - 1
    · rw [if_pos h1]; rfl
    · rw [if_neg h1]
      by_cases h2 : cl < M.fColLwb ∨ cl > M.fColLwb + M.fNcols - 1
      · rw [if_pos h2]; rfl
      · rw [if_neg h2]
        by_cases h3 : ru < M.fRowLwb ∨ ru > M.fRowLwb + M.fNrows - 1
        · rw [if_pos h3]; rfl
        · rw [if_neg h3]
          by_cases h4 : cu < M.fColLwb ∨ cu > M.fColLwb + M.fNcols - 1
          · rw [if_pos h4]; rfl
          · rw [if_neg h4, if_pos (by omega)]; rfl

end TMatrixTSym

/-- C20 at the matrix `[[1,2],[2,3]]` with the bounds `1..2` for the rows and
`0..1` for the columns. -/
theorem GetSub_rejects_bad_bounds_witness :
    TMatrixTSym.GetSub cfg25 (ofList cfg25 2 [1, 2, 2, 3]) 1 2 (ofList cfg25 1 [5]) ['S']
      = some { ofList cfg25 1 [5] with fValid := false } ∧
    TMatrixTSym.GetSubGeneral (fun g _ _ _ _ => g) (ofList cfg25 2 [1, 2, 2, 3]) 1 2 0 1
        (genOf 1 1 [5]) ['S']
      = some { genOf 1 1 [5] with fValid := false } :=
  ⟨(TMatrixTSym.GetSub_rejects_bad_bounds cfg25 (fun g _ _ _ _ => g) (ofList cfg25 2 [1, 2, 2, 3])
      (ofList cfg25 1 [5]) (genOf 1 1 [5]) 1 2 0 1 ['S'] rfl).1
      (Or.inr (Or.inr (Or.inr (Or.inl (by decide))))),
   (TMatrixTSym.GetSub_rejects_bad_bounds cfg25 (fun g _ _ _ _ => g) (ofList cfg25 2 [1, 2, 2, 3])
      (ofList cfg25 1 [5]) (genOf 1 1 [5]) 1 2 0 1 ['S'] rfl).2
      (Or.inr (Or.inr (Or.inr (Or.inl (by decide)))))⟩

/-! ## Sub-matrices: the copy loops -/

namespace TMatrixTSym

variable {R : Type} [CommRing R]

/-- The inner copy loop of `GetSub` fills row `i` of the target from the cells
of the source that start at offset `A`. -/
theorem GetSub_row (M t : TMatrixTSym R) (n : Nat) (r : Region) (o : Int)
    (hbuf : t.fElements = Ptr.loc r o) (i : Nat) (A : Int) (V : Nat → Nat → R)
    (s : SubState R) (hap : s.ap = A) (hbp : s.bp = (i : Int) * n)
    (hs : ∀ a b : Nat, a < n → b < n → a < i →
      s.mem.cells r (o + ((a : Int) * n + b)) = V a b) :
    ∃ u : SubState R, forUp (GetSub.colStep M t) 0 n s = some u ∧ u.ap = A + n ∧
      u.bp = ((i : Int) + 1) * n ∧
      ∀ a b : Nat, a < n → b < n → a < i + 1 →
        u.mem.cells r (o + ((a : Int) * n + b)) = if a = i then M.get (A + b) else V a b := by
  obtain ⟨u, hu, h1, h2, h3⟩ := forUp_rule (GetSub.colStep M t) n
    (fun k (u : SubState R) => u.ap = A + k ∧ u.bp = (i : Int) * n + k ∧
      ∀ a b : Nat, a < n → b < n → (a < i ∨ (a = i ∧ b < k)) →
        u.mem.cells r (o + ((a : Int) * n + b)) = if a = i then M.get (A + b) else V a b)
    0 s
    (by
      refine ⟨by simp [hap], by simp [hbp], ?_⟩
      intro a b ha hb hab
      have hai : a < i := by omega
      rw [if_neg (by omega)]
      exact hs a b ha hb hai)
    (by
      intro k u hk ⟨hap', hbp', hmem⟩
      refine ⟨_, rfl, ?_, ?_, ?_⟩
      · simp only [hap']; push_cast; ring
      · simp only [hbp']; push_cast; ring
      · intro a b ha hb hab
        simp only [GetMatrixArray, hbuf, Ptr.loc_add, hbp', hap']
        rw [Store.store_cell_idx _ r o n a b i k hb hk]
        by_cases hc : a = i ∧ b = k
        · rw [if_pos hc, if_pos hc.1, hc.2]
        · rw [if_neg hc]
          exact hmem a b ha hb (by omega))
  refine ⟨u, hu, h1, ?_, ?_⟩
  · rw [h2]; ring
  · intro a b ha hb hab
    exact h3 a b ha hb (by omega)

/-- The two copy loops of `GetSub` fill the `n` by `n` array of the target from
the cells of the source that start at offset `a0`, taken with the row length of
the source. -/
theorem GetSub_copy (M t : TMatrixTSym R) (n : Nat) (r : Region) (o : Int)
    (hbuf : t.fElements = Ptr.loc r o) (a0 : Int) (s0 : Store R) :
    ∃ u : SubState R,
      forUp (GetSub.rowStep M t n) 0 n { ap := a0, bp := 0, mem := s0 } = some u ∧
      ∀ a b : Nat, a < n → b < n →
        u.mem.cells r (o + ((a : Int) * n + b)) = M.get (a0 + (a : Int) * M.fNrows + b) := by
  obtain ⟨u, hu, _, _, h3⟩ := forUp_rule (GetSub.rowStep M t n) n
    (fun k (u : SubState R) => u.ap = a0 + (k : Int) * M.fNrows ∧ u.bp = (k : Int) * n ∧
      ∀ a b : Nat, a < n → b < n → a < k →
        u.mem.cells r (o + ((a : Int) * n + b)) = M.get (a0 + (a : Int) * M.fNrows + b))
    0 { ap := a0, bp := 0, mem := s0 }
    (by
      refine ⟨by simp, by simp, ?_⟩
      intro a b _ _ hak
      exact absurd hak (Nat.not_lt_zero a))
    (by
      intro k s hk ⟨hap, hbp, hmem⟩
      obtain ⟨u, hu, _, h2, h3⟩ := GetSub_row M t n r o hbuf k (a0 + (k : Int) * M.fNrows)
        (fun a b => M.get (a0 + (a : Int) * M.fNrows + b)) s hap hbp hmem
      refine ⟨{ ap := s.ap + M.fNrows, bp := u.bp, mem := u.mem }, ?_, ?_, ?_, ?_⟩
      · simp only [GetSub.rowStep, Int.toNat_ofNat, hu, Option.some_bind]
      · simp only [hap]; push_cast; ring
      · simp only [h2]; push_cast; ring
      · intro a b ha hb hak
        rw [h3 a b ha hb hak]
        by_cases hc : a = k
        · rw [if_pos hc, hc]
        · rw [if_neg hc])
  exact ⟨u, hu, fun a b ha hb => h3 a b ha hb ha⟩

end TMatrixTSym

/-! ## Resizing with index bounds always returns -/

section LoopTotality

variable {σ : Type}

theorem forUp_some (body : Int → σ → Option σ) (h : ∀ i s, ∃ s', body i s = some s')
    (n : Nat) (a : Int) (s : σ) : ∃ s', forUp body a n s = some s' := by
  obtain ⟨s', hs', _⟩ := forUp_rule body n (fun _ _ => True) a s trivial
    (fun k t _ _ => by
      obtain ⟨t', ht'⟩ := h (a + k) t
      exact ⟨t', ht', trivial⟩)
  exact ⟨s', hs'⟩

theorem forDown_some (body : Int → σ → Option σ) (h : ∀ i s, ∃ s', body i s = some s')
    (n : Nat) (s : σ) : ∃ s', forDown body n s = some s' := by
  obtain ⟨s', hs', _⟩ := forDown_rule body (fun _ _ => True) n s trivial
    (fun k t _ _ => by
      obtain ⟨t', ht'⟩ := h k t
      exact ⟨t', ht', trivial⟩)
  exact ⟨s', hs'⟩

end LoopTotality

namespace TMatrixTSym

variable {R : Type} [CommRing R]

/-- The copy of `Memcpy_m` returns when both sizes are within `kSizeMax` or the
two pointers lie in different blocks. -/
theorem Memcpy_m_some (cfg : Config R) (s : Store R) (rn ro : Region) (pn po : Int)
    (c newSize oldSize : Int) (hc : 0 ≤ c)
    (hsafe : (newSize ≤ cfg.kSizeMax ∧ oldSize ≤ cfg.kSizeMax) ∨ rn ≠ ro) :
    ∃ s', Memcpy_m cfg s (Ptr.loc rn pn) (Ptr.loc ro po) c newSize oldSize = some s' := by
  have hcn : ((c.toNat : Nat) : Int) = c := Int.toNat_of_nonneg hc
  have := Memcpy_m_moved cfg s rn ro pn po c.toNat newSize oldSize (by
    rcases hsafe with h | h
    · exact Or.inl h
    · right
      simp [Ptr.overlap, h])
  rw [hcn] at this
  exact ⟨_, this⟩

theorem ResizeToBounds_copy_some (cfg : Config R) (t : TMatrixTSym R) (rn ro : Region)
    (pn po : Int) (hbuf : t.fElements = Ptr.loc rn pn)
    (nelems_old nrows_old ncols_old rowLwb_old colLwb_old : Int) (mem1 : Store R)
    (hsafe : (t.fNelems ≤ cfg.kSizeMax ∧ nelems_old ≤ cfg.kSizeMax) ∨ rn ≠ ro) :
    ∃ s', ResizeToBounds.copy cfg t (Ptr.loc ro po) nelems_old nrows_old ncols_old rowLwb_old
      colLwb_old mem1 = some s' := by
  unfold ResizeToBounds.copy
  simp only []
  split_ifs with h1 h2
  · apply forDown_some
    intro i s
    simp only [ResizeToBounds.row, GetMatrixArray, hbuf, Ptr.loc_add]
    exact Memcpy_m_some cfg s rn ro _ _ _ _ _ (by omega) hsafe
  · apply forUp_some
    intro i s
    simp only [ResizeToBounds.row, GetMatrixArray, hbuf, Ptr.loc_add]
    exact Memcpy_m_some cfg s rn ro _ _ _ _ _ (by omega) hsafe
  · exact ⟨_, rfl⟩

/-- On a valid owning matrix, `ResizeTo(l,l+n-1,l,l+n-1)` with `n >= 1` returns
a valid `n` by `n` matrix with the lower bounds `l` and a buffer. -/
theorem ResizeToBounds_shape (cfg : Config R) (T : TMatrixTSym R) (p n : Nat) (hn : 0 < n)
    (l u : Int) (hu : u = l + n - 1) (hT : T.IsOwned cfg p) :
    ∃ t r o, ResizeToBounds cfg T l u l u = some t ∧ t.fValid = true ∧ t.fNrows = n ∧
      t.fNcols = n ∧ t.fRowLwb = l ∧ t.fColLwb = l ∧ t.fElements = Ptr.loc r o := by
  have h1 : T.IsValid = true := hT.square.valid
  have h2 : T.fIsOwner = true := hT.owner
  have hnn : u - l + 1 = (n : Int) := by omega
  unfold ResizeToBounds
  simp only [h1, h2, hnn, if_false, Bool.true_eq_false, ne_eq, not_true_eq_false]
  rcases Nat.eq_zero_or_pos p with hp0 | hp
  · have h3 : ¬ (T.fNelems > 0) := by rw [hT.square.nelems, hp0]; simp
    rw [if_neg h3]
    obtain ⟨a1, a2, a3, a4, a5, _, _, a8⟩ := Allocate_shape cfg T n l l 1
    obtain ⟨r, hr⟩ := a8 hn
    exact ⟨_, r, 0, rfl, a1, a2, a3, a4, a5, hr⟩
  · have h3 : T.fNelems > 0 := by rw [hT.square.nelems]; positivity
    rw [if_pos h3]
    by_cases hsame : T.fNrows = (n : Int) ∧ T.fNcols = (n : Int) ∧ T.fRowLwb = l ∧ T.fColLwb = l
    · rw [if_pos hsame]
      obtain ⟨r, o, hsq⟩ := hT.square.squareAt hp
      exact ⟨T, r, o, rfl, hT.square.valid, hsame.1, hsame.2.1, hsame.2.2.1, hsame.2.2.2,
        hsq.buf⟩
    · rw [if_neg hsame]
      have h5 : ¬ ((n : Int) = 0 ∨ (n : Int) = 0) := by omega
      rw [if_neg h5]
      obtain ⟨a1, a2, a3, a4, a5, a6, _, a8⟩ := Allocate_shape cfg T n l l 0
      obtain ⟨rn, hrn⟩ := a8 hn
      obtain ⟨ro, po, hsq⟩ := hT.square.squareAt hp
      have h6 : ¬ ((Allocate cfg T n n l l 0).IsValid = false) := by
        show ¬ ((Allocate cfg T n n l l 0).fValid = false)
        rw [a1]; simp
      rw [if_neg h6]
      have hsafe : ((Allocate cfg T n n l l 0).fNelems ≤ cfg.kSizeMax ∧
          T.fNelems ≤ cfg.kSizeMax) ∨ rn ≠ ro := by
        rw [a6, hT.square.nelems]
        have hpos : 0 < (n : Int) * n := by positivity
        by_cases hk : (n : Int) * n ≤ cfg.kSizeMax
        · by_cases hkp : (p : Int) * p ≤ cfg.kSizeMax
          · exact Or.inl ⟨hk, hkp⟩
          · right
            obtain ⟨b, _, hb⟩ := hT.large (by omega)
            have e1 : (Allocate cfg T n n l l 0).fElements = Ptr.loc Region.stack 0 := by
              rw [Allocate_small cfg T n hn hk l]
            rw [e1] at hrn
            have e2 := hsq.buf
            rw [hb] at e2
            injection hrn with hrn1
            injection e2 with e21
            rw [← hrn1, ← e21]
            exact Region.noConfusion
        · right
          have e1 : (Allocate cfg T n n l l 0).fElements
              = Ptr.loc (Region.heap T.mem.nheap) 0 := by
            rw [Allocate_large cfg T n (by omega) hpos l]
          rw [e1] at hrn
          injection hrn with hrn1
          rw [← hrn1]
          by_cases hkp : (p : Int) * p ≤ cfg.kSizeMax
          · have e2 := hT.small hp hkp
            rw [hsq.buf] at e2
            injection e2 with e21
            rw [e21]
            exact Region.noConfusion
          · obtain ⟨b, hb, hb'⟩ := hT.large (by omega)
            rw [hsq.buf] at hb'
            injection hb' with e21
            rw [e21]
            intro hh
            injection hh with hh1
            omega
      obtain ⟨s', hs'⟩ := ResizeToBounds_copy_some cfg (Allocate cfg T n n l l 0) rn ro 0 po hrn
        T.fNelems T.fNrows T.fNcols T.fRowLwb T.fColLwb
        (ResizeToBounds.cleared cfg (Allocate cfg T n n l l 0) T.fNelems) hsafe
      simp only [GetMatrixArray, hsq.buf, hs', Option.some_bind]
      exact ⟨_, rn, 0, rfl, a1, a2, a3, a4, a5, hrn⟩

end TMatrixTSym

/-! ## Sub-matrices: the diagonal block -/

namespace TMatrixTSym

variable {R : Type} [CommRing R]

/-- The part of `GetSub` after the tests of the bounds: the resize of the
target to `n` rows with lower bound `lwb` and the copy of the block that starts
at row and column `rl` of the source. -/
theorem GetSub_tail (cfg : Config R) (M T : TMatrixTSym R) (N p n : Nat) (hn : 0 < n)
    (rl lwb : Int) (hM : M.IsSquare N) (hl : M.fColLwb = M.fRowLwb) (hT : T.IsOwned cfg p) :
    ∃ res,
      ((ResizeToBounds cfg T lwb (lwb + n - 1) lwb (lwb + n - 1)).bind fun t =>
        (forUp (GetSub.rowStep M t n) 0 n
          { ap := (rl - M.fRowLwb) * M.fNrows + (rl - M.fRowLwb), bp := 0, mem := t.mem }).map
          fun s => { t with mem := s.mem }) = some res ∧
      res.fValid = true ∧ res.fNrows = (n : Int) ∧ res.fNcols = (n : Int) ∧ res.fRowLwb = lwb ∧
      res.fColLwb = lwb ∧
      ∀ a b : Nat, a < n → b < n →
        res.entry (lwb + a) (lwb + b) = M.entry (rl + a) (rl + b) := by
  obtain ⟨t, r, o, ht, tv, tr, tc, trl, tcl, tbuf⟩ :=
    ResizeToBounds_shape cfg T p n hn lwb (lwb + n - 1) rfl hT
  obtain ⟨u, hu, hcells⟩ := GetSub_copy M t n r o tbuf
    ((rl - M.fRowLwb) * M.fNrows + (rl - M.fRowLwb)) t.mem
  refine ⟨{ t with mem := u.mem }, ?_, tv, tr, tc, trl, tcl, ?_⟩
  · rw [ht, Option.some_bind, hu, Option.map_some']
  · intro a b ha hb
    have e1 : ({ t with mem := u.mem } : TMatrixTSym R).entry (lwb + a) (lwb + b)
        = u.mem.cells r (o + ((a : Int) * n + b)) := by
      simp only [entry, get, trl, tcl, tc, tbuf, Ptr.loc_add, Store.load_loc]
      congr 2
      ring
    rw [e1, hcells a b ha hb]
    simp only [entry, hl, hM.cols, hM.rows]
    congr 1
    ring

end TMatrixTSym

/-- The upper case of a character is `S` for `S` and `s` only. -/
theorem toUpper_eq_S (c : Char) : c.toUpper = 'S' ↔ c = 'S' ∨ c = 's' := by
  constructor
  · intro h
    have hc : Char.ofNat c.toNat = c := Char.ofNat_toNat c
    unfold Char.toUpper at h
    simp only [] at h
    by_cases hr : c.toNat ≥ 97 ∧ c.toNat ≤ 122
    · rw [if_pos hr] at h
      right
      obtain ⟨h1, h2⟩ := hr
      generalize c.toNat = n at *
      interval_cases n <;> first | exact hc.symm.trans (by decide) | (exfalso; revert h; decide)
    · rw [if_neg hr] at h; exact Or.inl h
  · rintro (rfl | rfl) <;> decide

/-- The test of `GetSub` on its option holds when the option contains `S` or
`s`. -/
theorem optionShift_iff (opt : List Char) :
    optionShift opt = true ↔ ('S' ∈ opt ∨ 's' ∈ opt) := by
  have hmem : optionShift opt = true ↔ ∃ c, c ∈ opt ∧ (c = 'S' ∨ c = 's') := by
    simp [optionShift, toUpper_eq_S]
  rw [hmem]
  constructor
  · rintro ⟨c, hc, rfl | rfl⟩
    · exact Or.inl hc
    · exact Or.inr hc
  · rintro (h | h)
    · exact ⟨_, h, Or.inl rfl⟩
    · exact ⟨_, h, Or.inr rfl⟩

namespace TMatrixTSym

variable {R : Type} [CommRing R]

/-- C19, amended.  For a valid matrix `M` with `N` rows and the index range
`[l..u]`, bounds `l <= row_lwb <= row_upb <= u` and a valid owning target,
`GetSub(row_lwb,row_upb,target,option)` returns: the target is valid, has
`row_upb-row_lwb+1` rows and columns, the lower bound 0 when the option
contains `S` or `s` and `row_lwb` otherwise, and its element at
`(lwb_t+i, lwb_t+j)` is the element of `M` at `(row_lwb+i, row_lwb+j)` for
all `0 <= i,j <= row_upb-row_lwb`.  The source is `const`. -/
theorem GetSub_extracts_block (cfg : Config R) (M T : TMatrixTSym R) (N p : Nat)
    (rl ru : Int) (opt : List Char) (hM : M.IsSquare N) (hl : M.fColLwb = M.fRowLwb)
    (hT : T.IsOwned cfg p) (h1 : M.fRowLwb ≤ rl) (h2 : rl ≤ ru)
    (h3 : ru ≤ M.fRowLwb + N - 1) :
    ∃ res, GetSub cfg M rl ru T opt = some res ∧ res.IsValid = true ∧
      res.fNrows = ru - rl + 1 ∧ res.fNcols = ru - rl + 1 ∧
      res.fRowLwb = (if 'S' ∈ opt ∨ 's' ∈ opt then 0 else rl) ∧
      res.fColLwb = (if 'S' ∈ opt ∨ 's' ∈ opt then 0 else rl) ∧
      ∀ i j : Nat, (i : Int) ≤ ru - rl → (j : Int) ≤ ru - rl →
        res.entry (res.fRowLwb + i) (res.fRowLwb + j) = M.entry (rl + i) (rl + j) := by
  have hv : M.IsValid = true := hM.valid
  obtain ⟨n, hn⟩ : ∃ n : Nat, (n : Int) = ru - rl + 1 := ⟨(ru - rl + 1).toNat, by omega⟩
  have hnpos : 0 < n := by omega
  have c1 : ¬ (rl < M.fRowLwb ∨ rl > M.fRowLwb + M.fNrows - 1) := by rw [hM.rows]; omega
  have c2 : ¬ (ru < M.fRowLwb ∨ ru > M.fRowLwb + M.fNrows - 1) := by rw [hM.rows]; omega
  have c3 : ¬ (ru < rl) := by omega
  unfold GetSub
  rw [if_neg (by simp [hv]), if_neg c1, if_neg c2, if_neg c3]
  by_cases hb : optionShift opt = true
  · have hS : 'S' ∈ opt ∨ 's' ∈ opt := (optionShift_iff opt).1 hb
    obtain ⟨res, hres, a1, a2, a3, a4, a5, a6⟩ := GetSub_tail cfg M T N p n hnpos rl 0 hM hl hT
    have e1 : ru - rl = 0 + (n : Int) - 1 := by omega
    have e2 : (0 : Int) + (n : Int) - 1 - 0 + 1 = n := by omega
    refine ⟨res, ?_, a1, by omega, by omega, by rw [if_pos hS]; exact a4,
      by rw [if_pos hS]; exact a5, ?_⟩
    · simp only [hb, if_true, e1, e2, Int.toNat_ofNat]
      exact hres
    · intro i j hi hj
      rw [a4]
      exact a6 i j (by omega) (by omega)
  · have hb' : optionShift opt = false := by simpa using hb
    have hS : ¬ ('S' ∈ opt ∨ 's' ∈ opt) := fun h => hb ((optionShift_iff opt).2 h)
    obtain ⟨res, hres, a1, a2, a3, a4, a5, a6⟩ := GetSub_tail cfg M T N p n hnpos rl rl hM hl hT
    have e1 : ru = rl + (n : Int) - 1 := by omega
    have e2 : rl + (n : Int) - 1 - rl + 1 = n := by omega
    refine ⟨res, ?_, a1, by omega, by omega, by rw [if_neg hS]; exact a4,
      by rw [if_neg hS]; exact a5, ?_⟩
    · simp only [hb', if_false, Bool.false_eq_true, e1, e2, Int.toNat_ofNat]
      exact hres
    · intro i j hi hj
      rw [a4]
      exact a6 i j (by omega) (by omega)

end TMatrixTSym

/-- C19 at the matrix `[[1,2,3],[2,4,5],[3,5,6]]` with the bounds `1..2`, an
empty target and the option `S`. -/
theorem GetSub_extracts_block_witness :
    ∃ res, TMatrixTSym.GetSub cfg25 (ofList cfg25 3 [1, 2, 3, 2, 4, 5, 3, 5, 6]) 1 2
        (ofList cfg25 0 []) ['S'] = some res ∧ res.IsValid = true ∧
      res.fNrows = 2 - 1 + 1 ∧ res.fNcols = 2 - 1 + 1 ∧
      res.fRowLwb = (if 'S' ∈ ['S'] ∨ 's' ∈ ['S'] then 0 else 1) ∧
      res.fColLwb = (if 'S' ∈ ['S'] ∨ 's' ∈ ['S'] then 0 else 1) ∧
      ∀ i j : Nat, (i : Int) ≤ 2 - 1 → (j : Int) ≤ 2 - 1 →
        res.entry (res.fRowLwb + i) (res.fRowLwb + j)
          = (ofList cfg25 3 [1, 2, 3, 2, 4, 5, 3, 5, 6]).entry (1 + i) (1 + j) :=
  TMatrixTSym.GetSub_extracts_block cfg25 (ofList cfg25 3 [1, 2, 3, 2, 4, 5, 3, 5, 6])
    (ofList cfg25 0 []) 3 0 1 2 ['S']
    ⟨rfl, rfl, rfl, rfl, fun _ => by decide⟩ rfl
    ⟨⟨rfl, rfl, rfl, rfl, fun h => absurd h (by decide)⟩, rfl,
      fun h => absurd h (by decide), fun hk => absurd hk (by decide)⟩
    (by decide) (by decide) (by decide)

/-- C19, the input where the claim fails: the option `s` does not contain the
character `S`, and `GetSub(1,2,target,"s")` on a matrix with lower bound 0
leaves the target with the lower bound 0, not `row_lwb = 1`; the option is
converted to upper case before the test. -/
theorem GetSub_lower_case_option_shifts :
    ¬ ('S' ∈ ['s']) ∧
    (TMatrixTSym.GetSub cfg25 (ofList cfg25 3 [1, 2, 3, 2, 4, 5, 3, 5, 6]) 1 2
        (ofList cfg25 0 []) ['s']).map
      (fun t => (t.IsValid, t.fNrows, t.fNcols, t.fRowLwb, t.fColLwb))
      = some (true, 2, 2, 0, 0) := by
  refine ⟨by decide, by decide⟩

/-! ## Further properties of the operations above -/

namespace TMatrixTSym

/-- For a valid matrix with fewer than 128 rows `InvertFast` selects by the
exact number of rows: the `n` by `n` Cramer kernel for `n` from 2 to 6, and
the statements of `Invert` for no row and for 7 rows and more. -/
theorem InvertFast_dispatch_below_128 {R : Type} [Field R] [DecidableEq R] (sv : Solvers R)
    (cfg : Config R) (raw M : TMatrixTSym R) (det : Option R) (n : Nat)
    (hv : M.IsValid = true) (hn : M.GetNrows = n) (h128 : n < 128) :
    (2 ≤ n → n ≤ 6 → InvertFast sv cfg raw M det = some (sv.cramer n M det)) ∧
    (n = 0 ∨ 7 ≤ n → InvertFast sv cfg raw M det = Invert sv cfg raw M det) := by
  have hc : Char_t M.GetNrows = n := by
    rw [hn]; unfold Char_t; omega
  constructor
  · intro h2 h6
    unfold InvertFast
    rw [if_neg (by simp [hv])]
    simp only [hc]
    interval_cases n <;> simp
  · intro h
    unfold InvertFast
    rw [if_neg (by simp [hv])]
    simp only [hc]
    rw [if_neg (by omega), if_neg (by omega), if_neg (by omega), if_neg (by omega),
      if_neg (by omega), if_neg (by omega)]

end TMatrixTSym

/-- The dispatch of `InvertFast` at a rational matrix with 3 rows. -/
theorem InvertFast_dispatch_below_128_witness :
    (2 ≤ 3 → 3 ≤ 6 →
      TMatrixTSym.InvertFast idleSolvers cfgQ (constQ 0 0) (constQ 3 2) none
        = some (idleSolvers.cramer 3 (constQ 3 2) none)) ∧
    (3 = 0 ∨ 7 ≤ 3 →
      TMatrixTSym.InvertFast idleSolvers cfgQ (constQ 0 0) (constQ 3 2) none
        = TMatrixTSym.Invert idleSolvers cfgQ (constQ 0 0) (constQ 3 2) none) :=
  TMatrixTSym.InvertFast_dispatch_below_128 idleSolvers cfgQ (constQ 0 0) (constQ 3 2) none 3
    rfl rfl (by decide)

namespace TMatrixTSym

variable {R : Type} [CommRing R]

/-- For valid symmetric operands with a lower bound that is not negative, the
constructor `TMatrixTSym(a,op,b)` with `op` one of `kPlus` and `kMinus` leaves
an invalid object: `Allocate` gives it the lower bounds 1 and 0, and the
assignment of `a` finds the two incompatible. -/
theorem ctorOp2_leaves_invalid (cfg : Config R) (fuel : Nat) (raw a b : TMatrixTSym R)
    (n m : Nat) (op : EMatrixCreatorsOp2) (ha : a.IsSquare n) (hb : b.IsSquare m)
    (hla : a.fColLwb = a.fRowLwb) (hlb : b.fColLwb = b.fRowLwb) (hl0 : 0 ≤ a.fRowLwb)
    (hop : op = EMatrixCreatorsOp2.kPlus ∨ op = EMatrixCreatorsOp2.kMinus) :
    ∃ t, ctorOp2 cfg fuel raw a op b = some t ∧ t.IsValid = false := by
  have hav : a.IsValid = true := ha.valid
  have hbv : b.IsValid = true := hb.valid
  have hlw : (Allocate cfg raw.Invalidate a.GetNrows a.GetRowLwb 1 0 0).fRowLwb = 1 ∧
      (Allocate cfg raw.Invalidate a.GetNrows a.GetRowLwb 1 0 0).fColLwb = 0 := by
    have h1 : ¬ (a.GetNrows < 0 ∨ a.GetRowLwb < 0) := by
      show ¬ (a.fNrows < 0 ∨ a.fRowLwb < 0)
      rw [ha.rows]; omega
    unfold Allocate
    rw [if_neg h1]
    constructor <;> (simp only []; split_ifs <;> rfl)
  have hc1 : AreCompatible (Allocate cfg raw.Invalidate a.GetNrows a.GetRowLwb 1 0 0) a
      = false := by
    simp only [AreCompatible, hlw.1, hlw.2, decide_eq_false_iff_not]
    rintro ⟨_, _, h3, h4⟩
    rw [← h3, ← h4] at hla
    exact absurd hla (by decide)
  have hc2 : AreCompatible (Allocate cfg raw.Invalidate a.GetNrows a.GetRowLwb 1 0 0).Invalidate b
      = false := by
    simp only [AreCompatible, decide_eq_false_iff_not]
    rintro ⟨_, _, h3, h4⟩
    have h3' : (Allocate cfg raw.Invalidate a.GetNrows a.GetRowLwb 1 0 0).fRowLwb = b.fRowLwb := h3
    have h4' : (Allocate cfg raw.Invalidate a.GetNrows a.GetRowLwb 1 0 0).fColLwb = b.fColLwb := h4
    rw [hlw.1] at h3'
    rw [hlw.2] at h4'
    rw [← h3', ← h4'] at hlb
    exact absurd hlb (by decide)
  refine ⟨(Allocate cfg raw.Invalidate a.GetNrows a.GetRowLwb 1 0 0).Invalidate.Invalidate, ?_,
    rfl⟩
  rcases hop with rfl | rfl
  · simp only [ctorOp2, hav, hbv, operatorAssign, hc1, operatorPlusAssign, hc2,
      Option.some_bind, if_true, if_false, Bool.true_eq_false]
  · simp only [ctorOp2, hav, hbv, operatorAssign, hc1, operatorMinusAssign, hc2,
      Option.some_bind, if_true, if_false, Bool.true_eq_false]

end TMatrixTSym

/-- The constructor `TMatrixTSym(a,kPlus,b)` at `a = [[1,2],[2,3]]` and
`b = [[1,0],[0,1]]`. -/
theorem ctorOp2_leaves_invalid_witness :
    ∃ t, TMatrixTSym.ctorOp2 cfg25 9 blank (ofList cfg25 2 [1, 2, 2, 3])
        EMatrixCreatorsOp2.kPlus (ofList cfg25 2 [1, 0, 0, 1]) = some t ∧ t.IsValid = false :=
  TMatrixTSym.ctorOp2_leaves_invalid cfg25 9 blank (ofList cfg25 2 [1, 2, 2, 3])
    (ofList cfg25 2 [1, 0, 0, 1]) 2 2 EMatrixCreatorsOp2.kPlus
    ⟨rfl, rfl, rfl, rfl, fun _ => by decide⟩ ⟨rfl, rfl, rfl, rfl, fun _ => by decide⟩
    rfl rfl (by decide) (Or.inl rfl)

/-! ## Resizing with index bounds into or out of the free store -/

namespace TMatrixTSym

variable {R : Type} [CommRing R]

/-- When the old or the new number of elements exceeds `kSizeMax`, `Allocate`
gives the new buffer a block other than that of the old buffer, and leaves the
cells as they are. -/
theorem Allocate_fresh (cfg : Config R) (T : TMatrixTSym R) (p n : Nat) (hp : 0 < p)
    (hn : 0 < n) (l : Int) (hT : T.IsOwned cfg p)
    (hheap : cfg.kSizeMax < (n : Int) * n ∨ cfg.kSizeMax < (p : Int) * p) :
    ∃ rn ro, T.fElements = Ptr.loc ro 0 ∧
      (Allocate cfg T n n l l 0).fElements = Ptr.loc rn 0 ∧ rn ≠ ro ∧
      (Allocate cfg T n n l l 0).mem.cells = T.mem.cells := by
  have hpos : 0 < (n : Int) * n := by positivity
  by_cases hk : (n : Int) * n ≤ cfg.kSizeMax
  · obtain ⟨b, _, hb⟩ := hT.large (by omega)
    refine ⟨Region.stack, Region.heap b, hb, ?_, Region.noConfusion, ?_⟩ <;>
      rw [Allocate_small cfg T n hn hk l]
  · have hk' : cfg.kSizeMax < (n : Int) * n := by omega
    by_cases hkp : (p : Int) * p ≤ cfg.kSizeMax
    · refine ⟨Region.heap T.mem.nheap, Region.stack, hT.small hp hkp, ?_, Region.noConfusion, ?_⟩ <;>
        rw [Allocate_large cfg T n hk' hpos l]
    · obtain ⟨b, hb, hb'⟩ := hT.large (by omega)
      refine ⟨Region.heap T.mem.nheap, Region.heap b, hb', ?_, ?_, ?_⟩
      · rw [Allocate_large cfg T n hk' hpos l]
      · intro hh
        injection hh with hh1
        omega
      · rw [Allocate_large cfg T n hk' hpos l]

/-- The cells of a block of `c` columns inside row `d+i` of an array with `n`
columns. -/
theorem block_cell_iff (n d c i a b : Nat) (hb : b < n) (hdc : d + c ≤ n) :
    (((d + i : Nat) : Int) * n + d ≤ (a : Int) * n + b ∧
      (a : Int) * n + b < ((d + i : Nat) : Int) * n + d + c) ↔
    (a = d + i ∧ d ≤ b ∧ b < d + c) := by
  constructor
  · rintro ⟨h1, h2⟩
    have h1' : (d + i) * n + d ≤ a * n + b := by exact_mod_cast h1
    have h2' : a * n + b < (d + i) * n + d + c := by exact_mod_cast h2
    have ha : a = d + i := by
      rcases Nat.lt_trichotomy a (d + i) with hlt | heq | hgt
      · exfalso
        have : (a + 1) * n ≤ (d + i) * n := Nat.mul_le_mul_right n hlt
        nlinarith
      · exact heq
      · exfalso
        have : (d + i + 1) * n ≤ a * n := Nat.mul_le_mul_right n hgt
        nlinarith
    subst ha
    exact ⟨rfl, by omega, by omega⟩
  · rintro ⟨rfl, h1, h2⟩
    constructor
    · have : (d : Int) ≤ b := by exact_mod_cast h1
      linarith
    · have : (b : Int) < d + c := by exact_mod_cast h2
      linarith

/-- One row of the overlap, copied between two blocks. -/
theorem ResizeToBounds_row_moved (cfg : Config R) (t : TMatrixTSym R) (rn ro : Region)
    (hne : rn ≠ ro) (n p dN dO c : Nat) (l l0 lc : Int) (nelems_old : Int)
    (hbuf : t.fElements = Ptr.loc rn 0) (hcols : t.fNcols = n) (hrl : t.fRowLwb = l)
    (hcl : t.fColLwb = l) (hdN : (dN : Int) = lc - l) (hdO : (dO : Int) = lc - l0)
    (i : Nat) (s : Store R) :
    ResizeToBounds.row cfg t (Ptr.loc ro 0) nelems_old p l0 l0 lc lc c i s
      = some (s.moved rn (((dN + i : Nat) : Int) * n + dN) ro (((dO + i : Nat) : Int) * p + dO)
          c) := by
  unfold ResizeToBounds.row
  simp only [GetMatrixArray, hbuf, hcols, hrl, hcl, Ptr.loc_add]
  have e1 : (0 : Int) + ((lc + i - l) * n + (lc - l)) = ((dN + i : Nat) : Int) * n + dN := by
    push_cast; rw [hdN]; ring
  have e2 : (0 : Int) + ((lc + i - l0) * p + (lc - l0)) = ((dO + i : Nat) : Int) * p + dO := by
    push_cast; rw [hdO]; ring
  rw [e1, e2]
  exact Memcpy_m_moved cfg s rn ro _ _ c _ _ (Or.inr (by simp [Ptr.overlap, hne]))

end TMatrixTSym

namespace TMatrixTSym

variable {R : Type} [CommRing R]

/-- The cells of the new block after one row of the overlap has been copied
from another block. -/
theorem moved_block (s : Store R) (rn ro : Region) (n p dN dO c i a b : Nat) (hb : b < n)
    (hdc : dN + c ≤ n) :
    (s.moved rn (((dN + i : Nat) : Int) * n + dN) ro (((dO + i : Nat) : Int) * p + dO) c).cells rn
        ((a : Int) * n + b)
      = if a = dN + i ∧ dN ≤ b ∧ b < dN + c then
          s.cells ro (((dO + (a - dN) : Nat) : Int) * p + ((dO + (b - dN) : Nat) : Int))
        else s.cells rn ((a : Int) * n + b) := by
  rw [moved_cells]
  by_cases h : a = dN + i ∧ dN ≤ b ∧ b < dN + c
  · rw [if_pos h, if_pos ⟨rfl, (block_cell_iff n dN c i a b hb hdc).2 h⟩]
    obtain ⟨rfl, h1, _⟩ := h
    congr 1
    have e1 : ((dO + (dN + i - dN) : Nat) : Int) = (dO : Int) + i := by
      have : dN + i - dN = i := by omega
      rw [this]; push_cast; ring
    have e2 : ((dO + (b - dN) : Nat) : Int) = (dO : Int) + b - dN := by omega
    rw [e1, e2]
    push_cast
    ring
  · rw [if_neg h, if_neg (fun hh => h ((block_cell_iff n dN c i a b hb hdc).1 hh.2))]

theorem moved_other (s : Store R) (rn ro : Region) (hne : rn ≠ ro) (A B c q : Int) :
    (s.moved rn A ro B c).cells ro q = s.cells ro q := by
  rw [moved_cells, if_neg (fun hh => hne hh.1.symm)]

/-- The rows of the overlap, copied between two blocks in either order: the
block of the old buffer keeps its cells, and the new array holds the overlap in
its place and is unchanged elsewhere. -/
theorem ResizeToBounds_rows (cfg : Config R) (t : TMatrixTSym R) (rn ro : Region)
    (hne : rn ≠ ro) (n p dN dO c : Nat) (l l0 lc : Int) (nelems_old : Int)
    (hbuf : t.fElements = Ptr.loc rn 0) (hcols : t.fNcols = n) (hrl : t.fRowLwb = l)
    (hcl : t.fColLwb = l) (hdN : (dN : Int) = lc - l) (hdO : (dO : Int) = lc - l0)
    (hdc : dN + c ≤ n) (s0 : Store R) (down : Bool) :
    ∃ u : Store R,
      (if down then
          forDown (ResizeToBounds.row cfg t (Ptr.loc ro 0) nelems_old p l0 l0 lc lc c) c s0
        else forUp (ResizeToBounds.row cfg t (Ptr.loc ro 0) nelems_old p l0 l0 lc lc c) 0 c s0)
        = some u ∧
      (∀ q, u.cells ro q = s0.cells ro q) ∧
      ∀ a b : Nat, b < n →
        u.cells rn ((a : Int) * n + b)
          = if dN ≤ a ∧ a < dN + c ∧ dN ≤ b ∧ b < dN + c then
              s0.cells ro (((dO + (a - dN) : Nat) : Int) * p + ((dO + (b - dN) : Nat) : Int))
            else s0.cells rn ((a : Int) * n + b) := by
  have hrow := ResizeToBounds_row_moved cfg t rn ro hne n p dN dO c l l0 lc nelems_old hbuf hcols
    hrl hcl hdN hdO
  cases down with
  | true =>
    obtain ⟨u, hu, h1, h2⟩ := forDown_rule
      (ResizeToBounds.row cfg t (Ptr.loc ro 0) nelems_old p l0 l0 lc lc c)
      (fun k (u : Store R) => (∀ q, u.cells ro q = s0.cells ro q) ∧
        ∀ a b : Nat, b < n →
          u.cells rn ((a : Int) * n + b)
            = if dN + k ≤ a ∧ a < dN + c ∧ dN ≤ b ∧ b < dN + c then
                s0.cells ro (((dO + (a - dN) : Nat) : Int) * p + ((dO + (b - dN) : Nat) : Int))
              else s0.cells rn ((a : Int) * n + b))
      c s0
      (by
        refine ⟨fun _ => rfl, ?_⟩
        intro a b _
        rw [if_neg (by omega)])
      (by
        intro k s hk ⟨i1, i2⟩
        refine ⟨_, hrow k s, ?_, ?_⟩
        · intro q
          rw [moved_other s rn ro hne, i1]
        · intro a b hb
          rw [moved_block s rn ro n p dN dO c k a b hb hdc, i1, i2 a b hb]
          by_cases hc : a = dN + k ∧ dN ≤ b ∧ b < dN + c
          · rw [if_pos hc, if_pos (by omega)]
          · rw [if_neg hc]
            by_cases hd : dN + (k + 1) ≤ a ∧ a < dN + c ∧ dN ≤ b ∧ b < dN + c
            · rw [if_pos hd, if_pos (by omega)]
            · rw [if_neg hd, if_neg (by omega)])
    refine ⟨u, by simpa using hu, h1, ?_⟩
    intro a b hb
    rw [h2 a b hb]
    simp only [Nat.add_zero]
  | false =>
    obtain ⟨u, hu, h1, h2⟩ := forUp_rule
      (ResizeToBounds.row cfg t (Ptr.loc ro 0) nelems_old p l0 l0 lc lc c) c
      (fun k (u : Store R) => (∀ q, u.cells ro q = s0.cells ro q) ∧
        ∀ a b : Nat, b < n →
          u.cells rn ((a : Int) * n + b)
            = if dN ≤ a ∧ a < dN + k ∧ dN ≤ b ∧ b < dN + c then
                s0.cells ro (((dO + (a - dN) : Nat) : Int) * p + ((dO + (b - dN) : Nat) : Int))
              else s0.cells rn ((a : Int) * n + b))
      0 s0
      (by
        refine ⟨fun _ => rfl, ?_⟩
        intro a b _
        rw [if_neg (by omega)])
      (by
        intro k s hk ⟨i1, i2⟩
        refine ⟨_, by rw [zero_add]; exact hrow k s, ?_, ?_⟩
        · intro q
          rw [moved_other s rn ro hne, i1]
        · intro a b hb
          rw [moved_block s rn ro n p dN dO c k a b hb hdc, i1, i2 a b hb]
          by_cases hc : a = dN + k ∧ dN ≤ b ∧ b < dN + c
          · rw [if_pos hc, if_pos (by omega)]
          · rw [if_neg hc]
            by_cases hd : dN ≤ a ∧ a < dN + k ∧ dN ≤ b ∧ b < dN + c
            · rw [if_pos hd, if_pos (by omega)]
            · rw [if_neg hd, if_neg (by omega)])
    exact ⟨u, by simpa using hu, h1, h2⟩

end TMatrixTSym

namespace TMatrixTSym

variable {R : Type} [CommRing R]

/-- The statements under `// Copy overlap` when the two buffers lie in
different blocks: the new array holds the old element at every logical index
of both ranges and is unchanged elsewhere. -/
theorem ResizeToBounds_copy_heap (cfg : Config R) (t : TMatrixTSym R) (rn ro : Region)
    (hne : rn ≠ ro) (n p : Nat) (l l0 : Int) (nelems_old : Int)
    (hbuf : t.fElements = Ptr.loc rn 0) (hrows : t.fNrows = n) (hcols : t.fNcols = n)
    (hrl : t.fRowLwb = l) (hcl : t.fColLwb = l) (s0 : Store R) :
    ∃ u : Store R,
      ResizeToBounds.copy cfg t (Ptr.loc ro 0) nelems_old p p l0 l0 s0 = some u ∧
      ∀ r c : Int, l ≤ r → r ≤ l + n - 1 → l ≤ c → c ≤ l + n - 1 →
        u.cells rn ((r - l) * n + (c - l))
          = if l0 ≤ r ∧ r ≤ l0 + p - 1 ∧ l0 ≤ c ∧ c ≤ l0 + p - 1 then
              s0.cells ro ((r - l0) * p + (c - l0))
            else s0.cells rn ((r - l) * n + (c - l)) := by
  unfold ResizeToBounds.copy
  simp only [hrows, hcols, hrl, hcl]
  by_cases hc : min (l + (n : Int) - 1) (l0 + (p : Int) - 1) - max l l0 + 1 > 0
  · rw [if_pos ⟨hc, hc⟩]
    obtain ⟨c, hcd⟩ : ∃ c : Nat,
        (c : Int) = min (l + (n : Int) - 1) (l0 + (p : Int) - 1) - max l l0 + 1 :=
      ⟨_, Int.toNat_of_nonneg (by omega)⟩
    obtain ⟨dN, hdN⟩ : ∃ d : Nat, (d : Int) = max l l0 - l := ⟨_, Int.toNat_of_nonneg (by omega)⟩
    obtain ⟨dO, hdO⟩ : ∃ d : Nat, (d : Int) = max l l0 - l0 :=
      ⟨_, Int.toNat_of_nonneg (by omega)⟩
    rw [← hcd, Int.toNat_ofNat]
    obtain ⟨u, hu, _, h2⟩ := ResizeToBounds_rows cfg t rn ro hne n p dN dO c l l0 (max l l0)
      nelems_old hbuf hcols hrl hcl hdN hdO (by omega) s0 (decide ((p : Int) < n))
    refine ⟨u, ?_, ?_⟩
    · rw [← hu]
      by_cases hpn : (p : Int) < n
      · simp [hpn]
      · simp [hpn]
    · intro r c' hr1 hr2 hc1 hc2
      obtain ⟨a, ha⟩ : ∃ a : Nat, (a : Int) = r - l := ⟨_, Int.toNat_of_nonneg (by omega)⟩
      obtain ⟨b, hb⟩ : ∃ b : Nat, (b : Int) = c' - l := ⟨_, Int.toNat_of_nonneg (by omega)⟩
      rw [← ha, ← hb, h2 a b (by omega)]
      by_cases hin : l0 ≤ r ∧ r ≤ l0 + p - 1 ∧ l0 ≤ c' ∧ c' ≤ l0 + p - 1
      · rw [if_pos hin, if_pos (by omega)]
        congr 1
        have e1 : ((dO + (a - dN) : Nat) : Int) = r - l0 := by omega
        have e2 : ((dO + (b - dN) : Nat) : Int) = c' - l0 := by omega
        rw [e1, e2]
      · rw [if_neg hin, if_neg (by omega)]
  · rw [if_neg (fun hh => hc hh.1)]
    refine ⟨s0, rfl, ?_⟩
    intro r c' hr1 hr2 hc1 hc2
    rw [if_neg (by omega)]

/-- `ResizeTo(l,u,l,u)` with `u = l+n-1` and `n >= 1` on a valid owning `p` by
`p` matrix, `p >= 1`, when the old or the new number of elements exceeds
`kSizeMax`: the call returns a valid `n` by `n` matrix with the lower bounds
`l`; its element at a logical index of both ranges is the old element, and
every other element is zero. -/
theorem ResizeToBounds_through_heap (cfg : Config R) (T : TMatrixTSym R) (p n : Nat)
    (hp : 0 < p) (hn : 0 < n) (l u : Int) (hu : u = l + n - 1) (hT : T.IsOwned cfg p)
    (hl : T.fColLwb = T.fRowLwb)
    (hheap : cfg.kSizeMax < (n : Int) * n ∨ cfg.kSizeMax < (p : Int) * p) :
    ∃ res, ResizeToBounds cfg T l u l u = some res ∧ res.IsValid = true ∧
      res.fNrows = n ∧ res.fNcols = n ∧ res.fRowLwb = l ∧ res.fColLwb = l ∧
      ∀ r c : Int, l ≤ r → r ≤ u → l ≤ c → c ≤ u →
        res.entry r c
          = if T.fRowLwb ≤ r ∧ r ≤ T.fRowLwb + p - 1 ∧ T.fRowLwb ≤ c ∧ c ≤ T.fRowLwb + p - 1
            then T.entry r c else 0 := by
  have h1 : T.IsValid = true := hT.square.valid
  have h2 : T.fIsOwner = true := hT.owner
  have hnn : u - l + 1 = (n : Int) := by omega
  have h3 : T.fNelems > 0 := by rw [hT.square.nelems]; positivity
  unfold ResizeToBounds
  simp only [h1, h2, hnn, if_false, Bool.true_eq_false, ne_eq, not_true_eq_false]
  rw [if_pos h3]
  by_cases hsame : T.fNrows = (n : Int) ∧ T.fNcols = (n : Int) ∧ T.fRowLwb = l ∧ T.fColLwb = l
  · rw [if_pos hsame]
    refine ⟨T, rfl, h1, hsame.1, hsame.2.1, hsame.2.2.1, hsame.2.2.2, ?_⟩
    intro r c hr1 hr2 hc1 hc2
    have hpn : (p : Int) = n := by rw [← hT.square.rows]; exact hsame.1
    rw [if_pos (by rw [hsame.2.2.1]; omega)]
  · rw [if_neg hsame]
    have h5 : ¬ ((n : Int) = 0 ∨ (n : Int) = 0) := by omega
    rw [if_neg h5]
    obtain ⟨a1, a2, a3, a4, a5, a6, _, _⟩ := Allocate_shape cfg T n l l 0
    obtain ⟨rn, ro, hro, hrn, hne, hcells⟩ := Allocate_fresh cfg T p n hp hn l hT hheap
    have h6 : ¬ ((Allocate cfg T n n l l 0).IsValid = false) := by
      show ¬ ((Allocate cfg T n n l l 0).fValid = false)
      rw [a1]; simp
    rw [if_neg h6]
    have hclr : ResizeToBounds.cleared cfg (Allocate cfg T n n l l 0) T.fNelems
        = (Allocate cfg T n n l l 0).mem.memset (Ptr.loc rn 0) ((n : Int) * n) := by
      unfold ResizeToBounds.cleared
      simp only [GetMatrixArray, hrn, a6, hT.square.nelems]
      rw [if_pos (by omega)]
    obtain ⟨m2, hm2, hent⟩ := ResizeToBounds_copy_heap cfg (Allocate cfg T n n l l 0) rn ro hne
      n p l T.fRowLwb T.fNelems hrn a2 a3 a4 a5
      ((Allocate cfg T n n l l 0).mem.memset (Ptr.loc rn 0) ((n : Int) * n))
    simp only [GetMatrixArray, hro, hclr, hT.square.rows, hT.square.cols, hl, hm2,
      Option.some_bind]
    refine ⟨_, rfl, a1, a2, a3, a4, a5, ?_⟩
    intro r c hr1 hr2 hc1 hc2
    have e1 : ({ Allocate cfg T n n l l 0 with
          mem := (Delete_m cfg m2 T.fNelems (Ptr.loc ro 0)).1 } : TMatrixTSym R).entry r c
        = m2.cells rn ((r - l) * n + (c - l)) := by
      simp only [entry, get, a3, a4, a5, hrn, Ptr.loc_add, Store.load_loc,
        (Delete_m_cells cfg m2 T.fNelems (Ptr.loc ro 0)).1, zero_add]
    rw [e1, hent r c hr1 (by omega) hc1 (by omega)]
    by_cases hin : T.fRowLwb ≤ r ∧ r ≤ T.fRowLwb + p - 1 ∧ T.fRowLwb ≤ c ∧ c ≤ T.fRowLwb + p - 1
    · rw [if_pos hin, if_pos hin, memset_cells, if_neg (fun hh => hne hh.1.symm), hcells]
      simp only [entry, get, hro, hl, hT.square.cols, Ptr.loc_add, Store.load_loc, zero_add]
    · rw [if_neg hin, if_neg hin, memset_cells]
      obtain ⟨a, ha⟩ : ∃ a : Nat, (a : Int) = r - l := ⟨_, Int.toNat_of_nonneg (by omega)⟩
      obtain ⟨b, hb⟩ : ∃ b : Nat, (b : Int) = c - l := ⟨_, Int.toNat_of_nonneg (by omega)⟩
      have hlt := idx_lt_sq n a b (by omega) (by omega)
      have hge : (0 : Int) ≤ (a : Int) * n + b := by positivity
      rw [← ha, ← hb, if_pos ⟨rfl, hge, by omega⟩]

end TMatrixTSym

/-- The resize through the free store at the matrix
`[[1,2,3],[2,4,5],[3,5,6]]` with the range `[0..2]` and the new range `[1..6]`. -/
theorem ResizeToBounds_through_heap_witness :
    ∃ res, TMatrixTSym.ResizeToBounds cfg25 (ofList cfg25 3 [1, 2, 3, 2, 4, 5, 3, 5, 6]) 1 6 1 6
        = some res ∧ res.IsValid = true ∧
      res.fNrows = (6 : Nat) ∧ res.fNcols = (6 : Nat) ∧ res.fRowLwb = 1 ∧ res.fColLwb = 1 ∧
      ∀ r c : Int, 1 ≤ r → r ≤ 6 → 1 ≤ c → c ≤ 6 →
        res.entry r c
          = if (ofList cfg25 3 [1, 2, 3, 2, 4, 5, 3, 5, 6]).fRowLwb ≤ r ∧
                r ≤ (ofList cfg25 3 [1, 2, 3, 2, 4, 5, 3, 5, 6]).fRowLwb + (3 : Nat) - 1 ∧
                (ofList cfg25 3 [1, 2, 3, 2, 4, 5, 3, 5, 6]).fRowLwb ≤ c ∧
                c ≤ (ofList cfg25 3 [1, 2, 3, 2, 4, 5, 3, 5, 6]).fRowLwb + (3 : Nat) - 1
            then (ofList cfg25 3 [1, 2, 3, 2, 4, 5, 3, 5, 6]).entry r c else 0 :=
  TMatrixTSym.ResizeToBounds_through_heap cfg25 (ofList cfg25 3 [1, 2, 3, 2, 4, 5, 3, 5, 6]) 3 6
    (by decide) (by decide) 1 6 (by decide)
    ⟨⟨rfl, rfl, rfl, rfl, fun _ => by decide⟩, rfl, fun _ _ => rfl,
      fun hk => absurd hk (by decide)⟩
    rfl (Or.inl (by decide))

/-! ## What the traversal with an action writes -/

namespace TMatrixTSym

variable {R : Type} [CommRing R]

/-- The inner loop of `Apply` on row `i`: the value that enters the row is
passed through the action once more for every column, and each value is
written to `[i,j]` and `[j,i]`. -/
theorem Apply_row (M : TMatrixTSym R) (f : R → R) (n : Nat) (r : Region) (o : Int)
    (hcols : M.fNcols = n) (hbuf : M.fElements = Ptr.loc r o) (i : Nat) (hi : i < n)
    (v : R) (s : Store R) (F : Nat → Nat → R)
    (hs : ∀ a b : Nat, a < n → b < n → s.cells r (o + ((a : Int) * n + b)) = F a b) :
    ∃ u : ApplyState R,
      forUp (fun j => Apply.colStep M f i j) i (M.fNcols - i).toNat
        { val := v, trp := (i : Int) * n + i, tcp := (i : Int) * n + i, mem := s }
        = some u ∧ u.val = f^[n - i] v ∧ u.trp = ((i : Int) + 1) * n ∧
      u.tcp = (n : Int) * n + i ∧
      ∀ a b : Nat, a < n → b < n → u.mem.cells r (o + ((a : Int) * n + b))
        = if min a b = i then f^[max a b - i + 1] v else F a b := by
  have hcount : (M.fNcols - i).toNat = n - i := by rw [hcols]; omega
  rw [hcount]
  obtain ⟨u, hu, hP⟩ := forUp_rule (fun j => Apply.colStep M f i j) (n - i)
    (fun k (u : ApplyState R) => u.val = f^[k] v ∧ u.trp = (i : Int) * n + i + k ∧
      u.tcp = ((i : Int) + k) * n + i ∧
      ∀ a b : Nat, a < n → b < n → u.mem.cells r (o + ((a : Int) * n + b))
        = if min a b = i ∧ max a b < i + k then f^[max a b - i + 1] v else F a b)
    (i : Int) { val := v, trp := (i : Int) * n + i, tcp := (i : Int) * n + i, mem := s }
    (by
      refine ⟨rfl, by simp, by simp, ?_⟩
      intro a b ha hb
      have c0 : ¬ (min a b = i ∧ max a b < i + 0) := by omega
      rw [if_neg c0]
      exact hs a b ha hb)
    (by
      intro k u hk ⟨hval, htrp, htcp, hmem⟩
      refine ⟨_, rfl, ?_, ?_, ?_, ?_⟩
      · simp only [hval, Function.iterate_succ_apply']
      · simp only [htrp]; push_cast; ring
      · simp only [htcp, hcols]; push_cast; ring
      · intro a b ha hb
        have e1 : u.tcp = ((i + k : Nat) : Int) * n + (i : Nat) := by rw [htcp]; push_cast; ring
        have e2 : u.trp = ((i : Nat) : Int) * n + ((i + k : Nat) : Int) := by
          rw [htrp]; push_cast; ring
        have hik : i + k < n := by omega
        have hv' : f u.val = f^[k + 1] v := by rw [hval, Function.iterate_succ_apply']
        simp only [GetMatrixArray, hbuf, hv']
        by_cases hk0 : k = 0
        · subst hk0
          have hgt : ¬ ((i : Int) + ((0 : Nat) : Int) > (i : Int)) := by simp
          simp only [hgt, if_false, Ptr.loc_add]
          rw [e2, Store.store_cell_idx _ r o n a b i (i + 0) hb hik, hmem a b ha hb]
          by_cases hab : a = i ∧ b = i + 0
          · have c2 : (min a b = i ∧ max a b < i + (0 + 1)) := by omega
            have c3 : max a b - i + 1 = 0 + 1 := by omega
            rw [if_pos hab, if_pos c2, c3]
          · rw [if_neg hab]
            have c1 : ¬ (min a b = i ∧ max a b < i + 0) := by omega
            have c2 : ¬ (min a b = i ∧ max a b < i + (0 + 1)) := by omega
            rw [if_neg c1, if_neg c2]
        · have hgt : ((i : Int) + (k : Int) > (i : Int)) := by omega
          simp only [hgt, if_true, Ptr.loc_add]
          rw [e1, e2, Store.store_cell_idx _ r o n a b i (i + k) hb hik,
            Store.store_cell_idx _ r o n a b (i + k) i hb hi, hmem a b ha hb]
          by_cases hab : a = i ∧ b = i + k
          · have c2 : (min a b = i ∧ max a b < i + (k + 1)) := by omega
            have c3 : max a b - i + 1 = k + 1 := by omega
            rw [if_pos hab, if_pos c2, c3]
          · rw [if_neg hab]
            by_cases hba : a = i + k ∧ b = i
            · have c2 : (min a b = i ∧ max a b < i + (k + 1)) := by omega
              have c3 : max a b - i + 1 = k + 1 := by omega
              rw [if_pos hba, if_pos c2, c3]
            · rw [if_neg hba]
              by_cases c1 : min a b = i ∧ max a b < i + k
              · have c2 : (min a b = i ∧ max a b < i + (k + 1)) := by omega
                rw [if_pos c1, if_pos c2]
              · have c2 : ¬ (min a b = i ∧ max a b < i + (k + 1)) := by omega
                rw [if_neg c1, if_neg c2])
  obtain ⟨h0, h1, h2, h3⟩ := hP
  refine ⟨u, hu, h0, ?_, ?_, ?_⟩
  · rw [h1]; push_cast [Nat.cast_sub hi.le]; ring
  · rw [h2]; push_cast [Nat.cast_sub hi.le]; ring
  · intro a b ha hb
    rw [h3 a b ha hb]
    by_cases c : min a b = i
    · have c2 : (min a b = i ∧ max a b < i + (n - i)) := by omega
      rw [if_pos c, if_pos c2]
    · have c2 : ¬ (min a b = i ∧ max a b < i + (n - i)) := by omega
      rw [if_neg c, if_neg c2]

/-- `Apply(action)` on a valid `n` by `n` matrix returns; the elements of the
matrix are not read: the element at `[a,b]` becomes the action applied to 0 as
many times as there are elements of the upper right part up to and including
`[min a b, max a b]` in row order.  So the result is symmetric, and it is the
same for every matrix with `n` rows. -/
theorem Apply_writes_running_value (M : TMatrixTSym R) (f : R → R) (n : Nat) (r : Region)
    (o : Int) (h : M.SquareAt n r o) :
    ∃ res, Apply M f = some res ∧ res.SquareAt n r o ∧
      ∀ a b : Nat, a < n → b < n →
        res.elem a b = f^[upperBefore n (min a b) + (max a b - min a b) + 1] 0 := by
  obtain ⟨s, hs, hP⟩ := forUp_rule (Apply.rowStep M (fun _ => f)) n
    (fun i (s : ApplyState R) => s.val = f^[upperBefore n i] 0 ∧ s.trp = (i : Int) * n ∧
      s.tcp = i ∧
      ∀ a b : Nat, a < n → b < n → s.mem.cells r (o + ((a : Int) * n + b))
        = if min a b < i then f^[upperBefore n (min a b) + (max a b - min a b) + 1] 0
          else M.mem.cells r (o + ((a : Int) * n + b)))
    0 { val := 0, trp := 0, tcp := 0, mem := M.mem }
    (by
      refine ⟨rfl, by simp, by simp, ?_⟩
      intro a b _ _
      rw [if_neg (Nat.not_lt_zero _)])
    (by
      intro i s hi ⟨hval, htrp, htcp, hmem⟩
      obtain ⟨u, hu, hu0, hu1, hu2, hu3⟩ := Apply_row M f n r o h.cols h.buf i hi s.val s.mem
        _ hmem
      have hstart : ({ val := s.val, trp := s.trp + (0 + (i : Int)),
                       tcp := s.tcp + (0 + (i : Int)) * M.fNcols,
                       mem := s.mem } : ApplyState R)
          = { val := s.val, trp := (i : Int) * n + i, tcp := (i : Int) * n + i,
              mem := s.mem } := by
        rw [htrp, htcp, h.cols]
        congr 1 <;> ring
      refine ⟨{ val := u.val, trp := u.trp, tcp := u.tcp - (M.fNelems - 1), mem := u.mem },
        ?_, ?_, ?_, ?_, ?_⟩
      · simp only [Apply.rowStep, hstart]
        rw [zero_add, hu]; rfl
      · simp only [hu0, hval, upperBefore, ← Function.iterate_add_apply]
        congr 1
        omega
      · simp only [hu1]; push_cast; ring
      · simp only [hu2, h.nelems]; push_cast; ring
      · intro a b ha hb
        rw [hu3 a b ha hb]
        by_cases c2 : min a b = i
        · have c3 : min a b < i + 1 := by omega
          rw [if_pos c2, if_pos c3, hval, ← Function.iterate_add_apply, c2]
          congr 1
          omega
        · rw [if_neg c2]
          by_cases c1 : min a b < i
          · have c3 : min a b < i + 1 := by omega
            rw [if_pos c1, if_pos c3]
          · have c3 : ¬ min a b < i + 1 := by omega
            rw [if_neg c1, if_neg c3])
  have hv : M.IsValid = true := h.valid
  refine ⟨{ M with mem := s.mem }, ?_, ⟨h.valid, h.rows, h.cols, h.nelems, h.buf⟩, ?_⟩
  · simp only [Apply, hv, h.rows, Int.toNat_ofNat, hs, Option.map_some', Bool.true_eq_false,
      if_false]
  · intro a b ha hb
    have hsq : ({ M with mem := s.mem } : TMatrixTSym R).SquareAt n r o :=
      ⟨h.valid, h.rows, h.cols, h.nelems, h.buf⟩
    rw [elem_eq_cells hsq, hP.2.2.2 a b ha hb, if_pos (by omega)]

end TMatrixTSym

/-- The traversal at the matrix `[[1,2],[2,3]]` with the action that adds 10. -/
theorem Apply_writes_running_value_witness :
    ∃ res, TMatrixTSym.Apply (ofList cfg25 2 [1, 2, 2, 3]) (fun x => x + 10) = some res ∧
      res.SquareAt 2 Region.stack 0 ∧
      ∀ a b : Nat, a < 2 → b < 2 →
        res.elem a b
          = (fun x : Int => x + 10)^[upperBefore 2 (min a b) + (max a b - min a b) + 1] 0 :=
  TMatrixTSym.Apply_writes_running_value (ofList cfg25 2 [1, 2, 2, 3]) (fun x => x + 10) 2
    Region.stack 0 ⟨rfl, rfl, rfl, rfl, rfl⟩

/-! ## Operations with a scalar -/

namespace TMatrixTSym

variable {R : Type} [CommRing R]

/-- A loop that replaces each of the `N` cells from `(r,o)` on by its image
under `g`. -/
theorem scalar_loop (g : R → R) (r : Region) (o : Int) (N fuel : Nat) (hf : N < fuel)
    (s0 : Store R) :
    ∃ s : EpState R,
      whileLoop (fun s : EpState R => decide (s.ep < 0 + (N : Int)))
        (fun s => some { ep := s.ep + 1,
                         mem := s.mem.store (Ptr.loc r o + s.ep)
                                  (g (s.mem.load (Ptr.loc r o + s.ep))) })
        fuel { ep := 0, mem := s0 } = some s ∧
      ∀ r' q, s.mem.cells r' q
        = if r' = r ∧ o ≤ q ∧ q < o + N then g (s0.cells r' q) else s0.cells r' q := by
  obtain ⟨s, hs, _, h2⟩ := whileLoop_rule (fun s : EpState R => decide (s.ep < 0 + (N : Int)))
    (fun s => some { ep := s.ep + 1,
                     mem := s.mem.store (Ptr.loc r o + s.ep)
                              (g (s.mem.load (Ptr.loc r o + s.ep))) })
    (fun k (s : EpState R) => s.ep = k ∧ ∀ r' q, s.mem.cells r' q
        = if r' = r ∧ o ≤ q ∧ q < o + k then g (s0.cells r' q) else s0.cells r' q) N
    (by
      intro k s _ ⟨hep, _⟩
      simp only [hep, decide_eq_true_eq]
      omega)
    (by
      intro k s hk ⟨hep, hmem⟩
      refine ⟨_, rfl, by simp [hep], ?_⟩
      intro r' q
      have hcur : s.mem.cells r (o + k) = s0.cells r (o + k) := by
        rw [hmem r (o + k), if_neg (show ¬ (r = r ∧ o ≤ o + (k : Int) ∧ o + (k : Int) < o + k) by
          omega)]
      simp only [hep, Ptr.loc_add, Store.load_loc, Store.store_loc_cells]
      rw [hcur, hmem r' q]
      by_cases hc : r' = r ∧ q = o + k
      · have c2 : r' = r ∧ o ≤ q ∧ q < o + ((k + 1 : Nat) : Int) := ⟨hc.1, by omega, by omega⟩
        rw [if_pos hc, if_pos c2, hc.1, hc.2]
      · rw [if_neg hc]
        by_cases hd : r' = r ∧ o ≤ q ∧ q < o + k
        · have c2 : r' = r ∧ o ≤ q ∧ q < o + ((k + 1 : Nat) : Int) := ⟨hd.1, hd.2.1, by omega⟩
          rw [if_pos hd, if_pos c2]
        · have c2 : ¬ (r' = r ∧ o ≤ q ∧ q < o + ((k + 1 : Nat) : Int)) := by
            rintro ⟨e1, e2, e3⟩
            by_cases hq : q = o + k
            · exact hc ⟨e1, hq⟩
            · exact hd ⟨e1, e2, by omega⟩
          rw [if_neg hd, if_neg c2])
    0 fuel { ep := 0, mem := s0 } (Nat.zero_le _) (by omega)
    ⟨rfl, fun r' q => by
      rw [if_neg (show ¬ (r' = r ∧ o ≤ q ∧ q < o + ((0 : Nat) : Int)) by omega)]⟩
  exact ⟨s, hs, h2⟩

/-- The loop of the operations with a scalar on a valid `n` by `n` matrix:
every element of the array is replaced by its image under `g`. -/
theorem scalar_run (g : R → R) (M : TMatrixTSym R) (n fuel : Nat) (h : M.IsSquare n)
    (hf : n * n < fuel) :
    ∃ s : EpState R,
      whileLoop (fun s : EpState R => decide (s.ep < 0 + M.fNelems))
        (fun s => some { ep := s.ep + 1,
                         mem := s.mem.store (M.fElements + s.ep)
                                  (g (s.mem.load (M.fElements + s.ep))) })
        fuel { ep := 0, mem := M.mem } = some s ∧
      ∀ k : Nat, k < n * n → ({ M with mem := s.mem } : TMatrixTSym R).get k = g (M.get k) := by
  have hN : M.fNelems = ((n * n : Nat) : Int) := by rw [h.nelems]; push_cast; ring
  rw [hN]
  rcases Nat.eq_zero_or_pos n with h0 | hn
  · subst h0
    obtain ⟨fuel, rfl⟩ : ∃ f, fuel = f + 1 := ⟨fuel - 1, by omega⟩
    exact ⟨{ ep := 0, mem := M.mem }, by simp [whileLoop], fun k hk => absurd hk (by omega)⟩
  · obtain ⟨r, o, hsq⟩ := h.squareAt hn
    rw [hsq.buf]
    obtain ⟨s, hs, hcells⟩ := scalar_loop g r o (n * n) fuel hf M.mem
    refine ⟨s, hs, ?_⟩
    intro k hk
    simp only [get, hsq.buf, Ptr.loc_add, Store.load_loc]
    rw [hcells r (o + k), if_pos ⟨rfl, by omega, by omega⟩]

/-- C24. On a valid `n` by `n` matrix, with fuel above `n*n`, each of the four
operations with a scalar returns the matrix with nothing but the store changed
(shape, bounds, validity and buffer pointer are those of `M`), and each of the
`n*n` elements of the array is `val` after `operator=(val)`, `e+val` after
`operator+=(val)`, `e-val` after `operator-=(val)` and `e*val` after
`operator*=(val)`, `e` being the element before the call. -/
theorem scalar_operations_on_every_element (fuel : Nat) (M : TMatrixTSym R) (val : R) (n : Nat)
    (h : M.IsSquare n) (hf : n * n < fuel) :
    (∃ s : Store R, operatorAssignVal fuel M val = some { M with mem := s } ∧
      ∀ k : Nat, k < n * n → ({ M with mem := s } : TMatrixTSym R).get k = val) ∧
    (∃ s : Store R, operatorPlusAssignVal fuel M val = some { M with mem := s } ∧
      ∀ k : Nat, k < n * n → ({ M with mem := s } : TMatrixTSym R).get k = M.get k + val) ∧
    (∃ s : Store R, operatorMinusAssignVal fuel M val = some { M with mem := s } ∧
      ∀ k : Nat, k < n * n → ({ M with mem := s } : TMatrixTSym R).get k = M.get k - val) ∧
    (∃ s : Store R, operatorTimesAssignVal fuel M val = some { M with mem := s } ∧
      ∀ k : Nat, k < n * n → ({ M with mem := s } : TMatrixTSym R).get k = M.get k * val) := by
  have hv : M.IsValid = true := h.valid
  refine ⟨?_, ?_, ?_, ?_⟩
  · obtain ⟨s, hs, hget⟩ := scalar_run (fun _ => val) M n fuel h hf
    refine ⟨s.mem, ?_, hget⟩
    simp only [operatorAssignVal, hv, Bool.true_eq_false, if_false]
    exact congrArg (Option.map fun s : EpState R => ({ M with mem := s.mem } : TMatrixTSym R)) hs
  · obtain ⟨s, hs, hget⟩ := scalar_run (fun e => e + val) M n fuel h hf
    refine ⟨s.mem, ?_, hget⟩
    simp only [operatorPlusAssignVal, hv, Bool.true_eq_false, if_false]
    exact congrArg (Option.map fun s : EpState R => ({ M with mem := s.mem } : TMatrixTSym R)) hs
  · obtain ⟨s, hs, hget⟩ := scalar_run (fun e => e - val) M n fuel h hf
    refine ⟨s.mem, ?_, hget⟩
    simp only [operatorMinusAssignVal, hv, Bool.true_eq_false, if_false]
    exact congrArg (Option.map fun s : EpState R => ({ M with mem := s.mem } : TMatrixTSym R)) hs
  · obtain ⟨s, hs, hget⟩ := scalar_run (fun e => e * val) M n fuel h hf
    refine ⟨s.mem, ?_, hget⟩
    simp only [operatorTimesAssignVal, hv, Bool.true_eq_false, if_false]
    exact congrArg (Option.map fun s : EpState R => ({ M with mem := s.mem } : TMatrixTSym R)) hs

end TMatrixTSym

/-- C24 at the matrix `[[1,2],[2,3]]` with the scalar 5. -/
theorem scalar_operations_on_every_element_witness :
    (∃ s : Store Int, TMatrixTSym.operatorAssignVal 5 (ofList cfg25 2 [1, 2, 2, 3]) 5
        = some { ofList cfg25 2 [1, 2, 2, 3] with mem := s } ∧
      ∀ k : Nat, k < 2 * 2 →
        ({ ofList cfg25 2 [1, 2, 2, 3] with mem := s } : TMatrixTSym Int).get k = 5) ∧
    (∃ s : Store Int, TMatrixTSym.operatorPlusAssignVal 5 (ofList cfg25 2 [1, 2, 2, 3]) 5
        = some { ofList cfg25 2 [1, 2, 2, 3] with mem := s } ∧
      ∀ k : Nat, k < 2 * 2 →
        ({ ofList cfg25 2 [1, 2, 2, 3] with mem := s } : TMatrixTSym Int).get k
          = (ofList cfg25 2 [1, 2, 2, 3]).get k + 5) ∧
    (∃ s : Store Int, TMatrixTSym.operatorMinusAssignVal 5 (ofList cfg25 2 [1, 2, 2, 3]) 5
        = some { ofList cfg25 2 [1, 2, 2, 3] with mem := s } ∧
      ∀ k : Nat, k < 2 * 2 →
        ({ ofList cfg25 2 [1, 2, 2, 3] with mem := s } : TMatrixTSym Int).get k
          = (ofList cfg25 2 [1, 2, 2, 3]).get k - 5) ∧
    (∃ s : Store Int, TMatrixTSym.operatorTimesAssignVal 5 (ofList cfg25 2 [1, 2, 2, 3]) 5
        = some { ofList cfg25 2 [1, 2, 2, 3] with mem := s } ∧
      ∀ k : Nat, k < 2 * 2 →
        ({ ofList cfg25 2 [1, 2, 2, 3] with mem := s } : TMatrixTSym Int).get k
          = (ofList cfg25 2 [1, 2, 2, 3]).get k * 5) :=
  TMatrixTSym.scalar_operations_on_every_element 5 (ofList cfg25 2 [1, 2, 2, 3]) 5 2
    ⟨rfl, rfl, rfl, rfl, fun _ => by decide⟩ (by decide)

/-! ## The storage policy -/

namespace TMatrixTSym

variable {R : Type} [CommRing R]

/-- C26. With a capacity `kSizeMax >= 0` of `fDataStack`: `New_m(size)` gives
the null pointer for `size = 0`, the array `fDataStack` for
`0 < size <= kSizeMax`, and a block of the free store that no earlier call has
handed out for `size > kSizeMax`.  `Delete_m(size,m)` gives `m` back to the
free store exactly when `m` is not null and `size > kSizeMax`, and leaves the
pointer null.  So the buffer of `New_m(size)` is given back by
`Delete_m(size,.)` exactly when it is a block of the free store. -/
theorem New_m_Delete_m_pairing (cfg : Config R) (s : Store R) (size : Int) (m : Ptr)
    (hk : 0 ≤ cfg.kSizeMax) :
    (size = 0 → New_m cfg s size = (Ptr.null, s)) ∧
    (0 < size → size ≤ cfg.kSizeMax → New_m cfg s size = (Ptr.loc Region.stack 0, s)) ∧
    (cfg.kSizeMax < size →
      New_m cfg s size = (Ptr.loc (Region.heap s.nheap) 0, { s with nheap := s.nheap + 1 })) ∧
    (Delete_m cfg s size m).2 = Ptr.null ∧
    (Delete_m cfg s size m).1
      = (if m ≠ Ptr.null ∧ cfg.kSizeMax < size then { s with freed := m :: s.freed } else s) ∧
    (Delete_m cfg (New_m cfg s size).2 size (New_m cfg s size).1).1.freed
      = (if (New_m cfg s size).1.onHeap then (New_m cfg s size).1 :: s.freed
        else s.freed) := by
  refine ⟨?_, ?_, ?_, ?_, ?_, ?_⟩
  · intro h0
    simp [New_m, h0]
  · intro h1 h2
    have h3 : ¬ size = 0 := by omega
    simp [New_m, h2, h3]
  · intro h1
    have h2 : ¬ size ≤ cfg.kSizeMax := by omega
    have h3 : ¬ size = 0 := by omega
    simp [New_m, h2, h3, Store.alloc]
  · unfold Delete_m
    split_ifs with h1 h2
    · rfl
    · rfl
    · simpa using h1
  · unfold Delete_m
    by_cases h1 : m ≠ Ptr.null
    · by_cases h2 : size > cfg.kSizeMax
      · rw [if_pos h1, if_pos h2, if_pos ⟨h1, h2⟩]; rfl
      · rw [if_pos h1, if_neg h2, if_neg (fun hh => h2 hh.2)]
    · rw [if_neg h1, if_neg (fun hh => h1 hh.1)]
  · by_cases h0 : size = 0
    · subst h0
      simp [New_m, Delete_m, Ptr.onHeap]
    · by_cases h2 : size ≤ cfg.kSizeMax
      · have h3 : ¬ size > cfg.kSizeMax := by omega
        simp [New_m, Delete_m, h0, h2, h3, Ptr.onHeap]
      · have h3 : size > cfg.kSizeMax := by omega
        simp [New_m, Delete_m, h0, h2, h3, Store.alloc, Store.free, Ptr.onHeap]

end TMatrixTSym

/-- C26 at a store with one block handed out, for the sizes 0, 9 and 36 with
`kSizeMax = 25`. -/
theorem New_m_Delete_m_pairing_witness :
    (TMatrixTSym.New_m cfg25 (ofList cfg25 6 []).mem 0).1 = Ptr.null ∧
    (TMatrixTSym.New_m cfg25 (ofList cfg25 6 []).mem 9).1 = Ptr.loc Region.stack 0 ∧
    (TMatrixTSym.New_m cfg25 (ofList cfg25 6 []).mem 36).1 = Ptr.loc (Region.heap 1) 0 ∧
    (TMatrixTSym.Delete_m cfg25 (ofList cfg25 6 []).mem 36 (Ptr.loc (Region.heap 0) 0)).1
      = (if Ptr.loc (Region.heap 0) 0 ≠ Ptr.null ∧ cfg25.kSizeMax < 36 then
          { (ofList cfg25 6 []).mem with
            freed := Ptr.loc (Region.heap 0) 0 :: (ofList cfg25 6 []).mem.freed }
         else (ofList cfg25 6 []).mem) :=
  ⟨congrArg Prod.fst
      ((TMatrixTSym.New_m_Delete_m_pairing cfg25 (ofList cfg25 6 []).mem 0 Ptr.null
        (by decide)).1 rfl),
   congrArg Prod.fst
      ((TMatrixTSym.New_m_Delete_m_pairing cfg25 (ofList cfg25 6 []).mem 9 Ptr.null
        (by decide)).2.1 (by decide) (by decide)),
   congrArg Prod.fst
      ((TMatrixTSym.New_m_Delete_m_pairing cfg25 (ofList cfg25 6 []).mem 36 Ptr.null
        (by decide)).2.2.1 (by decide)),
   (TMatrixTSym.New_m_Delete_m_pairing cfg25 (ofList cfg25 6 []).mem 36
      (Ptr.loc (Region.heap 0) 0) (by decide)).2.2.2.2.1⟩

namespace TMatrixTSym

variable {R : Type} [CommRing R]

/-- C27. For two pointers into the same block, sizes `newSize` and `oldSize`
within `kSizeMax` and a count `n >= 0`, `Memcpy_m(newp,oldp,n,newSize,oldSize)`
returns; afterwards the element at `newp+i` is the element that `oldp+i` held
before the call, for every `0 <= i < n`, whether the two ranges overlap or not,
and every cell outside `[newp, newp+n)` is unchanged. -/
theorem Memcpy_m_overlap_safe (cfg : Config R) (s : Store R) (r : Region) (pn po : Int)
    (n : Nat) (newSize oldSize : Int) (h1 : newSize ≤ cfg.kSizeMax)
    (h2 : oldSize ≤ cfg.kSizeMax) :
    ∃ s', Memcpy_m cfg s (Ptr.loc r pn) (Ptr.loc r po) n newSize oldSize = some s' ∧
      (∀ i : Int, 0 ≤ i → i < n →
        s'.load (Ptr.loc r pn + i) = s.load (Ptr.loc r po + i)) ∧
      (∀ (r' : Region) (q : Int), ¬ (r' = r ∧ pn ≤ q ∧ q < pn + n) →
        s'.cells r' q = s.cells r' q) := by
  refine ⟨_, Memcpy_m_moved cfg s r r pn po n newSize oldSize (Or.inl ⟨h1, h2⟩), ?_, ?_⟩
  · intro i hi0 hin
    simp only [Ptr.loc_add, Store.load_loc]
    rw [moved_cells, if_pos ⟨rfl, by omega, by omega⟩]
    congr 1
    ring
  · intro r' q hq
    rw [moved_cells, if_neg hq]

end TMatrixTSym

/-- C27 in `fDataStack` with the cells `10,20,30,40,..`: three elements are
copied from offset 0 to offset 1, an overlapping range. -/
theorem Memcpy_m_overlap_safe_witness :
    ∃ s', TMatrixTSym.Memcpy_m cfg25 (ofList cfg25 2 [10, 20, 30, 40]).mem
        (Ptr.loc Region.stack 1) (Ptr.loc Region.stack 0) (3 : Nat) 16 4 = some s' ∧
      (∀ i : Int, 0 ≤ i → i < (3 : Nat) →
        s'.load (Ptr.loc Region.stack 1 + i)
          = (ofList cfg25 2 [10, 20, 30, 40]).mem.load (Ptr.loc Region.stack 0 + i)) ∧
      (∀ (r' : Region) (q : Int), ¬ (r' = Region.stack ∧ 1 ≤ q ∧ q < 1 + (3 : Nat)) →
        s'.cells r' q = (ofList cfg25 2 [10, 20, 30, 40]).mem.cells r' q) :=
  TMatrixTSym.Memcpy_m_overlap_safe cfg25 (ofList cfg25 2 [10, 20, 30, 40]).mem Region.stack 1 0
    3 16 4 (by decide) (by decide)

namespace TMatrixTSym

variable {R : Type} [CommRing R]

theorem Int_t_eq (n : Int) (h0 : 0 ≤ n) (h1 : n ≤ 2147483647) : Int_t n = n := by
  unfold Int_t
  omega

/-- `AllocateInt_t` is `Allocate` for a shape whose number of elements fits an
`Int_t`. -/
theorem AllocateInt_t_eq (cfg : Config R) (M : TMatrixTSym R)
    (rows cols rowLwb colLwb init : Int) (h0 : 0 ≤ rows * cols)
    (h1 : rows * cols ≤ 2147483647) :
    AllocateInt_t cfg M rows cols rowLwb colLwb init
      = Allocate cfg M rows cols rowLwb colLwb init := by
  unfold AllocateInt_t Allocate
  rw [Int_t_eq _ h0 h1]

/-- C28, amended.  `Allocate(rows,cols,rowLwb,colLwb,init)`, with the number of
elements computed in `Int_t`, returns the object with the validity switched off
and nothing else changed when `rows < 0` or `cols < 0`, and in no other case
an invalid object: in every other case the object is valid and owning and has
the given numbers of rows and columns and the given lower bounds.  When
moreover `rows*cols` does not exceed the largest `Int_t`, 2147483647, the
object has `rows*cols` elements; its buffer is null for no element, the array
`fDataStack` for at most `kSizeMax` elements and a new block of the free store
for more; and when `init` is not zero each of the `rows*cols` cells of that
array holds 0. -/
theorem AllocateInt_t_validation (cfg : Config R) (M : TMatrixTSym R)
    (rows cols rowLwb colLwb init : Int) :
    ((rows < 0 ∨ cols < 0) →
      AllocateInt_t cfg M rows cols rowLwb colLwb init = { M with fValid := false }) ∧
    ((AllocateInt_t cfg M rows cols rowLwb colLwb init).IsValid = false ↔
      (rows < 0 ∨ cols < 0)) ∧
    (¬ (rows < 0 ∨ cols < 0) →
      (AllocateInt_t cfg M rows cols rowLwb colLwb init).IsValid = true ∧
      (AllocateInt_t cfg M rows cols rowLwb colLwb init).fIsOwner = true ∧
      (AllocateInt_t cfg M rows cols rowLwb colLwb init).fNrows = rows ∧
      (AllocateInt_t cfg M rows cols rowLwb colLwb init).fNcols = cols ∧
      (AllocateInt_t cfg M rows cols rowLwb colLwb init).fRowLwb = rowLwb ∧
      (AllocateInt_t cfg M rows cols rowLwb colLwb init).fColLwb = colLwb) ∧
    (¬ (rows < 0 ∨ cols < 0) → rows * cols ≤ 2147483647 →
      (AllocateInt_t cfg M rows cols rowLwb colLwb init).fNelems = rows * cols ∧
      (rows * cols = 0 →
        (AllocateInt_t cfg M rows cols rowLwb colLwb init).fElements = Ptr.null) ∧
      (0 < rows * cols → rows * cols ≤ cfg.kSizeMax →
        (AllocateInt_t cfg M rows cols rowLwb colLwb init).fElements
          = Ptr.loc Region.stack 0 ∧
        (init ≠ 0 → ∀ k : Int, 0 ≤ k → k < rows * cols →
          (AllocateInt_t cfg M rows cols rowLwb colLwb init).mem.cells Region.stack k = 0)) ∧
      (0 < rows * cols → cfg.kSizeMax < rows * cols →
        (AllocateInt_t cfg M rows cols rowLwb colLwb init).fElements
          = Ptr.loc (Region.heap M.mem.nheap) 0 ∧
        (AllocateInt_t cfg M rows cols rowLwb colLwb init).mem.nheap = M.mem.nheap + 1 ∧
        (init ≠ 0 → ∀ k : Int, 0 ≤ k → k < rows * cols →
          (AllocateInt_t cfg M rows cols rowLwb colLwb init).mem.cells
            (Region.heap M.mem.nheap) k = 0))) := by
  have hneg : (rows < 0 ∨ cols < 0) →
      AllocateInt_t cfg M rows cols rowLwb colLwb init = { M with fValid := false } := by
    intro h
    unfold AllocateInt_t
    rw [if_pos h]
    rfl
  have hfields : ¬ (rows < 0 ∨ cols < 0) →
      (AllocateInt_t cfg M rows cols rowLwb colLwb init).IsValid = true ∧
      (AllocateInt_t cfg M rows cols rowLwb colLwb init).fIsOwner = true ∧
      (AllocateInt_t cfg M rows cols rowLwb colLwb init).fNrows = rows ∧
      (AllocateInt_t cfg M rows cols rowLwb colLwb init).fNcols = cols ∧
      (AllocateInt_t cfg M rows cols rowLwb colLwb init).fRowLwb = rowLwb ∧
      (AllocateInt_t cfg M rows cols rowLwb colLwb init).fColLwb = colLwb := by
    intro h
    unfold AllocateInt_t
    rw [if_neg h]
    by_cases hpos : Int_t (rows * cols) > 0
    · by_cases hi : init = 0
      · simp [MakeValid, IsValid, hpos, hi]
      · simp [MakeValid, IsValid, hpos, hi]
    · simp [MakeValid, IsValid, hpos]
  refine ⟨hneg, ?_, hfields, ?_⟩
  · constructor
    · intro hinv
      by_contra h
      rw [(hfields h).1] at hinv
      exact Bool.noConfusion hinv
    · intro h
      rw [hneg h]
      rfl
  · intro h hmax
    have hr : 0 ≤ rows := by omega
    have hc : 0 ≤ cols := by omega
    have h0 : 0 ≤ rows * cols := mul_nonneg hr hc
    rw [AllocateInt_t_eq cfg M rows cols rowLwb colLwb init h0 hmax]
    unfold Allocate
    rw [if_neg h]
    by_cases hpos : rows * cols > 0
    · have hz : ¬ rows * cols = 0 := by omega
      by_cases hkk : rows * cols ≤ cfg.kSizeMax
      · have hk2 : ¬ cfg.kSizeMax < rows * cols := by omega
        by_cases hi : init = 0
        · simp [MakeValid, hpos, hi, New_m, hz, hkk, hk2]
        · simp only [MakeValid, hpos, hi, New_m, hz, hkk, hk2, if_true, if_false, ne_eq,
            not_false_eq_true, true_and, memset_cells, false_implies, true_implies,
            implies_true, and_true, not_true_eq_false]
          intro k hk0 hk1
          rw [if_pos ⟨by omega, by omega⟩]
      · have hk2 : cfg.kSizeMax < rows * cols := by omega
        by_cases hi : init = 0
        · simp [MakeValid, hpos, hi, New_m, hz, hkk, hk2, Store.alloc]
        · simp only [MakeValid, hpos, hi, New_m, hz, hkk, hk2, Store.alloc, if_true, if_false,
            ne_eq, not_false_eq_true, true_and, memset_cells, false_implies, true_implies,
            implies_true, and_true, not_true_eq_false]
          refine ⟨rfl, ?_⟩
          intro k hk0 hk1
          rw [if_pos ⟨by omega, by omega⟩]
    · have hz : rows * cols = 0 := by omega
      have hnp : ¬ (0 < rows * cols) := by omega
      simp [MakeValid, hpos, hz, hnp]

end TMatrixTSym

/-- C28 at an object before any allocation, for `Allocate(-1,2,0,0,1)`,
`Allocate(2,2,3,3,1)` in `fDataStack` and `Allocate(6,6,0,0,1)` in the free
store (`kSizeMax = 25`). -/
theorem AllocateInt_t_validation_witness :
    TMatrixTSym.AllocateInt_t cfg25 blank (-1) 2 0 0 1 = { blank with fValid := false } ∧
    ((TMatrixTSym.AllocateInt_t cfg25 blank 2 2 3 3 1).IsValid = true ∧
      (TMatrixTSym.AllocateInt_t cfg25 blank 2 2 3 3 1).fIsOwner = true ∧
      (TMatrixTSym.AllocateInt_t cfg25 blank 2 2 3 3 1).fNrows = 2 ∧
      (TMatrixTSym.AllocateInt_t cfg25 blank 2 2 3 3 1).fNcols = 2 ∧
      (TMatrixTSym.AllocateInt_t cfg25 blank 2 2 3 3 1).fRowLwb = 3 ∧
      (TMatrixTSym.AllocateInt_t cfg25 blank 2 2 3 3 1).fColLwb = 3) ∧
    ((TMatrixTSym.AllocateInt_t cfg25 blank 2 2 3 3 1).fNelems = 2 * 2 ∧
      ((2 : Int) * 2 = 0 →
        (TMatrixTSym.AllocateInt_t cfg25 blank 2 2 3 3 1).fElements = Ptr.null) ∧
      ((0 : Int) < 2 * 2 → (2 : Int) * 2 ≤ cfg25.kSizeMax →
        (TMatrixTSym.AllocateInt_t cfg25 blank 2 2 3 3 1).fElements = Ptr.loc Region.stack 0 ∧
        ((1 : Int) ≠ 0 → ∀ k : Int, 0 ≤ k → k < 2 * 2 →
          (TMatrixTSym.AllocateInt_t cfg25 blank 2 2 3 3 1).mem.cells Region.stack k = 0)) ∧
      ((0 : Int) < 2 * 2 → cfg25.kSizeMax < (2 : Int) * 2 →
        (TMatrixTSym.AllocateInt_t cfg25 blank 2 2 3 3 1).fElements
          = Ptr.loc (Region.heap blank.mem.nheap) 0 ∧
        (TMatrixTSym.AllocateInt_t cfg25 blank 2 2 3 3 1).mem.nheap = blank.mem.nheap + 1 ∧
        ((1 : Int) ≠ 0 → ∀ k : Int, 0 ≤ k → k < 2 * 2 →
          (TMatrixTSym.AllocateInt_t cfg25 blank 2 2 3 3 1).mem.cells
            (Region.heap blank.mem.nheap) k = 0))) ∧
    ((TMatrixTSym.AllocateInt_t cfg25 blank 6 6 0 0 1).fElements
        = Ptr.loc (Region.heap blank.mem.nheap) 0 ∧
      (TMatrixTSym.AllocateInt_t cfg25 blank 6 6 0 0 1).mem.nheap = blank.mem.nheap + 1 ∧
      ((1 : Int) ≠ 0 → ∀ k : Int, 0 ≤ k → k < 6 * 6 →
        (TMatrixTSym.AllocateInt_t cfg25 blank 6 6 0 0 1).mem.cells
          (Region.heap blank.mem.nheap) k = 0)) :=
  ⟨(TMatrixTSym.AllocateInt_t_validation cfg25 blank (-1) 2 0 0 1).1 (Or.inl (by decide)),
   (TMatrixTSym.AllocateInt_t_validation cfg25 blank 2 2 3 3 1).2.2.1 (by decide),
   (TMatrixTSym.AllocateInt_t_validation cfg25 blank 2 2 3 3 1).2.2.2 (by decide) (by decide),
   ((TMatrixTSym.AllocateInt_t_validation cfg25 blank 6 6 0 0 1).2.2.2 (by decide)
      (by decide)).2.2.2 (by decide) (by decide)⟩

/-- C28, the input where the claim fails.  The arguments `rows = cols = 46341`
are not negative, and their product 2147488281 exceeds the largest `Int_t`.
`Allocate(46341,46341,0,0,1)` leaves a valid object with 46341 rows and
columns whose number of elements is -2147479015, not `rows*cols`, and whose
buffer is null: no element is allocated and none is set to zero. -/
theorem AllocateInt_t_overflows_at_46341 :
    ¬ ((46341 : Int) < 0 ∨ (46341 : Int) < 0) ∧ (46341 : Int) * 46341 = 2147488281 ∧
    (2147483647 : Int) < 2147488281 ∧
    (TMatrixTSym.AllocateInt_t cfg25 blank 46341 46341 0 0 1).IsValid = true ∧
    (TMatrixTSym.AllocateInt_t cfg25 blank 46341 46341 0 0 1).fNrows = 46341 ∧
    (TMatrixTSym.AllocateInt_t cfg25 blank 46341 46341 0 0 1).fNcols = 46341 ∧
    (TMatrixTSym.AllocateInt_t cfg25 blank 46341 46341 0 0 1).fNelems = -2147479015 ∧
    (TMatrixTSym.AllocateInt_t cfg25 blank 46341 46341 0 0 1).fElements = Ptr.null := by
  refine ⟨?_, ?_, ?_, ?_, ?_, ?_, ?_, ?_⟩ <;> decide

/-! ## Logical operations -/

/-- C25, the failing inputs.  For the compatible symmetric matrices
`s1 = [[0,1],[1,1]]` and `s2 = [[1,0],[0,1]]`, `operator&&(s1,s2)` returns the
valid matrix `[[0,1],[0,0]]`, where the element-wise conjunction is
`[[0,0],[0,1]]`; for `s1 = [[1,0],[0,0]]` and `s2 = [[0,1],[1,0]]`,
`operator||(s1,s2)` returns `[[1,0],[1,1]]`, where the element-wise
disjunction is `[[1,1],[1,0]]`.  The pointer `sp2` is advanced only when the
right operand of `&&` or `||` is evaluated, so that it falls behind `sp1`. -/
theorem logical_operators_lose_step_of_second_operand :
    TMatrixTSym.AreCompatible (ofList cfg25 2 [0, 1, 1, 1]) (ofList cfg25 2 [1, 0, 0, 1]) = true ∧
    (TMatrixTSym.operatorAnd cfg25 6 (ofList cfg25 0 []) (ofList cfg25 2 [0, 1, 1, 1])
        (ofList cfg25 2 [1, 0, 0, 1])).map (fun t => (t.IsValid, t.fNrows, t.fNcols, rowsOf t 2))
      = some (true, 2, 2, [[0, 1], [0, 0]]) ∧
    TMatrixTSym.AreCompatible (ofList cfg25 2 [1, 0, 0, 0]) (ofList cfg25 2 [0, 1, 1, 0]) = true ∧
    (TMatrixTSym.operatorOr cfg25 6 (ofList cfg25 0 []) (ofList cfg25 2 [1, 0, 0, 0])
        (ofList cfg25 2 [0, 1, 1, 0])).map (fun t => (t.IsValid, t.fNrows, t.fNcols, rowsOf t 2))
      = some (true, 2, 2, [[1, 0], [1, 1]]) := by
  refine ⟨?_, ?_, ?_, ?_⟩ <;> decide

/-! ## Insertion of a diagonal block -/

namespace TMatrixTSym

variable {R : Type} [CommRing R]

/-- The inner copy loop of `SetSub` writes the `k` elements of row `i` of the
source into row `d+i` of the array, from column `d` on. -/
theorem SetSub_row (M : TMatrixTSym R) (src : TMatrixT R) (n k d : Nat) (hdk : d + k ≤ n)
    (r : Region) (o : Int) (hbuf : M.fElements = Ptr.loc r o) (i : Nat) (V : Nat → Nat → R)
    (s : SubState R) (hap : s.ap = ((d + i : Nat) : Int) * n + d) (hbp : s.bp = (i : Int) * k)
    (hs : ∀ a b : Nat, b < n → s.mem.cells r (o + ((a : Int) * n + b)) = V a b) :
    ∃ u : SubState R, forUp (SetSub.colStep M src) 0 k s = some u ∧
      u.bp = ((i : Int) + 1) * k ∧
      ∀ a b : Nat, b < n →
        u.mem.cells r (o + ((a : Int) * n + b))
          = if a = d + i ∧ d ≤ b ∧ b < d + k then
              src.fElements ((i : Int) * k + ((b - d : Nat) : Int))
            else V a b := by
  obtain ⟨u, hu, _, h2, h3⟩ := forUp_rule (SetSub.colStep M src) k
    (fun j (u : SubState R) => u.ap = ((d + i : Nat) : Int) * n + d + j ∧
      u.bp = (i : Int) * k + j ∧
      ∀ a b : Nat, b < n →
        u.mem.cells r (o + ((a : Int) * n + b))
          = if a = d + i ∧ d ≤ b ∧ b < d + j then
              src.fElements ((i : Int) * k + ((b - d : Nat) : Int))
            else V a b)
    0 s
    (by
      refine ⟨by simp [hap], by simp [hbp], ?_⟩
      intro a b hb
      rw [if_neg (by omega)]
      exact hs a b hb)
    (by
      intro j u hj ⟨hap', hbp', hmem⟩
      refine ⟨_, rfl, ?_, ?_, ?_⟩
      · simp only [hap']; push_cast; ring
      · simp only [hbp']; push_cast; ring
      · intro a b hb
        have e1 : u.ap = ((d + i : Nat) : Int) * n + ((d + j : Nat) : Int) := by
          rw [hap']; push_cast; ring
        simp only [GetMatrixArray, hbuf, Ptr.loc_add, e1, hbp']
        rw [Store.store_cell_idx _ r o n a b (d + i) (d + j) hb (by omega), hmem a b hb]
        by_cases hc : a = d + i ∧ b = d + j
        · have c2 : a = d + i ∧ d ≤ b ∧ b < d + (j + 1) := ⟨hc.1, by omega, by omega⟩
          have c3 : ((b - d : Nat) : Int) = j := by omega
          rw [if_pos hc, if_pos c2, c3]
        · rw [if_neg hc]
          by_cases hd : a = d + i ∧ d ≤ b ∧ b < d + j
          · have c2 : a = d + i ∧ d ≤ b ∧ b < d + (j + 1) := ⟨hd.1, hd.2.1, by omega⟩
            rw [if_pos hd, if_pos c2]
          · have c2 : ¬ (a = d + i ∧ d ≤ b ∧ b < d + (j + 1)) := by
              rintro ⟨e1, e2, e3⟩
              by_cases hq : b = d + j
              · exact hc ⟨e1, hq⟩
              · exact hd ⟨e1, e2, by omega⟩
            rw [if_neg hd, if_neg c2])
  refine ⟨u, hu, ?_, h3⟩
  rw [h2]; ring

/-- The two copy loops of `SetSub` write the `k` by `k` array of the source
into the block of the array that starts at row and column `d`, and leave the
other cells of the array as they are. -/
theorem SetSub_copy (M : TMatrixTSym R) (src : TMatrixT R) (n k d : Nat) (hdk : d + k ≤ n)
    (r : Region) (o : Int) (hbuf : M.fElements = Ptr.loc r o) (hrows : M.fNrows = n) :
    ∃ u : SubState R,
      forUp (SetSub.rowStep M src k) 0 k
        { ap := (d : Int) * n + d, bp := 0, mem := M.mem } = some u ∧
      ∀ a b : Nat, b < n →
        u.mem.cells r (o + ((a : Int) * n + b))
          = if d ≤ a ∧ a < d + k ∧ d ≤ b ∧ b < d + k then
              src.fElements (((a - d : Nat) : Int) * k + ((b - d : Nat) : Int))
            else M.mem.cells r (o + ((a : Int) * n + b)) := by
  obtain ⟨u, hu, _, _, h3⟩ := forUp_rule (SetSub.rowStep M src k) k
    (fun i (u : SubState R) => u.ap = ((d + i : Nat) : Int) * n + d ∧ u.bp = (i : Int) * k ∧
      ∀ a b : Nat, b < n →
        u.mem.cells r (o + ((a : Int) * n + b))
          = if d ≤ a ∧ a < d + i ∧ d ≤ b ∧ b < d + k then
              src.fElements (((a - d : Nat) : Int) * k + ((b - d : Nat) : Int))
            else M.mem.cells r (o + ((a : Int) * n + b)))
    0 { ap := (d : Int) * n + d, bp := 0, mem := M.mem }
    (by
      refine ⟨by simp, by simp, ?_⟩
      intro a b _
      rw [if_neg (by omega)])
    (by
      intro i s hi ⟨hap, hbp, hmem⟩
      obtain ⟨u, hu, h2, h3⟩ := SetSub_row M src n k d hdk r o hbuf i _ s hap hbp hmem
      refine ⟨{ ap := s.ap + M.fNrows, bp := u.bp, mem := u.mem }, ?_, ?_, h2.trans (by
        push_cast; ring), ?_⟩
      · simp only [SetSub.rowStep, Int.toNat_ofNat, hu, Option.some_bind]
      · simp only [hap, hrows]; push_cast; ring
      · intro a b hb
        rw [h3 a b hb]
        by_cases hc : a = d + i ∧ d ≤ b ∧ b < d + k
        · have c2 : d ≤ a ∧ a < d + (i + 1) ∧ d ≤ b ∧ b < d + k := by omega
          have c3 : ((a - d : Nat) : Int) = i := by omega
          rw [if_pos hc, if_pos c2, c3]
        · rw [if_neg hc]
          by_cases hd : d ≤ a ∧ a < d + i ∧ d ≤ b ∧ b < d + k
          · have c2 : d ≤ a ∧ a < d + (i + 1) ∧ d ≤ b ∧ b < d + k := by omega
            rw [if_pos hd, if_pos c2]
          · have c2 : ¬ (d ≤ a ∧ a < d + (i + 1) ∧ d ≤ b ∧ b < d + k) := by omega
            rw [if_neg hd, if_neg c2])
  exact ⟨u, hu, h3⟩

variable [DecidableEq R]

/-- C22. On a valid matrix with a valid source, `SetSub(row_lwb,source)`
returns the matrix with the validity switched off and nothing else changed
(shape, buffer pointer, every cell) when the source is not symmetric, or
`row_lwb` lies outside the index range, or `row_lwb` plus the number of rows of
the source exceeds the upper bound plus 1; in every other case it returns a
valid matrix. -/
theorem SetSub_invalidates_iff (M : TMatrixTSym R) (src : TMatrixT R) (row_lwb : Int)
    (hM : M.IsValid = true) (hs : src.IsValid = true) :
    ((src.IsSymmetric = false ∨ row_lwb < M.fRowLwb ∨ row_lwb > M.fRowLwb + M.fNrows - 1 ∨
        row_lwb + src.GetNrows > M.fRowLwb + M.fNrows - 1 + 1) →
      SetSub M row_lwb src = some { M with fValid := false }) ∧
    (¬ (src.IsSymmetric = false ∨ row_lwb < M.fRowLwb ∨ row_lwb > M.fRowLwb + M.fNrows - 1 ∨
        row_lwb + src.GetNrows > M.fRowLwb + M.fNrows - 1 + 1) →
      ∃ res, SetSub M row_lwb src = some res ∧ res.IsValid = true) := by
  constructor
  · intro h
    unfold SetSub
    rw [if_neg (by simp [hM]), if_neg (by simp [hs])]
    by_cases h1 : src.IsSymmetric = false
    · rw [if_pos h1]; rfl
    · rw [if_neg h1]
      by_cases h2 : row_lwb < M.fRowLwb ∨ row_lwb > M.fRowLwb + M.fNrows - 1
      · rw [if_pos h2]; rfl
      · rw [if_neg h2]
        simp only []
        have h3 : row_lwb + src.GetNrows > M.fRowLwb + M.fNrows := by
          rcases h with h | h | h | h
          · exact absurd h h1
          · exact absurd (Or.inl h) h2
          · exact absurd (Or.inr h) h2
          · omega
        rw [if_pos h3]; rfl
  · intro h
    have h1 : ¬ src.IsSymmetric = false := fun hh => h (Or.inl hh)
    have h2 : ¬ (row_lwb < M.fRowLwb ∨ row_lwb > M.fRowLwb + M.fNrows - 1) := by
      rintro (hh | hh)
      · exact h (Or.inr (Or.inl hh))
      · exact h (Or.inr (Or.inr (Or.inl hh)))
    have h3 : ¬ (row_lwb + src.GetNrows > M.fRowLwb + M.fNrows) := by
      intro hh
      exact h (Or.inr (Or.inr (Or.inr (by omega))))
    unfold SetSub
    rw [if_neg (by simp [hM]), if_neg (by simp [hs]), if_neg h1, if_neg h2]
    simp only []
    rw [if_neg h3]
    obtain ⟨u, hu⟩ := forUp_some (SetSub.rowStep M src src.GetNrows) (by
      intro i s
      obtain ⟨u, hu⟩ := forUp_some (SetSub.colStep M src) (fun j t => ⟨_, rfl⟩)
        src.GetNrows.toNat 0 s
      refine ⟨{ ap := s.ap + M.fNrows, bp := u.bp, mem := u.mem }, ?_⟩
      simp only [SetSub.rowStep, hu, Option.some_bind])
      src.GetNrows.toNat 0
      { ap := (row_lwb - M.fRowLwb) * M.fNrows + (row_lwb - M.fRowLwb), bp := 0, mem := M.mem }
    exact ⟨{ M with mem := u.mem }, by rw [hu]; rfl, hM⟩

end TMatrixTSym

/-- C22 at the matrix `[[1,2],[2,3]]` with the source `[[7,8],[9,7]]`, which
is not symmetric, and with the source `[[7]]` at `row_lwb = 1`. -/
theorem SetSub_invalidates_iff_witness :
    TMatrixTSym.SetSub (ofList cfg25 2 [1, 2, 2, 3]) 0 (genOf 2 2 [7, 8, 9, 7])
      = some { ofList cfg25 2 [1, 2, 2, 3] with fValid := false } ∧
    ∃ res, TMatrixTSym.SetSub (ofList cfg25 2 [1, 2, 2, 3]) 1 (genOf 1 1 [7]) = some res ∧
      res.IsValid = true :=
  ⟨(TMatrixTSym.SetSub_invalidates_iff (ofList cfg25 2 [1, 2, 2, 3]) (genOf 2 2 [7, 8, 9, 7]) 0
      rfl rfl).1 (Or.inl (by decide)),
   (TMatrixTSym.SetSub_invalidates_iff (ofList cfg25 2 [1, 2, 2, 3]) (genOf 1 1 [7]) 1
      rfl rfl).2 (by decide)⟩

namespace TMatrixTSym

variable {R : Type} [CommRing R] [DecidableEq R]

/-- C21, amended.  For a valid matrix `M` with `n` rows and the index range
`[l..u]`, a valid symmetric `k` by `k` source and `l <= row_lwb <= u` with
`row_lwb+k <= u+1`, `SetSub(row_lwb,source)` returns; afterwards
`M(row_lwb+i,row_lwb+j) = source[i,j]` for all `0 <= i,j < k`, every element
of `M` outside that block is unchanged, and the validity, the shape, the
bounds and the buffer pointer of `M` are unchanged. -/
theorem SetSub_overwrites_diagonal_block (M : TMatrixTSym R) (src : TMatrixT R) (n k : Nat)
    (row_lwb : Int) (hM : M.IsSquare n) (hl : M.fColLwb = M.fRowLwb) (hs : src.IsShape k k)
    (hsym : src.IsSymmetric = true) (h1 : M.fRowLwb ≤ row_lwb)
    (h2 : row_lwb ≤ M.fRowLwb + n - 1) (h3 : row_lwb + k ≤ M.fRowLwb + n - 1 + 1) :
    ∃ res, SetSub M row_lwb src = some res ∧ res.IsValid = true ∧
      res.fNrows = M.fNrows ∧ res.fNcols = M.fNcols ∧ res.fRowLwb = M.fRowLwb ∧
      res.fColLwb = M.fColLwb ∧ res.fNelems = M.fNelems ∧ res.fElements = M.fElements ∧
      (∀ i j : Nat, i < k → j < k →
        res.entry (row_lwb + i) (row_lwb + j) = src.elem i j) ∧
      (∀ r c : Int, M.fRowLwb ≤ r → r ≤ M.fRowLwb + n - 1 → M.fRowLwb ≤ c →
        c ≤ M.fRowLwb + n - 1 →
        ¬ (row_lwb ≤ r ∧ r < row_lwb + k ∧ row_lwb ≤ c ∧ c < row_lwb + k) →
        res.entry r c = M.entry r c) := by
  have hnpos : 0 < n := by omega
  have hv : M.IsValid = true := hM.valid
  obtain ⟨r, o, hsq⟩ := hM.squareAt hnpos
  obtain ⟨d, hd⟩ : ∃ d : Nat, (d : Int) = row_lwb - M.fRowLwb :=
    ⟨(row_lwb - M.fRowLwb).toNat, by omega⟩
  have hdk : d + k ≤ n := by omega
  obtain ⟨u, hu, hcells⟩ := SetSub_copy M src n k d hdk r o hsq.buf hsq.rows
  have c1 : ¬ (row_lwb < M.fRowLwb ∨ row_lwb > M.fRowLwb + M.fNrows - 1) := by
    rw [hM.rows]; omega
  have c2 : ¬ (row_lwb + src.GetNrows > M.fRowLwb + M.fNrows) := by
    rw [hM.rows]; simp only [TMatrixT.GetNrows, hs.rows]; omega
  have e0 : (row_lwb - M.fRowLwb) * M.fNrows + (row_lwb - M.fRowLwb) = (d : Int) * n + d := by
    rw [hM.rows, ← hd]
  refine ⟨{ M with mem := u.mem }, ?_, hM.valid, rfl, rfl, rfl, rfl, rfl, rfl, ?_, ?_⟩
  · unfold SetSub
    rw [if_neg (by simp [hv]), if_neg (by simp [TMatrixT.IsValid, hs.valid]),
      if_neg (by simp [hsym]), if_neg c1]
    simp only []
    rw [if_neg c2, e0]
    simp only [TMatrixT.GetNrows, hs.rows, Int.toNat_ofNat, hu, Option.map_some']
  · intro i j hi hj
    have e1 : row_lwb + (i : Int) - M.fRowLwb = ((d + i : Nat) : Int) := by push_cast; omega
    have e2 : row_lwb + (j : Int) - M.fColLwb = ((d + j : Nat) : Int) := by
      rw [hl]; push_cast; omega
    show u.mem.load (M.fElements + ((row_lwb + (i : Int) - M.fRowLwb) * M.fNcols
      + (row_lwb + (j : Int) - M.fColLwb))) = _
    rw [e1, e2, hsq.buf, hsq.cols]
    show u.mem.cells r (o + (((d + i : Nat) : Int) * n + ((d + j : Nat) : Int))) = _
    rw [hcells (d + i) (d + j) (by omega), if_pos ⟨by omega, by omega, by omega, by omega⟩,
      Nat.add_sub_cancel_left, Nat.add_sub_cancel_left]
    simp only [TMatrixT.elem, hs.cols]
  · intro a b ha1 ha2 hb1 hb2 hout
    obtain ⟨x, hx⟩ : ∃ x : Nat, (x : Int) = a - M.fRowLwb := ⟨(a - M.fRowLwb).toNat, by omega⟩
    obtain ⟨y, hy⟩ : ∃ y : Nat, (y : Int) = b - M.fColLwb :=
      ⟨(b - M.fColLwb).toNat, by rw [hl]; omega⟩
    show u.mem.load (M.fElements + ((a - M.fRowLwb) * M.fNcols + (b - M.fColLwb)))
      = M.mem.load (M.fElements + ((a - M.fRowLwb) * M.fNcols + (b - M.fColLwb)))
    rw [← hx, ← hy, hsq.buf, hsq.cols]
    show u.mem.cells r (o + ((x : Int) * n + (y : Int))) = _
    rw [hcells x y (by rw [hl] at hy; omega), if_neg (by rw [hl] at hy; omega)]
    rfl

end TMatrixTSym

/-- C21 at the matrix `[[1,2,3],[2,4,5],[3,5,6]]` with the source
`[[7,8],[8,9]]` and `row_lwb = 1`. -/
theorem SetSub_overwrites_diagonal_block_witness :
    ∃ res, TMatrixTSym.SetSub (ofList cfg25 3 [1, 2, 3, 2, 4, 5, 3, 5, 6]) 1
        (genOf 2 2 [7, 8, 8, 9]) = some res ∧ res.IsValid = true ∧
      res.fNrows = 3 ∧ res.fNcols = 3 ∧ res.fRowLwb = 0 ∧ res.fColLwb = 0 ∧
      res.fNelems = 9 ∧ res.fElements = Ptr.loc Region.stack 0 ∧
      (∀ i j : Nat, i < 2 → j < 2 →
        res.entry (1 + i) (1 + j) = (genOf 2 2 [7, 8, 8, 9]).elem i j) ∧
      (∀ r c : Int, (0 : Int) ≤ r → r ≤ 0 + (3 : Nat) - 1 → (0 : Int) ≤ c →
        c ≤ 0 + (3 : Nat) - 1 →
        ¬ (1 ≤ r ∧ r < 1 + (2 : Nat) ∧ 1 ≤ c ∧ c < 1 + (2 : Nat)) →
        res.entry r c = (ofList cfg25 3 [1, 2, 3, 2, 4, 5, 3, 5, 6]).entry r c) :=
  TMatrixTSym.SetSub_overwrites_diagonal_block (ofList cfg25 3 [1, 2, 3, 2, 4, 5, 3, 5, 6])
    (genOf 2 2 [7, 8, 8, 9]) 3 2 1 ⟨rfl, rfl, rfl, rfl, fun _ => by decide⟩ rfl
    ⟨rfl, rfl, rfl, rfl⟩ (by decide) (by decide) (by decide) (by decide)

/-- C21, the input where the claim fails: an empty source (`k = 0`, valid
and symmetric) with `row_lwb = u+1 = 2` on the matrix `[[1,2],[2,3]]` with the
range `[0..1]` satisfies `l <= row_lwb` and `row_lwb+k <= u+1`, and
`SetSub(2,source)` switches the validity of the matrix off: the test
`row_lwb > fRowLwb+fNrows-1` comes first. -/
theorem SetSub_empty_source_past_the_end :
    (genOf 0 0 []).IsValid = true ∧ (genOf 0 0 []).IsSymmetric = true ∧
    (0 : Int) ≤ 2 ∧ (2 : Int) + 0 ≤ 1 + 1 ∧
    (TMatrixTSym.SetSub (ofList cfg25 2 [1, 2, 2, 3]) 2 (genOf 0 0 [])).map
      (fun t => (t.IsValid, t.fNrows, t.fNcols, rowsOf t 2))
      = some (false, 2, 2, [[1, 2], [2, 3]]) := by
  refine ⟨?_, ?_, ?_, ?_, ?_⟩ <;> decide

/-! ## Insertion of an off-diagonal block -/

namespace TMatrixTSym

variable {R : Type} [CommRing R]

/-- The inner loop under `lower triangle` for the source row `i`: it writes
the elements `source[i,j]` with `col_lwb+j <= row_lwb+i` into row `row_lwb+i`
of the matrix, from column `col_lwb` on.  Here `e = col_lwb - fRowLwb` and
`d = row_lwb - col_lwb`. -/
theorem SetSubRowCol_lowerRow (fuel : Nat) (M : TMatrixTSym R) (src : TMatrixT R)
    (n q e d : Nat) (rl cl : Int) (r : Region) (o : Int)
    (hbuf : M.fElements = Ptr.loc r o) (hcols : M.fNcols = n) (hl : M.fColLwb = M.fRowLwb)
    (hrl : rl - M.fRowLwb = (e : Int) + d) (hcl : cl - M.fRowLwb = (e : Int))
    (hq : src.fNcols = q) (hfit : e + q ≤ n) (hf : q < fuel)
    (i : Nat) (V : Nat → Nat → R) (s : Store R)
    (hs : ∀ a b : Nat, b < n → s.cells r (o + ((a : Int) * n + b)) = V a b) :
    ∃ s', SetSubRowCol.lowerRow fuel M src rl cl i s = some s' ∧
      ∀ a b : Nat, b < n →
        s'.cells r (o + ((a : Int) * n + b))
          = if a = e + d + i ∧ e ≤ b ∧ b < e + q ∧ b ≤ e + d + i then
              src.elem i ((b - e : Nat) : Int)
            else V a b := by
  obtain ⟨u, hu, _, h2⟩ := whileLoop_rule
    (fun u : ColState R => decide (cl + u.icol ≤ rl + (i : Int) ∧ u.icol < src.GetNcols))
    (SetSubRowCol.lowerStep M src rl cl i)
    (fun t (u : ColState R) => u.icol = (t : Int) ∧
      ∀ a b : Nat, b < n →
        u.mem.cells r (o + ((a : Int) * n + b))
          = if a = e + d + i ∧ e ≤ b ∧ b < e + t then src.elem i ((b - e : Nat) : Int)
            else V a b)
    (min q (d + i + 1))
    (by
      intro k u hk ⟨hic, _⟩
      simp only [decide_eq_true_eq, TMatrixT.GetNcols, hic, hq]
      omega)
    (by
      intro k u hk ⟨hic, hmem⟩
      refine ⟨_, rfl, ?_, ?_⟩
      · show u.icol + 1 = ((k + 1 : Nat) : Int)
        rw [hic]; push_cast; rfl
      · intro a b hb
        have e1 : rl + (i : Int) - M.fRowLwb = ((e + d + i : Nat) : Int) := by
          push_cast; omega
        have e2 : cl + u.icol - M.fColLwb = ((e + k : Nat) : Int) := by
          rw [hl, hic]; push_cast; omega
        have ev : src.entry ((i : Int) + src.GetRowLwb) (u.icol + src.GetColLwb)
            = src.elem i k := by
          simp only [TMatrixT.entry, TMatrixT.elem, TMatrixT.GetRowLwb, TMatrixT.GetColLwb, hic,
            add_sub_cancel_right]
        show (u.mem.store (M.fElements + ((rl + (i : Int) - M.fRowLwb) * M.fNcols
          + (cl + u.icol - M.fColLwb)))
          (src.entry ((i : Int) + src.GetRowLwb) (u.icol + src.GetColLwb))).cells r
            (o + ((a : Int) * n + b)) = _
        rw [e1, e2, ev, hbuf, hcols, Ptr.loc_add,
          Store.store_cell_idx _ r o n a b (e + d + i) (e + k) hb (by omega), hmem a b hb]
        by_cases hc : a = e + d + i ∧ b = e + k
        · have c2 : a = e + d + i ∧ e ≤ b ∧ b < e + (k + 1) := ⟨hc.1, by omega, by omega⟩
          have c3 : ((b - e : Nat) : Int) = k := by omega
          rw [if_pos hc, if_pos c2, c3]
        · rw [if_neg hc]
          by_cases hd : a = e + d + i ∧ e ≤ b ∧ b < e + k
          · have c2 : a = e + d + i ∧ e ≤ b ∧ b < e + (k + 1) := ⟨hd.1, hd.2.1, by omega⟩
            rw [if_pos hd, if_pos c2]
          · have c2 : ¬ (a = e + d + i ∧ e ≤ b ∧ b < e + (k + 1)) := by
              rintro ⟨x1, x2, x3⟩
              by_cases hq' : b = e + k
              · exact hc ⟨x1, hq'⟩
              · exact hd ⟨x1, x2, by omega⟩
            rw [if_neg hd, if_neg c2])
    0 fuel { icol := 0, mem := s } (Nat.zero_le _) (by omega)
    ⟨by simp, by
      intro a b hb
      have c2 : ¬ (a = e + d + i ∧ e ≤ b ∧ b < e + 0) := by omega
      rw [if_neg c2]
      exact hs a b hb⟩
  refine ⟨u.mem, ?_, ?_⟩
  · simp only [SetSubRowCol.lowerRow, hu, Option.map_some']
  · intro a b hb
    rw [h2 a b hb]
    by_cases hc : a = e + d + i ∧ e ≤ b ∧ b < e + q ∧ b ≤ e + d + i
    · have c2 : a = e + d + i ∧ e ≤ b ∧ b < e + min q (d + i + 1) := by omega
      rw [if_pos hc, if_pos c2]
    · have c2 : ¬ (a = e + d + i ∧ e ≤ b ∧ b < e + min q (d + i + 1)) := by omega
      rw [if_neg hc, if_neg c2]

/-- The loops under `lower triangle`: they write the elements `source[i,j]`
with `col_lwb+j <= row_lwb+i` into the block and leave the other cells. -/
theorem SetSubRowCol_lower (fuel : Nat) (M : TMatrixTSym R) (src : TMatrixT R)
    (n p q e d : Nat) (rl cl : Int) (r : Region) (o : Int)
    (hbuf : M.fElements = Ptr.loc r o) (hcols : M.fNcols = n) (hl : M.fColLwb = M.fRowLwb)
    (hrl : rl - M.fRowLwb = (e : Int) + d) (hcl : cl - M.fRowLwb = (e : Int))
    (hq : src.fNcols = q) (hfit : e + q ≤ n) (hf : q < fuel) :
    ∃ m1, forUp (SetSubRowCol.lowerRow fuel M src rl cl) 0 p M.mem = some m1 ∧
      ∀ a b : Nat, b < n →
        m1.cells r (o + ((a : Int) * n + b))
          = if e + d ≤ a ∧ a < e + d + p ∧ e ≤ b ∧ b < e + q ∧ b ≤ a then
              src.elem ((a - (e + d) : Nat) : Int) ((b - e : Nat) : Int)
            else M.mem.cells r (o + ((a : Int) * n + b)) := by
  obtain ⟨m1, hm, h2⟩ := forUp_rule (SetSubRowCol.lowerRow fuel M src rl cl) p
    (fun i (m : Store R) => ∀ a b : Nat, b < n →
      m.cells r (o + ((a : Int) * n + b))
        = if e + d ≤ a ∧ a < e + d + i ∧ e ≤ b ∧ b < e + q ∧ b ≤ a then
            src.elem ((a - (e + d) : Nat) : Int) ((b - e : Nat) : Int)
          else M.mem.cells r (o + ((a : Int) * n + b)))
    0 M.mem
    (by
      intro a b _
      have c2 : ¬ (e + d ≤ a ∧ a < e + d + 0 ∧ e ≤ b ∧ b < e + q ∧ b ≤ a) := by omega
      rw [if_neg c2])
    (by
      intro i s hi hmem
      obtain ⟨s', hs', h3⟩ := SetSubRowCol_lowerRow fuel M src n q e d rl cl r o hbuf hcols hl
        hrl hcl hq hfit hf i _ s hmem
      refine ⟨s', by rw [zero_add]; exact hs', ?_⟩
      intro a b hb
      rw [h3 a b hb]
      by_cases hc : a = e + d + i ∧ e ≤ b ∧ b < e + q ∧ b ≤ e + d + i
      · have c2 : e + d ≤ a ∧ a < e + d + (i + 1) ∧ e ≤ b ∧ b < e + q ∧ b ≤ a := by omega
        have c3 : ((a - (e + d) : Nat) : Int) = i := by omega
        rw [if_pos hc, if_pos c2, c3]
      · rw [if_neg hc]
        by_cases hd : e + d ≤ a ∧ a < e + d + i ∧ e ≤ b ∧ b < e + q ∧ b ≤ a
        · have c2 : e + d ≤ a ∧ a < e + d + (i + 1) ∧ e ≤ b ∧ b < e + q ∧ b ≤ a := by omega
          rw [if_pos hd, if_pos c2]
        · have c2 : ¬ (e + d ≤ a ∧ a < e + d + (i + 1) ∧ e ≤ b ∧ b < e + q ∧ b ≤ a) := by
            omega
          rw [if_neg hd, if_neg c2])
  exact ⟨m1, hm, h2⟩

/-- The inner loop under `upper triangle` for the source column `j`: it
writes the elements `source[i,j]` with `row_lwb+i > col_lwb+j` into row
`col_lwb+j` of the matrix, at the columns `row_lwb+i`. -/
theorem SetSubRowCol_upperRow (fuel : Nat) (M : TMatrixTSym R) (src : TMatrixT R)
    (n p e d : Nat) (rl cl : Int) (r : Region) (o : Int)
    (hbuf : M.fElements = Ptr.loc r o) (hcols : M.fNcols = n) (hl : M.fColLwb = M.fRowLwb)
    (hrl : rl - M.fRowLwb = (e : Int) + d) (hcl : cl - M.fRowLwb = (e : Int))
    (hp : src.fNrows = p) (hfit : e + d + p ≤ n) (hf : p < fuel)
    (j : Nat) (V : Nat → Nat → R) (s : Store R)
    (hs : ∀ a b : Nat, b < n → s.cells r (o + ((a : Int) * n + b)) = V a b) :
    ∃ s', SetSubRowCol.upperRow fuel M src rl cl j s = some s' ∧
      ∀ a b : Nat, b < n →
        s'.cells r (o + ((a : Int) * n + b))
          = if a = e + j ∧ e + d ≤ b ∧ b < e + d + p ∧ e + j < b then
              src.elem ((b - (e + d) : Nat) : Int) j
            else V a b := by
  obtain ⟨u, hu, _, h2⟩ := whileLoop_rule
    (fun u : ColState R => decide (rl + u.icol > (j : Int) + cl ∧ u.icol ≥ 0))
    (SetSubRowCol.upperStep M src rl cl j)
    (fun t (u : ColState R) => u.icol = (p : Int) - 1 - t ∧
      ∀ a b : Nat, b < n →
        u.mem.cells r (o + ((a : Int) * n + b))
          = if a = e + j ∧ e + d + p ≤ b + t ∧ b < e + d + p then
              src.elem ((b - (e + d) : Nat) : Int) j
            else V a b)
    (p - (j + 1 - d))
    (by
      intro k u hk ⟨hic, _⟩
      simp only [decide_eq_true_eq, hic]
      omega)
    (by
      intro k u hk ⟨hic, hmem⟩
      refine ⟨_, rfl, ?_, ?_⟩
      · show u.icol - 1 = (p : Int) - 1 - ((k + 1 : Nat) : Int)
        rw [hic]; push_cast; ring
      · intro a b hb
        have e1 : cl + (j : Int) - M.fRowLwb = ((e + j : Nat) : Int) := by
          push_cast; omega
        have e2 : rl + u.icol - M.fColLwb = ((e + d + (p - 1 - k) : Nat) : Int) := by
          rw [hl, hic]; push_cast; omega
        have ev : src.entry (u.icol + src.GetRowLwb) ((j : Int) + src.GetColLwb)
            = src.elem ((p - 1 - k : Nat) : Int) j := by
          have e3 : u.icol = ((p - 1 - k : Nat) : Int) := by rw [hic]; omega
          simp only [TMatrixT.entry, TMatrixT.elem, TMatrixT.GetRowLwb, TMatrixT.GetColLwb, e3,
            add_sub_cancel_right]
        show (u.mem.store (M.fElements + ((cl + (j : Int) - M.fRowLwb) * M.fNcols
          + (rl + u.icol - M.fColLwb)))
          (src.entry (u.icol + src.GetRowLwb) ((j : Int) + src.GetColLwb))).cells r
            (o + ((a : Int) * n + b)) = _
        rw [e1, e2, ev, hbuf, hcols, Ptr.loc_add,
          Store.store_cell_idx _ r o n a b (e + j) (e + d + (p - 1 - k)) hb (by omega),
          hmem a b hb]
        by_cases hc : a = e + j ∧ b = e + d + (p - 1 - k)
        · have c2 : a = e + j ∧ e + d + p ≤ b + (k + 1) ∧ b < e + d + p := by omega
          have c3 : b - (e + d) = p - 1 - k := by omega
          rw [if_pos hc, if_pos c2, c3]
        · rw [if_neg hc]
          by_cases hd : a = e + j ∧ e + d + p ≤ b + k ∧ b < e + d + p
          · have c2 : a = e + j ∧ e + d + p ≤ b + (k + 1) ∧ b < e + d + p := by omega
            rw [if_pos hd, if_pos c2]
          · have c2 : ¬ (a = e + j ∧ e + d + p ≤ b + (k + 1) ∧ b < e + d + p) := by
              rintro ⟨x1, x2, x3⟩
              by_cases hq' : b = e + d + (p - 1 - k)
              · exact hc ⟨x1, hq'⟩
              · exact hd ⟨x1, by omega, x3⟩
            rw [if_neg hd, if_neg c2])
    0 fuel { icol := src.GetNrows - 1, mem := s } (Nat.zero_le _) (by omega)
    ⟨by simp [TMatrixT.GetNrows, hp], by
      intro a b hb
      have c2 : ¬ (a = e + j ∧ e + d + p ≤ b + 0 ∧ b < e + d + p) := by omega
      rw [if_neg c2]
      exact hs a b hb⟩
  refine ⟨u.mem, ?_, ?_⟩
  · simp only [SetSubRowCol.upperRow, hu, Option.map_some']
  · intro a b hb
    rw [h2 a b hb]
    by_cases hc : a = e + j ∧ e + d ≤ b ∧ b < e + d + p ∧ e + j < b
    · have c2 : a = e + j ∧ e + d + p ≤ b + (p - (j + 1 - d)) ∧ b < e + d + p := by omega
      rw [if_pos hc, if_pos c2]
    · have c2 : ¬ (a = e + j ∧ e + d + p ≤ b + (p - (j + 1 - d)) ∧ b < e + d + p) := by omega
      rw [if_neg hc, if_neg c2]

/-- The loops under `upper triangle`: they write the elements `source[i,j]`
with `row_lwb+i > col_lwb+j` into the mirror block and leave the other
cells. -/
theorem SetSubRowCol_upper (fuel : Nat) (M : TMatrixTSym R) (src : TMatrixT R)
    (n p q e d : Nat) (rl cl : Int) (r : Region) (o : Int)
    (hbuf : M.fElements = Ptr.loc r o) (hcols : M.fNcols = n) (hl : M.fColLwb = M.fRowLwb)
    (hrl : rl - M.fRowLwb = (e : Int) + d) (hcl : cl - M.fRowLwb = (e : Int))
    (hp : src.fNrows = p) (hfit : e + d + p ≤ n) (hf : p < fuel) (m1 : Store R) :
    ∃ m2, forUp (SetSubRowCol.upperRow fuel M src rl cl) 0 q m1 = some m2 ∧
      ∀ a b : Nat, b < n →
        m2.cells r (o + ((a : Int) * n + b))
          = if e ≤ a ∧ a < e + q ∧ e + d ≤ b ∧ b < e + d + p ∧ a < b then
              src.elem ((b - (e + d) : Nat) : Int) ((a - e : Nat) : Int)
            else m1.cells r (o + ((a : Int) * n + b)) := by
  obtain ⟨m2, hm, h2⟩ := forUp_rule (SetSubRowCol.upperRow fuel M src rl cl) q
    (fun j (m : Store R) => ∀ a b : Nat, b < n →
      m.cells r (o + ((a : Int) * n + b))
        = if e ≤ a ∧ a < e + j ∧ e + d ≤ b ∧ b < e + d + p ∧ a < b then
            src.elem ((b - (e + d) : Nat) : Int) ((a - e : Nat) : Int)
          else m1.cells r (o + ((a : Int) * n + b)))
    0 m1
    (by
      intro a b _
      have c2 : ¬ (e ≤ a ∧ a < e + 0 ∧ e + d ≤ b ∧ b < e + d + p ∧ a < b) := by omega
      rw [if_neg c2])
    (by
      intro j s hj hmem
      obtain ⟨s', hs', h3⟩ := SetSubRowCol_upperRow fuel M src n p e d rl cl r o hbuf hcols hl
        hrl hcl hp hfit hf j _ s hmem
      refine ⟨s', by rw [zero_add]; exact hs', ?_⟩
      intro a b hb
      rw [h3 a b hb]
      by_cases hc : a = e + j ∧ e + d ≤ b ∧ b < e + d + p ∧ e + j < b
      · have c2 : e ≤ a ∧ a < e + (j + 1) ∧ e + d ≤ b ∧ b < e + d + p ∧ a < b := by omega
        have c3 : ((a - e : Nat) : Int) = j := by omega
        rw [if_pos hc, if_pos c2, c3]
      · rw [if_neg hc]
        by_cases hd : e ≤ a ∧ a < e + j ∧ e + d ≤ b ∧ b < e + d + p ∧ a < b
        · have c2 : e ≤ a ∧ a < e + (j + 1) ∧ e + d ≤ b ∧ b < e + d + p ∧ a < b := by omega
          rw [if_pos hd, if_pos c2]
        · have c2 : ¬ (e ≤ a ∧ a < e + (j + 1) ∧ e + d ≤ b ∧ b < e + d + p ∧ a < b) := by
            omega
          rw [if_neg hd, if_neg c2])
  exact ⟨m2, hm, h2⟩

end TMatrixTSym

namespace TMatrixTSym

variable {R : Type} [CommRing R]

/-- C23, amended.  For a valid matrix `M` with `n` rows and a valid `p` by `q`
source that fits inside the range of `M`, with `row_lwb >= col_lwb`,
`SetSub(row_lwb,col_lwb,source)` returns, and afterwards
`M(row_lwb+i,col_lwb+j) = source[i,j]` and the mirror element
`M(col_lwb+j,row_lwb+i) = source[i,j]` for every `0 <= i < p`, `0 <= j < q`
with `col_lwb+j <= row_lwb+i`. -/
theorem SetSubRowCol_writes_lower_part_and_mirror (fuel : Nat) (M : TMatrixTSym R)
    (src : TMatrixT R) (n p q : Nat) (rl cl : Int) (hM : M.IsSquare n)
    (hl : M.fColLwb = M.fRowLwb) (hs : src.IsShape p q) (h1 : M.fRowLwb ≤ rl)
    (h2 : rl + p ≤ M.fRowLwb + n) (h3 : M.fRowLwb ≤ cl) (h4 : cl + q ≤ M.fRowLwb + n)
    (h5 : cl ≤ rl) (hfp : p < fuel) (hfq : q < fuel) :
    ∃ res, SetSubRowCol fuel M rl cl src = some res ∧
      ∀ i j : Nat, i < p → j < q → cl + j ≤ rl + i →
        res.entry (rl + i) (cl + j) = src.elem i j ∧
        res.entry (cl + j) (rl + i) = src.elem i j := by
  have hv : M.IsValid = true := hM.valid
  have hsv : src.IsValid = true := hs.valid
  by_cases c1 : rl < M.fRowLwb ∨ rl > M.fRowLwb + M.fNrows - 1
  · refine ⟨M.Invalidate, ?_, ?_⟩
    · unfold SetSubRowCol
      rw [if_neg (by simp [hv]), if_neg (by simp [hsv]), if_pos c1]
    · intro i j hi hj _
      rw [hM.rows] at c1
      omega
  by_cases c2 : cl < M.fColLwb ∨ cl > M.fColLwb + M.fNcols - 1
  · refine ⟨M.Invalidate, ?_, ?_⟩
    · unfold SetSubRowCol
      rw [if_neg (by simp [hv]), if_neg (by simp [hsv]), if_neg c1, if_pos c2]
    · intro i j hi hj _
      rw [hM.cols, hl] at c2
      omega
  rw [hM.rows] at c1
  have hnpos : 0 < n := by omega
  obtain ⟨r, o, hsq⟩ := hM.squareAt hnpos
  obtain ⟨e, he⟩ : ∃ e : Nat, (e : Int) = cl - M.fRowLwb := ⟨(cl - M.fRowLwb).toNat, by omega⟩
  obtain ⟨d, hd⟩ : ∃ d : Nat, (d : Int) = rl - cl := ⟨(rl - cl).toNat, by omega⟩
  have hrl : rl - M.fRowLwb = (e : Int) + d := by omega
  obtain ⟨m1, hm1, hlow⟩ := SetSubRowCol_lower fuel M src n p q e d rl cl r o hsq.buf hsq.cols
    hl hrl he.symm hs.cols (by omega) hfq
  obtain ⟨m2, hm2, hup⟩ := SetSubRowCol_upper fuel M src n p q e d rl cl r o hsq.buf hsq.cols
    hl hrl he.symm hs.rows (by omega) hfp m1
  have c3 : ¬ (rl + src.GetNrows > M.fRowLwb + M.fNrows ∨
      cl + src.GetNcols > M.fRowLwb + M.fNrows) := by
    simp only [TMatrixT.GetNrows, TMatrixT.GetNcols, hs.rows, hs.cols, hM.rows]; omega
  have c4 : ¬ (cl + src.GetNcols > M.fRowLwb + M.fNrows ∨
      rl + src.GetNrows > M.fRowLwb + M.fNrows) := by
    simp only [TMatrixT.GetNrows, TMatrixT.GetNcols, hs.rows, hs.cols, hM.rows]; omega
  have c5 : rl ≥ cl := h5
  refine ⟨{ M with mem := m2 }, ?_, ?_⟩
  · unfold SetSubRowCol
    rw [if_neg (by simp [hv]), if_neg (by simp [hsv]), if_neg (by rw [hM.rows]; exact c1),
      if_neg c2]
    simp only []
    rw [if_neg c3, if_neg c4, if_pos c5]
    simp only [TMatrixT.GetNrows, TMatrixT.GetNcols, hs.rows, hs.cols, Int.toNat_ofNat, hm1,
      Option.some_bind, hm2, Option.map_some']
  · intro i j hi hj hij
    have e1 : rl + (i : Int) - M.fRowLwb = ((e + d + i : Nat) : Int) := by push_cast; omega
    have e2 : cl + (j : Int) - M.fColLwb = ((e + j : Nat) : Int) := by
      rw [hl]; push_cast; omega
    have e3 : rl + (i : Int) - M.fColLwb = ((e + d + i : Nat) : Int) := by
      rw [hl]; push_cast; omega
    have e4 : cl + (j : Int) - M.fRowLwb = ((e + j : Nat) : Int) := by push_cast; omega
    constructor
    · show m2.load (M.fElements + ((rl + (i : Int) - M.fRowLwb) * M.fNcols
        + (cl + (j : Int) - M.fColLwb))) = _
      rw [e1, e2, hsq.buf, hsq.cols]
      show m2.cells r (o + (((e + d + i : Nat) : Int) * n + ((e + j : Nat) : Int))) = _
      have c6 : ¬ (e ≤ e + d + i ∧ e + d + i < e + q ∧ e + d ≤ e + j ∧ e + j < e + d + p ∧
          e + d + i < e + j) := by omega
      have c7 : e + d ≤ e + d + i ∧ e + d + i < e + d + p ∧ e ≤ e + j ∧ e + j < e + q ∧
          e + j ≤ e + d + i := by omega
      have c8 : e + d + i - (e + d) = i := by omega
      rw [hup (e + d + i) (e + j) (by omega), if_neg c6, hlow (e + d + i) (e + j) (by omega),
        if_pos c7, c8, Nat.add_sub_cancel_left]
    · show m2.load (M.fElements + ((cl + (j : Int) - M.fRowLwb) * M.fNcols
        + (rl + (i : Int) - M.fColLwb))) = _
      rw [e4, e3, hsq.buf, hsq.cols]
      show m2.cells r (o + (((e + j : Nat) : Int) * n + ((e + d + i : Nat) : Int))) = _
      rw [hup (e + j) (e + d + i) (by omega)]
      by_cases hdiag : j = d + i
      · have c6 : ¬ (e ≤ e + j ∧ e + j < e + q ∧ e + d ≤ e + d + i ∧ e + d + i < e + d + p ∧
            e + j < e + d + i) := by omega
        have c7 : e + d ≤ e + j ∧ e + j < e + d + p ∧ e ≤ e + d + i ∧ e + d + i < e + q ∧
            e + d + i ≤ e + j := by omega
        have c8 : e + j - (e + d) = i := by omega
        have c9 : e + d + i - e = j := by omega
        rw [if_neg c6, hlow (e + j) (e + d + i) (by omega), if_pos c7, c8, c9]
      · have c6 : e ≤ e + j ∧ e + j < e + q ∧ e + d ≤ e + d + i ∧ e + d + i < e + d + p ∧
            e + j < e + d + i := by omega
        have c8 : e + d + i - (e + d) = i := by omega
        rw [if_pos c6, c8, Nat.add_sub_cancel_left]

end TMatrixTSym

/-- C23 at the matrix `[[1,2,3],[2,4,5],[3,5,6]]` with the source
`[[7,8],[9,10]]`, `row_lwb = 1` and `col_lwb = 0`. -/
theorem SetSubRowCol_writes_lower_part_and_mirror_witness :
    ∃ res, TMatrixTSym.SetSubRowCol 5 (ofList cfg25 3 [1, 2, 3, 2, 4, 5, 3, 5, 6]) 1 0
        (genOf 2 2 [7, 8, 9, 10]) = some res ∧
      ∀ i j : Nat, i < 2 → j < 2 → (0 : Int) + j ≤ 1 + i →
        res.entry (1 + i) (0 + j) = (genOf 2 2 [7, 8, 9, 10]).elem i j ∧
        res.entry (0 + j) (1 + i) = (genOf 2 2 [7, 8, 9, 10]).elem i j :=
  TMatrixTSym.SetSubRowCol_writes_lower_part_and_mirror 5
    (ofList cfg25 3 [1, 2, 3, 2, 4, 5, 3, 5, 6]) (genOf 2 2 [7, 8, 9, 10]) 3 2 2 1 0
    ⟨rfl, rfl, rfl, rfl, fun _ => by decide⟩ rfl ⟨rfl, rfl, rfl, rfl⟩
    (by decide) (by decide) (by decide) (by decide) (by decide) (by decide) (by decide)

/-- C23, the input where the claim fails: the valid 1 by 3 source `[[7,8,9]]`
at `row_lwb = 1`, `col_lwb = 0` fits inside the symmetric matrix
`[[1,2,3],[2,4,5],[3,5,6]]`, and after `SetSub(1,0,source)` the matrix is
`[[1,7,3],[7,8,5],[3,5,6]]`: the elements `M(1,2)` and `M(2,1)` are still 5,
not `source[0,2] = 9`; the loop stops at `col_lwb+icol > row_lwb+irow`. -/
theorem SetSubRowCol_skips_source_above_diagonal :
    (genOf 1 3 [7, 8, 9]).IsValid = true ∧ (1 : Int) + 1 ≤ 0 + 3 ∧ (0 : Int) + 3 ≤ 0 + 3 ∧
    (genOf 1 3 [7, 8, 9]).elem 0 2 = 9 ∧
    (TMatrixTSym.SetSubRowCol 5 (ofList cfg25 3 [1, 2, 3, 2, 4, 5, 3, 5, 6]) 1 0
        (genOf 1 3 [7, 8, 9])).map (fun t => (t.IsValid, t.entry 1 2, t.entry 2 1, rowsOf t 3))
      = some (true, 5, 5, [[1, 7, 3], [7, 8, 5], [3, 5, 6]]) := by
  refine ⟨?_, ?_, ?_, ?_, ?_⟩ <;> decide

/-! ## `AtMultA` on a target of another shape, and on a symmetric argument -/

namespace TMatrixTSym

variable {R : Type} [CommRing R]

/-- C30.  For a valid symmetric `n` by `n` matrix `A` and enough fuel,
`AtMultA(A)` with `constr = 1` returns a valid `n` by `n` matrix whose element
`[i,j]` is the sum over `k` of `A[i,k]*A[k,j]`, which is also the sum of
`A[k,i]*A[k,j]` (the product of the transpose with `A`) and the sum of
`A[i,k]*A[j,k]` (the product of `A` with its transpose); the result is
symmetric. -/
theorem AtMultA_symmetric_argument_is_square (cfg : Config R) (M A : TMatrixTSym R)
    (n fuel : Nat) (hA : A.IsSquare n)
    (hsym : ∀ i j : Nat, i < n → j < n → A.elem i j = A.elem j i) (hf : n < fuel) :
    ∃ res, AtMultASym cfg fuel M A 1 = some res ∧ res.IsSquare n ∧
      (∀ i j : Nat, i < n → j < n →
        res.elem i j = ∑ k in Finset.range n, A.elem i k * A.elem k j) ∧
      (∀ i j : Nat, i < n → j < n →
        res.elem i j = ∑ k in Finset.range n, A.elem k i * A.elem k j) ∧
      (∀ i j : Nat, i < n → j < n →
        res.elem i j = ∑ k in Finset.range n, A.elem i k * A.elem j k) ∧
      (∀ i j : Nat, i < n → j < n → res.elem i j = res.elem j i) := by
  have ha : A.asArray.IsShape n n := ⟨hA.valid, hA.rows, hA.cols, hA.nelems⟩
  have hv : A.IsValid = true := hA.valid
  have hone : (1 : Int) ≠ 0 := by decide
  have hc : A.GetNcols = n := hA.cols
  have hrun : AtMultASym cfg fuel M A 1
      = AtMultA.kernel fuel (Allocate cfg M n n A.GetColLwb A.GetColLwb 1) A.asArray := by
    simp only [AtMultASym, hv, hone, hc]
    simp
  have key : ∃ res, AtMultASym cfg fuel M A 1 = some res ∧ res.IsSquare n ∧
      ∀ i j : Nat, i < n → j < n →
        res.elem i j = ∑ k in Finset.range n, A.elem k i * A.elem k j := by
    rw [hrun]
    rcases Nat.eq_zero_or_pos n with hn | hn
    · subst hn
      obtain ⟨hsq, _, _⟩ := Allocate_zero cfg M A.GetColLwb 1
      refine ⟨_, AtMultA_kernel_zero fuel _ A.asArray 0 ha (by omega)
        (by simpa using hsq.nelems), ⟨hsq.valid, hsq.rows, hsq.cols, hsq.nelems, hsq.buf⟩, ?_⟩
      intro i j hi; omega
    · obtain ⟨r, hsq, _, _, _⟩ := Allocate_pos cfg M n hn A.GetColLwb 1
      obtain ⟨s, hs, hcells⟩ := AtMultA_kernel_pos fuel _ A.asArray n n ha (by simpa using hf)
        r 0 hsq
      have hres : ({ Allocate cfg M n n A.GetColLwb A.GetColLwb 1 with
          mem := s } : TMatrixTSym R).SquareAt n r 0 :=
        ⟨hsq.valid, hsq.rows, hsq.cols, hsq.nelems, hsq.buf⟩
      refine ⟨_, hs, ⟨hres.valid, hres.rows, hres.cols, hres.nelems, ?_⟩, ?_⟩
      · intro _; rw [hres.buf]; exact Ptr.noConfusion
      · intro i j hi hj
        rw [elem_eq_cells hres, hcells i j hi hj]
        rfl
  obtain ⟨res, hres, hsq, hel⟩ := key
  refine ⟨res, hres, hsq, ?_, hel, ?_, ?_⟩
  · intro i j hi hj
    rw [hel i j hi hj]
    apply Finset.sum_congr rfl
    intro k hk
    rw [hsym k i (Finset.mem_range.1 hk) hi]
  · intro i j hi hj
    rw [hel i j hi hj]
    apply Finset.sum_congr rfl
    intro k hk
    rw [hsym k i (Finset.mem_range.1 hk) hi, hsym k j (Finset.mem_range.1 hk) hj]
  · intro i j hi hj
    rw [hel i j hi hj, hel j i hj hi]
    apply Finset.sum_congr rfl
    intro k _
    exact mul_comm _ _

end TMatrixTSym

/-- C30 at the symmetric matrix `[[1,2],[2,3]]`, whose square is
`[[5,8],[8,13]]`. -/
theorem AtMultA_symmetric_argument_is_square_witness :
    (∃ res, TMatrixTSym.AtMultASym cfg25 6 blank (ofList cfg25 2 [1, 2, 2, 3]) 1 = some res ∧
      res.IsSquare 2 ∧
      (∀ i j : Nat, i < 2 → j < 2 →
        res.elem i j = ∑ k in Finset.range 2,
          (ofList cfg25 2 [1, 2, 2, 3]).elem i k * (ofList cfg25 2 [1, 2, 2, 3]).elem k j) ∧
      (∀ i j : Nat, i < 2 → j < 2 →
        res.elem i j = ∑ k in Finset.range 2,
          (ofList cfg25 2 [1, 2, 2, 3]).elem k i * (ofList cfg25 2 [1, 2, 2, 3]).elem k j) ∧
      (∀ i j : Nat, i < 2 → j < 2 →
        res.elem i j = ∑ k in Finset.range 2,
          (ofList cfg25 2 [1, 2, 2, 3]).elem i k * (ofList cfg25 2 [1, 2, 2, 3]).elem j k) ∧
      (∀ i j : Nat, i < 2 → j < 2 → res.elem i j = res.elem j i)) ∧
    (TMatrixTSym.AtMultASym cfg25 6 blank (ofList cfg25 2 [1, 2, 2, 3]) 1).map
      (fun t => rowsOf t 2) = some [[5, 8], [8, 13]] :=
  ⟨TMatrixTSym.AtMultA_symmetric_argument_is_square cfg25 blank (ofList cfg25 2 [1, 2, 2, 3]) 2 6
      ⟨rfl, rfl, rfl, rfl, fun _ => by decide⟩
      (by
        intro i j hi hj
        have hi2 : i = 0 ∨ i = 1 := by omega
        have hj2 : j = 0 ∨ j = 1 := by omega
        rcases hi2 with rfl | rfl <;> rcases hj2 with rfl | rfl <;> decide)
      (by decide),
   by decide⟩

/-! ## The off-diagonal insertion above the diagonal -/

namespace TMatrixTSym

variable {R : Type} [CommRing R]

/-- C36.  For a valid matrix `M` and a valid source that pass the tests of the
bounds, `SetSub(row_lwb,col_lwb,source)` with `row_lwb < col_lwb` returns `M`
as it is, with every fuel: the elements, the shape, the bounds and the
validity are unchanged. -/
theorem SetSubRowCol_above_diagonal_changes_nothing (fuel : Nat) (M : TMatrixTSym R)
    (src : TMatrixT R) (rl cl : Int) (hv : M.IsValid = true) (hs : src.IsValid = true)
    (h1 : M.fRowLwb ≤ rl) (h2 : rl ≤ M.fRowLwb + M.fNrows - 1) (h3 : M.fColLwb ≤ cl)
    (h4 : cl ≤ M.fColLwb + M.fNcols - 1) (h5 : rl + src.GetNrows ≤ M.fRowLwb + M.fNrows)
    (h6 : cl + src.GetNcols ≤ M.fRowLwb + M.fNrows) (hlt : rl < cl) :
    SetSubRowCol fuel M rl cl src = some M := by
  have c1 : ¬ (rl < M.fRowLwb ∨ rl > M.fRowLwb + M.fNrows - 1) := by omega
  have c2 : ¬ (cl < M.fColLwb ∨ cl > M.fColLwb + M.fNcols - 1) := by omega
  have c3 : ¬ (rl + src.GetNrows > M.fRowLwb + M.fNrows ∨
      cl + src.GetNcols > M.fRowLwb + M.fNrows) := by omega
  have c4 : ¬ (cl + src.GetNcols > M.fRowLwb + M.fNrows ∨
      rl + src.GetNrows > M.fRowLwb + M.fNrows) := by omega
  have c5 : ¬ (rl ≥ cl) := by omega
  unfold SetSubRowCol
  rw [if_neg (by simp [hv]), if_neg (by simp [hs]), if_neg c1, if_neg c2]
  simp only []
  rw [if_neg c3, if_neg c4, if_neg c5]

end TMatrixTSym

/-- C36 at the matrix `[[1,2,3],[2,4,5],[3,5,6]]` with the source `[[7,8]]`,
`row_lwb = 0` and `col_lwb = 1`. -/
theorem SetSubRowCol_above_diagonal_changes_nothing_witness :
    TMatrixTSym.SetSubRowCol 5 (ofList cfg25 3 [1, 2, 3, 2, 4, 5, 3, 5, 6]) 0 1
        (genOf 1 2 [7, 8]) = some (ofList cfg25 3 [1, 2, 3, 2, 4, 5, 3, 5, 6]) :=
  TMatrixTSym.SetSubRowCol_above_diagonal_changes_nothing 5
    (ofList cfg25 3 [1, 2, 3, 2, 4, 5, 3, 5, 6]) (genOf 1 2 [7, 8]) 0 1 rfl rfl
    (by decide) (by decide) (by decide) (by decide) (by decide) (by decide) (by decide)

/-! ## The index range of a sub-matrix -/

namespace TMatrixTSym

variable {R : Type} [CommRing R]

/-- C32, amended.  For a valid matrix `M` with the index range `[l..u]`,
bounds `l <= row_lwb <= row_upb <= u` and a valid owning target,
`GetSub(row_lwb,row_upb,target,option)` returns a valid target whose row and
column index range is `[0..row_upb-row_lwb]` when the option contains `S` or
`s`, and `[row_lwb..row_upb]` with any other option. -/
theorem GetSub_index_range (cfg : Config R) (M T : TMatrixTSym R) (N p : Nat)
    (rl ru : Int) (opt : List Char) (hM : M.IsSquare N) (hl : M.fColLwb = M.fRowLwb)
    (hT : T.IsOwned cfg p) (h1 : M.fRowLwb ≤ rl) (h2 : rl ≤ ru)
    (h3 : ru ≤ M.fRowLwb + N - 1) :
    ∃ res, GetSub cfg M rl ru T opt = some res ∧ res.IsValid = true ∧
      (('S' ∈ opt ∨ 's' ∈ opt) →
        res.GetRowLwb = 0 ∧ res.GetRowUpb = ru - rl ∧
        res.GetColLwb = 0 ∧ res.GetColUpb = ru - rl) ∧
      (¬ ('S' ∈ opt ∨ 's' ∈ opt) →
        res.GetRowLwb = rl ∧ res.GetRowUpb = ru ∧
        res.GetColLwb = rl ∧ res.GetColUpb = ru) := by
  have hv : M.IsValid = true := hM.valid
  obtain ⟨n, hn⟩ : ∃ n : Nat, (n : Int) = ru - rl + 1 := ⟨(ru - rl + 1).toNat, by omega⟩
  have hnpos : 0 < n := by omega
  have c1 : ¬ (rl < M.fRowLwb ∨ rl > M.fRowLwb + M.fNrows - 1) := by rw [hM.rows]; omega
  have c2 : ¬ (ru < M.fRowLwb ∨ ru > M.fRowLwb + M.fNrows - 1) := by rw [hM.rows]; omega
  have c3 : ¬ (ru < rl) := by omega
  unfold GetSub
  rw [if_neg (by simp [hv]), if_neg c1, if_neg c2, if_neg c3]
  by_cases hb : optionShift opt = true
  · have hS : 'S' ∈ opt ∨ 's' ∈ opt := (optionShift_iff opt).1 hb
    obtain ⟨res, hres, a1, a2, a3, a4, a5, _⟩ := GetSub_tail cfg M T N p n hnpos rl 0 hM hl hT
    have e1 : ru - rl = 0 + (n : Int) - 1 := by omega
    have e2 : (0 : Int) + (n : Int) - 1 - 0 + 1 = n := by omega
    refine ⟨res, ?_, a1, fun _ => ⟨a4, ?_, a5, ?_⟩, fun hh => absurd hS hh⟩
    · simp only [hb, if_true, e1, e2, Int.toNat_ofNat]
      exact hres
    · show res.fNrows + res.fRowLwb - 1 = ru - rl
      rw [a2, a4]; omega
    · show res.fNcols + res.fColLwb - 1 = ru - rl
      rw [a3, a5]; omega
  · have hb' : optionShift opt = false := by simpa using hb
    have hS : ¬ ('S' ∈ opt ∨ 's' ∈ opt) := fun h => hb ((optionShift_iff opt).2 h)
    obtain ⟨res, hres, a1, a2, a3, a4, a5, _⟩ := GetSub_tail cfg M T N p n hnpos rl rl hM hl hT
    have e1 : ru = rl + (n : Int) - 1 := by omega
    have e2 : rl + (n : Int) - 1 - rl + 1 = n := by omega
    refine ⟨res, ?_, a1, fun hh => absurd hh hS, fun _ => ⟨a4, ?_, a5, ?_⟩⟩
    · simp only [hb', if_false, Bool.false_eq_true, e1, e2, Int.toNat_ofNat]
      exact hres
    · show res.fNrows + res.fRowLwb - 1 = ru
      rw [a2, a4]; omega
    · show res.fNcols + res.fColLwb - 1 = ru
      rw [a3, a5]; omega

end TMatrixTSym

/-- C32 at the matrix `[[1,2,3],[2,4,5],[3,5,6]]` with the bounds `1..2`, an
empty target and the option `S`. -/
theorem GetSub_index_range_witness :
    ∃ res, TMatrixTSym.GetSub cfg25 (ofList cfg25 3 [1, 2, 3, 2, 4, 5, 3, 5, 6]) 1 2
        (ofList cfg25 0 []) ['S'] = some res ∧ res.IsValid = true ∧
      (('S' ∈ ['S'] ∨ 's' ∈ ['S']) →
        res.GetRowLwb = 0 ∧ res.GetRowUpb = 2 - 1 ∧
        res.GetColLwb = 0 ∧ res.GetColUpb = 2 - 1) ∧
      (¬ ('S' ∈ ['S'] ∨ 's' ∈ ['S']) →
        res.GetRowLwb = 1 ∧ res.GetRowUpb = 2 ∧
        res.GetColLwb = 1 ∧ res.GetColUpb = 2) :=
  TMatrixTSym.GetSub_index_range cfg25 (ofList cfg25 3 [1, 2, 3, 2, 4, 5, 3, 5, 6])
    (ofList cfg25 0 []) 3 0 1 2 ['S']
    ⟨rfl, rfl, rfl, rfl, fun _ => by decide⟩ rfl
    ⟨⟨rfl, rfl, rfl, rfl, fun h => absurd h (by decide)⟩, rfl,
      fun h => absurd h (by decide), fun hk => absurd hk (by decide)⟩
    (by decide) (by decide) (by decide)

/-- C32, the inputs where the claim fails.  With the option `S`,
`GetSub(1,2,target)` on a matrix with the range `[0..2]` returns a target with
the range `[0..1]`, that is `[0..row_upb-row_lwb]`, and not
`[0..row_upb-row_lwb+1] = [0..2]`.  With the option `s`, which is another
option than `S`, the target has the range `[0..1]` as well, and not
`[row_lwb..row_upb] = [1..2]`. -/
theorem GetSub_range_ends_one_below_the_documented_bound :
    (TMatrixTSym.GetSub cfg25 (ofList cfg25 3 [1, 2, 3, 2, 4, 5, 3, 5, 6]) 1 2
        (ofList cfg25 0 []) ['S']).map
      (fun t => (t.IsValid, t.GetRowLwb, t.GetRowUpb, t.GetColLwb, t.GetColUpb))
      = some (true, 0, 1, 0, 1) ∧
    (2 : Int) - 1 + 1 = 2 ∧ ['s'] ≠ ['S'] ∧
    (TMatrixTSym.GetSub cfg25 (ofList cfg25 3 [1, 2, 3, 2, 4, 5, 3, 5, 6]) 1 2
        (ofList cfg25 0 []) ['s']).map
      (fun t => (t.IsValid, t.GetRowLwb, t.GetRowUpb, t.GetColLwb, t.GetColUpb))
      = some (true, 0, 1, 0, 1) := by
  refine ⟨?_, ?_, ?_, ?_⟩ <;> decide

/-! ## The closing assertions of the kernels -/

/-- C33, the failing inputs.  The empty (0 by 0) matrix is valid, and so are a
matrix `b` with two rows and no column and a matrix `c` with no row and two
columns; the shapes fit (`b` has as many columns, `c` as many rows, as the
matrix has rows).  `Similarity(b)` and `SimilarityT(c)` resize the matrix to 2
by 2, run no step of their loops because the intermediate product has no
element, and then fail their assertion `cp == cp0+fNelems+ishift` (`cp = cp0`,
`fNelems = 4`): the calls do not return, whatever the fuel. -/
theorem closing_assertion_fails_on_empty_intermediate :
    (ofList cfg25 0 []).IsValid = true ∧
    (genOf 2 0 []).IsValid = true ∧ (genOf 2 0 []).GetNcols = (ofList cfg25 0 []).GetNrows ∧
    (genOf 0 2 []).IsValid = true ∧ (genOf 0 2 []).GetNrows = (ofList cfg25 0 []).GetNrows ∧
    (TMatrixTSym.ResizeTo cfg25 (ofList cfg25 0 []) 2 2).map
      (fun res => (res.IsValid, res.fNrows, res.fNcols, res.fNelems))
      = some (true, 2, 2, 4) ∧
    (∀ fuel : Nat,
      TMatrixTSym.Similarity cfg25 fuel (ofList cfg25 0 []) (genOf 2 0 []) = none) ∧
    (∀ fuel : Nat,
      TMatrixTSym.SimilarityT cfg25 fuel (ofList cfg25 0 []) (genOf 0 2 []) = none) := by
  refine ⟨by decide, by decide, by decide, by decide, by decide, by decide, ?_, ?_⟩
  · intro fuel
    cases fuel with
    | zero => rfl
    | succ k =>
      simp [TMatrixTSym.Similarity, TMatrixTSym.Similarity.kernel, whileLoop, TMatrixT.kMult,
        TMatrixT.GetNrows, TMatrixT.GetNoElements, genOf, ofList, TMatrixTSym.ResizeTo,
        TMatrixTSym.IsValid, TMatrixTSym.Allocate, TMatrixTSym.MakeValid, TMatrixTSym.New_m,
        cfg25]
  · intro fuel
    cases fuel with
    | zero => rfl
    | succ k =>
      simp [TMatrixTSym.SimilarityT, TMatrixTSym.SimilarityT.kernel, whileLoop,
        TMatrixT.kTransposeMult, TMatrixT.GetNcols, TMatrixT.GetNoElements, genOf, ofList,
        TMatrixTSym.ResizeTo, TMatrixTSym.IsValid, TMatrixTSym.Allocate,
        TMatrixTSym.MakeValid, TMatrixTSym.New_m, cfg25]

/-! ## Resizing across the capacity of `fDataStack`, and the lower bounds -/

namespace TMatrixTSym

variable {R : Type} [CommRing R]

end TMatrixTSym

namespace TMatrixTSym

variable {R : Type} [CommRing R] [DecidableEq R]

/-- What `SetSub(row_lwb,source)` does when the tests of the bounds pass: the
block is overwritten by the source and nothing else changes. -/
theorem SetSub_run (M : TMatrixTSym R) (src : TMatrixT R) (n k : Nat)
    (row_lwb : Int) (hM : M.IsSquare n) (hl : M.fColLwb = M.fRowLwb) (hs : src.IsShape k k)
    (hsym : src.IsSymmetric = true) (h1 : M.fRowLwb ≤ row_lwb)
    (h2 : row_lwb ≤ M.fRowLwb + n - 1) (h3 : row_lwb + k ≤ M.fRowLwb + n - 1 + 1) :
    ∃ res, SetSub M row_lwb src = some res ∧ res.IsValid = true ∧
      res.fNrows = M.fNrows ∧ res.fNcols = M.fNcols ∧ res.fRowLwb = M.fRowLwb ∧
      res.fColLwb = M.fColLwb ∧ res.fNelems = M.fNelems ∧ res.fElements = M.fElements ∧
      (∀ i j : Nat, i < k → j < k →
        res.entry (row_lwb + i) (row_lwb + j) = src.elem i j) ∧
      (∀ r c : Int, M.fRowLwb ≤ r → r ≤ M.fRowLwb + n - 1 → M.fRowLwb ≤ c →
        c ≤ M.fRowLwb + n - 1 →
        ¬ (row_lwb ≤ r ∧ r < row_lwb + k ∧ row_lwb ≤ c ∧ c < row_lwb + k) →
        res.entry r c = M.entry r c) := by
  have hnpos : 0 < n := by omega
  have hv : M.IsValid = true := hM.valid
  obtain ⟨r, o, hsq⟩ := hM.squareAt hnpos
  obtain ⟨d, hd⟩ : ∃ d : Nat, (d : Int) = row_lwb - M.fRowLwb :=
    ⟨(row_lwb - M.fRowLwb).toNat, by omega⟩
  have hdk : d + k ≤ n := by omega
  obtain ⟨u, hu, hcells⟩ := SetSub_copy M src n k d hdk r o hsq.buf hsq.rows
  have c1 : ¬ (row_lwb < M.fRowLwb ∨ row_lwb > M.fRowLwb + M.fNrows - 1) := by
    rw [hM.rows]; omega
  have c2 : ¬ (row_lwb + src.GetNrows > M.fRowLwb + M.fNrows) := by
    rw [hM.rows]; simp only [TMatrixT.GetNrows, hs.rows]; omega
  have e0 : (row_lwb - M.fRowLwb) * M.fNrows + (row_lwb - M.fRowLwb) = (d : Int) * n + d := by
    rw [hM.rows, ← hd]
  refine ⟨{ M with mem := u.mem }, ?_, hM.valid, rfl, rfl, rfl, rfl, rfl, rfl, ?_, ?_⟩
  · unfold SetSub
    rw [if_neg (by simp [hv]), if_neg (by simp [TMatrixT.IsValid, hs.valid]),
      if_neg (by simp [hsym]), if_neg c1]
    simp only []
    rw [if_neg c2, e0]
    simp only [TMatrixT.GetNrows, hs.rows, Int.toNat_ofNat, hu, Option.map_some']
  · intro i j hi hj
    have e1 : row_lwb + (i : Int) - M.fRowLwb = ((d + i : Nat) : Int) := by push_cast; omega
    have e2 : row_lwb + (j : Int) - M.fColLwb = ((d + j : Nat) : Int) := by
      rw [hl]; push_cast; omega
    show u.mem.load (M.fElements + ((row_lwb + (i : Int) - M.fRowLwb) * M.fNcols
      + (row_lwb + (j : Int) - M.fColLwb))) = _
    rw [e1, e2, hsq.buf, hsq.cols]
    show u.mem.cells r (o + (((d + i : Nat) : Int) * n + ((d + j : Nat) : Int))) = _
    rw [hcells (d + i) (d + j) (by omega), if_pos ⟨by omega, by omega, by omega, by omega⟩,
      Nat.add_sub_cancel_left, Nat.add_sub_cancel_left]
    simp only [TMatrixT.elem, hs.cols]
  · intro a b ha1 ha2 hb1 hb2 hout
    obtain ⟨x, hx⟩ : ∃ x : Nat, (x : Int) = a - M.fRowLwb := ⟨(a - M.fRowLwb).toNat, by omega⟩
    obtain ⟨y, hy⟩ : ∃ y : Nat, (y : Int) = b - M.fColLwb :=
      ⟨(b - M.fColLwb).toNat, by rw [hl]; omega⟩
    show u.mem.load (M.fElements + ((a - M.fRowLwb) * M.fNcols + (b - M.fColLwb)))
      = M.mem.load (M.fElements + ((a - M.fRowLwb) * M.fNcols + (b - M.fColLwb)))
    rw [← hx, ← hy, hsq.buf, hsq.cols]
    show u.mem.cells r (o + ((x : Int) * n + (y : Int))) = _
    rw [hcells x y (by rw [hl] at hy; omega), if_neg (by rw [hl] at hy; omega)]
    rfl

/-- C39.  For a valid matrix `M` with `n` rows and the range `[l..u]`, a valid
symmetric `k` by `k` source with `k >= 1`, `l <= row_lwb` and
`row_lwb+k-1 <= u`, and a valid owning target: `M.SetSub(row_lwb,source)`
returns, and `GetSub(row_lwb,row_lwb+k-1,target,"S")` on the result leaves the
target a valid `k` by `k` matrix with lower bound 0 whose element `[i,j]` is
`source[i,j]` for all `0 <= i,j < k`. -/
theorem SetSub_then_GetSub_round_trip (cfg : Config R) (M T : TMatrixTSym R)
    (src : TMatrixT R) (n k p : Nat) (row_lwb : Int) (hM : M.IsSquare n)
    (hl : M.fColLwb = M.fRowLwb) (hs : src.IsShape k k) (hsym : src.IsSymmetric = true)
    (hk : 0 < k) (h1 : M.fRowLwb ≤ row_lwb) (h2 : row_lwb + k - 1 ≤ M.fRowLwb + n - 1)
    (hT : T.IsOwned cfg p) :
    ∃ M1 tgt, SetSub M row_lwb src = some M1 ∧
      GetSub cfg M1 row_lwb (row_lwb + k - 1) T ['S'] = some tgt ∧
      tgt.IsValid = true ∧ tgt.fNrows = k ∧ tgt.fNcols = k ∧
      tgt.fRowLwb = 0 ∧ tgt.fColLwb = 0 ∧
      ∀ i j : Nat, i < k → j < k → tgt.entry i j = src.elem i j := by
  obtain ⟨M1, hrun, b1, b2, b3, b4, b5, b6, b7, hblock, _⟩ :=
    SetSub_run M src n k row_lwb hM hl hs hsym h1 (by omega) (by omega)
  have hM1 : M1.IsSquare n :=
    ⟨b1, b2.trans hM.rows, b3.trans hM.cols, b6.trans hM.nelems,
      fun hn => by rw [b7]; exact hM.buf hn⟩
  have hl1 : M1.fColLwb = M1.fRowLwb := by rw [b5, b4]; exact hl
  have c1 : ¬ (row_lwb < M1.fRowLwb ∨ row_lwb > M1.fRowLwb + M1.fNrows - 1) := by
    rw [hM1.rows, b4]; omega
  have c2 : ¬ (row_lwb + k - 1 < M1.fRowLwb ∨
      row_lwb + k - 1 > M1.fRowLwb + M1.fNrows - 1) := by
    rw [hM1.rows, b4]; omega
  have c3 : ¬ (row_lwb + k - 1 < row_lwb) := by omega
  have hb : optionShift ['S'] = true := by decide
  obtain ⟨tgt, hres, a1, a2, a3, a4, a5, a6⟩ :=
    GetSub_tail cfg M1 T n p k hk row_lwb 0 hM1 hl1 hT
  have e1 : row_lwb + (k : Int) - 1 - row_lwb = 0 + (k : Int) - 1 := by omega
  have e2 : (0 : Int) + (k : Int) - 1 - 0 + 1 = k := by omega
  refine ⟨M1, tgt, hrun, ?_, a1, a2, a3, a4, a5, ?_⟩
  · unfold GetSub
    rw [if_neg (by simp [show M1.IsValid = true from b1]), if_neg c1, if_neg c2, if_neg c3]
    simp only [hb, if_true, e1, e2, Int.toNat_ofNat]
    exact hres
  · intro i j hi hj
    have e3 := a6 i j hi hj
    rw [zero_add, zero_add] at e3
    rw [e3]
    exact hblock i j hi hj

end TMatrixTSym

/-- C39 at the matrix `[[1,2,3],[2,4,5],[3,5,6]]` with the source
`[[7,8],[8,9]]` at `row_lwb = 1` and an empty target. -/
theorem SetSub_then_GetSub_round_trip_witness :
    ∃ M1 tgt, TMatrixTSym.SetSub (ofList cfg25 3 [1, 2, 3, 2, 4, 5, 3, 5, 6]) 1
        (genOf 2 2 [7, 8, 8, 9]) = some M1 ∧
      TMatrixTSym.GetSub cfg25 M1 1 (1 + (2 : Nat) - 1) (ofList cfg25 0 []) ['S'] = some tgt ∧
      tgt.IsValid = true ∧ tgt.fNrows = (2 : Nat) ∧ tgt.fNcols = (2 : Nat) ∧
      tgt.fRowLwb = 0 ∧ tgt.fColLwb = 0 ∧
      ∀ i j : Nat, i < 2 → j < 2 → tgt.entry i j = (genOf 2 2 [7, 8, 8, 9]).elem i j :=
  TMatrixTSym.SetSub_then_GetSub_round_trip cfg25 (ofList cfg25 3 [1, 2, 3, 2, 4, 5, 3, 5, 6])
    (ofList cfg25 0 []) (genOf 2 2 [7, 8, 8, 9]) 3 2 0 1
    ⟨rfl, rfl, rfl, rfl, fun _ => by decide⟩ rfl ⟨rfl, rfl, rfl, rfl⟩ (by decide) (by decide)
    (by decide) (by decide)
    ⟨⟨rfl, rfl, rfl, rfl, fun h => absurd h (by decide)⟩, rfl,
      fun h => absurd h (by decide), fun hk => absurd hk (by decide)⟩

/-! ## The traversal does not read the matrix -/

namespace TMatrixTSym

variable {R : Type} [CommRing R]

/-- The loops of `Apply` on a matrix with a buffer: the element at `[a,b]`
becomes the action applied to 0 once for every element of the upper right part
up to and including `[min a b, max a b]` in row order. -/
theorem Apply_loop (M : TMatrixTSym R) (f : R → R) (n : Nat) (r : Region)
    (o : Int) (h : M.SquareAt n r o) :
    ∃ res, Apply M f = some res ∧ res.SquareAt n r o ∧
      ∀ a b : Nat, a < n → b < n →
        res.elem a b = f^[upperBefore n (min a b) + (max a b - min a b) + 1] 0 := by
  obtain ⟨s, hs, hP⟩ := forUp_rule (Apply.rowStep M (fun _ => f)) n
    (fun i (s : ApplyState R) => s.val = f^[upperBefore n i] 0 ∧ s.trp = (i : Int) * n ∧
      s.tcp = i ∧
      ∀ a b : Nat, a < n → b < n → s.mem.cells r (o + ((a : Int) * n + b))
        = if min a b < i then f^[upperBefore n (min a b) + (max a b - min a b) + 1] 0
          else M.mem.cells r (o + ((a : Int) * n + b)))
    0 { val := 0, trp := 0, tcp := 0, mem := M.mem }
    (by
      refine ⟨rfl, by simp, by simp, ?_⟩
      intro a b _ _
      rw [if_neg (Nat.not_lt_zero _)])
    (by
      intro i s hi ⟨hval, htrp, htcp, hmem⟩
      obtain ⟨u, hu, hu0, hu1, hu2, hu3⟩ := Apply_row M f n r o h.cols h.buf i hi s.val s.mem
        _ hmem
      have hstart : ({ val := s.val, trp := s.trp + (0 + (i : Int)),
                       tcp := s.tcp + (0 + (i : Int)) * M.fNcols,
                       mem := s.mem } : ApplyState R)
          = { val := s.val, trp := (i : Int) * n + i, tcp := (i : Int) * n + i,
              mem := s.mem } := by
        rw [htrp, htcp, h.cols]
        congr 1 <;> ring
      refine ⟨{ val := u.val, trp := u.trp, tcp := u.tcp - (M.fNelems - 1), mem := u.mem },
        ?_, ?_, ?_, ?_, ?_⟩
      · simp only [Apply.rowStep, hstart]
        rw [zero_add, hu]; rfl
      · simp only [hu0, hval, upperBefore, ← Function.iterate_add_apply]
        congr 1
        omega
      · simp only [hu1]; push_cast; ring
      · simp only [hu2, h.nelems]; push_cast; ring
      · intro a b ha hb
        rw [hu3 a b ha hb]
        by_cases c2 : min a b = i
        · have c3 : min a b < i + 1 := by omega
          rw [if_pos c2, if_pos c3, hval, ← Function.iterate_add_apply, c2]
          congr 1
          omega
        · rw [if_neg c2]
          by_cases c1 : min a b < i
          · have c3 : min a b < i + 1 := by omega
            rw [if_pos c1, if_pos c3]
          · have c3 : ¬ min a b < i + 1 := by omega
            rw [if_neg c1, if_neg c3])
  have hv : M.IsValid = true := h.valid
  refine ⟨{ M with mem := s.mem }, ?_, ⟨h.valid, h.rows, h.cols, h.nelems, h.buf⟩, ?_⟩
  · simp only [Apply, hv, h.rows, Int.toNat_ofNat, hs, Option.map_some', Bool.true_eq_false,
      if_false]
  · intro a b ha hb
    have hsq : ({ M with mem := s.mem } : TMatrixTSym R).SquareAt n r o :=
      ⟨h.valid, h.rows, h.cols, h.nelems, h.buf⟩
    rw [elem_eq_cells hsq, hP.2.2.2 a b ha hb, if_pos (by omega)]

/-- The same for every valid `n` by `n` matrix, the empty one included. -/
theorem Apply_elems (M : TMatrixTSym R) (f : R → R) (n : Nat) (h : M.IsSquare n) :
    ∃ res, Apply M f = some res ∧
      ∀ a b : Nat, a < n → b < n →
        res.elem a b = f^[upperBefore n (min a b) + (max a b - min a b) + 1] 0 := by
  rcases Nat.eq_zero_or_pos n with hn | hn
  · subst hn
    have hv : M.IsValid = true := h.valid
    refine ⟨{ M with mem := M.mem }, ?_, fun a b ha => absurd ha (Nat.not_lt_zero a)⟩
    simp [Apply, hv, h.rows, forUp]
  · obtain ⟨r, o, hsq⟩ := h.squareAt hn
    obtain ⟨res, hres, _, hel⟩ := Apply_loop M f n r o hsq
    exact ⟨res, hres, hel⟩

/-- C40.  For an action `f` and two valid matrices `M1` and `M2` with `n` rows,
`M1.Apply(f)` and `M2.Apply(f)` return and leave the two matrices with the same
elements: the element at `[a,b]` with `a <= b`, which is element number
`k = upperBefore n a + (b-a) + 1` of the upper right part in row order, counted
from 1, is `f` iterated `k` times on 0, and the element at `[b,a]` is equal to
it. -/
theorem Apply_result_ignores_previous_contents (M1 M2 : TMatrixTSym R) (f : R → R) (n : Nat)
    (h1 : M1.IsSquare n) (h2 : M2.IsSquare n) :
    ∃ res1 res2, Apply M1 f = some res1 ∧ Apply M2 f = some res2 ∧
      (∀ a b : Nat, a < n → b < n → res1.elem a b = res2.elem a b) ∧
      (∀ a b : Nat, a ≤ b → b < n →
        res1.elem a b = f^[upperBefore n a + (b - a) + 1] 0) ∧
      (∀ a b : Nat, a < n → b < n → res1.elem b a = res1.elem a b) := by
  obtain ⟨res1, hr1, e1⟩ := Apply_elems M1 f n h1
  obtain ⟨res2, hr2, e2⟩ := Apply_elems M2 f n h2
  refine ⟨res1, res2, hr1, hr2, ?_, ?_, ?_⟩
  · intro a b ha hb
    rw [e1 a b ha hb, e2 a b ha hb]
  · intro a b hab hb
    rw [e1 a b (by omega) hb, Nat.min_eq_left hab, Nat.max_eq_right hab]
  · intro a b ha hb
    rw [e1 a b ha hb, e1 b a hb ha, Nat.min_comm, Nat.max_comm]

end TMatrixTSym

/-- C40 at the matrices `[[1,2],[2,3]]` and `[[7,7],[7,7]]` with the action
that adds 10: both become `[[10,20],[20,30]]`. -/
theorem Apply_result_ignores_previous_contents_witness :
    (∃ res1 res2, TMatrixTSym.Apply (ofList cfg25 2 [1, 2, 2, 3]) (fun x => x + 10) = some res1 ∧
      TMatrixTSym.Apply (ofList cfg25 2 [7, 7, 7, 7]) (fun x => x + 10) = some res2 ∧
      (∀ a b : Nat, a < 2 → b < 2 → res1.elem a b = res2.elem a b) ∧
      (∀ a b : Nat, a ≤ b → b < 2 →
        res1.elem a b = (fun x : Int => x + 10)^[upperBefore 2 a + (b - a) + 1] 0) ∧
      (∀ a b : Nat, a < 2 → b < 2 → res1.elem b a = res1.elem a b)) ∧
    (TMatrixTSym.Apply (ofList cfg25 2 [1, 2, 2, 3]) (fun x => x + 10)).map
      (fun t => rowsOf t 2) = some [[10, 20], [20, 30]] ∧
    (TMatrixTSym.Apply (ofList cfg25 2 [7, 7, 7, 7]) (fun x => x + 10)).map
      (fun t => rowsOf t 2) = some [[10, 20], [20, 30]] :=
  ⟨TMatrixTSym.Apply_result_ignores_previous_contents (ofList cfg25 2 [1, 2, 2, 3])
      (ofList cfg25 2 [7, 7, 7, 7]) (fun x => x + 10) 2
      ⟨rfl, rfl, rfl, rfl, fun _ => by decide⟩ ⟨rfl, rfl, rfl, rfl, fun _ => by decide⟩,
   by decide, by decide⟩

/-! ## Division element by element: the loops -/

section LoopFailure

variable {σ : Type}

/-- A counted loop does not return when its body fails at step `k0`: the
earlier steps either fail as well or keep the invariant that makes step `k0`
fail. -/
theorem forUp_none (body : Int → σ → Option σ) :
    ∀ (n : Nat) (P : Nat → σ → Prop) (k0 : Nat) (a : Int) (s0 : σ), k0 < n → P 0 s0 →
      (∀ k s s', k < k0 → P k s → body (a + k) s = some s' → P (k + 1) s') →
      (∀ s, P k0 s → body (a + k0) s = none) →
      forUp body a n s0 = none := by
  intro n
  induction n with
  | zero => intro P k0 a s0 hk; exact absurd hk (Nat.not_lt_zero _)
  | succ n ih =>
    intro P k0 a s0 hk h0 hstep hfail
    cases k0 with
    | zero =>
      have hb : body a s0 = none := by
        have := hfail s0 h0
        simpa using this
      simp [forUp, hb]
    | succ k0 =>
      cases hb : body a s0 with
      | none => simp [forUp, hb]
      | some s1 =>
        have h1 : P 1 s1 := hstep 0 s0 s1 (Nat.succ_pos _) h0 (by simpa using hb)
        have := ih (fun k s => P (k + 1) s) k0 (a + 1) s1 (by omega) h1
          (by
            intro k s s' hk' hP hbs
            have e : a + 1 + (k : Int) = a + ((k + 1 : Nat) : Int) := by push_cast; ring
            rw [e] at hbs
            exact hstep (k + 1) s s' (by omega) hP hbs)
          (by
            intro s hP
            have e : a + 1 + (k0 : Int) = a + ((k0 + 1 : Nat) : Int) := by push_cast; ring
            rw [e]
            exact hfail s hP)
        simp [forUp, hb, this]

end LoopFailure

namespace TMatrixTSym

variable {R : Type} [Field R] [DecidableEq R]

/-- The inner loop of `ElementDiv` on row `i`, when the source has no zero in
that row from the diagonal on: the elements `[i,j]` and `[j,i]` of the target
are divided by the element `[i,j]` of the source. -/
theorem ElementDiv_row (T S : TMatrixTSym R) (n : Nat) (r : Region) (o : Int)
    (hbuf : T.fElements = Ptr.loc r o) (i : Nat) (hi : i < n)
    (hS : ∀ j : Nat, i ≤ j → j < n → S.get ((i : Int) * n + (j : Nat)) ≠ 0)
    (s : Store R) (F : Nat → Nat → R)
    (hs : ∀ a b : Nat, a < n → b < n → s.cells r (o + ((a : Int) * n + b)) = F a b) :
    ∃ u : DivState R,
      forUp (ElementDiv.colStep T S n i) i ((n : Int) - i).toNat
        { sp := (i : Int) * n + i, trp := (i : Int) * n + i, tcp := (i : Int) * n + i,
          mem := s }
        = some u ∧ u.sp = ((i : Int) + 1) * n ∧ u.trp = ((i : Int) + 1) * n ∧
      u.tcp = (n : Int) * n + i ∧
      ∀ a b : Nat, a < n → b < n → u.mem.cells r (o + ((a : Int) * n + b))
        = if min a b = i then F a b / S.get ((i : Int) * n + ((max a b : Nat) : Int))
          else F a b := by
  have hcount : ((n : Int) - i).toNat = n - i := by omega
  rw [hcount]
  obtain ⟨u, hu, hP⟩ := forUp_rule (ElementDiv.colStep T S n i) (n - i)
    (fun k (u : DivState R) => u.sp = (i : Int) * n + i + k ∧ u.trp = (i : Int) * n + i + k ∧
      u.tcp = ((i : Int) + k) * n + i ∧
      ∀ a b : Nat, a < n → b < n → u.mem.cells r (o + ((a : Int) * n + b))
        = if min a b = i ∧ max a b < i + k then
            F a b / S.get ((i : Int) * n + ((max a b : Nat) : Int))
          else F a b)
    (i : Int) { sp := (i : Int) * n + i, trp := (i : Int) * n + i, tcp := (i : Int) * n + i,
                mem := s }
    (by
      refine ⟨by simp, by simp, by simp, ?_⟩
      intro a b ha hb
      have c0 : ¬ (min a b = i ∧ max a b < i + 0) := by omega
      rw [if_neg c0]
      exact hs a b ha hb)
    (by
      intro k u hk ⟨hsp, htrp, htcp, hmem⟩
      have hik : i + k < n := by omega
      have e0 : u.sp = (i : Int) * n + ((i + k : Nat) : Int) := by
        rw [hsp]; push_cast; ring
      have e1 : u.tcp = ((i + k : Nat) : Int) * n + (i : Nat) := by
        rw [htcp]; push_cast; ring
      have e2 : u.trp = ((i : Nat) : Int) * n + ((i + k : Nat) : Int) := by
        rw [htrp]; push_cast; ring
      have hne : ¬ (S.get u.sp = 0) := by rw [e0]; exact hS (i + k) (by omega) hik
      have hA : u.mem.cells r (o + (((i + k : Nat) : Int) * n + (i : Nat))) = F (i + k) i := by
        have c : ¬ (min (i + k) i = i ∧ max (i + k) i < i + k) := by omega
        rw [hmem (i + k) i hik hi, if_neg c]
      have hB : u.mem.cells r (o + (((i : Nat) : Int) * n + ((i + k : Nat) : Int)))
          = F i (i + k) := by
        have c : ¬ (min i (i + k) = i ∧ max i (i + k) < i + k) := by omega
        rw [hmem i (i + k) hi hik, if_neg c]
      simp only [ElementDiv.colStep, if_neg hne]
      refine ⟨_, rfl, ?_, ?_, ?_, ?_⟩
      · simp only [hsp]; push_cast; ring
      · simp only [htrp]; push_cast; ring
      · simp only [htcp]; push_cast; ring
      · intro a b ha hb
        simp only [GetMatrixArray, hbuf, Ptr.loc_add, Store.load_loc]
        by_cases hk0 : k = 0
        · subst hk0
          have hgt : ¬ ((i : Int) + ((0 : Nat) : Int) > (i : Int)) := by simp
          simp only [hgt, if_false]
          rw [e2, e0, hB, Store.store_cell_idx _ r o n a b i (i + 0) hb hik, hmem a b ha hb]
          by_cases hab : a = i ∧ b = i + 0
          · have c2 : (min a b = i ∧ max a b < i + (0 + 1)) := by omega
            have c3 : max a b = i + 0 := by omega
            rw [if_pos hab, if_pos c2, c3, hab.1, hab.2]
          · rw [if_neg hab]
            have c1 : ¬ (min a b = i ∧ max a b < i + 0) := by omega
            have c2 : ¬ (min a b = i ∧ max a b < i + (0 + 1)) := by omega
            rw [if_neg c1, if_neg c2]
        · have hgt : ((i : Int) + (k : Int) > (i : Int)) := by omega
          have hdiff : ¬ (i = i + k ∧ i + k = i) := by omega
          simp only [hgt, if_true]
          rw [e1, e2, e0, hA, Store.store_cell_idx _ r o n i (i + k) (i + k) i hik hi,
            if_neg hdiff, hB, Store.store_cell_idx _ r o n a b i (i + k) hb hik,
            Store.store_cell_idx _ r o n a b (i + k) i hb hi, hmem a b ha hb]
          by_cases hab : a = i ∧ b = i + k
          · have c2 : (min a b = i ∧ max a b < i + (k + 1)) := by omega
            have c3 : max a b = i + k := by omega
            rw [if_pos hab, if_pos c2, c3, hab.1, hab.2]
          · rw [if_neg hab]
            by_cases hba : a = i + k ∧ b = i
            · have c2 : (min a b = i ∧ max a b < i + (k + 1)) := by omega
              have c3 : max a b = i + k := by omega
              rw [if_pos hba, if_pos c2, c3, hba.1, hba.2]
            · rw [if_neg hba]
              by_cases c1 : min a b = i ∧ max a b < i + k
              · have c2 : (min a b = i ∧ max a b < i + (k + 1)) := by omega
                rw [if_pos c1, if_pos c2]
              · have c2 : ¬ (min a b = i ∧ max a b < i + (k + 1)) := by omega
                rw [if_neg c1, if_neg c2])
  obtain ⟨h0, h1, h2, h3⟩ := hP
  refine ⟨u, hu, ?_, ?_, ?_, ?_⟩
  · rw [h0]; push_cast [Nat.cast_sub hi.le]; ring
  · rw [h1]; push_cast [Nat.cast_sub hi.le]; ring
  · rw [h2]; push_cast [Nat.cast_sub hi.le]; ring
  · intro a b ha hb
    rw [h3 a b ha hb]
    by_cases c : min a b = i
    · have c2 : (min a b = i ∧ max a b < i + (n - i)) := by omega
      rw [if_pos c, if_pos c2]
    · have c2 : ¬ (min a b = i ∧ max a b < i + (n - i)) := by omega
      rw [if_neg c, if_neg c2]

/-- The loops of `ElementDiv` when the source has no zero in its upper right
part: every element `[a,b]` of the target is divided by the element
`[min a b, max a b]` of the source. -/
theorem ElementDiv_loop (T S : TMatrixTSym R) (n : Nat) (r : Region) (o : Int)
    (hT : T.SquareAt n r o)
    (hS : ∀ i j : Nat, i ≤ j → j < n → S.get ((i : Int) * n + (j : Nat)) ≠ 0) :
    ∃ s : DivState R,
      forUp (ElementDiv.rowStep T S n ((n : Int) * n)) 0 n
        { sp := 0, trp := 0, tcp := 0, mem := T.mem } = some s ∧
      ∀ a b : Nat, a < n → b < n → s.mem.cells r (o + ((a : Int) * n + b))
        = T.mem.cells r (o + ((a : Int) * n + b))
            / S.get (((min a b : Nat) : Int) * n + ((max a b : Nat) : Int)) := by
  obtain ⟨s, hs, hP⟩ := forUp_rule (ElementDiv.rowStep T S n ((n : Int) * n)) n
    (fun i (s : DivState R) => s.sp = (i : Int) * n ∧ s.trp = (i : Int) * n ∧ s.tcp = i ∧
      ∀ a b : Nat, a < n → b < n → s.mem.cells r (o + ((a : Int) * n + b))
        = if min a b < i then
            T.mem.cells r (o + ((a : Int) * n + b))
              / S.get (((min a b : Nat) : Int) * n + ((max a b : Nat) : Int))
          else T.mem.cells r (o + ((a : Int) * n + b)))
    0 { sp := 0, trp := 0, tcp := 0, mem := T.mem }
    (by
      refine ⟨by simp, by simp, by simp, ?_⟩
      intro a b _ _
      rw [if_neg (Nat.not_lt_zero _)])
    (by
      intro i s hi ⟨hsp, htrp, htcp, hmem⟩
      obtain ⟨u, hu, hu0, hu1, hu2, hu3⟩ := ElementDiv_row T S n r o hT.buf i hi
        (fun j hij hj => hS i j hij hj) s.mem _ hmem
      have hstart : ({ sp := s.sp + (0 + (i : Int)), trp := s.trp + (0 + (i : Int)),
                       tcp := s.tcp + (0 + (i : Int)) * (n : Int),
                       mem := s.mem } : DivState R)
          = { sp := (i : Int) * n + i, trp := (i : Int) * n + i, tcp := (i : Int) * n + i,
              mem := s.mem } := by
        rw [hsp, htrp, htcp]
        congr 1 <;> ring
      refine ⟨{ sp := u.sp, trp := u.trp, tcp := u.tcp - ((n : Int) * n - 1), mem := u.mem },
        ?_, ?_, ?_, ?_, ?_⟩
      · simp only [ElementDiv.rowStep, hstart]
        rw [zero_add, hu]; rfl
      · simp only [hu0]; push_cast; ring
      · simp only [hu1]; push_cast; ring
      · simp only [hu2]; push_cast; ring
      · intro a b ha hb
        rw [hu3 a b ha hb]
        by_cases c2 : min a b = i
        · have c3 : min a b < i + 1 := by omega
          have c4 : ¬ min a b < i := by omega
          rw [if_pos c2, if_pos c3, if_neg c4, c2]
        · rw [if_neg c2]
          by_cases c1 : min a b < i
          · have c3 : min a b < i + 1 := by omega
            rw [if_pos c1, if_pos c3]
          · have c3 : ¬ min a b < i + 1 := by omega
            rw [if_neg c1, if_neg c3])
  refine ⟨s, hs, ?_⟩
  intro a b ha hb
  have c : min a b < n := by omega
  rw [hP.2.2.2 a b ha hb, if_pos c]

/-- The pointer `sp` after some steps of the inner loop of `ElementDiv`. -/
theorem ElementDiv_sp (T S : TMatrixTSym R) (ncols i : Int) :
    ∀ (cnt : Nat) (a : Int) (u u' : DivState R),
      forUp (ElementDiv.colStep T S ncols i) a cnt u = some u' → u'.sp = u.sp + cnt := by
  intro cnt
  induction cnt with
  | zero =>
    intro a u u' h
    simp only [forUp, Option.some.injEq] at h
    rw [← h]; simp
  | succ cnt ih =>
    intro a u u' h
    simp only [forUp] at h
    obtain ⟨u1, h1, h2⟩ := Option.bind_eq_some.1 h
    have e1 : u1.sp = u.sp + 1 := by
      unfold ElementDiv.colStep at h1
      by_cases hz : S.get u.sp = 0
      · rw [if_pos hz] at h1; exact absurd h1 (by simp)
      · rw [if_neg hz] at h1
        simp only [Option.some.injEq] at h1
        rw [← h1]
    rw [ih (a + 1) u1 u' h2, e1]
    push_cast; ring

/-- The loops of `ElementDiv` do not return when the source has a zero in its
upper right part: the assertion stops them there at the latest. -/
theorem ElementDiv_stops (T S : TMatrixTSym R) (n : Nat) (nelems : Int) (i0 j0 : Nat)
    (hij : i0 ≤ j0) (hj : j0 < n) (hz : S.get ((i0 : Int) * n + (j0 : Nat)) = 0) (m : Store R) :
    forUp (ElementDiv.rowStep T S n nelems) 0 n { sp := 0, trp := 0, tcp := 0, mem := m }
      = none := by
  apply forUp_none (ElementDiv.rowStep T S n nelems) n
    (fun i (s : DivState R) => s.sp = (i : Int) * n) i0 0 _ (by omega) (by simp)
  · intro i s s' hi hsp hrun
    simp only [ElementDiv.rowStep] at hrun
    obtain ⟨u, hu, h2⟩ := Option.bind_eq_some.1 hrun
    have e := ElementDiv_sp T S n (0 + (i : Int)) _ _ _ u hu
    simp only [Option.some.injEq] at h2
    rw [← h2]
    show u.sp = ((i + 1 : Nat) : Int) * n
    rw [e, hsp]
    have hc : (((n : Int) - (0 + (i : Int))).toNat : Int) = (n : Int) - i := by omega
    rw [hc]; push_cast; ring
  · intro s hsp
    have hinner : forUp (ElementDiv.colStep T S n (0 + (i0 : Int))) (0 + (i0 : Int))
        ((n : Int) - (0 + (i0 : Int))).toNat
        { sp := s.sp + (0 + (i0 : Int)), trp := s.trp + (0 + (i0 : Int)),
          tcp := s.tcp + (0 + (i0 : Int)) * (n : Int), mem := s.mem } = none := by
      apply forUp_none (ElementDiv.colStep T S n (0 + (i0 : Int))) _
        (fun k (u : DivState R) => u.sp = (i0 : Int) * n + i0 + k) (j0 - i0) _ _ (by omega)
        (by simp only [hsp]; push_cast; ring)
      · intro k u u' _ hu hrun
        have e := ElementDiv_sp T S n (0 + (i0 : Int)) 1 (0 + (i0 : Int) + (k : Int)) u u'
          (by simp only [forUp, hrun, Option.some_bind])
        rw [e, hu]; push_cast; ring
      · intro u hu
        have e : u.sp = (i0 : Int) * n + (j0 : Nat) := by rw [hu]; omega
        unfold ElementDiv.colStep
        rw [e, if_pos hz]
    simp only [ElementDiv.rowStep, hinner, Option.none_bind]

/-- C34.  For a valid target and a valid symmetric source with `n` rows that
are compatible: when every element of the source is non-zero,
`ElementDiv(target,source)` returns the target with the same shape and the
element `target[i,j]/source[i,j]` at every `[i,j]`; when some element of the
source is zero, the assertion `*sp != 0.0` stops the call and no result is
returned. -/
theorem ElementDiv_divides_or_asserts (T S : TMatrixTSym R) (n : Nat) (hT : T.IsSquare n)
    (hS : S.IsSquare n) (hc : AreCompatible T S = true)
    (hsym : ∀ i j : Nat, i < n → j < n → S.elem i j = S.elem j i) :
    ((∀ i j : Nat, i < n → j < n → S.elem i j ≠ 0) →
      ∃ res, ElementDiv T S = some res ∧ res.IsSquare n ∧
        res.fRowLwb = T.fRowLwb ∧ res.fColLwb = T.fColLwb ∧
        ∀ i j : Nat, i < n → j < n → res.elem i j = T.elem i j / S.elem i j) ∧
    ((∃ i j : Nat, i < n ∧ j < n ∧ S.elem i j = 0) → ElementDiv T S = none) := by
  have hcf : ¬ (AreCompatible T S = false) := by simp [hc]
  have hel : ∀ i j : Nat, S.elem i j = S.get ((i : Int) * n + (j : Nat)) := by
    intro i j
    simp only [elem, hS.cols]
  constructor
  · intro hnz
    rcases Nat.eq_zero_or_pos n with hn | hn
    · subst hn
      refine ⟨{ T with mem := T.mem }, ?_, ⟨hT.valid, hT.rows, hT.cols, hT.nelems, hT.buf⟩,
        rfl, rfl, fun i j hi => absurd hi (Nat.not_lt_zero i)⟩
      simp [ElementDiv, hc, GetNrows, hT.rows, forUp]
    · obtain ⟨r, o, hsq⟩ := hT.squareAt hn
      obtain ⟨s, hs, hcells⟩ := ElementDiv_loop T S n r o hsq
        (fun i j hij hj => by rw [← hel]; exact hnz i j (by omega) hj)
      have hres : ({ T with mem := s.mem } : TMatrixTSym R).SquareAt n r o :=
        ⟨hsq.valid, hsq.rows, hsq.cols, hsq.nelems, hsq.buf⟩
      refine ⟨{ T with mem := s.mem }, ?_,
        ⟨hT.valid, hT.rows, hT.cols, hT.nelems, hT.buf⟩, rfl, rfl, ?_⟩
      · simp only [ElementDiv, if_neg hcf, GetNrows, GetNcols, GetNoElements, hT.rows, hT.cols,
          hT.nelems, Int.toNat_ofNat, hs, Option.map_some']
      · intro i j hi hj
        rw [elem_eq_cells hres, hcells i j hi hj, elem_eq_cells hsq, ← hel]
        rcases Nat.le_total i j with hij | hij
        · rw [Nat.min_eq_left hij, Nat.max_eq_right hij]
        · rw [Nat.min_eq_right hij, Nat.max_eq_left hij, hsym j i hj hi]
  · rintro ⟨i, j, hi, hj, hz⟩
    have hstop : ∃ i0 j0 : Nat, i0 ≤ j0 ∧ j0 < n ∧ S.get ((i0 : Int) * n + (j0 : Nat)) = 0 := by
      rcases Nat.le_total i j with hij | hij
      · exact ⟨i, j, hij, hj, by rw [← hel]; exact hz⟩
      · exact ⟨j, i, hij, hi, by rw [← hel, ← hsym i j hi hj]; exact hz⟩
    obtain ⟨i0, j0, hij, hj0, hz0⟩ := hstop
    simp only [ElementDiv, if_neg hcf, GetNrows, GetNcols, GetNoElements, hT.rows, hT.cols,
      Int.toNat_ofNat, ElementDiv_stops T S n T.fNelems i0 j0 hij hj0 hz0 T.mem, Option.map_none']

end TMatrixTSym

/-! ## Random fill: the loops -/

namespace TMatrixTSym

variable {R : Type} [Field R]

/-- The inner fill loop of `RandomizePD` on row `i`: the elements `[i,0]` to
`[i,i]` receive the results of the next `i+1` calls of `Drand`, scaled. -/
theorem RandomizePD_fillRow (M : TMatrixTSym R) (drand : Nat → R) (scale shift : R) (n : Nat)
    (r : Region) (o : Int) (hbuf : M.fElements = Ptr.loc r o) (hcols : M.fNcols = n)
    (i : Nat) (hi : i < n) (s : DrawState R) :
    ∃ s', RandomizePD.fillRow M drand scale shift i s = some s' ∧
      s'.calls = s.calls + (i + 1) ∧
      ∀ a b : Nat, b < n → s'.mem.cells r (o + ((a : Int) * n + b))
        = if a = i ∧ b ≤ i then scale * (drand (s.calls + b) + shift)
          else s.mem.cells r (o + ((a : Int) * n + b)) := by
  have hcount : ((i : Int) + 1).toNat = i + 1 := by omega
  obtain ⟨u, hu, h1, h2⟩ := forUp_rule
    (RandomizePD.fillStep M drand scale shift ((i : Int) * M.fNcols)) (i + 1)
    (fun k (u : DrawState R) => u.calls = s.calls + k ∧
      ∀ a b : Nat, b < n → u.mem.cells r (o + ((a : Int) * n + b))
        = if a = i ∧ b < k then scale * (drand (s.calls + b) + shift)
          else s.mem.cells r (o + ((a : Int) * n + b)))
    0 s
    ⟨rfl, by
      intro a b _
      have c : ¬ (a = i ∧ b < 0) := by omega
      rw [if_neg c]⟩
    (by
      intro k u hk ⟨hc, hmem⟩
      refine ⟨_, rfl, ?_, ?_⟩
      · show u.calls + 1 = s.calls + (k + 1)
        rw [hc]; ring
      · intro a b hb
        show (u.mem.store (M.fElements + ((i : Int) * M.fNcols + (0 + (k : Int))))
          (scale * (drand u.calls + shift))).cells r (o + ((a : Int) * n + b)) = _
        rw [hbuf, hcols, zero_add, Ptr.loc_add,
          Store.store_cell_idx _ r o n a b i k hb (by omega), hmem a b hb, hc]
        by_cases hab : a = i ∧ b = k
        · have c2 : a = i ∧ b < k + 1 := by omega
          rw [if_pos hab, if_pos c2, hab.2]
        · rw [if_neg hab]
          by_cases c1 : a = i ∧ b < k
          · have c2 : a = i ∧ b < k + 1 := by omega
            rw [if_pos c1, if_pos c2]
          · have c2 : ¬ (a = i ∧ b < k + 1) := by omega
            rw [if_neg c1, if_neg c2])
  refine ⟨u, ?_, h1, ?_⟩
  · simp only [RandomizePD.fillRow, hcount]
    exact hu
  · intro a b hb
    rw [h2 a b hb]
    by_cases c : a = i ∧ b ≤ i
    · have c2 : a = i ∧ b < i + 1 := by omega
      rw [if_pos c, if_pos c2]
    · have c2 : ¬ (a = i ∧ b < i + 1) := by omega
      rw [if_neg c, if_neg c2]

/-- The fill loops of `RandomizePD`: the element `[a,b]` of the lower left
part, diagonal included, receives the result of the call of `Drand` number
`lowerBefore a + b`, scaled; the other elements are not written. -/
theorem RandomizePD_fill (M : TMatrixTSym R) (drand : Nat → R) (scale shift : R) (n : Nat)
    (r : Region) (o : Int) (hbuf : M.fElements = Ptr.loc r o) (hcols : M.fNcols = n) :
    ∃ s : DrawState R,
      forUp (RandomizePD.fillRow M drand scale shift) 0 n { calls := 0, mem := M.mem }
        = some s ∧
      ∀ a b : Nat, a < n → b < n → s.mem.cells r (o + ((a : Int) * n + b))
        = if b ≤ a then scale * (drand (lowerBefore a + b) + shift)
          else M.mem.cells r (o + ((a : Int) * n + b)) := by
  obtain ⟨s, hs, _, h2⟩ := forUp_rule (RandomizePD.fillRow M drand scale shift) n
    (fun i (s : DrawState R) => s.calls = lowerBefore i ∧
      ∀ a b : Nat, b < n → s.mem.cells r (o + ((a : Int) * n + b))
        = if a < i ∧ b ≤ a then scale * (drand (lowerBefore a + b) + shift)
          else M.mem.cells r (o + ((a : Int) * n + b)))
    0 { calls := 0, mem := M.mem }
    ⟨rfl, by
      intro a b _
      have c : ¬ (a < 0 ∧ b ≤ a) := by omega
      rw [if_neg c]⟩
    (by
      intro i s hi ⟨hc, hmem⟩
      obtain ⟨s', hs', h1, h2⟩ := RandomizePD_fillRow M drand scale shift n r o hbuf hcols i hi s
      refine ⟨s', by rw [zero_add]; exact hs', ?_, ?_⟩
      · rw [h1, hc]; rfl
      · intro a b hb
        rw [h2 a b hb, hmem a b hb, hc]
        by_cases c : a = i ∧ b ≤ i
        · have c2 : a < i + 1 ∧ b ≤ a := by omega
          rw [if_pos c, if_pos c2, c.1]
        · rw [if_neg c]
          by_cases c1 : a < i ∧ b ≤ a
          · have c2 : a < i + 1 ∧ b ≤ a := by omega
            rw [if_pos c1, if_pos c2]
          · have c2 : ¬ (a < i + 1 ∧ b ≤ a) := by omega
            rw [if_neg c1, if_neg c2])
  refine ⟨s, hs, ?_⟩
  intro a b ha hb
  rw [h2 a b hb]
  by_cases c : b ≤ a
  · have c2 : a < n ∧ b ≤ a := ⟨ha, c⟩
    rw [if_pos c, if_pos c2]
  · have c2 : ¬ (a < n ∧ b ≤ a) := fun hh => c hh.2
    rw [if_neg c, if_neg c2]

/-- The loop over `k` in `RandomizePD`: the products of the elements to the
left of column `j` in the rows `i` and `j` are added to the element `[i,j]`. -/
theorem RandomizePD_acc (M : TMatrixTSym R) (n : Nat) (r : Region) (o : Int)
    (hbuf : M.fElements = Ptr.loc r o) (i j : Nat) (hj : j < n) (s : Store R) :
    ∃ s', forDown (RandomizePD.accStep M ((i : Int) * n) ((j : Int) * n) j) j s = some s' ∧
      ∀ a b : Nat, b < n → s'.cells r (o + ((a : Int) * n + b))
        = if a = i ∧ b = j then
            s.cells r (o + ((i : Int) * n + j))
              + ∑ t in Finset.range j,
                  s.cells r (o + ((i : Int) * n + t)) * s.cells r (o + ((j : Int) * n + t))
          else s.cells r (o + ((a : Int) * n + b)) := by
  obtain ⟨s', hs', hP⟩ := forDown_rule
    (RandomizePD.accStep M ((i : Int) * n) ((j : Int) * n) j)
    (fun k (u : Store R) => ∀ a b : Nat, b < n → u.cells r (o + ((a : Int) * n + b))
        = if a = i ∧ b = j then
            s.cells r (o + ((i : Int) * n + j))
              + ∑ t in Finset.Ico k j,
                  s.cells r (o + ((i : Int) * n + t)) * s.cells r (o + ((j : Int) * n + t))
          else s.cells r (o + ((a : Int) * n + b)))
    j s
    (by
      intro a b _
      by_cases c : a = i ∧ b = j
      · rw [if_pos c, Finset.Ico_self, Finset.sum_empty, add_zero, c.1, c.2]
      · rw [if_neg c])
    (by
      intro k u hk hmem
      refine ⟨_, rfl, ?_⟩
      intro a b hb
      have c1 : ¬ (i = i ∧ k = j) := by omega
      have c2 : ¬ (j = i ∧ k = j) := by omega
      have c3 : i = i ∧ j = j := ⟨rfl, rfl⟩
      show (u.store (M.fElements + ((i : Int) * (n : Int) + (j : Int)))
        (u.load (M.fElements + ((i : Int) * (n : Int) + (j : Int)))
          + u.load (M.fElements + ((i : Int) * (n : Int) + (k : Int)))
            * u.load (M.fElements + ((j : Int) * (n : Int) + (k : Int))))).cells r
              (o + ((a : Int) * (n : Int) + (b : Int))) = _
      rw [hbuf]
      simp only [Ptr.loc_add, Store.load_loc]
      rw [Store.store_cell_idx _ r o n a b i j hb hj, hmem i j hj, hmem i k (by omega),
        hmem j k (by omega), hmem a b hb, if_pos c3, if_neg c1, if_neg c2]
      by_cases c : a = i ∧ b = j
      · rw [if_pos c, if_pos c, Finset.sum_eq_sum_Ico_succ_bot hk]
        ring
      · rw [if_neg c, if_neg c, if_neg c])
  refine ⟨s', hs', ?_⟩
  intro a b hb
  rw [hP a b hb, Finset.range_eq_Ico]

/-- The body of the loop over `j` in `RandomizePD` at `[i,j]`, `j <= i`, when
the rows `i` and `j` still hold the drawn values `L` up to column `j`: the
elements `[i,j]` and `[j,i]` become the sum of `L[i,t]*L[j,t]` over `t <= j`. -/
theorem RandomizePD_col (M : TMatrixTSym R) (n : Nat) (r : Region) (o : Int)
    (hbuf : M.fElements = Ptr.loc r o) (hcols : M.fNcols = n) (L : Nat → Nat → R)
    (i j : Nat) (hi : i < n) (hj : j ≤ i) (s : Store R)
    (h1 : ∀ t : Nat, t ≤ j → s.cells r (o + ((i : Int) * n + t)) = L i t)
    (h2 : ∀ t : Nat, t ≤ j → s.cells r (o + ((j : Int) * n + t)) = L j t) :
    ∃ s', RandomizePD.colStep M i ((i : Int) * M.fNcols) j s = some s' ∧
      ∀ a b : Nat, b < n → s'.cells r (o + ((a : Int) * n + b))
        = if max a b = i ∧ min a b = j then ∑ t in Finset.range (j + 1), L i t * L j t
          else s.cells r (o + ((a : Int) * n + b)) := by
  have hjn : j < n := by omega
  obtain ⟨m2, hm2, hacc⟩ := RandomizePD_acc M n r o hbuf i j hjn
    (s.store (Ptr.loc r (o + ((i : Int) * n + j)))
      (s.cells r (o + ((i : Int) * n + j)) * s.cells r (o + ((j : Int) * n + j))))
  have hval : m2.cells r (o + ((i : Int) * n + j))
      = ∑ t in Finset.range (j + 1), L i t * L j t := by
    have c3 : i = i ∧ j = j := ⟨rfl, rfl⟩
    rw [hacc i j hjn, if_pos c3, Store.store_cell_idx _ r o n i j i j hjn hjn, if_pos c3,
      Finset.sum_range_succ, h1 j le_rfl, h2 j le_rfl, add_comm]
    congr 1
    apply Finset.sum_congr rfl
    intro t ht
    have htj : t < j := Finset.mem_range.1 ht
    have c1 : ¬ (i = i ∧ t = j) := by omega
    have c2 : ¬ (j = i ∧ t = j) := by omega
    rw [Store.store_cell_idx _ r o n i t i j (by omega) hjn, if_neg c1,
      Store.store_cell_idx _ r o n j t i j (by omega) hjn, if_neg c2, h1 t htj.le, h2 t htj.le]
  have hother : ∀ a b : Nat, b < n → ¬ (a = i ∧ b = j) →
      m2.cells r (o + ((a : Int) * n + b)) = s.cells r (o + ((a : Int) * n + b)) := by
    intro a b hb hab
    rw [hacc a b hb, if_neg hab, Store.store_cell_idx _ r o n a b i j hb hjn, if_neg hab]
  have hstart : RandomizePD.colStep M i ((i : Int) * M.fNcols) j s
      = some (if (i : Int) ≠ (j : Int) then
          m2.store (Ptr.loc r (o + ((j : Int) * n + i))) (m2.cells r (o + ((i : Int) * n + j)))
        else m2) := by
    simp only [RandomizePD.colStep, GetMatrixArray, hbuf, hcols, Ptr.loc_add, Store.load_loc,
      Int.toNat_ofNat, hm2, Option.some_bind]
  refine ⟨_, hstart, ?_⟩
  intro a b hb
  by_cases hij : i = j
  · have c : ¬ ((i : Int) ≠ (j : Int)) := by omega
    rw [if_neg c]
    by_cases hab : a = i ∧ b = j
    · have c2 : max a b = i ∧ min a b = j := by omega
      rw [if_pos c2, hab.1, hab.2, hval]
    · have c2 : ¬ (max a b = i ∧ min a b = j) := by omega
      rw [if_neg c2, hother a b hb hab]
  · have c : (i : Int) ≠ (j : Int) := by omega
    rw [if_pos c, Store.store_cell_idx _ r o n a b j i hb hi]
    by_cases hba : a = j ∧ b = i
    · have c2 : max a b = i ∧ min a b = j := by omega
      rw [if_pos hba, if_pos c2, hval]
    · rw [if_neg hba]
      by_cases hab : a = i ∧ b = j
      · have c2 : max a b = i ∧ min a b = j := by omega
        rw [if_pos c2, hab.1, hab.2, hval]
      · have c2 : ¬ (max a b = i ∧ min a b = j) := by omega
        rw [if_neg c2, hother a b hb hab]

/-- The body of the second loop over `i` in `RandomizePD`, when the rows up to
row `i` still hold the drawn values `L` in their lower left part: row `i` and
column `i` up to the diagonal become the sums of `L[i,t]*L[j,t]` over
`t <= j`. -/
theorem RandomizePD_row (M : TMatrixTSym R) (n : Nat) (r : Region) (o : Int)
    (hbuf : M.fElements = Ptr.loc r o) (hcols : M.fNcols = n) (L : Nat → Nat → R)
    (i : Nat) (hi : i < n) (s : Store R)
    (hL : ∀ a b : Nat, b ≤ a → a ≤ i → s.cells r (o + ((a : Int) * n + b)) = L a b) :
    ∃ s', RandomizePD.rowStep M i s = some s' ∧
      ∀ a b : Nat, b < n → s'.cells r (o + ((a : Int) * n + b))
        = if max a b = i then ∑ t in Finset.range (min a b + 1), L i t * L (min a b) t
          else s.cells r (o + ((a : Int) * n + b)) := by
  have hcount : ((i : Int) + 1).toNat = i + 1 := by omega
  obtain ⟨s', hs', hP⟩ := forDown_rule (RandomizePD.colStep M i ((i : Int) * M.fNcols))
    (fun k (u : Store R) => ∀ a b : Nat, b < n → u.cells r (o + ((a : Int) * n + b))
        = if max a b = i ∧ k ≤ min a b then
            ∑ t in Finset.range (min a b + 1), L i t * L (min a b) t
          else s.cells r (o + ((a : Int) * n + b)))
    (i + 1) s
    (by
      intro a b _
      have c : ¬ (max a b = i ∧ i + 1 ≤ min a b) := by omega
      rw [if_neg c])
    (by
      intro j u hj hmem
      have g1 : ∀ t : Nat, t ≤ j → u.cells r (o + ((i : Int) * n + t)) = L i t := by
        intro t ht
        have c : ¬ (max i t = i ∧ j + 1 ≤ min i t) := by omega
        rw [hmem i t (by omega), if_neg c]
        exact hL i t (by omega) le_rfl
      have g2 : ∀ t : Nat, t ≤ j → u.cells r (o + ((j : Int) * n + t)) = L j t := by
        intro t ht
        have c : ¬ (max j t = i ∧ j + 1 ≤ min j t) := by omega
        rw [hmem j t (by omega), if_neg c]
        exact hL j t ht (by omega)
      obtain ⟨u', hu', hcol⟩ := RandomizePD_col M n r o hbuf hcols L i j hi (by omega) u g1 g2
      refine ⟨u', hu', ?_⟩
      intro a b hb
      rw [hcol a b hb, hmem a b hb]
      by_cases c : max a b = i ∧ min a b = j
      · have c2 : max a b = i ∧ j ≤ min a b := by omega
        rw [if_pos c, if_pos c2, c.2]
      · rw [if_neg c]
        by_cases c1 : max a b = i ∧ j + 1 ≤ min a b
        · have c2 : max a b = i ∧ j ≤ min a b := by omega
          rw [if_pos c1, if_pos c2]
        · have c2 : ¬ (max a b = i ∧ j ≤ min a b) := by omega
          rw [if_neg c1, if_neg c2])
  refine ⟨s', ?_, ?_⟩
  · simp only [RandomizePD.rowStep, hcount]
    exact hs'
  · intro a b hb
    rw [hP a b hb]
    by_cases c : max a b = i
    · have c2 : max a b = i ∧ 0 ≤ min a b := ⟨c, Nat.zero_le _⟩
      rw [if_pos c, if_pos c2]
    · have c2 : ¬ (max a b = i ∧ 0 ≤ min a b) := fun hh => c hh.1
      rw [if_neg c, if_neg c2]

/-- The second pair of loops of `RandomizePD` on an array whose lower left part
holds the values `L`: every element `[a,b]` becomes the sum of
`L[max a b,t]*L[min a b,t]` over `t <= min a b`. -/
theorem RandomizePD_square (M : TMatrixTSym R) (n : Nat) (r : Region) (o : Int)
    (hbuf : M.fElements = Ptr.loc r o) (hcols : M.fNcols = n) (L : Nat → Nat → R)
    (s0 : Store R)
    (hL : ∀ a b : Nat, b ≤ a → a < n → s0.cells r (o + ((a : Int) * n + b)) = L a b) :
    ∃ m, forDown (RandomizePD.rowStep M) n s0 = some m ∧
      ∀ a b : Nat, a < n → b < n → m.cells r (o + ((a : Int) * n + b))
        = ∑ t in Finset.range (min a b + 1), L (max a b) t * L (min a b) t := by
  obtain ⟨m, hm, hP⟩ := forDown_rule (RandomizePD.rowStep M)
    (fun k (u : Store R) => ∀ a b : Nat, a < n → b < n → u.cells r (o + ((a : Int) * n + b))
        = if k ≤ max a b then ∑ t in Finset.range (min a b + 1), L (max a b) t * L (min a b) t
          else s0.cells r (o + ((a : Int) * n + b)))
    n s0
    (by
      intro a b ha hb
      have c : ¬ (n ≤ max a b) := by omega
      rw [if_neg c])
    (by
      intro i u hi hmem
      obtain ⟨u', hu', hrow⟩ := RandomizePD_row M n r o hbuf hcols L i hi u (by
        intro a b hba hai
        have c : ¬ (i + 1 ≤ max a b) := by omega
        rw [hmem a b (by omega) (by omega), if_neg c]
        exact hL a b hba (by omega))
      refine ⟨u', hu', ?_⟩
      intro a b ha hb
      rw [hrow a b hb, hmem a b ha hb]
      by_cases c : max a b = i
      · have c2 : i ≤ max a b := by omega
        rw [if_pos c, if_pos c2, c]
      · rw [if_neg c]
        by_cases c1 : i + 1 ≤ max a b
        · have c2 : i ≤ max a b := by omega
          rw [if_pos c1, if_pos c2]
        · have c2 : ¬ (i ≤ max a b) := by omega
          rw [if_neg c1, if_neg c2])
  refine ⟨m, hm, ?_⟩
  intro a b ha hb
  rw [hP a b ha hb, if_pos (Nat.zero_le _)]

/-- `RandomizePD` on a valid `n` by `n` matrix with equal lower bounds returns
the matrix with the elements of the product of the drawn lower triangular
matrix with its transpose. -/
theorem RandomizePD_run (M : TMatrixTSym R) (alpha beta : R) (drand : Nat → R) (n : Nat)
    (h : M.IsSquare n) (hl : M.fRowLwb = M.fColLwb) :
    ∃ res, RandomizePD M alpha beta drand = some res ∧ res.IsSquare n ∧
      res.fRowLwb = M.fRowLwb ∧ res.fColLwb = M.fColLwb ∧
      ∀ i j : Nat, i < n → j < n →
        res.elem i j = ∑ t in Finset.range (min i j + 1),
          ((beta - alpha) * (drand (lowerBefore i + t) + alpha / (beta - alpha)))
            * ((beta - alpha) * (drand (lowerBefore j + t) + alpha / (beta - alpha))) := by
  have hv : M.IsValid = true := h.valid
  have hvf : ¬ (M.IsValid = false) := by simp [hv]
  have hsq : ¬ (M.fNrows ≠ M.fNcols ∨ M.fRowLwb ≠ M.fColLwb) := by
    intro hh
    rcases hh with hh | hh
    · exact hh (h.rows.trans h.cols.symm)
    · exact hh hl
  rcases Nat.eq_zero_or_pos n with hn | hn
  · subst hn
    refine ⟨{ M with mem := M.mem }, ?_, ⟨h.valid, h.rows, h.cols, h.nelems, h.buf⟩, rfl, rfl,
      fun i j hi => absurd hi (Nat.not_lt_zero i)⟩
    unfold RandomizePD
    rw [if_neg hvf, if_neg hsq]
    simp only [h.rows, Nat.cast_zero, Int.toNat_zero, forUp, forDown, Option.some_bind,
      Option.map_some']
  · obtain ⟨r, o, hat⟩ := h.squareAt hn
    obtain ⟨s0, hs0, hfill⟩ := RandomizePD_fill M drand (beta - alpha) (alpha / (beta - alpha))
      n r o hat.buf hat.cols
    obtain ⟨m, hm, hcells⟩ := RandomizePD_square M n r o hat.buf hat.cols
      (fun a b => (beta - alpha) * (drand (lowerBefore a + b) + alpha / (beta - alpha)))
      s0.mem (by
        intro a b hba ha
        rw [hfill a b ha (by omega), if_pos hba])
    have hres : ({ M with mem := m } : TMatrixTSym R).SquareAt n r o :=
      ⟨hat.valid, hat.rows, hat.cols, hat.nelems, hat.buf⟩
    refine ⟨{ M with mem := m }, ?_, ⟨h.valid, h.rows, h.cols, h.nelems, h.buf⟩, rfl, rfl, ?_⟩
    · unfold RandomizePD
      rw [if_neg hvf, if_neg hsq]
      simp only [h.rows, Int.toNat_ofNat, hs0, Option.some_bind, hm, Option.map_some']
    · intro i j hi hj
      rw [elem_eq_cells hres, hcells i j hi hj]
      rcases Nat.le_total i j with hij | hij
      · rw [Nat.min_eq_left hij, Nat.max_eq_right hij]
        apply Finset.sum_congr rfl
        intro t _
        exact mul_comm _ _
      · rw [Nat.min_eq_right hij, Nat.max_eq_left hij]

end TMatrixTSym

namespace TMatrixTSym

variable {R : Type} [Field R]

/-- C37.  For a valid `n` by `n` matrix, `RandomizePD(alpha,beta,seed)`
returns a valid `n` by `n` matrix; with `L[i,k]` the value
`scale*(Drand(seed)+shift)` that the fill loops store at `[i,k]`, `k <= i`,
from the call of `Drand` number `lowerBefore i + k` (row order of the lower
left part), the element `[i,j]` of the result is the sum of `L[i,k]*L[j,k]`
over `k <= min(i,j)`; and `L[i,k]` is `alpha + (beta-alpha)*r` for the drawn
number `r` when `alpha` and `beta` differ. -/
theorem RandomizePD_is_product_with_transpose (M : TMatrixTSym R) (alpha beta : R)
    (drand : Nat → R) (n : Nat) (h : M.IsSquare n) (hl : M.fRowLwb = M.fColLwb) :
    ∃ res, RandomizePD M alpha beta drand = some res ∧ res.IsSquare n ∧
      (∀ i j : Nat, i < n → j < n →
        res.elem i j = ∑ k in Finset.range (min i j + 1),
          ((beta - alpha) * (drand (lowerBefore i + k) + alpha / (beta - alpha)))
            * ((beta - alpha) * (drand (lowerBefore j + k) + alpha / (beta - alpha)))) ∧
      (alpha ≠ beta → ∀ i j : Nat, i < n → j < n →
        res.elem i j = ∑ k in Finset.range (min i j + 1),
          (alpha + (beta - alpha) * drand (lowerBefore i + k))
            * (alpha + (beta - alpha) * drand (lowerBefore j + k))) := by
  obtain ⟨res, hres, hsq, _, _, hel⟩ := RandomizePD_run M alpha beta drand n h hl
  refine ⟨res, hres, hsq, hel, ?_⟩
  intro hab i j hi hj
  have hne : beta - alpha ≠ 0 := fun hh => hab (sub_eq_zero.1 hh).symm
  have hval : ∀ d : R, (beta - alpha) * (d + alpha / (beta - alpha))
      = alpha + (beta - alpha) * d := by
    intro d
    field_simp
    ring
  rw [hel i j hi hj]
  apply Finset.sum_congr rfl
  intro k _
  rw [hval, hval]

end TMatrixTSym

/-- C37 at a matrix of rationals with 2 rows, `alpha = 1`, `beta = 3` and a
generator that gives `1/2` at every call. -/
theorem RandomizePD_is_product_with_transpose_witness :
    ∃ res, TMatrixTSym.RandomizePD (constQ 2 0) 1 3 (fun _ => 1 / 2) = some res ∧
      res.IsSquare 2 ∧
      (∀ i j : Nat, i < 2 → j < 2 →
        res.elem i j = ∑ k in Finset.range (min i j + 1),
          (((3 : ℚ) - 1) * ((fun _ : Nat => (1 : ℚ) / 2) (lowerBefore i + k) + 1 / (3 - 1)))
            * (((3 : ℚ) - 1) * ((fun _ : Nat => (1 : ℚ) / 2) (lowerBefore j + k) + 1 / (3 - 1)))) ∧
      ((1 : ℚ) ≠ 3 → ∀ i j : Nat, i < 2 → j < 2 →
        res.elem i j = ∑ k in Finset.range (min i j + 1),
          ((1 : ℚ) + (3 - 1) * (fun _ : Nat => (1 : ℚ) / 2) (lowerBefore i + k))
            * ((1 : ℚ) + (3 - 1) * (fun _ : Nat => (1 : ℚ) / 2) (lowerBefore j + k))) :=
  TMatrixTSym.RandomizePD_is_product_with_transpose (constQ 2 0) 1 3 (fun _ => 1 / 2) 2
    ⟨rfl, rfl, rfl, rfl, fun _ => by decide⟩ rfl

/-- C31, the failing input.  With `alpha = -1 < beta = 1` and a generator that
gives `1/2`, a number of `[0,1)`, at every call, `RandomizePD` on a valid 2 by
2 matrix returns a valid matrix all of whose elements are 0: every drawn value
`scale*(1/2+shift)` is 0.  So `x^T*M*x = 0` for every vector `x`, and the
result is not positive definite. -/
theorem RandomizePD_gives_the_zero_matrix :
    (-1 : ℚ) < 1 ∧ (0 : ℚ) ≤ 1 / 2 ∧ (1 / 2 : ℚ) < 1 ∧
    ∃ res, TMatrixTSym.RandomizePD (constQ 2 7) (-1) 1 (fun _ => 1 / 2) = some res ∧
      res.IsSquare 2 ∧ (∀ i j : Nat, i < 2 → j < 2 → res.elem i j = 0) ∧
      ∀ x : Nat → ℚ,
        ∑ i in Finset.range 2, ∑ j in Finset.range 2, x i * res.elem i j * x j = 0 := by
  refine ⟨by norm_num, by norm_num, by norm_num, ?_⟩
  obtain ⟨res, hres, hsq, _, _, hel⟩ := TMatrixTSym.RandomizePD_run (constQ 2 7) (-1) 1
    (fun _ => 1 / 2) 2 ⟨rfl, rfl, rfl, rfl, fun _ => by decide⟩ rfl
  have hzero : ∀ i j : Nat, i < 2 → j < 2 → res.elem i j = 0 := by
    intro i j hi hj
    rw [hel i j hi hj]
    apply Finset.sum_eq_zero
    intro k _
    norm_num
  refine ⟨res, hres, hsq, hzero, ?_⟩
  intro x
  apply Finset.sum_eq_zero
  intro i hi
  apply Finset.sum_eq_zero
  intro j hj
  rw [hzero i j (Finset.mem_range.1 hi) (Finset.mem_range.1 hj)]
  ring

/-- C34 at the target with every element 6: divided by the source with every
element 3, and by the source with every element 0. -/
theorem ElementDiv_divides_or_asserts_witness :
    (∃ res, TMatrixTSym.ElementDiv (constQ 2 6) (constQ 2 3) = some res ∧ res.IsSquare 2 ∧
      res.fRowLwb = (constQ 2 6).fRowLwb ∧ res.fColLwb = (constQ 2 6).fColLwb ∧
      ∀ i j : Nat, i < 2 → j < 2 →
        res.elem i j = (constQ 2 6).elem i j / (constQ 2 3).elem i j) ∧
    TMatrixTSym.ElementDiv (constQ 2 6) (constQ 2 0) = none :=
  ⟨(TMatrixTSym.ElementDiv_divides_or_asserts (constQ 2 6) (constQ 2 3) 2
      ⟨rfl, rfl, rfl, rfl, fun _ => by decide⟩ ⟨rfl, rfl, rfl, rfl, fun _ => by decide⟩
      (by decide) (fun _ _ _ _ => rfl)).1
      (fun i j _ _ => by
        show ((3 : ℚ) ≠ 0)
        norm_num),
   (TMatrixTSym.ElementDiv_divides_or_asserts (constQ 2 6) (constQ 2 0) 2
      ⟨rfl, rfl, rfl, rfl, fun _ => by decide⟩ ⟨rfl, rfl, rfl, rfl, fun _ => by decide⟩
      (by decide) (fun _ _ _ _ => rfl)).2 ⟨0, 0, by decide, by decide, rfl⟩⟩

/-! ## The quadratic form of the result of `RandomizePD` -/

section GramForm

variable {R : Type} [LinearOrderedField R]

/-- A matrix with the elements `E[i,j] = sum of L[i,t]*L[j,t] over
t <= min(i,j)` has the quadratic form `sum over t of (sum over i >= t of
x[i]*L[i,t])^2`. -/
theorem gram_form (n : Nat) (L E : Nat → Nat → R)
    (hE : ∀ i j : Nat, i < n → j < n →
      E i j = ∑ t in Finset.range (min i j + 1), L i t * L j t) (x : Nat → R) :
    ∑ i in Finset.range n, ∑ j in Finset.range n, x i * E i j * x j
      = ∑ t in Finset.range n,
          (∑ i in Finset.range n, x i * (if t ≤ i then L i t else 0)) ^ 2 := by
  have hE2 : ∀ i j : Nat, i < n → j < n →
      E i j = ∑ t in Finset.range n,
        (if t ≤ i then L i t else 0) * (if t ≤ j then L j t else 0) := by
    intro i j hi hj
    have hfilter : (Finset.range n).filter (fun t => t ≤ min i j)
        = Finset.range (min i j + 1) := by
      ext t
      simp only [Finset.mem_filter, Finset.mem_range]
      omega
    rw [hE i j hi hj, ← hfilter, Finset.sum_filter]
    apply Finset.sum_congr rfl
    intro t _
    by_cases c1 : t ≤ i
    · by_cases c2 : t ≤ j
      · have c : t ≤ min i j := by omega
        rw [if_pos c, if_pos c1, if_pos c2]
      · have c : ¬ t ≤ min i j := by omega
        rw [if_neg c, if_neg c2, mul_zero]
    · have c : ¬ t ≤ min i j := by omega
      rw [if_neg c, if_neg c1, zero_mul]
  have step1 : ∀ i ∈ Finset.range n, ∀ j ∈ Finset.range n,
      x i * E i j * x j = ∑ t in Finset.range n,
        (x i * (if t ≤ i then L i t else 0)) * (x j * (if t ≤ j then L j t else 0)) := by
    intro i hi j hj
    rw [hE2 i j (Finset.mem_range.1 hi) (Finset.mem_range.1 hj), Finset.mul_sum,
      Finset.sum_mul]
    apply Finset.sum_congr rfl
    intro t _
    ring
  have step2 : ∀ t : Nat,
      (∑ i in Finset.range n, x i * (if t ≤ i then L i t else 0)) ^ 2
        = ∑ i in Finset.range n, ∑ j in Finset.range n,
            (x i * (if t ≤ i then L i t else 0)) * (x j * (if t ≤ j then L j t else 0)) := by
    intro t
    rw [sq, Finset.sum_mul]
    apply Finset.sum_congr rfl
    intro i _
    rw [Finset.mul_sum]
  rw [Finset.sum_congr rfl (fun i hi => Finset.sum_congr rfl (fun j hj => step1 i hi j hj)),
    Finset.sum_congr rfl (fun t _ => step2 t)]
  exact (Finset.sum_congr rfl (fun i _ => Finset.sum_comm)).trans Finset.sum_comm

/-- The quadratic form of such a matrix is not negative, and it is positive at
every vector with a non-zero component below `n` when no diagonal element of
`L` is zero. -/
theorem gram_form_sign (n : Nat) (L E : Nat → Nat → R)
    (hE : ∀ i j : Nat, i < n → j < n →
      E i j = ∑ t in Finset.range (min i j + 1), L i t * L j t) (x : Nat → R) :
    0 ≤ ∑ i in Finset.range n, ∑ j in Finset.range n, x i * E i j * x j ∧
    ((∀ i : Nat, i < n → L i i ≠ 0) → (∃ i : Nat, i < n ∧ x i ≠ 0) →
      0 < ∑ i in Finset.range n, ∑ j in Finset.range n, x i * E i j * x j) := by
  rw [gram_form n L E hE x]
  have hnn : 0 ≤ ∑ t in Finset.range n,
      (∑ i in Finset.range n, x i * (if t ≤ i then L i t else 0)) ^ 2 :=
    Finset.sum_nonneg (fun t _ => sq_nonneg _)
  refine ⟨hnn, ?_⟩
  intro hdiag hx
  rcases lt_or_eq_of_le hnn with hlt | heq
  · exact hlt
  · exfalso
    have hall : ∀ t ∈ Finset.range n,
        (∑ i in Finset.range n, x i * (if t ≤ i then L i t else 0)) ^ 2 = 0 :=
      (Finset.sum_eq_zero_iff_of_nonneg (fun t _ => sq_nonneg _)).1 heq.symm
    have hzero : ∀ m : Nat, ∀ i : Nat, i < n → n ≤ i + m → x i = 0 := by
      intro m
      induction m with
      | zero => intro i hi hle; omega
      | succ m ih =>
        intro i hi hle
        by_cases hlater : n ≤ i + m
        · exact ih i hi hlater
        · have hy := pow_eq_zero_iff (two_ne_zero) |>.1 (hall i (Finset.mem_range.2 hi))
          rw [Finset.sum_eq_single i] at hy
          · rw [if_pos le_rfl] at hy
            rcases mul_eq_zero.1 hy with h0 | h0
            · exact h0
            · exact absurd h0 (hdiag i hi)
          · intro k hk hki
            by_cases c : i ≤ k
            · have hk0 : x k = 0 := ih k (Finset.mem_range.1 hk) (by omega)
              rw [hk0, zero_mul]
            · rw [if_neg c, mul_zero]
          · intro hni
            exact absurd (Finset.mem_range.2 hi) hni
    obtain ⟨i, hi, hxi⟩ := hx
    exact hxi (hzero n i hi (by omega))

end GramForm

namespace TMatrixTSym

variable {R : Type} [LinearOrderedField R]

/-- `RandomizePD` on a valid `n` by `n` matrix returns a symmetric matrix whose
quadratic form is not negative.  The form is positive at every non-zero vector
when no drawn diagonal value `scale*(Drand(seed)+shift)` is zero, which is so
when `0 < alpha < beta` and the generator gives no negative number. -/
theorem RandomizePD_positive_semidefinite (M : TMatrixTSym R) (alpha beta : R)
    (drand : Nat → R) (n : Nat) (h : M.IsSquare n) (hl : M.fRowLwb = M.fColLwb) :
    ∃ res, RandomizePD M alpha beta drand = some res ∧
      (∀ i j : Nat, i < n → j < n → res.elem i j = res.elem j i) ∧
      (∀ x : Nat → R,
        0 ≤ ∑ i in Finset.range n, ∑ j in Finset.range n, x i * res.elem i j * x j) ∧
      ((∀ i : Nat, i < n →
          (beta - alpha) * (drand (lowerBefore i + i) + alpha / (beta - alpha)) ≠ 0) →
        ∀ x : Nat → R, (∃ i : Nat, i < n ∧ x i ≠ 0) →
          0 < ∑ i in Finset.range n, ∑ j in Finset.range n, x i * res.elem i j * x j) ∧
      (0 < alpha → alpha < beta → (∀ k : Nat, 0 ≤ drand k) →
        ∀ x : Nat → R, (∃ i : Nat, i < n ∧ x i ≠ 0) →
          0 < ∑ i in Finset.range n, ∑ j in Finset.range n, x i * res.elem i j * x j) := by
  obtain ⟨res, hres, _, _, _, hel⟩ := RandomizePD_run M alpha beta drand n h hl
  have hsign := gram_form_sign n
    (fun i t => (beta - alpha) * (drand (lowerBefore i + t) + alpha / (beta - alpha)))
    (fun i j => res.elem i j) hel
  refine ⟨res, hres, ?_, fun x => (hsign x).1, fun hd x hx => (hsign x).2 hd hx, ?_⟩
  · intro i j hi hj
    rw [hel i j hi hj, hel j i hj hi, Nat.min_comm]
    apply Finset.sum_congr rfl
    intro t _
    exact mul_comm _ _
  · intro ha hab hdr x hx
    refine (hsign x).2 ?_ hx
    intro i _
    have hpos : 0 < beta - alpha := sub_pos.2 hab
    have hval : (beta - alpha) * (drand (lowerBefore i + i) + alpha / (beta - alpha))
        = alpha + (beta - alpha) * drand (lowerBefore i + i) := by
      field_simp
      ring
    show (beta - alpha) * (drand (lowerBefore i + i) + alpha / (beta - alpha)) ≠ 0
    rw [hval]
    have : 0 ≤ (beta - alpha) * drand (lowerBefore i + i) := mul_nonneg hpos.le (hdr _)
    linarith

end TMatrixTSym

/-- The quadratic form at a matrix of rationals with 2 rows, `alpha = 1`,
`beta = 3` and a generator that gives `1/2` at every call. -/
theorem RandomizePD_positive_semidefinite_witness :
    ∃ res, TMatrixTSym.RandomizePD (constQ 2 0) 1 3 (fun _ => 1 / 2) = some res ∧
      (∀ i j : Nat, i < 2 → j < 2 → res.elem i j = res.elem j i) ∧
      (∀ x : Nat → ℚ,
        0 ≤ ∑ i in Finset.range 2, ∑ j in Finset.range 2, x i * res.elem i j * x j) ∧
      ((∀ i : Nat, i < 2 →
          ((3 : ℚ) - 1) * ((fun _ : Nat => (1 : ℚ) / 2) (lowerBefore i + i) + 1 / (3 - 1)) ≠ 0) →
        ∀ x : Nat → ℚ, (∃ i : Nat, i < 2 ∧ x i ≠ 0) →
          0 < ∑ i in Finset.range 2, ∑ j in Finset.range 2, x i * res.elem i j * x j) ∧
      ((0 : ℚ) < 1 → (1 : ℚ) < 3 → (∀ k : Nat, (0 : ℚ) ≤ (fun _ : Nat => (1 : ℚ) / 2) k) →
        ∀ x : Nat → ℚ, (∃ i : Nat, i < 2 ∧ x i ≠ 0) →
          0 < ∑ i in Finset.range 2, ∑ j in Finset.range 2, x i * res.elem i j * x j) :=
  TMatrixTSym.RandomizePD_positive_semidefinite (constQ 2 0) 1 3 (fun _ => 1 / 2) 2
    ⟨rfl, rfl, rfl, rfl, fun _ => by decide⟩ rfl
